import Mathlib

/-!
# Empire: the objective search and path reconstruction of `map.c`

A shallow embedding of the search engine of `src/map.c` (perimeter-list
breadth-first searches, path marking, direction choice) and the properties
proved about it.

Conventions of the embedding:

* locations (`loc_t`, a C `long`) and costs (C `int`) are `Int`; the costs that
  occur are bounded by `INFINITY` plus the number of rounds, so no wrap-around
  is modelled; C division truncates, which is `Int.tdiv`;
* an array indexed by location (`view_map_t[]`, `path_map_t[]`, `map[]`) is a
  total function on `Int`;
* a C string is the `List Char` of its characters before the terminating NUL;
  view-map cells hold glyphs, never NUL;
* the file-level statics of `map.c` (`p1 .. p4`, `best_cost`, `best_loc`)
  together with the caller's path map form the record `map_state`, passed
  explicitly; a perimeter pointer is a `perim_id`, `NULL` is `none`;
* `ABORT` and a write through a `NULL` perimeter end the program: the
  functions that can reach them return `Option`, `none` being the abort;
* the `for (;;)` loops of the searches take a round budget (`fuel`) and return
  `none` when it runs out; the theorems show which budget is enough;
* `empire.h` and `data.c` are not part of the sources at hand: the constants
  they define are fields of `World` or are modelled as stated at each
  definition.
-/

namespace Empire

/-! ## Data model -/

/-- One entry of the city table (`city_info_t`): the fields read by `map.c`. -/
structure city_info_t where
  owner : Int
  prod : Int
  work : Int
deriving DecidableEq, Repr

/-- One cell of the true map (`real_map_t`). -/
structure real_map_t where
  contents : Char
  on_board : Bool
  cityp : Option city_info_t
deriving DecidableEq, Repr

/-- One cell of a path map (`path_map_t`). -/
structure path_map_t where
  cost : Int
  inc_cost : Int
  terrain : Nat
deriving DecidableEq, Repr

/-- The objectives of a search and their weights (`move_info_t`).  A weight
read past the end of `weights` is `0` (static initialisers are zero-filled). -/
structure move_info_t where
  city_owner : Int
  objectives : List Char
  weights : List Int
deriving DecidableEq, Repr

/-- The world a search runs in: the global `map[]` and the constants of
`empire.h` that the sources at hand use without defining them. -/
structure World where
  MAP_WIDTH : Int
  MAP_HEIGHT : Int
  INFINITY : Int
  MAP_LAND : Char
  MAP_SEA : Char
  MAP_CITY : Char
  TRANSPORT : Int
  transport_build_time : Int
  map : Int → real_map_t

/-- MAP_SIZE is `MAP_WIDTH * MAP_HEIGHT`. -/
def World.MAP_SIZE (W : World) : Int := W.MAP_WIDTH * W.MAP_HEIGHT

/-- Modelled from the spec: the terrain classes of `empire.h` (not among the
sources) are a bit mask with the classes unknown, on-path, land and water. -/
def T_UNKNOWN : Nat := 0
/-- Modelled from the spec: the on-path marker of a path map cell. -/
def T_PATH : Nat := 1
/-- Modelled from the spec: the land bit of the terrain mask. -/
def T_LAND : Nat := 2
/-- Modelled from the spec: the water bit of the terrain mask. -/
def T_WATER : Nat := 4
/-- Modelled from the spec: air movement crosses land and water. -/
def T_AIR : Nat := T_LAND ||| T_WATER

/-- Modelled from the spec: the weight that stands for waiting until a
transport is built (`empire.h` is not among the sources); a negative code. -/
def W_TT_BUILD : Int := -1

/-- Modelled from the spec: the eight directions, numbered clockwise from
north as `data.c` lays out `dir_offset`. -/
def NORTH : Nat := 0
/-- Modelled from the spec: direction index. -/
def NORTHEAST : Nat := 1
/-- Modelled from the spec: direction index. -/
def EAST : Nat := 2
/-- Modelled from the spec: direction index. -/
def SOUTHEAST : Nat := 3
/-- Modelled from the spec: direction index. -/
def SOUTH : Nat := 4
/-- Modelled from the spec: direction index. -/
def SOUTHWEST : Nat := 5
/-- Modelled from the spec: direction index. -/
def WEST : Nat := 6
/-- Modelled from the spec: direction index. -/
def NORTHWEST : Nat := 7

/-- Modelled from the spec: the table `dir_offset` of `data.c` (not among the
sources): the index offset of each of the eight neighbours of a cell in the
row-major grid (row = index / MAP_WIDTH). -/
def dir_offset (W : World) (d : Nat) : Int :=
  match d with
  | 0 => -W.MAP_WIDTH
  | 1 => -W.MAP_WIDTH + 1
  | 2 => 1
  | 3 => W.MAP_WIDTH + 1
  | 4 => W.MAP_WIDTH
  | 5 => W.MAP_WIDTH - 1
  | 6 => -1
  | 7 => -W.MAP_WIDTH - 1
  | _ => 0

/-- The directions visited by the macros `FOR_ADJ` and `FOR_ADJ_ON`, in order. -/
def adj_dirs : List Nat := List.range 8

/-- The four static perimeter lists of `map.c`. -/
inductive perim_id where
  | p1 | p2 | p3 | p4
deriving DecidableEq, Repr

/-- The path map under construction and the statics of `map.c`. -/
structure map_state where
  pmap : Int → path_map_t
  perim : perim_id → List Int
  best_cost : Int
  best_loc : Int

/-- Assignment to one array element. -/
def upd {β : Type} (f : Int → β) (i : Int) (v : β) : Int → β :=
  fun j => if j = i then v else f j

/-- Assignment to one perimeter list. -/
def set_perim (f : perim_id → List Int) (p : perim_id) (l : List Int) : perim_id → List Int :=
  fun q => if q = p then l else f q

/-- The C library `strchr` on a glyph: the index of the first occurrence. -/
def strchr : List Char → Char → Option Nat
  | [], _ => none
  | x :: xs, c => if x = c then some 0 else (strchr xs c).map (· + 1)

/-- Modelled from the spec: `find_city` of `object.c` (not among the sources)
looks up the city standing at a location of the true map. -/
def find_city (W : World) (loc : Int) : Option city_info_t := (W.map loc).cityp

/-- A monadic left fold: a C loop whose body may abort. -/
def loopM {σ α : Type} (f : σ → α → Option σ) : List α → σ → Option σ
  | [], s => some s
  | a :: l, s =>
    match f s a with
    | none => none
    | some s1 => loopM f l s1

/-! ## The search primitives -/

/-- Source `terrain_type`: the type of terrain at a view map location. -/
def terrain_type (W : World) (pmap : Int → path_map_t) (vmap : Int → Char)
    (move_info : move_info_t) (from_loc to_loc : Int) : Option Nat :=
  if vmap to_loc = W.MAP_LAND then some T_LAND
  else if vmap to_loc = W.MAP_SEA then some T_WATER
  else if vmap to_loc = '%' then some T_UNKNOWN
  else if vmap to_loc = ' ' then some (pmap from_loc).terrain
  else if (W.map to_loc).contents = W.MAP_SEA then some T_WATER
  else if (W.map to_loc).contents = W.MAP_LAND then some T_LAND
  else if (W.map to_loc).contents = W.MAP_CITY then
    match (W.map to_loc).cityp with
    | none => none
    | some cityp => if cityp.owner = move_info.city_owner then some T_WATER else some T_UNKNOWN
  else none

/-- Source `objective_cost`: the cost to move to an objective. -/
def objective_cost (W : World) (vmap : Int → Char) (move_info : move_info_t)
    (loc : Int) (base_cost : Int) : Option Int :=
  match strchr move_info.objectives (vmap loc) with
  | none => some W.INFINITY
  | some i =>
    let w := move_info.weights.getD i 0
    if 0 ≤ w then some (w + base_cost)
    else if w = W_TT_BUILD then
      match find_city W loc with
      | none => some (base_cost + 2)
      | some cityp =>
        if cityp.prod ≠ W.TRANSPORT then some (base_cost + 2)
        else
          let w1 := (W.transport_build_time - cityp.work) * 2
          if w1 < base_cost + 2 then some (base_cost + 2) else some w1
    else none

/-- Source `add_cell`: add a cell to a perimeter list. -/
def add_cell (s : map_state) (new_loc : Int) (perim : Option perim_id)
    (terrain : Nat) (cur_cost inc_cost : Int) : Option map_state :=
  match perim with
  | none => none
  | some p =>
    some { s with
      pmap := upd s.pmap new_loc
        { terrain := terrain, inc_cost := inc_cost, cost := cur_cost + inc_cost }
      perim := set_perim s.perim p (s.perim p ++ [new_loc]) }

/-- Source `start_perimeter`: reset the path map from `pmap_init` (cost
INFINITY, terrain unknown, the untouched static `inc_cost` 0) and put the
first location in the perimeter. -/
def start_perimeter (W : World) (s : map_state) (perim : perim_id) (loc : Int)
    (terrain : Nat) : map_state :=
  { pmap := upd (fun _ => { cost := W.INFINITY, inc_cost := 0, terrain := T_UNKNOWN }) loc
      { cost := 0, inc_cost := 0, terrain := terrain }
    perim := set_perim s.perim perim [loc]
    best_cost := W.INFINITY
    best_loc := loc }

/-- The first part of the body of `expand_perimeter` for a cell outside the
perimeter: the `if / else if` chain that finalizes the cell `new_loc` of type
`new_type` (into the land list, into the water list, or as unknown). -/
def place_cell (W : World) (type : Nat) (cur_cost inc_wcost inc_lcost : Int)
    (waterp landp : Option perim_id) (s : map_state) (new_loc : Int) (new_type : Nat) :
    Option map_state :=
  if new_type = T_LAND ∧ type &&& T_LAND ≠ 0 then
    add_cell s new_loc landp new_type cur_cost inc_lcost
  else if new_type = T_WATER ∧ type &&& T_WATER ≠ 0 then
    add_cell s new_loc waterp new_type cur_cost inc_wcost
  else if new_type = T_UNKNOWN then
    some { s with
      pmap := upd s.pmap new_loc
        { terrain := new_type, cost := cur_cost + Int.tdiv W.INFINITY 2,
          inc_cost := Int.tdiv W.INFINITY 2 } }
  else some s

/-- The second part of the body of `expand_perimeter`, run when the cell was
finalized ("did we expand?"): compare its objective cost with the best. -/
def note_objective (W : World) (vmap : Int → Char) (move_info : move_info_t)
    (cur_cost : Int) (s1 : map_state) (new_loc : Int) (new_type : Nat) : Option map_state :=
  match objective_cost W vmap move_info new_loc cur_cost with
  | none => none
  | some obj_cost =>
    if obj_cost < s1.best_cost then
      if new_type = T_UNKNOWN then
        some { s1 with
          best_cost := obj_cost
          best_loc := new_loc
          pmap := upd s1.pmap new_loc
            { terrain := (s1.pmap new_loc).terrain, cost := cur_cost + 2, inc_cost := 2 } }
      else some { s1 with best_cost := obj_cost, best_loc := new_loc }
    else some s1

/-- The body of the loops of `expand_perimeter` for the perimeter cell `cur`
and the direction `j` (`FOR_ADJ_ON` skips the cells that are off the board). -/
def expand_step (W : World) (vmap : Int → Char) (move_info : move_info_t)
    (type : Nat) (cur_cost inc_wcost inc_lcost : Int)
    (waterp landp : Option perim_id) (cur : Int) (s : map_state) (j : Nat) :
    Option map_state :=
  if (W.map (cur + dir_offset W j)).on_board = true then
    if (s.pmap (cur + dir_offset W j)).cost = W.INFINITY then
      match terrain_type W s.pmap vmap move_info cur (cur + dir_offset W j) with
      | none => none
      | some new_type =>
        match place_cell W type cur_cost inc_wcost inc_lcost waterp landp s
            (cur + dir_offset W j) new_type with
        | none => none
        | some s1 =>
          if (s1.pmap (cur + dir_offset W j)).cost ≠ W.INFINITY then
            note_objective W vmap move_info cur_cost s1 (cur + dir_offset W j) new_type
          else some s1
    else some s
  else some s

/-- The inner loop of `expand_perimeter`: the on-board neighbours of one
perimeter cell. -/
def expand_cell (W : World) (vmap : Int → Char) (move_info : move_info_t)
    (type : Nat) (cur_cost inc_wcost inc_lcost : Int)
    (waterp landp : Option perim_id) (s : map_state) (cur : Int) : Option map_state :=
  loopM (expand_step W vmap move_info type cur_cost inc_wcost inc_lcost waterp landp cur)
    adj_dirs s

/-- Source `expand_perimeter`: expand the perimeter `curp` by one step.  The
cells of `curp` are read as they stand at the call: no caller passes `curp` as
an output list. -/
def expand_perimeter (W : World) (vmap : Int → Char) (move_info : move_info_t)
    (curp : perim_id) (type : Nat) (cur_cost inc_wcost inc_lcost : Int)
    (waterp landp : Option perim_id) (s : map_state) : Option map_state :=
  loopM (expand_cell W vmap move_info type cur_cost inc_wcost inc_lcost waterp landp)
    (s.perim curp) s

/-! ## The searches -/

/-- The loop shared, statement for statement, by `vmap_find_xobj` and
`vmap_find_dest`: expand `from_p` into `to_p`, add one to the cost, return the
best location when the new perimeter is empty or the best cost is reached,
else swap the two lists. -/
def single_loop (W : World) (vmap : Int → Char) (move_info : move_info_t) (expand : Nat) :
    Nat → perim_id → perim_id → Int → map_state → Option (Int × map_state)
  | 0, _, _, _, _ => none
  | fuel + 1, from_p, to_p, cur_cost, s =>
    match expand_perimeter W vmap move_info from_p expand cur_cost 1 1 (some to_p) (some to_p)
        { s with perim := set_perim s.perim to_p [] } with
    | none => none
    | some s1 =>
      if (s1.perim to_p).length = 0 ∨ s1.best_cost ≤ cur_cost + 1 then some (s1.best_loc, s1)
      else single_loop W vmap move_info expand fuel to_p from_p (cur_cost + 1) s1

/-- Source `vmap_find_xobj`: find an objective over a single type of terrain.
The result is the location returned and the final state (path map included). -/
def vmap_find_xobj (W : World) (vmap : Int → Char) (loc : Int) (move_info : move_info_t)
    (start expand : Nat) (fuel : Nat) (s : map_state) : Option (Int × map_state) :=
  single_loop W vmap move_info expand fuel perim_id.p1 perim_id.p2 0
    (start_perimeter W s perim_id.p1 loc start)

/-- Source `vmap_find_aobj`: an objective for a piece that crosses land and water. -/
def vmap_find_aobj (W : World) (vmap : Int → Char) (loc : Int) (move_info : move_info_t)
    (fuel : Nat) (s : map_state) : Option (Int × map_state) :=
  vmap_find_xobj W vmap loc move_info T_LAND T_AIR fuel s

/-- Source `vmap_find_wobj`: an objective for a piece that crosses only water. -/
def vmap_find_wobj (W : World) (vmap : Int → Char) (loc : Int) (move_info : move_info_t)
    (fuel : Nat) (s : map_state) : Option (Int × map_state) :=
  vmap_find_xobj W vmap loc move_info T_WATER T_WATER fuel s

/-- Source `vmap_find_lobj`: an objective for a piece that crosses only land. -/
def vmap_find_lobj (W : World) (vmap : Int → Char) (loc : Int) (move_info : move_info_t)
    (fuel : Nat) (s : map_state) : Option (Int × map_state) :=
  vmap_find_xobj W vmap loc move_info T_LAND T_LAND fuel s

/-- The loop of `vmap_find_lwobj`. -/
def lwobj_loop (W : World) (vmap : Int → Char) (move_info : move_info_t) :
    Nat → perim_id → perim_id → perim_id → perim_id → Int → map_state →
    Option (Int × map_state)
  | 0, _, _, _, _, _, _ => none
  | fuel + 1, cur_land, cur_water, new_land, new_water, cur_cost, s =>
    match expand_perimeter W vmap move_info cur_water T_WATER cur_cost 1 1
        (some new_water) none
        { s with perim := set_perim (set_perim s.perim new_water []) new_land [] } with
    | none => none
    | some s1 =>
      match expand_perimeter W vmap move_info cur_land T_AIR cur_cost 1 2
          (some new_water) (some new_land) s1 with
      | none => none
      | some s2 =>
        match expand_perimeter W vmap move_info new_water T_WATER (cur_cost + 1) 1 1
            (some cur_water) none
            { s2 with perim := set_perim s2.perim cur_water [] } with
        | none => none
        | some s3 =>
          if ((s3.perim cur_water).length = 0 ∧ (s3.perim new_land).length = 0)
              ∨ s3.best_cost ≤ cur_cost + 2 then
            some (s3.best_loc, s3)
          else
            lwobj_loop W vmap move_info fuel new_land cur_water cur_land new_water
              (cur_cost + 2) s3

/-- Source `vmap_find_lwobj`: find an objective moving from land to water. -/
def vmap_find_lwobj (W : World) (vmap : Int → Char) (loc : Int) (move_info : move_info_t)
    (beat_cost : Int) (fuel : Nat) (s : map_state) : Option (Int × map_state) :=
  let s1 := start_perimeter W s perim_id.p1 loc T_LAND
  lwobj_loop W vmap move_info fuel perim_id.p1 perim_id.p2 perim_id.p4 perim_id.p3 0
    { s1 with perim := set_perim s1.perim perim_id.p2 [], best_cost := beat_cost }

/-- The loop of `vmap_find_wlobj`. -/
def wlobj_loop (W : World) (vmap : Int → Char) (move_info : move_info_t) :
    Nat → perim_id → perim_id → perim_id → perim_id → Int → map_state →
    Option (Int × map_state)
  | 0, _, _, _, _, _, _ => none
  | fuel + 1, cur_land, cur_water, new_land, new_water, cur_cost, s =>
    match expand_perimeter W vmap move_info cur_water T_AIR cur_cost 1 2
        (some new_water) (some new_land)
        { s with perim := set_perim (set_perim s.perim new_water []) new_land [] } with
    | none => none
    | some s1 =>
      match expand_perimeter W vmap move_info cur_land T_LAND cur_cost 1 2
          none (some new_land) s1 with
      | none => none
      | some s2 =>
        match expand_perimeter W vmap move_info new_water T_WATER (cur_cost + 1) 1 1
            (some cur_water) none
            { s2 with perim := set_perim s2.perim cur_water [] } with
        | none => none
        | some s3 =>
          if ((s3.perim cur_water).length = 0 ∧ (s3.perim new_land).length = 0)
              ∨ s3.best_cost ≤ cur_cost + 2 then
            some (s3.best_loc, s3)
          else
            wlobj_loop W vmap move_info fuel new_land cur_water cur_land new_water
              (cur_cost + 2) s3

/-- Source `vmap_find_wlobj`: find an objective moving from water to land. -/
def vmap_find_wlobj (W : World) (vmap : Int → Char) (loc : Int) (move_info : move_info_t)
    (fuel : Nat) (s : map_state) : Option (Int × map_state) :=
  let s1 := start_perimeter W s perim_id.p2 loc T_WATER
  wlobj_loop W vmap move_info fuel perim_id.p1 perim_id.p2 perim_id.p4 perim_id.p3 0
    { s1 with perim := set_perim s1.perim perim_id.p1 [] }

/-- The move_info that `vmap_find_dest` builds on its stack: the single
objective is the magic glyph, with weight 1. -/
def dest_move_info (owner : Int) : move_info_t :=
  { city_owner := owner, objectives := ['%'], weights := [1] }

/-- Source `vmap_find_dest`: the shortest path from `cur_loc` to `dest_loc`
over valid terrain.  The result is the location returned, the final state and
the view map as the function leaves it. -/
def vmap_find_dest (W : World) (vmap : Int → Char) (cur_loc dest_loc : Int) (owner : Int)
    (terrain : Nat) (fuel : Nat) (s : map_state) :
    Option (Int × map_state × (Int → Char)) :=
  let old_contents := vmap dest_loc
  let vmap1 := upd vmap dest_loc '%'
  let start_terrain := if terrain = T_AIR then T_LAND else terrain
  match single_loop W vmap1 (dest_move_info owner) terrain fuel perim_id.p1 perim_id.p2 0
      (start_perimeter W s perim_id.p1 cur_loc start_terrain) with
  | none => none
  | some (best, s1) => some (best, s1, upd vmap1 dest_loc old_contents)

/-! ## Path marking and the choice of a direction -/

/-- Source `vmap_mark_path`: mark the cells on a shortest path, back from
`dest`.  `fuel` bounds the depth of the recursion. -/
def vmap_mark_path (W : World) : Nat → (Int → path_map_t) → Int → Option (Int → path_map_t)
  | 0, _, _ => none
  | fuel + 1, path_map, dest =>
    if (path_map dest).cost = 0 then some path_map
    else if (path_map dest).terrain = T_PATH then some path_map
    else
      loopM (fun pm n =>
          if (pm (dest + dir_offset W n)).cost = (pm dest).cost - (pm dest).inc_cost then
            vmap_mark_path W fuel pm (dest + dir_offset W n)
          else some pm)
        adj_dirs
        (upd path_map dest
          { cost := (path_map dest).cost, inc_cost := (path_map dest).inc_cost,
            terrain := T_PATH })

/-- Source `vmap_count_adjacent`: the weighted count of adjacent squares of
interest. -/
def vmap_count_adjacent (W : World) (vmap : Int → Char) (loc : Int) (adj_char : List Char) :
    Int :=
  adj_dirs.foldl (fun count i =>
      if (W.map (loc + dir_offset W i)).on_board = true then
        match strchr adj_char (vmap (loc + dir_offset W i)) with
        | none => count
        | some p => count + 8 * ((adj_char.length : Int) - (p : Int))
      else count) 0

/-- Source `vmap_count_path`: the number of adjacent cells that are on the path. -/
def vmap_count_path (W : World) (pmap : Int → path_map_t) (loc : Int) : Int :=
  adj_dirs.foldl (fun count i =>
      if (W.map (loc + dir_offset W i)).on_board = true then
        if (pmap (loc + dir_offset W i)).terrain = T_PATH then count + 1 else count
      else count) 0

/-- Source `order`: the order in which `vmap_find_dir` tries the directions. -/
def order : List Nat :=
  [NORTHWEST, NORTHEAST, SOUTHWEST, SOUTHEAST, WEST, EAST, NORTH, SOUTH]

/-- The locals `bestcount`, `bestpath`, `bestloc` of `vmap_find_dir`. -/
structure dir_best where
  bestcount : Int
  bestpath : Int
  bestloc : Int
deriving DecidableEq, Repr

/-- The body of the loop of `vmap_find_dir` for the direction `d`. -/
def find_dir_step (W : World) (path_map : Int → path_map_t) (vmap : Int → Char) (loc : Int)
    (terrain adj_char : List Char) (b : dir_best) (d : Nat) : dir_best :=
  let new_loc := loc + dir_offset W d
  if (path_map new_loc).terrain = T_PATH then
    match strchr terrain (vmap new_loc) with
    | none => b
    | some _ =>
      let count := vmap_count_adjacent W vmap new_loc adj_char
      let path_count := vmap_count_path W path_map new_loc
      if count > b.bestcount ∨ (count = b.bestcount ∧ path_count > b.bestpath) then
        { bestcount := count, bestpath := path_count, bestloc := new_loc }
      else b
  else b

/-- Source `vmap_find_dir`: choose the neighbour of `loc` to move to. -/
def vmap_find_dir (W : World) (path_map : Int → path_map_t) (vmap : Int → Char) (loc : Int)
    (terrain adj_char : List Char) : Int :=
  (order.foldl (find_dir_step W path_map vmap loc terrain adj_char)
    { bestcount := -W.INFINITY, bestpath := -1, bestloc := loc }).bestloc

/-! ## Notions used by the statements -/

/-- The glyph constants of `empire.h` are distinct from one another and from
the blank of unexplored cells and the magic objective glyph. -/
def glyphs_ok (W : World) : Prop :=
  W.MAP_LAND ≠ W.MAP_SEA ∧ W.MAP_LAND ≠ W.MAP_CITY ∧ W.MAP_SEA ≠ W.MAP_CITY ∧
  W.MAP_LAND ≠ '%' ∧ W.MAP_SEA ≠ '%' ∧ W.MAP_CITY ≠ '%' ∧
  W.MAP_LAND ≠ ' ' ∧ W.MAP_SEA ≠ ' ' ∧ W.MAP_CITY ≠ ' '

instance (W : World) : Decidable (glyphs_ok W) := by
  unfold glyphs_ok; infer_instance

/-- The cell `b` is one of the eight neighbours of the cell `a`. -/
def adj (W : World) (a b : Int) : Prop := ∃ d, d < 8 ∧ b = a + dir_offset W d

instance (W : World) (a b : Int) : Decidable (adj W a b) := by
  unfold adj; infer_instance

/-- A chain of `n` steps from `cur`, each to one of the eight neighbours and
each entering a cell that is on the board. -/
inductive chain (W : World) (cur : Int) : Nat → Int → Prop
  | zero : chain W cur 0 cur
  | step {n : Nat} {a b : Int} : chain W cur n a → adj W a b →
      (W.map b).on_board = true → chain W cur (n + 1) b

/-- The view map shows, at the cell `c`, terrain eligible for the terrain mask:
land for T_LAND, sea for T_WATER, land or sea for T_AIR. -/
def eligible_view (W : World) (vmap : Int → Char) (terrain : Nat) (c : Int) : Prop :=
  (terrain = T_LAND ∧ vmap c = W.MAP_LAND) ∨ (terrain = T_WATER ∧ vmap c = W.MAP_SEA) ∨
  (terrain = T_AIR ∧ (vmap c = W.MAP_LAND ∨ vmap c = W.MAP_SEA))

/-- A chain that does not enter `dest`. -/
inductive reach (W : World) (cur dest : Int) : Nat → Int → Prop
  | zero : reach W cur dest 0 cur
  | step {n : Nat} {a b : Int} : reach W cur dest n a → adj W a b →
      (W.map b).on_board = true → b ≠ dest → reach W cur dest (n + 1) b

/-- The terrain class of a cell that shows land or sea. -/
def view_class (W : World) (vmap : Int → Char) (c : Int) : Nat :=
  if vmap c = W.MAP_LAND then T_LAND else T_WATER

/-- The state of `vmap_find_dest` on a grid of eligible terrain before the
round that expands the perimeter `fp` of cost `k`, the destination not being
reached yet: the cells inside the perimeter are those at most `k` steps away,
each with its number of steps as cost. -/
structure bfs_inv (W : World) (vmap : Int → Char) (cur dest : Int) (start : Nat) (k : Nat)
    (fp : perim_id) (s : map_state) : Prop where
  origin : s.pmap cur = { cost := 0, inc_cost := 0, terrain := start }
  fin : ∀ c, (s.pmap c).cost ≠ W.INFINITY → ∃ j : Nat, j ≤ k ∧ (s.pmap c).cost = j ∧
    reach W cur dest j c ∧ (∀ m, reach W cur dest m c → j ≤ m) ∧
    (c ≠ cur → (s.pmap c).inc_cost = 1 ∧ (s.pmap c).terrain = view_class W vmap c)
  compl : ∀ c j, j ≤ k → reach W cur dest j c → (s.pmap c).cost ≠ W.INFINITY
  front : ∀ c, c ∈ s.perim fp ↔ (s.pmap c).cost = k
  best : s.best_cost = W.INFINITY ∧ s.best_loc = cur

/-- The state during the round that expands the perimeter `fp` of cost `k` of
the state `s0` into the list `tp`. -/
structure round_inv (W : World) (vmap : Int → Char) (cur dest : Int) (k : Nat)
    (fp tp : perim_id) (s0 s : map_state) : Prop where
  old : ∀ c, (s0.pmap c).cost ≠ W.INFINITY → s.pmap c = s0.pmap c
  new : ∀ c, (s0.pmap c).cost = W.INFINITY → c ≠ dest →
    (s.pmap c).cost = W.INFINITY ∨
      (s.pmap c = { cost := k + 1, inc_cost := 1, terrain := view_class W vmap c } ∧
        (W.map c).on_board = true ∧ ∃ a, a ∈ s0.perim fp ∧ adj W a c)
  out : ∀ c, c ∈ s.perim tp ↔
    ((s0.pmap c).cost = W.INFINITY ∧ c ≠ dest ∧ (s.pmap c).cost ≠ W.INFINITY)
  src : s.perim fp = s0.perim fp
  best : (s.best_cost = W.INFINITY ∧ s.best_loc = cur ∧ (s.pmap dest).cost = W.INFINITY) ∨
    (s.best_cost = k + 1 ∧ s.best_loc = dest ∧
      s.pmap dest = { cost := k + 2, inc_cost := 2, terrain := T_UNKNOWN } ∧
      (W.map dest).on_board = true ∧ ∃ a, a ∈ s0.perim fp ∧ adj W a dest)

/-- The state in which `vmap_find_dest` returns on a grid of eligible terrain
when the destination is `d` steps away. -/
structure bfs_final (W : World) (vmap : Int → Char) (cur dest : Int) (start : Nat) (d : Nat)
    (s : map_state) : Prop where
  origin : s.pmap cur = { cost := 0, inc_cost := 0, terrain := start }
  fin : ∀ c, c ≠ dest → (s.pmap c).cost ≠ W.INFINITY → ∃ j : Nat, j ≤ d ∧
    (s.pmap c).cost = j ∧ reach W cur dest j c ∧ (∀ m, reach W cur dest m c → j ≤ m) ∧
    (c ≠ cur → (s.pmap c).inc_cost = 1 ∧ (s.pmap c).terrain = view_class W vmap c)
  compl : ∀ c j, j ≤ d → reach W cur dest j c → (s.pmap c).cost ≠ W.INFINITY
  destcell : s.pmap dest = { cost := d + 1, inc_cost := 2, terrain := T_UNKNOWN }
  best : s.best_cost = d ∧ s.best_loc = dest

/-- A neighbour in direction `d` is a candidate of `vmap_find_dir`: it is on
the path and its glyph is in the terrain string. -/
def dir_candidate (W : World) (path_map : Int → path_map_t) (vmap : Int → Char) (loc : Int)
    (terrain : List Char) (d : Nat) : Prop :=
  (path_map (loc + dir_offset W d)).terrain = T_PATH ∧ vmap (loc + dir_offset W d) ∈ terrain

/-- The state of the loop of `vmap_find_dir` after the directions `pre`. -/
def find_dir_inv (W : World) (path_map : Int → path_map_t) (vmap : Int → Char) (loc : Int)
    (terrain : List Char) (pre : List Nat) (b : dir_best) : Prop :=
  (b.bestloc = loc ∧ b.bestcount = -W.INFINITY ∧ b.bestpath = -1 ∧
      ∀ d ∈ pre, ¬ dir_candidate W path_map vmap loc terrain d) ∨
  (∃ d ∈ pre, b.bestloc = loc + dir_offset W d ∧ dir_candidate W path_map vmap loc terrain d)

/-- The step of the backtracking: `z` is a neighbour of `y` whose cost is the
cost of `y` less the increment paid to enter `y`. -/
def back_step (W : World) (pm : Int → path_map_t) (y z : Int) : Prop :=
  (∃ n, n < 8 ∧ z = y + dir_offset W n) ∧ (pm z).cost = (pm y).cost - (pm y).inc_cost

/-- The cell `c` was marked between the path maps `pm` and `pm1`. -/
def newly_marked (pm pm1 : Int → path_map_t) (c : Int) : Prop :=
  (pm c).terrain ≠ T_PATH ∧ (pm1 c).terrain = T_PATH

/-- What `vmap_mark_path` may change: no cost, and a terrain only into the
path mark, at a cell of cost other than 0. -/
def mark_rel (pm pm1 : Int → path_map_t) : Prop :=
  ∀ c, (pm1 c).cost = (pm c).cost ∧ (pm1 c).inc_cost = (pm c).inc_cost ∧
    ((pm1 c).terrain = (pm c).terrain ∨ ((pm1 c).terrain = T_PATH ∧ (pm c).cost ≠ 0))

/-- Every cell other than `x` that a call of `vmap_mark_path` at `x` marks was
entered by a backtracking step from a cell marked by the same call. -/
def mark_justified (W : World) (pm pm1 : Int → path_map_t) (x : Int) : Prop :=
  ∀ S, newly_marked pm pm1 S → S = x ∨ ∃ P, newly_marked pm pm1 P ∧ back_step W pm P S

/-- The hypotheses on the grid under which `vmap_find_dest` is analysed: the
glyph constants are distinct, every cell on the board shows terrain eligible
for the terrain mask, and the destination is not the origin. -/
structure eligible_grid (W : World) (vmap : Int → Char) (cur dest : Int) (terrain : Nat) :
    Prop where
  glyphs : glyphs_ok W
  elig : ∀ c, (W.map c).on_board = true → eligible_view W vmap terrain c
  distinct : cur ≠ dest

/-- The number `d` is the hop count from `cur` to `dest`: the least number of
steps of a chain of 8-adjacent on-board cells from `cur` to `dest`. -/
def hop_count (W : World) (cur dest : Int) (d : Nat) : Prop :=
  chain W cur d dest ∧ ∀ n, chain W cur n dest → d ≤ n

/-- The cells that the backtracking of `vmap_mark_path` can arrive at from
`x`, by steps to a neighbour whose cost is the cost less the increment. -/
inductive back_path (W : World) (pm : Int → path_map_t) (x : Int) : Int → Prop
  | start : back_path W pm x x
  | step {y z : Int} : back_path W pm x y → back_step W pm y z → back_path W pm x z

/-- Along every backtracking step from a cell of cost between 1 and `B`, the
cost goes down and stays at least 0. -/
def descending (W : World) (pm : Int → path_map_t) (B : Int) : Prop :=
  ∀ y z, 0 < (pm y).cost → (pm y).cost ≤ B → back_step W pm y z →
    0 ≤ (pm z).cost ∧ (pm z).cost < (pm y).cost

/-- The cell `c` lies on a shortest chain from `cur` to `dest`, `d` being the
hop count: some chain of `d` steps from `cur` to `dest` passes through `c`. -/
def on_shortest (W : World) (cur dest : Int) (d : Nat) (c : Int) : Prop :=
  ∃ i, i ≤ d ∧ chain W cur i c ∧ chain W c (d - i) dest

/-- The terrain type of an explored cell: what `terrain_type` returns for a
cell that does not show the blank of unexplored territory, whatever the path
map and the cell it is reached from. -/
def static_type (W : World) (vmap : Int → Char) (move_info : move_info_t) (c : Int) :
    Option Nat :=
  terrain_type W (fun _ => { cost := 0, inc_cost := 0, terrain := T_UNKNOWN }) vmap
    move_info 0 c

/-- The cell `c` is of terrain eligible for the mask `terrain`: its type is
land and the mask has the land bit, or water and the mask has the water bit. -/
def passable (W : World) (vmap : Int → Char) (move_info : move_info_t) (terrain : Nat)
    (c : Int) : Prop :=
  (static_type W vmap move_info c = some T_LAND ∧ terrain &&& T_LAND ≠ 0) ∨
  (static_type W vmap move_info c = some T_WATER ∧ terrain &&& T_WATER ≠ 0)

/-- The cells that a chain of 8-adjacent on-board cells of eligible terrain
leads to from `cur` (the terrain of `cur` itself is not looked at). -/
inductive open_reach (W : World) (vmap : Int → Char) (move_info : move_info_t)
    (terrain : Nat) (cur : Int) : Int → Prop
  | start : open_reach W vmap move_info terrain cur cur
  | step {a b : Int} : open_reach W vmap move_info terrain cur a → adj W a b →
      (W.map b).on_board = true → passable W vmap move_info terrain b →
      open_reach W vmap move_info terrain cur b

/-- The true map holds sea, land or a city with its city record at every
cell of the board. -/
def map_ok (W : World) : Prop :=
  ∀ c, (W.map c).on_board = true →
    (W.map c).contents = W.MAP_SEA ∨ (W.map c).contents = W.MAP_LAND ∨
    ((W.map c).contents = W.MAP_CITY ∧ (W.map c).cityp ≠ none)

/-- The state of `vmap_find_dest` between rounds when the destination cannot
be reached: nothing is found, and the perimeter `fp` holds only cells that a
chain of eligible terrain leads to. -/
def blocked_inv (W : World) (vmap : Int → Char) (owner : Int) (terrain : Nat) (cur : Int)
    (fp : perim_id) (s : map_state) : Prop :=
  s.best_cost = W.INFINITY ∧ s.best_loc = cur ∧
  ∀ a, a ∈ s.perim fp → open_reach W vmap (dest_move_info owner) terrain cur a

/-- What every search keeps true of the best objective: the best cost is at
most INFINITY, and the best location is the origin `loc` or a cell inside
the perimeter whose view glyph is one of the objectives. -/
def best_inv (W : World) (vmap : Int → Char) (move_info : move_info_t) (loc : Int)
    (s : map_state) : Prop :=
  s.best_cost ≤ W.INFINITY ∧
  (s.best_loc = loc ∨
    (vmap s.best_loc ∈ move_info.objectives ∧ (s.pmap s.best_loc).cost ≠ W.INFINITY))

/-- The rounds of `vmap_find_xobj` without the test that ends the loop: the
state after `n` rounds of expansion from the state `s`, with the perimeter to
expand next and the spare list.  Round `n` (from 0) expands the perimeter of
cost `n`. -/
def free_rounds (W : World) (vmap : Int → Char) (move_info : move_info_t) (expand : Nat)
    (s : map_state) : Nat → Option (perim_id × perim_id × map_state)
  | 0 => some (perim_id.p1, perim_id.p2, s)
  | n + 1 =>
    match free_rounds W vmap move_info expand s n with
    | none => none
    | some (fp, tp, t) =>
      match expand_perimeter W vmap move_info fp expand n 1 1 (some tp) (some tp)
          { t with perim := set_perim t.perim tp [] } with
      | none => none
      | some t1 => some (tp, fp, t1)

/-- The un-truncated expansion from the state `s` finalizes the cell `c` from
the perimeter of cost `k`: the cost of `c` is INFINITY before round `k` and is
not after it. -/
def finalized_at (W : World) (vmap : Int → Char) (move_info : move_info_t) (expand : Nat)
    (s : map_state) (k : Nat) (c : Int) : Prop :=
  ∃ t t1, free_rounds W vmap move_info expand s k = some t ∧
    free_rounds W vmap move_info expand s (k + 1) = some t1 ∧
    (t.2.2.pmap c).cost = W.INFINITY ∧ (t1.2.2.pmap c).cost ≠ W.INFINITY

/-- What one expansion from the state `s` keeps true: the best cost does not
grow, the cells inside the perimeter are left alone, every cell finalized has
been compared with the best cost, and the best objective is the one of `s` or
a cell finalized by this expansion. -/
def round_track (W : World) (vmap : Int → Char) (move_info : move_info_t) (k : Int)
    (s t : map_state) : Prop :=
  t.best_cost ≤ s.best_cost ∧
  (∀ c, (s.pmap c).cost ≠ W.INFINITY → t.pmap c = s.pmap c) ∧
  (∀ c, (s.pmap c).cost = W.INFINITY → (t.pmap c).cost ≠ W.INFINITY →
    ∃ oc, objective_cost W vmap move_info c k = some oc ∧ t.best_cost ≤ oc) ∧
  ((t.best_cost = s.best_cost ∧ t.best_loc = s.best_loc) ∨
    (t.best_cost < s.best_cost ∧
      objective_cost W vmap move_info t.best_loc k = some t.best_cost ∧
      (s.pmap t.best_loc).cost = W.INFINITY ∧ (t.pmap t.best_loc).cost ≠ W.INFINITY))

/-- What the un-truncated expansion keeps true of the best objective, after
`n` rounds from the start at `loc`: nothing is found yet, or the best location
was finalized from the perimeter of some cost `kb`, where its objective cost
was the best cost. -/
def best_track (W : World) (vmap : Int → Char) (move_info : move_info_t) (expand : Nat)
    (s : map_state) (loc : Int) (n : Nat) (t : map_state) : Prop :=
  t.best_cost ≤ W.INFINITY ∧
  ((t.best_loc = loc ∧ t.best_cost = W.INFINITY) ∨
    ∃ kb : Nat, kb < n ∧ t.best_cost < W.INFINITY ∧
      objective_cost W vmap move_info t.best_loc kb = some t.best_cost ∧
      finalized_at W vmap move_info expand s kb t.best_loc)

/-! ## A small world for concrete runs

A map of 5 columns and 5 rows, all land, whose border is off the board as the
game lays it out; the cells on the board are

     6  7  8
    11 12 13
    16 17 18
-/

/-- The cells of the small map that are on the board: the interior. -/
def demo_on_board (loc : Int) : Bool :=
  decide (0 < loc % 5) && decide (loc % 5 < 4) && decide (0 < loc / 5) && decide (loc / 5 < 4)

/-- The small world: 5 by 5, all land, INFINITY 100. -/
def demo_world : World :=
  { MAP_WIDTH := 5, MAP_HEIGHT := 5, INFINITY := 100,
    MAP_LAND := '+', MAP_SEA := '.', MAP_CITY := '*',
    TRANSPORT := 5, transport_build_time := 30,
    map := fun loc => { contents := '+', on_board := demo_on_board loc, cityp := none } }

/-- Some state of the statics before a search. -/
def demo_state : map_state :=
  { pmap := fun _ => { cost := 0, inc_cost := 0, terrain := T_UNKNOWN },
    perim := fun _ => [], best_cost := 0, best_loc := 0 }

/-- A view map that shows land everywhere. -/
def demo_land : Int → Char := fun _ => '+'

/-- A view map that shows land, with sea at the cell 7. -/
def demo_coast : Int → Char := fun c => if c = 7 then '.' else '+'

/-- A view map that shows land, with the middle column (7, 12, 17) sea. -/
def demo_wall : Int → Char := fun c => if c = 7 ∨ c = 12 ∨ c = 17 then '.' else '+'

/-- A view map that shows land, with an enemy city glyph at the cell 18. -/
def demo_city : Int → Char := fun c => if c = 18 then 'X' else '+'

/-- A move_info whose only objective is the enemy city glyph, of weight 1. -/
def demo_move_info : move_info_t :=
  { city_owner := 0, objectives := ['X'], weights := [1] }

/-- What `vmap_find_dest` returns from 6 to 18 on the all-land view. -/
def demo_found : Int × map_state × (Int → Char) :=
  (vmap_find_dest demo_world demo_land 6 18 0 T_LAND 5 demo_state).getD
    (0, demo_state, demo_land)

/-- The path map of `demo_found` after `vmap_mark_path` from 18. -/
def demo_marked : Int → path_map_t :=
  (vmap_mark_path demo_world 5 demo_found.2.1.pmap 18).getD demo_found.2.1.pmap

/-- What `vmap_find_lobj` returns from 6 on the view with the city glyph. -/
def demo_objective : Int × map_state :=
  (vmap_find_lobj demo_world demo_city 6 demo_move_info 5 demo_state).getD (0, demo_state)

instance (W : World) (vmap : Int → Char) (mi : move_info_t) (terrain : Nat) (c : Int) :
    Decidable (passable W vmap mi terrain c) := by
  unfold passable; infer_instance

/-! ## The ranking of the candidates of `vmap_find_dir` -/

/-- The two numbers `vmap_find_dir` computes for the neighbour in direction
`d`: its interest score and its count of adjacent cells on the path. -/
def dir_score (W : World) (path_map : Int → path_map_t) (vmap : Int → Char) (loc : Int)
    (adj_char : List Char) (d : Nat) : Int × Int :=
  (vmap_count_adjacent W vmap (loc + dir_offset W d) adj_char,
    vmap_count_path W path_map (loc + dir_offset W d))

/-- The pair `a` ranks strictly below the pair `b`: a smaller interest score,
or the same score and a smaller path count. -/
def score_lt (a b : Int × Int) : Prop := a.1 < b.1 ∨ (a.1 = b.1 ∧ a.2 < b.2)

/-- The pair `a` ranks at most as high as the pair `b`. -/
def score_le (a b : Int × Int) : Prop := a.1 < b.1 ∨ (a.1 = b.1 ∧ a.2 ≤ b.2)

/-- The state of the loop of `vmap_find_dir` after the directions `pre`, with
the ranking: nothing is chosen yet and `pre` holds no candidate, or the choice
is a candidate `e` of `pre` that ranks strictly above every candidate tried
before it and at least as high as every candidate tried after it. -/
def find_dir_lex (W : World) (path_map : Int → path_map_t) (vmap : Int → Char) (loc : Int)
    (terrain adj_char : List Char) (pre : List Nat) (b : dir_best) : Prop :=
  (b = { bestcount := -W.INFINITY, bestpath := -1, bestloc := loc } ∧
      ∀ d ∈ pre, ¬ dir_candidate W path_map vmap loc terrain d) ∨
  ∃ l1 e l2, pre = l1 ++ e :: l2 ∧ dir_candidate W path_map vmap loc terrain e ∧
    b = { bestcount := (dir_score W path_map vmap loc adj_char e).1,
          bestpath := (dir_score W path_map vmap loc adj_char e).2,
          bestloc := loc + dir_offset W e } ∧
    (∀ d ∈ l1, dir_candidate W path_map vmap loc terrain d →
      score_lt (dir_score W path_map vmap loc adj_char d)
        (dir_score W path_map vmap loc adj_char e)) ∧
    (∀ d ∈ l2, dir_candidate W path_map vmap loc terrain d →
      score_le (dir_score W path_map vmap loc adj_char d)
        (dir_score W path_map vmap loc adj_char e))

/-- A path map of the small world with the cells 6, 8 and 13 on the path. -/
def demo_paths : Int → path_map_t := fun c =>
  { cost := 0, inc_cost := 0, terrain := if c = 6 ∨ c = 8 ∨ c = 13 then T_PATH else T_LAND }

/-- A move_info whose only objective is the enemy city glyph, with the weight
that waits for a transport to be built. -/
def demo_tt_info : move_info_t :=
  { city_owner := 0, objectives := ['X'], weights := [W_TT_BUILD] }

/-! ## Grid addressing (`extern.h`, `term.c`) -/

/-- Source `loc_row`: the row of a location (C division truncates). -/
def loc_row (W : World) (loc : Int) : Int := Int.tdiv loc W.MAP_WIDTH

/-- Source `loc_col`: the column of a location (the C remainder). -/
def loc_col (W : World) (loc : Int) : Int := Int.tmod loc W.MAP_WIDTH

/-- Source `row_col_loc`: the location of a row and a column. -/
def row_col_loc (W : World) (row col : Int) : Int := row * W.MAP_WIDTH + col

/-- Source `COL_DIGITS` of `term.c`: the number of digits of a column; for a
map wider than 1000 the source divides by zero and there is no value. -/
def COL_DIGITS (W : World) : Option Nat :=
  if W.MAP_WIDTH ≤ 100 then some 2 else if W.MAP_WIDTH ≤ 1000 then some 3 else none

/-- The condition of the `ASSERT` of `loc_disp`, on its locals `row` and `col`. -/
def loc_disp_assert (W : World) (loc : Int) : Bool :=
  decide (loc = Int.tdiv loc W.MAP_WIDTH * W.MAP_WIDTH + Int.tmod loc W.MAP_WIDTH)

/-- Source `loc_disp`: the location as displayed, the row followed by the
digits of the column.  A failed `ASSERT` ends the program: `none`. -/
def loc_disp (W : World) (loc : Int) : Option Int :=
  let row := Int.tdiv loc W.MAP_WIDTH
  let col := Int.tmod loc W.MAP_WIDTH
  if loc_disp_assert W loc = true then
    match COL_DIGITS W with
    | none => none
    | some n => some ((List.range n).foldl (fun nrow _ => nrow * 10) row + col)
  else none

/-! ## The interest score in the words of its description -/

/-- The weight of one neighbour showing the glyph `c`: 8 times the length of
the interest string less the position of the glyph, nothing for a glyph that
is not in the string. -/
def interest_weight (adj_char : List Char) (c : Char) : Int :=
  if c ∈ adj_char then 8 * ((adj_char.length : Int) - (adj_char.indexOf c : Int)) else 0

/-- The sum of the weights of the neighbours of `loc` that are on the board. -/
def interest_sum (W : World) (vmap : Int → Char) (loc : Int) (adj_char : List Char) : Int :=
  ∑ d in Finset.range 8,
    if (W.map (loc + dir_offset W d)).on_board = true then
      interest_weight adj_char (vmap (loc + dir_offset W d))
    else 0

/-! ## The scenario of the lone city

A map of 7 columns and 7 rows whose border is off the board: the board is the
5 by 5 grid of the cells

     8  9 10 11 12
    15 16 17 18 19
    22 23 24 25 26
    29 30 31 32 33
    36 37 38 39 40

all sea but the centre 24, a city of the opponent. -/

/-- The cells of the 7 by 7 map that are on the board: the interior. -/
def scenario_on_board (loc : Int) : Bool :=
  decide (0 < loc % 7) && decide (loc % 7 < 6) && decide (0 < loc / 7) && decide (loc / 7 < 6)

/-- The world of the scenario: sea, with a city of the owner 2 at the centre. -/
def scenario_world : World :=
  { MAP_WIDTH := 7, MAP_HEIGHT := 7, INFINITY := 100,
    MAP_LAND := '+', MAP_SEA := '.', MAP_CITY := '*',
    TRANSPORT := 5, transport_build_time := 30,
    map := fun loc =>
      if loc = 24 then
        { contents := '*', on_board := true, cityp := some { owner := 2, prod := 0, work := 0 } }
      else { contents := '.', on_board := scenario_on_board loc, cityp := none } }

/-- The view of the scenario: sea, with the enemy city glyph at the centre. -/
def scenario_view : Int → Char := fun c => if c = 24 then 'X' else '.'

/-! ## The effect of one step of `expand_perimeter` -/

/-- What a step of `expand_perimeter` does to the path map and the perimeter
lists when it visits the cell `b`, classified as `t`: the cell goes into the
land list, or into the water list, or is finalized as unknown (at half of
INFINITY, or at 2 when it is the new best objective), or is left alone. -/
def step_effect (W : World) (type : Nat) (k iw il : Int) (waterp landp : Option perim_id)
    (s s2 : map_state) (b : Int) (t : Nat) : Prop :=
  (t = T_LAND ∧ type &&& T_LAND ≠ 0 ∧ ∃ p, landp = some p ∧
    s2.pmap = upd s.pmap b { cost := k + il, inc_cost := il, terrain := T_LAND } ∧
    s2.perim = set_perim s.perim p (s.perim p ++ [b])) ∨
  (t = T_WATER ∧ type &&& T_WATER ≠ 0 ∧ ∃ p, waterp = some p ∧
    s2.pmap = upd s.pmap b { cost := k + iw, inc_cost := iw, terrain := T_WATER } ∧
    s2.perim = set_perim s.perim p (s.perim p ++ [b])) ∨
  (t = T_UNKNOWN ∧ s2.perim = s.perim ∧
    (s2.pmap = upd s.pmap b
        { cost := k + Int.tdiv W.INFINITY 2, inc_cost := Int.tdiv W.INFINITY 2,
          terrain := T_UNKNOWN } ∨
      s2.pmap = upd s.pmap b { cost := k + 2, inc_cost := 2, terrain := T_UNKNOWN })) ∨
  (¬ (t = T_LAND ∧ type &&& T_LAND ≠ 0) ∧ ¬ (t = T_WATER ∧ type &&& T_WATER ≠ 0) ∧
    t ≠ T_UNKNOWN ∧ s2 = s)

/-! ## The effect of one call of `expand_perimeter` -/

/-- What a call of `expand_perimeter` that started in the state `s` on the
perimeter `curp` keeps true of the state `t` it has reached: the cells inside
the perimeter are left alone; a cell finalized since the start is on the
board, next to a cell of `curp`, and carries the cost of its class; the lists
other than the two output lists are unchanged; the output lists only grow,
by cells that were outside the perimeter. -/
structure call_inv (W : World) (type : Nat) (k iw il : Int) (waterp landp : Option perim_id)
    (curp : perim_id) (s t : map_state) : Prop where
  frozen : ∀ c, (s.pmap c).cost ≠ W.INFINITY → t.pmap c = s.pmap c
  fresh : ∀ c, (s.pmap c).cost = W.INFINITY → (t.pmap c).cost ≠ W.INFINITY →
    (W.map c).on_board = true ∧ (∃ a, a ∈ s.perim curp ∧ adj W a c) ∧
    ((t.pmap c = { cost := k + il, inc_cost := il, terrain := T_LAND } ∧
        type &&& T_LAND ≠ 0) ∨
      (t.pmap c = { cost := k + iw, inc_cost := iw, terrain := T_WATER } ∧
        type &&& T_WATER ≠ 0) ∨
      t.pmap c =
        { cost := k + Int.tdiv W.INFINITY 2, inc_cost := Int.tdiv W.INFINITY 2,
          terrain := T_UNKNOWN } ∨
      t.pmap c = { cost := k + 2, inc_cost := 2, terrain := T_UNKNOWN })
  others : ∀ p, some p ≠ landp → some p ≠ waterp → t.perim p = s.perim p
  grow : ∀ p c, c ∈ s.perim p → c ∈ t.perim p
  members : ∀ p c, c ∈ t.perim p → c ∈ s.perim p ∨
    ((s.pmap c).cost = W.INFINITY ∧ (W.map c).on_board = true ∧
      (landp = some p ∨ waterp = some p))

/-- The cells that a call of `expand_perimeter` has put into its output lists
since the state `s` carry the cost and the class of their list. -/
def stamped (W : World) (k iw il : Int) (waterp landp : Option perim_id)
    (s t : map_state) : Prop :=
  ∀ p c, c ∈ t.perim p → c ∈ s.perim p ∨
    ((s.pmap c).cost = W.INFINITY ∧
      ((landp = some p ∧ t.pmap c = { cost := k + il, inc_cost := il, terrain := T_LAND }) ∨
        (waterp = some p ∧
          t.pmap c = { cost := k + iw, inc_cost := iw, terrain := T_WATER })))

/-- The perimeter lists `ps` (those in use by a search) hold no cell twice, and
only cells inside the perimeter (finalized) that are the origin `loc` or are
on the board. -/
def frontier_ok (W : World) (loc : Int) (ps : List perim_id) (s : map_state) : Prop :=
  ∀ p, p ∈ ps → (s.perim p).Nodup ∧
    ∀ c, c ∈ s.perim p → (s.pmap c).cost ≠ W.INFINITY ∧ (c = loc ∨ (W.map c).on_board = true)

/-! ## Properties kept by every operation of a search -/

/-- The property `P` of the state is kept by the two operations that the
search loops perform on the perimeter lists `ps` they use: emptying a list,
and a call of `expand_perimeter` at a cost up to `K`, with the water increment
1 and the land increment 1 or 2 (the increments that occur in `map.c`). -/
def call_closed (W : World) (vmap : Int → Char) (mi : move_info_t) (ps : List perim_id)
    (K : Int) (P : map_state → Prop) : Prop :=
  (∀ s p, p ∈ ps → P s → P { s with perim := set_perim s.perim p [] }) ∧
  ∀ curp type k iw il waterp landp s s2, curp ∈ ps → k ≤ K → iw = 1 → (il = 1 ∨ il = 2) →
    (∀ p, waterp = some p → p ∈ ps) → (∀ p, landp = some p → p ∈ ps) →
    expand_perimeter W vmap mi curp type k iw il waterp landp s = some s2 → P s → P s2

/-! ## The rounds of the land/water searches -/

/-- Every cell of the perimeter list `p` has the cost `k` and the class `ty`. -/
def frontier_cells (s : map_state) (p : perim_id) (k : Int) (ty : Nat) : Prop :=
  ∀ c, c ∈ s.perim p → (s.pmap c).cost = k ∧ (s.pmap c).terrain = ty

/-- Every cell finalized as water between the path maps `pm` and `pm2`, by the
expansion of the cells `frontier`, has the increment 1, is next to a cell of
the frontier, and costs 1 more than each cell of the frontier. -/
def water_hops_one (W : World) (frontier : List Int) (pm pm2 : Int → path_map_t) : Prop :=
  ∀ B, (pm B).cost = W.INFINITY → (pm2 B).cost ≠ W.INFINITY → (pm2 B).terrain = T_WATER →
    (pm2 B).inc_cost = 1 ∧ (∃ A, A ∈ frontier ∧ adj W A B) ∧
    ∀ A, A ∈ frontier → (pm2 B).cost = (pm2 A).cost + 1

/-- The body of the loop of `vmap_find_lwobj` (`lw` true) and of
`vmap_find_wlobj` (`lw` false), which differ in the first two calls only: the
current water is expanded (to water; in the second search to land as well),
the current land is expanded (to land; in the first search to water as well),
then the new water is expanded to water.  The result is the state after each
of the three calls. -/
def dual_round (W : World) (vmap : Int → Char) (mi : move_info_t) (lw : Bool)
    (cur_land cur_water new_land new_water : perim_id) (cur_cost : Int) (s : map_state) :
    Option (map_state × map_state × map_state) :=
  match expand_perimeter W vmap mi cur_water (if lw = true then T_WATER else T_AIR) cur_cost 1
      (if lw = true then 1 else 2) (some new_water)
      (if lw = true then none else some new_land)
      { s with perim := set_perim (set_perim s.perim new_water []) new_land [] } with
  | none => none
  | some s1 =>
    match expand_perimeter W vmap mi cur_land (if lw = true then T_AIR else T_LAND) cur_cost 1 2
        (if lw = true then some new_water else none) (some new_land) s1 with
    | none => none
    | some s2 =>
      match expand_perimeter W vmap mi new_water T_WATER (cur_cost + 1) 1 1
          (some cur_water) none { s2 with perim := set_perim s2.perim cur_water [] } with
      | none => none
      | some s3 => some (s1, s2, s3)

/-- The rounds of a land/water search without the test that ends the loop:
the current land list, the new land list and the state at the start of round
`n` (from 0), which runs at the cost `2 * n`. -/
def dual_rounds (W : World) (vmap : Int → Char) (mi : move_info_t) (lw : Bool)
    (cur_land cur_water new_land new_water : perim_id) (s : map_state) :
    Nat → Option (perim_id × perim_id × map_state)
  | 0 => some (cur_land, new_land, s)
  | n + 1 =>
    match dual_rounds W vmap mi lw cur_land cur_water new_land new_water s n with
    | none => none
    | some (l, nl, t) =>
      match dual_round W vmap mi lw l cur_water nl new_water (2 * (n : Int)) t with
      | none => none
      | some (_, _, t3) => some (nl, l, t3)

/-- The state in which `vmap_find_lwobj` (`lw` true) or `vmap_find_wlobj`
(`lw` false) enters its loop. -/
def dual_start (W : World) (lw : Bool) (loc beat_cost : Int) (s : map_state) : map_state :=
  if lw = true then
    { start_perimeter W s perim_id.p1 loc T_LAND with
      perim := set_perim (start_perimeter W s perim_id.p1 loc T_LAND).perim perim_id.p2 []
      best_cost := beat_cost }
  else
    { start_perimeter W s perim_id.p2 loc T_WATER with
      perim := set_perim (start_perimeter W s perim_id.p2 loc T_WATER).perim perim_id.p1 [] }

/-! ## Concrete runs of the land/water search and of a step -/

/-- The states after the three calls of the first round of `vmap_find_lwobj`
from the cell 6 of the small world, on the view with sea at the cell 7. -/
def demo_lw_round : map_state × map_state × map_state :=
  (dual_round demo_world demo_coast demo_move_info true perim_id.p1 perim_id.p2 perim_id.p4
    perim_id.p3 0 (dual_start demo_world true 6 100 demo_state)).getD
    (demo_state, demo_state, demo_state)

/-- The states after the three calls of the first round of `vmap_find_lwobj`
from the cell 6 of the small world, on the view whose middle column is sea. -/
def demo_ww_round : map_state × map_state × map_state :=
  (dual_round demo_world demo_wall demo_move_info true perim_id.p1 perim_id.p2 perim_id.p4
    perim_id.p3 0 (dual_start demo_world true 6 100 demo_state)).getD
    (demo_state, demo_state, demo_state)

/-- The state in which a land search starts at the cell 16 of the scenario
of the lone city. -/
def scenario_start : map_state := start_perimeter scenario_world demo_state perim_id.p1 16 T_LAND

/-! ## The measure of the searches -/

/-- The board is finite: every cell on the board is a location of the map. -/
def board_finite (W : World) : Prop :=
  ∀ c, (W.map c).on_board = true → 0 ≤ c ∧ c < W.MAP_SIZE

/-- The number of cells of the board that are not finalized in the path map. -/
def unfinalized (W : World) (pm : Int → path_map_t) : Nat :=
  ((Finset.range W.MAP_SIZE.toNat).filter
    (fun i : Nat => (W.map (i : Int)).on_board = true ∧ (pm (i : Int)).cost = W.INFINITY)).card

/-! ## Continents of the true map (`rmap_cont`) -/

/-- Source `rmap_mark_up_cont`: mark the cells of the continent of `loc`.
A continent map is the array `cont_map` of `int`; `fuel` bounds the depth of
the recursion. -/
def rmap_mark_up_cont (W : World) (bad_terrain : Char) :
    Nat → (Int → Int) → Int → Option (Int → Int)
  | 0, _, _ => none
  | fuel + 1, cont_map, loc =>
    if (W.map loc).on_board = false then some cont_map
    else if cont_map loc ≠ 0 then some cont_map
    else if (W.map loc).contents = bad_terrain then some cont_map
    else
      loopM (fun cm i => rmap_mark_up_cont W bad_terrain fuel cm (loc + dir_offset W i))
        adj_dirs (upd cont_map loc 1)

/-- Source `rmap_cont`: map out the continent of `loc` in a zeroed array. -/
def rmap_cont (W : World) (fuel : Nat) (loc : Int) (bad_terrain : Char) : Option (Int → Int) :=
  rmap_mark_up_cont W bad_terrain fuel (fun _ => 0) loc

/-- The cell `c` is on the board and its true contents is not the bad terrain. -/
def good_cell (W : World) (bad_terrain : Char) (c : Int) : Prop :=
  (W.map c).on_board = true ∧ (W.map c).contents ≠ bad_terrain

/-- The cells joined to `loc` by a chain of 8-adjacent cells that are all,
`loc` included, on the board and not of the bad terrain. -/
inductive region (W : World) (bad_terrain : Char) (loc : Int) : Int → Prop
  | start : good_cell W bad_terrain loc → region W bad_terrain loc loc
  | step {a b : Int} : region W bad_terrain loc a → adj W a b → good_cell W bad_terrain b →
      region W bad_terrain loc b

/-- What a call of `rmap_mark_up_cont` at `x` does to the continent map: the
marks stay; a new mark is 1, on a cell of the region of `x`; `x` is marked if
it is on the board and not bad; and every neighbour, on the board and not bad,
of a cell newly marked is marked. -/
structure cont_rel (W : World) (bad_terrain : Char) (cm cm1 : Int → Int) (x : Int) : Prop where
  keep : ∀ c, cm c ≠ 0 → cm1 c = cm c
  fresh : ∀ c, cm c = 0 → cm1 c ≠ 0 → cm1 c = 1 ∧ region W bad_terrain x c
  entry : good_cell W bad_terrain x → cm1 x ≠ 0
  closed : ∀ y, cm y = 0 → cm1 y ≠ 0 → ∀ z, adj W y z → good_cell W bad_terrain z → cm1 z ≠ 0

/-- The number of cells, on the board and not bad, that are not marked. -/
def unmarked (W : World) (bad_terrain : Char) (cm : Int → Int) : Nat :=
  ((Finset.range W.MAP_SIZE.toNat).filter
    (fun i : Nat => ((W.map (i : Int)).on_board = true ∧
      (W.map (i : Int)).contents ≠ bad_terrain) ∧ cm (i : Int) = 0)).card

/-! ## Continents of a view map (`vmap_cont`) -/

/-- The local `this_terrain` of `vmap_mark_up_cont` for an explored cell: the
view glyph if it is land or sea, else the true contents. -/
def this_terrain (W : World) (vmap : Int → Char) (new_loc : Int) : Char :=
  if vmap new_loc = W.MAP_LAND then W.MAP_LAND
  else if vmap new_loc = W.MAP_SEA then W.MAP_SEA
  else (W.map new_loc).contents

/-- The body of the loops of `vmap_mark_up_cont` for the perimeter cell `cur`
and the direction `j`; the state is the continent map and the list `to`. -/
def mark_up_step (W : World) (vmap : Int → Char) (bad_terrain : Char) (cur : Int)
    (st : (Int → Int) × List Int) (j : Nat) : (Int → Int) × List Int :=
  if (W.map (cur + dir_offset W j)).on_board = true then
    if st.1 (cur + dir_offset W j) = 0 then
      if vmap (cur + dir_offset W j) = ' ' then (upd st.1 (cur + dir_offset W j) 1, st.2)
      else if this_terrain W vmap (cur + dir_offset W j) ≠ bad_terrain then
        (upd st.1 (cur + dir_offset W j) 1, st.2 ++ [cur + dir_offset W j])
      else st
    else st
  else st

/-- One pass of the `while` loop of `vmap_mark_up_cont`: the perimeter `from`
is expanded into the new continent map and the list `to`. -/
def mark_up_round (W : World) (vmap : Int → Char) (bad_terrain : Char) (cont_map : Int → Int)
    (frm : List Int) : (Int → Int) × List Int :=
  frm.foldl (fun st cur => adj_dirs.foldl (mark_up_step W vmap bad_terrain cur) st)
    (cont_map, [])

/-- The `while (from->len)` loop of `vmap_mark_up_cont`; `fuel` bounds the
number of passes. -/
def mark_up_loop (W : World) (vmap : Int → Char) (bad_terrain : Char) :
    Nat → (Int → Int) → List Int → Option (Int → Int)
  | 0, _, _ => none
  | fuel + 1, cont_map, frm =>
    if frm.length = 0 then some cont_map
    else
      mark_up_loop W vmap bad_terrain fuel (mark_up_round W vmap bad_terrain cont_map frm).1
        (mark_up_round W vmap bad_terrain cont_map frm).2

/-- Source `vmap_mark_up_cont`: mark the continent of `loc` and the unexplored
cells next to it. -/
def vmap_mark_up_cont (W : World) (fuel : Nat) (cont_map : Int → Int) (vmap : Int → Char)
    (loc : Int) (bad_terrain : Char) : Option (Int → Int) :=
  mark_up_loop W vmap bad_terrain fuel (upd cont_map loc 1) [loc]

/-- Source `vmap_cont`: map out the continent of `loc` in a zeroed array. -/
def vmap_cont (W : World) (fuel : Nat) (vmap : Int → Char) (loc : Int) (bad_terrain : Char) :
    Option (Int → Int) :=
  vmap_mark_up_cont W fuel (fun _ => 0) vmap loc bad_terrain

/-- The cell `c` is on the board, explored, and its terrain is not the bad one. -/
def explored_good (W : World) (vmap : Int → Char) (bad_terrain : Char) (c : Int) : Prop :=
  (W.map c).on_board = true ∧ vmap c ≠ ' ' ∧ this_terrain W vmap c ≠ bad_terrain

/-- The cell `loc` and the cells joined to it by a chain of 8-adjacent cells
that are, after `loc`, all on the board, explored and not of the bad terrain. -/
inductive cont_reach (W : World) (vmap : Int → Char) (bad_terrain : Char) (loc : Int) :
    Int → Prop
  | start : cont_reach W vmap bad_terrain loc loc
  | step {a b : Int} : cont_reach W vmap bad_terrain loc a → adj W a b →
      explored_good W vmap bad_terrain b → cont_reach W vmap bad_terrain loc b

/-- The cells that `vmap_cont` is to mark: the continent and the unexplored
cells of the board next to it. -/
def cont_target (W : World) (vmap : Int → Char) (bad_terrain : Char) (loc c : Int) : Prop :=
  cont_reach W vmap bad_terrain loc c ∨
  ((W.map c).on_board = true ∧ vmap c = ' ' ∧
    ∃ a, cont_reach W vmap bad_terrain loc a ∧ adj W a c)

/-- The state of `vmap_mark_up_cont` at the head of its loop. -/
structure cont_inv (W : World) (vmap : Int → Char) (bad_terrain : Char) (loc : Int)
    (cm : Int → Int) (frm : List Int) : Prop where
  values : ∀ c, cm c = 0 ∨ cm c = 1
  sound : ∀ c, cm c = 1 → cont_target W vmap bad_terrain loc c
  front : ∀ a, a ∈ frm → cont_reach W vmap bad_terrain loc a ∧ cm a = 1
  closed : ∀ a, cont_reach W vmap bad_terrain loc a → cm a = 1 → a ∉ frm →
    ∀ j, j < 8 → (W.map (a + dir_offset W j)).on_board = true →
      (vmap (a + dir_offset W j) = ' ' ∨
        explored_good W vmap bad_terrain (a + dir_offset W j)) →
      cm (a + dir_offset W j) = 1
  origin : cm loc = 1

/-- The state of a pass of `vmap_mark_up_cont` that started with the map `cm`
and has expanded the cells `dn` of the perimeter. -/
structure cont_round_inv (W : World) (vmap : Int → Char) (bad_terrain : Char) (loc : Int)
    (cm : Int → Int) (dn : List Int) (st : (Int → Int) × List Int) : Prop where
  values : ∀ c, st.1 c = 0 ∨ st.1 c = 1
  sound : ∀ c, st.1 c = 1 → cont_target W vmap bad_terrain loc c
  mono : ∀ c, cm c = 1 → st.1 c = 1
  out : ∀ a, a ∈ st.2 → cont_reach W vmap bad_terrain loc a ∧ st.1 a = 1 ∧ cm a = 0 ∧
    (W.map a).on_board = true
  nodup : st.2.Nodup
  expanded : ∀ a, a ∈ dn → ∀ j, j < 8 → (W.map (a + dir_offset W j)).on_board = true →
    (vmap (a + dir_offset W j) = ' ' ∨
      explored_good W vmap bad_terrain (a + dir_offset W j)) →
    st.1 (a + dir_offset W j) = 1
  fresh : ∀ c, st.1 c = 1 → cm c = 1 ∨ c ∈ st.2 ∨ vmap c = ' '

/-- The number of cells of the board that are not marked in a continent map. -/
def unmarked_board (W : World) (cm : Int → Int) : Nat :=
  ((Finset.range W.MAP_SIZE.toNat).filter
    (fun i : Nat => (W.map (i : Int)).on_board = true ∧ cm (i : Int) = 0)).card

/-! ## The pruning of unexplored territory (`vmap_prune_explore_locs`)

The function works on the locations `0 .. MAP_SIZE - 1` of the arrays, on or
off the board.  Its local path map holds, for an unexplored cell, the number
of adjacent land cells in `cost` and of adjacent water cells in `inc_cost`. -/

/-- The variables of `vmap_prune_explore_locs` that a pass changes: the view
map, the local path map, the perimeter list `to`, and the counters `explored`
and `copied`. -/
structure prune_state where
  vmap : Int → Char
  pmap : Int → path_map_t
  to_perim : List Int
  explored : Int
  copied : Int

/-- The body of the loop of `expand_prune` for the direction `i`: an
unexplored neighbour inside the map enters the list `to` if it has no count
yet, and its land or water count goes up by one. -/
def expand_prune_step (W : World) (loc : Int) (type : Nat) (s : prune_state) (i : Nat) :
    prune_state :=
  if 0 ≤ loc + dir_offset W i ∧ loc + dir_offset W i < W.MAP_SIZE ∧
      s.vmap (loc + dir_offset W i) = ' ' then
    { s with
      to_perim :=
        if (s.pmap (loc + dir_offset W i)).cost = 0 ∧
            (s.pmap (loc + dir_offset W i)).inc_cost = 0 then
          s.to_perim ++ [loc + dir_offset W i]
        else s.to_perim
      pmap :=
        if type = T_LAND then
          upd s.pmap (loc + dir_offset W i)
            { cost := (s.pmap (loc + dir_offset W i)).cost + 1,
              inc_cost := (s.pmap (loc + dir_offset W i)).inc_cost,
              terrain := (s.pmap (loc + dir_offset W i)).terrain }
        else
          upd s.pmap (loc + dir_offset W i)
            { cost := (s.pmap (loc + dir_offset W i)).cost,
              inc_cost := (s.pmap (loc + dir_offset W i)).inc_cost + 1,
              terrain := (s.pmap (loc + dir_offset W i)).terrain } }
  else s

/-- Source `expand_prune`: commit the unexplored cell `loc` to land or water
and count it at its neighbours. -/
def expand_prune (W : World) (s : prune_state) (loc : Int) (type : Nat) : prune_state :=
  adj_dirs.foldl (expand_prune_step W loc type)
    { s with
      explored := s.explored + 1
      vmap := upd s.vmap loc (if type = T_LAND then W.MAP_LAND else W.MAP_SEA) }

/-- The variables of the first loop of `vmap_prune_explore_locs`: the local
path map, the perimeter list `from` and the counter `explored`. -/
structure prune_init_state where
  pmap : Int → path_map_t
  from_perim : List Int
  explored : Int

/-- The body of the `FOR_ADJ` loop of the first loop: count an explored
neighbour inside the map as land or as water, by the true map. -/
def prune_count_step (W : World) (vmap : Int → Char) (loc : Int) (pm : Int → path_map_t)
    (i : Nat) : Int → path_map_t :=
  if loc + dir_offset W i < 0 ∨ loc + dir_offset W i ≥ W.MAP_SIZE then pm
  else if vmap (loc + dir_offset W i) = ' ' then pm
  else if (W.map (loc + dir_offset W i)).contents ≠ W.MAP_SEA then
    upd pm loc
      { cost := (pm loc).cost + 1, inc_cost := (pm loc).inc_cost, terrain := (pm loc).terrain }
  else
    upd pm loc
      { cost := (pm loc).cost, inc_cost := (pm loc).inc_cost + 1, terrain := (pm loc).terrain }

/-- The body of the first loop of `vmap_prune_explore_locs` for the location
`loc`. -/
def prune_init_step (W : World) (vmap : Int → Char) (s : prune_init_state) (loc : Int) :
    prune_init_state :=
  if vmap loc ≠ ' ' then { s with explored := s.explored + 1 }
  else if ((adj_dirs.foldl (prune_count_step W vmap loc) s.pmap) loc).cost ≠ 0 ∨
      ((adj_dirs.foldl (prune_count_step W vmap loc) s.pmap) loc).inc_cost ≠ 0 then
    { s with
      pmap := adj_dirs.foldl (prune_count_step W vmap loc) s.pmap
      from_perim := s.from_perim ++ [loc] }
  else { s with pmap := adj_dirs.foldl (prune_count_step W vmap loc) s.pmap }

/-- The locations `0 .. MAP_SIZE - 1` in increasing order. -/
def map_locs (W : World) : List Int :=
  (List.range W.MAP_SIZE.toNat).map (fun i : Nat => (i : Int))

/-- The first loop of `vmap_prune_explore_locs`: build the initial path map
(zeroed by `memset`) and perimeter list. -/
def prune_init (W : World) (vmap : Int → Char) : prune_init_state :=
  (map_locs W).foldl (prune_init_step W vmap)
    { pmap := fun _ => { cost := 0, inc_cost := 0, terrain := 0 }, from_perim := [],
      explored := 0 }

/-- The body of a pass of high probability predictions for the cell `loc`. -/
def high_step (W : World) (s : prune_state) (loc : Int) : prune_state :=
  if (s.pmap loc).cost ≥ 5 then expand_prune W s loc T_LAND
  else if (s.pmap loc).inc_cost ≥ 5 then expand_prune W s loc T_WATER
  else if (loc < W.MAP_WIDTH ∨ loc ≥ W.MAP_SIZE - W.MAP_WIDTH) ∧ (s.pmap loc).cost ≥ 3 then
    expand_prune W s loc T_LAND
  else if (loc < W.MAP_WIDTH ∨ loc ≥ W.MAP_SIZE - W.MAP_WIDTH) ∧ (s.pmap loc).inc_cost ≥ 3 then
    expand_prune W s loc T_WATER
  else if (loc = 0 ∨ loc = W.MAP_SIZE - 1) ∧ (s.pmap loc).cost ≥ 2 then
    expand_prune W s loc T_LAND
  else if (loc = 0 ∨ loc = W.MAP_SIZE - 1) ∧ (s.pmap loc).inc_cost ≥ 2 then
    expand_prune W s loc T_WATER
  else { s with to_perim := s.to_perim ++ [loc], copied := s.copied + 1 }

/-- The body of the pass of medium probability predictions for the cell `loc`. -/
def medium_step (W : World) (s : prune_state) (loc : Int) : prune_state :=
  if (s.pmap loc).cost > (s.pmap loc).inc_cost then expand_prune W s loc T_LAND
  else if (s.pmap loc).cost < (s.pmap loc).inc_cost then expand_prune W s loc T_WATER
  else { s with to_perim := s.to_perim ++ [loc] }

/-- The body of a pass of low probability predictions for the cell `loc`. -/
def low_step (W : World) (s : prune_state) (loc : Int) : prune_state :=
  if (s.pmap loc).cost ≥ 4 ∧ (s.pmap loc).inc_cost < 4 then expand_prune W s loc T_LAND
  else if (s.pmap loc).inc_cost ≥ 4 ∧ (s.pmap loc).cost < 4 then expand_prune W s loc T_WATER
  else if (loc < W.MAP_WIDTH ∨ loc ≥ W.MAP_SIZE - W.MAP_WIDTH) ∧
      (s.pmap loc).cost > (s.pmap loc).inc_cost then
    expand_prune W s loc T_LAND
  else if (loc < W.MAP_WIDTH ∨ loc ≥ W.MAP_SIZE - W.MAP_WIDTH) ∧
      (s.pmap loc).inc_cost > (s.pmap loc).cost then
    expand_prune W s loc T_WATER
  else { s with to_perim := s.to_perim ++ [loc], copied := s.copied + 1 }

/-- The first `for (;;)` loop of `vmap_prune_explore_locs`, with a budget of
passes.  The result tells whether the function returned (`true`) or the loop
was left by `break`, and gives the list `from` and the state. -/
def high_loop (W : World) : Nat → List Int → prune_state →
    Option (Bool × List Int × prune_state)
  | 0, _, _ => none
  | fuel + 1, frm, s =>
    if (frm.length : Int) + s.explored = W.MAP_SIZE then some (true, frm, s)
    else if (frm.foldl (high_step W) { s with to_perim := [], copied := 0 }).copied =
        (frm.length : Int) then
      some (false, frm, frm.foldl (high_step W) { s with to_perim := [], copied := 0 })
    else
      high_loop W fuel (frm.foldl (high_step W) { s with to_perim := [], copied := 0 }).to_perim
        (frm.foldl (high_step W) { s with to_perim := [], copied := 0 })

/-- The last `for (;;)` loop of `vmap_prune_explore_locs`, with a budget of
passes; the function returns when the loop ends either way. -/
def low_loop (W : World) : Nat → List Int → prune_state → Option prune_state
  | 0, _, _ => none
  | fuel + 1, frm, s =>
    if (frm.length : Int) + s.explored ≥ W.MAP_SIZE - W.MAP_HEIGHT then some s
    else if (frm.foldl (low_step W) { s with to_perim := [], copied := 0 }).copied =
        (frm.length : Int) then
      some (frm.foldl (low_step W) { s with to_perim := [], copied := 0 })
    else
      low_loop W fuel (frm.foldl (low_step W) { s with to_perim := [], copied := 0 }).to_perim
        (frm.foldl (low_step W) { s with to_perim := [], copied := 0 })

/-- Source `vmap_prune_explore_locs`: predict land or water for unexplored
cells.  The result is the view map as the function leaves it; `fuel` is the
budget of passes of each of the two `for (;;)` loops. -/
def vmap_prune_explore_locs (W : World) (fuel : Nat) (vmap : Int → Char) :
    Option (Int → Char) :=
  match high_loop W fuel (prune_init W vmap).from_perim
      { vmap := vmap, pmap := (prune_init W vmap).pmap, to_perim := [],
        explored := (prune_init W vmap).explored, copied := 0 } with
  | none => none
  | some (true, _, s) => some s.vmap
  | some (false, frm, s) =>
    if (frm.length : Int) + s.explored = W.MAP_SIZE then some s.vmap
    else
      match low_loop W fuel (frm.foldl (medium_step W) { s with to_perim := [] }).to_perim
          (frm.foldl (medium_step W) { s with to_perim := [] }) with
      | none => none
      | some s3 => some s3.vmap

/-! ## Concrete views for the pruning -/

/-- A view of the small world of which only the cell 6 is explored (land). -/
def prune_view : Int → Char := fun c => if c = 6 then '+' else ' '

/-- The view that the first run of the pruning leaves of `prune_view`. -/
def prune_once : Int → Char :=
  (vmap_prune_explore_locs demo_world 26 prune_view).getD prune_view

/-- The view that a second run leaves. -/
def prune_twice : Int → Char :=
  (vmap_prune_explore_locs demo_world 26 prune_once).getD prune_once

/-- A view of the small world with the cells 5, 6 and 11 explored: the cell
10, on the first column, has three explored neighbours, all land. -/
def prune_edge_view : Int → Char := fun c => if c = 5 ∨ c = 6 ∨ c = 11 then '+' else ' '

/-- The state in which the first pass starts on `prune_edge_view`. -/
def prune_edge_state : prune_state :=
  { vmap := prune_edge_view, pmap := (prune_init demo_world prune_edge_view).pmap,
    to_perim := [], explored := (prune_init demo_world prune_edge_view).explored, copied := 0 }

/-! ## The invariants of the pruning -/

/-- A cell of the local path map of the pruning has a count. -/
def voted (p : path_map_t) : Prop := p.cost ≠ 0 ∨ p.inc_cost ≠ 0

/-- The location is an index of the arrays. -/
def in_map (W : World) (c : Int) : Prop := 0 ≤ c ∧ c < W.MAP_SIZE

/-- The location has an explored neighbour inside the arrays, as `FOR_ADJ`
counts neighbours (by index). -/
def explored_nb (W : World) (vm : Int → Char) (c : Int) : Prop :=
  ∃ i, i < 8 ∧ in_map W (c + dir_offset W i) ∧ vm (c + dir_offset W i) ≠ ' '

/-- The number of unexplored locations below `n`. -/
def blanks_upto (vm : Int → Char) (n : Int) : Nat :=
  ((Finset.Ico (0 : Int) n).filter (fun c => vm c = ' ')).card

/-- The number of unexplored locations of the view map. -/
def blanks (W : World) (vm : Int → Char) : Nat := blanks_upto vm W.MAP_SIZE

/-- The number of explored neighbours of `loc` inside the arrays that are not
sea on the true map: the land count that the first loop gives an unexplored
cell. -/
def land_votes (W : World) (vm : Int → Char) (loc : Int) : Int :=
  ((adj_dirs.filter (fun i =>
    decide ((0 ≤ loc + dir_offset W i ∧ loc + dir_offset W i < W.MAP_SIZE) ∧
      vm (loc + dir_offset W i) ≠ ' ' ∧
      (W.map (loc + dir_offset W i)).contents ≠ W.MAP_SEA))).length : Int)

/-- The number of explored neighbours of `loc` inside the arrays that are sea
on the true map: the water count that the first loop gives an unexplored
cell. -/
def water_votes (W : World) (vm : Int → Char) (loc : Int) : Int :=
  ((adj_dirs.filter (fun i =>
    decide ((0 ≤ loc + dir_offset W i ∧ loc + dir_offset W i < W.MAP_SIZE) ∧
      vm (loc + dir_offset W i) ≠ ' ' ∧
      (W.map (loc + dir_offset W i)).contents = W.MAP_SEA))).length : Int)

/-- The invariant of a pass of the pruning, with `rest` the cells of the list
`from` that are still to visit: the counts are not negative, the cells of
`rest` and of the list `to` are distinct unexplored cells of the arrays with a
count, `explored` counts the explored locations, and a cell with a count has
an explored neighbour. -/
structure prune_inv (W : World) (rest : List Int) (s : prune_state) : Prop where
  nonneg : ∀ c, 0 ≤ (s.pmap c).cost ∧ 0 ≤ (s.pmap c).inc_cost
  nodup_rest : rest.Nodup
  nodup_to : s.to_perim.Nodup
  disjoint : ∀ c, c ∈ rest → c ∉ s.to_perim
  cells : ∀ c, c ∈ rest ∨ c ∈ s.to_perim → in_map W c ∧ s.vmap c = ' ' ∧ voted (s.pmap c)
  count : s.explored + (blanks W s.vmap : Int) = (W.MAP_SIZE.toNat : Int)
  nbs : ∀ c, voted (s.pmap c) → explored_nb W s.vmap c

/-- How the pruning changes a view map: explored cells keep their contents,
and an unexplored cell stays unexplored or becomes land or sea. -/
def prune_frame (W : World) (v v2 : Int → Char) : Prop :=
  (∀ c, v c ≠ ' ' → v2 c = v c) ∧
  (∀ c, v c = ' ' → v2 c = ' ' ∨ v2 c = W.MAP_LAND ∨ v2 c = W.MAP_SEA)

/-- How the state `t` of the pruning relates to an earlier state `s`: the view
map changes as `prune_frame` says, counts and `explored` only grow, and if
`explored` is the same then so are the view map and the counts. -/
structure prune_rel (W : World) (s t : prune_state) : Prop where
  frame : prune_frame W s.vmap t.vmap
  votes : ∀ c, (s.pmap c).cost ≤ (t.pmap c).cost ∧ (s.pmap c).inc_cost ≤ (t.pmap c).inc_cost
  explored_le : s.explored ≤ t.explored
  same : t.explored = s.explored → t.vmap = s.vmap ∧ t.pmap = s.pmap

/-- The shape of the body of a pass: the cell is expanded as land or as
water, or it is copied to the list `to`. -/
def pass_rule (W : World) (step : prune_state → Int → prune_state) : Prop :=
  ∀ s loc, step s loc = expand_prune W s loc T_LAND ∨ step s loc = expand_prune W s loc T_WATER ∨
    ((step s loc).vmap = s.vmap ∧ (step s loc).pmap = s.pmap ∧
      (step s loc).to_perim = s.to_perim ++ [loc] ∧ (step s loc).explored = s.explored)

/-- The body of a pass counts the cells that it copies. -/
def counted_rule (W : World) (step : prune_state → Int → prune_state) : Prop :=
  ∀ s loc, step s loc = expand_prune W s loc T_LAND ∨ step s loc = expand_prune W s loc T_WATER ∨
    ((step s loc).explored = s.explored ∧ (step s loc).copied = s.copied + 1)

/-- The state of the first loop of the pruning after the locations below `k`:
counts are not negative and are those of `land_votes` and `water_votes` for
the unexplored cells below `k` and zero elsewhere, the list `from` holds the
unexplored cells below `k` with a count, once each, and `explored` counts the
explored locations below `k`. -/
structure init_inv (W : World) (vm : Int → Char) (k : Nat) (st : prune_init_state) : Prop where
  zero : ∀ c, ¬ ((0 ≤ c ∧ c < (k : Int)) ∧ vm c = ' ') →
    (st.pmap c).cost = 0 ∧ (st.pmap c).inc_cost = 0
  votes : ∀ c, (0 ≤ c ∧ c < (k : Int)) → vm c = ' ' →
    (st.pmap c).cost = land_votes W vm c ∧ (st.pmap c).inc_cost = water_votes W vm c
  nodup : st.from_perim.Nodup
  listed : ∀ c, c ∈ st.from_perim ↔ ((0 ≤ c ∧ c < (k : Int)) ∧ vm c = ' ' ∧ voted (st.pmap c))
  count : st.explored + (blanks_upto vm (k : Int) : Int) = (k : Int)

/-- The state in which the passes of the pruning start on the view `vm`. -/
def prune_start (W : World) (vm : Int → Char) : prune_state :=
  { vmap := vm, pmap := (prune_init W vm).pmap, to_perim := [],
    explored := (prune_init W vm).explored, copied := 0 }

/-! ## Concrete worlds and views for the pruning -/

/-- The small world with the cells 0 and 1 sea on the true map. -/
def prune_world : World :=
  { MAP_WIDTH := 5, MAP_HEIGHT := 5, INFINITY := 100,
    MAP_LAND := '+', MAP_SEA := '.', MAP_CITY := '*',
    TRANSPORT := 5, transport_build_time := 30,
    map := fun loc =>
      { contents := if loc = 0 ∨ loc = 1 then '.' else '+', on_board := demo_on_board loc,
        cityp := none } }

/-- A view of `prune_world` with every cell explored but the cell 6, which
has six land neighbours and two water neighbours. -/
def prune_hole_view : Int → Char :=
  fun c => if c = 6 then ' ' else if c = 0 ∨ c = 1 then '.' else '+'

/-- A view of `prune_world` with only the eight neighbours of the cell 6
explored. -/
def prune_block_view : Int → Char :=
  fun c =>
    if c = 0 ∨ c = 1 then '.'
    else if c = 2 ∨ c = 5 ∨ c = 7 ∨ c = 10 ∨ c = 11 ∨ c = 12 then '+'
    else ' '

/-- A view of the small world, all land, with the three by three block in the
middle unexplored. -/
def prune_ring_view : Int → Char :=
  fun c =>
    if c = 6 ∨ c = 7 ∨ c = 8 ∨ c = 11 ∨ c = 12 ∨ c = 13 ∨ c = 16 ∨ c = 17 ∨ c = 18 then ' '
    else '+'

/-- How the loop of high probability predictions ends on `prune_ring_view`. -/
def prune_ring_end : Bool × List Int × prune_state :=
  (high_loop demo_world 26 (prune_init demo_world prune_ring_view).from_perim
    (prune_start demo_world prune_ring_view)).getD
    (false, [], prune_start demo_world prune_ring_view)

/-! ## The best objective, in full -/

/-- What every search keeps true of the best objective, `beat` being the best
cost the search starts from: the best cost is at most `beat`, and the best
location is the origin `loc`, or is a cell on the board, finalized, whose
objective cost at the cost of the perimeter it was finalized from (its cost
less its increment) is the best cost, below `beat`. -/
def best_full (W : World) (vmap : Int → Char) (move_info : move_info_t) (loc beat : Int)
    (s : map_state) : Prop :=
  s.best_cost ≤ beat ∧
  (s.best_loc = loc ∨
    ((W.map s.best_loc).on_board = true ∧ (s.pmap s.best_loc).cost ≠ W.INFINITY ∧
      0 ≤ (s.pmap s.best_loc).cost - (s.pmap s.best_loc).inc_cost ∧
      objective_cost W vmap move_info s.best_loc
        ((s.pmap s.best_loc).cost - (s.pmap s.best_loc).inc_cost) = some s.best_cost ∧
      s.best_cost < beat))

/-- A move_info whose only objective is the sea glyph, of weight 1. -/
def demo_sea_info : move_info_t :=
  { city_owner := 0, objectives := ['.'], weights := [1] }

/-- What the land search for the sea glyph returns from the cell 6 of the
small world, on the view with sea at the cell 7. -/
def demo_sea_search : Int × map_state :=
  (vmap_find_lobj demo_world demo_coast 6 demo_sea_info 5 demo_state).getD (0, demo_state)

/-- What `vmap_find_lwobj` returns from the cell 6 on the view with the city
glyph at 18, with a best cost to beat of 50. -/
def demo_lw_search : Int × map_state :=
  (vmap_find_lwobj demo_world demo_city 6 demo_move_info 50 5 demo_state).getD (0, demo_state)

/-! ## The layers of a single-terrain search -/

/-- The state of the loop of `vmap_find_xobj` and `vmap_find_dest` before the
round that expands the perimeter `fp` at the cost `n`, for a search that
started at `cur`: every cell of `fp` has the cost `n`; the origin has the cost
0; and every other cell inside the perimeter has a positive increment, at most
its cost, and a neighbour inside the perimeter whose cost is its cost less its
increment (the cell it was finalized from). -/
structure layer_inv (W : World) (cur : Int) (n : Int) (fp : perim_id) (t : map_state) :
    Prop where
  front : ∀ c, c ∈ t.perim fp → (t.pmap c).cost = n
  origin : (t.pmap cur).cost = 0
  parents : ∀ c, (t.pmap c).cost ≠ W.INFINITY → c ≠ cur →
    0 < (t.pmap c).inc_cost ∧ (t.pmap c).inc_cost ≤ (t.pmap c).cost ∧
    ∃ p, adj W p c ∧ (t.pmap p).cost ≠ W.INFINITY ∧
      (t.pmap p).cost = (t.pmap c).cost - (t.pmap c).inc_cost

/-- The state of the un-truncated land search from the cell 6 of the small
world, on the all-land view, before its second round. -/
def demo_layer : perim_id × perim_id × map_state :=
  (free_rounds demo_world demo_land demo_move_info T_LAND
    (start_perimeter demo_world demo_state perim_id.p1 6 T_LAND) 1).getD
    (perim_id.p1, perim_id.p2, demo_state)

/-! ## The termination of `vmap_mark_path` -/

/-- The backtracking steps of `vmap_mark_path` from a cell of the region `S`
lead to cells of `S` (the function has no test of its own: `FOR_ADJ` visits
the eight neighbours by index). -/
def back_closed (W : World) (pm : Int → path_map_t) (S : Int → Prop) : Prop :=
  ∀ y n, S y → n < 8 →
    (pm (y + dir_offset W n)).cost = (pm y).cost - (pm y).inc_cost →
    S (y + dir_offset W n)

/-- The number of cells of the arrays that are not marked as on the path. -/
def unpathed (W : World) (pm : Int → path_map_t) : Nat :=
  ((Finset.Ico (0 : Int) W.MAP_SIZE).filter (fun c => (pm c).terrain ≠ T_PATH)).card

/-- A path map of the small world in which the costs go down from the cell
12 to the cell 6, and no cost fits anywhere else. -/
def demo_costs : Int → path_map_t := fun c =>
  { cost := if c = 12 then 1 else if c = 6 then 0 else 100, inc_cost := 1, terrain := T_LAND }

/-! ## The vote counts of the pruning -/

/-- The number of the eight neighbours of `c`, by index offset, that lie in
the arrays and are not unexplored. -/
def explored_count (W : World) (vm : Int → Char) (c : Int) : Int :=
  ((adj_dirs.countP (fun i =>
    decide ((0 ≤ c + dir_offset W i ∧ c + dir_offset W i < W.MAP_SIZE) ∧
      vm (c + dir_offset W i) ≠ ' ')) : Nat) : Int)

/-- The invariant of a pass of the pruning with the vote counts: the invariant
`prune_inv`; for an unexplored cell of the arrays the land and water counts
add up to the number of its explored neighbours; and an unexplored cell with a
count is in the rest of the list `from` or in the list `to`. -/
structure vote_mid (W : World) (rest : List Int) (s : prune_state) : Prop where
  base : prune_inv W rest s
  sum : ∀ c, in_map W c → s.vmap c = ' ' →
    (s.pmap c).cost + (s.pmap c).inc_cost = explored_count W s.vmap c
  listed : ∀ c, in_map W c → s.vmap c = ' ' → voted (s.pmap c) →
    c ∈ rest ∨ c ∈ s.to_perim

/-- The vote count invariant at the start of a pass over the list `frm`. -/
def vote_inv (W : World) (frm : List Int) (s : prune_state) : Prop :=
  vote_mid W frm { s with to_perim := [], copied := 0 }

/-! ## The search for a destination: cells entered and expanded -/

/-- The cell `b`, if it is on the board and is of eligible terrain or is the
destination, is inside the perimeter. -/
def entered (W : World) (vmap : Int → Char) (mi : move_info_t) (type : Nat) (dest : Int)
    (s : map_state) (b : Int) : Prop :=
  (W.map b).on_board = true → (passable W vmap mi type b ∨ b = dest) →
    (s.pmap b).cost ≠ W.INFINITY

/-- The state of the loop of `vmap_find_dest` before the round that expands
the perimeter `fp`: every cell inside the perimeter that is the origin or is
of eligible terrain is in the list `fp`, or its eight neighbours are
entered. -/
def dest_closed (W : World) (vmap : Int → Char) (mi : move_info_t) (type : Nat)
    (cur dest : Int) (fp : List Int) (s : map_state) : Prop :=
  ∀ c, (s.pmap c).cost ≠ W.INFINITY → (c = cur ∨ passable W vmap mi type c) →
    c ∈ fp ∨ ∀ j, j < 8 → entered W vmap mi type dest s (c + dir_offset W j)

/-! ## Concrete runs for the low probability pass and for an unexplored city -/

/-- How the loop of high probability predictions ends on `prune_view`. -/
def prune_high_end : Bool × List Int × prune_state :=
  (high_loop demo_world 26 (prune_init demo_world prune_view).from_perim
    (prune_start demo_world prune_view)).getD (true, [], prune_start demo_world prune_view)

/-- The state after the pass of medium probability predictions on
`prune_view`, in which the loop of low probability predictions starts. -/
def prune_low_entry : prune_state :=
  prune_high_end.2.1.foldl (medium_step demo_world) { prune_high_end.2.2 with to_perim := [] }

/-- The state of the first pass of low probability predictions on `prune_view`
when it comes to the cell 15, after the cells 4, 3, 8, 9, 13 and 16. -/
def prune_low_mid : prune_state :=
  [4, 3, 8, 9, 13, 16].foldl (low_step demo_world)
    { prune_low_entry with to_perim := [], copied := 0 }

/-- The small world with a city of the owner 2 at the cell 7. -/
def city_world : World :=
  { MAP_WIDTH := 5, MAP_HEIGHT := 5, INFINITY := 100,
    MAP_LAND := '+', MAP_SEA := '.', MAP_CITY := '*',
    TRANSPORT := 5, transport_build_time := 30,
    map := fun loc =>
      if loc = 7 then
        { contents := '*', on_board := true, cityp := some { owner := 2, prod := 0, work := 0 } }
      else { contents := '+', on_board := demo_on_board loc, cityp := none } }

/-- A view of `city_world` on which the city at the cell 7 is unexplored, the
cells 11 and 12 show sea and the other cells show land. -/
def city_view : Int → Char :=
  fun c => if c = 7 then ' ' else if c = 11 ∨ c = 12 then '.' else '+'

/-- The states of the land search on `city_view` from the cell 6 after one
round and after two rounds. -/
def city_rounds : (perim_id × perim_id × map_state) × (perim_id × perim_id × map_state) :=
  ((free_rounds city_world city_view demo_move_info T_LAND
      (start_perimeter city_world demo_state perim_id.p1 6 T_LAND) 1).getD
      (perim_id.p1, perim_id.p2, demo_state),
    (free_rounds city_world city_view demo_move_info T_LAND
      (start_perimeter city_world demo_state perim_id.p1 6 T_LAND) 2).getD
      (perim_id.p1, perim_id.p2, demo_state))

/-! # Theorems -/

/-! ## Loops -/

theorem loopM_nil {σ α : Type} (f : σ → α → Option σ) (s : σ) : loopM f [] s = some s := rfl

theorem loopM_cons {σ α : Type} (f : σ → α → Option σ) (a : α) (l : List α) (s : σ) :
    loopM f (a :: l) s = (f s a).bind (loopM f l) := by
  cases h : f s a <;> simp [loopM, h]

theorem loopM_append {σ α : Type} (f : σ → α → Option σ) (l1 l2 : List α) (s : σ) :
    loopM f (l1 ++ l2) s = (loopM f l1 s).bind (loopM f l2) := by
  induction l1 generalizing s with
  | nil => simp [loopM_nil]
  | cons a l ih =>
    rw [List.cons_append, loopM_cons, loopM_cons]
    cases h : f s a with
    | none => simp
    | some s1 => simp [ih]

/-- A property kept by every iteration of a loop holds when the loop ends. -/
theorem loopM_inv {σ α : Type} (f : σ → α → Option σ) (P : σ → Prop) (l : List α)
    (hstep : ∀ s a s1, a ∈ l → P s → f s a = some s1 → P s1)
    (s s2 : σ) (h0 : P s) (h : loopM f l s = some s2) : P s2 := by
  induction l generalizing s with
  | nil => simp [loopM_nil] at h; exact h ▸ h0
  | cons a l ih =>
    rw [loopM_cons] at h
    cases hf : f s a with
    | none => simp [hf] at h
    | some s1 =>
      simp [hf] at h
      exact ih (fun s a s1 ha => hstep s a s1 (List.mem_cons_of_mem _ ha)) s1
        (hstep s a s1 (List.mem_cons_self _ _) h0 hf) h

/-- A loop none of whose iterations aborts does not abort. -/
theorem loopM_total {σ α : Type} (f : σ → α → Option σ) (P : σ → Prop) (l : List α)
    (hstep : ∀ s a, a ∈ l → P s → ∃ s1, f s a = some s1 ∧ P s1)
    (s : σ) (h0 : P s) : ∃ s2, loopM f l s = some s2 ∧ P s2 := by
  induction l generalizing s with
  | nil => exact ⟨s, rfl, h0⟩
  | cons a l ih =>
    obtain ⟨s1, hf, h1⟩ := hstep s a (List.mem_cons_self _ _) h0
    obtain ⟨s2, h2, h3⟩ := ih (fun s a ha => hstep s a (List.mem_cons_of_mem _ ha)) s1 h1
    exact ⟨s2, by rw [loopM_cons, hf]; simpa using h2, h3⟩

/-- What each iteration establishes for its own element, and later iterations
keep, holds for every element when the loop ends. -/
theorem loopM_each {σ α : Type} (f : σ → α → Option σ) (P : σ → Prop) (Q : α → σ → Prop)
    (l : List α)
    (hstep : ∀ s a s1, a ∈ l → P s → f s a = some s1 →
      P s1 ∧ Q a s1 ∧ ∀ b, Q b s → Q b s1)
    (s s2 : σ) (h0 : P s) (h : loopM f l s = some s2) : P s2 ∧ ∀ a ∈ l, Q a s2 := by
  induction l generalizing s with
  | nil => simp [loopM_nil] at h; subst h; exact ⟨h0, by simp⟩
  | cons a l ih =>
    rw [loopM_cons] at h
    cases hf : f s a with
    | none => simp [hf] at h
    | some s1 =>
      simp [hf] at h
      obtain ⟨hP1, hQ1, hkeep⟩ := hstep s a s1 (List.mem_cons_self _ _) h0 hf
      have hrest := ih (fun s a s1 ha => hstep s a s1 (List.mem_cons_of_mem _ ha)) s1 hP1 h
      refine ⟨hrest.1, ?_⟩
      intro b hb
      rcases List.mem_cons.1 hb with rfl | hb
      · -- kept by the rest of the loop
        have : P s2 ∧ Q b s2 :=
          loopM_inv f (fun t => P t ∧ Q b t) l
            (fun t c t1 hc ht hft =>
              let r := hstep t c t1 (List.mem_cons_of_mem _ hc) ht.1 hft
              ⟨r.1, r.2.2 b ht.2⟩) s1 s2 ⟨hP1, hQ1⟩ h
        exact this.2
      · exact hrest.2 b hb

/-! ## Glyph strings -/

theorem strchr_eq_none {s : List Char} {c : Char} : strchr s c = none ↔ c ∉ s := by
  induction s with
  | nil => simp [strchr]
  | cons x xs ih =>
    by_cases h : x = c
    · simp [strchr, h]
    · have h2 : ¬ c = x := fun e => h e.symm
      simp [strchr, h, h2, ih]

theorem strchr_lt {s : List Char} {c : Char} {i : Nat} (h : strchr s c = some i) :
    i < s.length := by
  induction s generalizing i with
  | nil => simp [strchr] at h
  | cons x xs ih =>
    by_cases hx : x = c
    · simp [strchr, hx] at h; subst h; simp
    · simp [strchr, hx] at h
      obtain ⟨k, hk, rfl⟩ := h
      have := ih hk
      simp; omega

theorem strchr_isSome {s : List Char} {c : Char} : (∃ i, strchr s c = some i) ↔ c ∈ s := by
  constructor
  · rintro ⟨i, hi⟩
    by_contra hc
    rw [← strchr_eq_none] at hc
    rw [hc] at hi; cases hi
  · intro hc
    cases h : strchr s c with
    | none => exact absurd hc (strchr_eq_none.1 h)
    | some i => exact ⟨i, rfl⟩

/-! ## Neighbours -/

theorem mem_adj_dirs {d : Nat} : d ∈ adj_dirs ↔ d < 8 := by
  simp [adj_dirs]

theorem mem_order {d : Nat} : d ∈ order ↔ d < 8 := by
  simp [order, NORTHWEST, NORTHEAST, SOUTHWEST, SOUTHEAST, WEST, EAST, NORTH, SOUTH]
  omega

theorem dir_offset_ne_zero (W : World) (hW : 1 < W.MAP_WIDTH) {d : Nat} (hd : d < 8) :
    dir_offset W d ≠ 0 := by
  have h : d = 0 ∨ d = 1 ∨ d = 2 ∨ d = 3 ∨ d = 4 ∨ d = 5 ∨ d = 6 ∨ d = 7 := by omega
  rcases h with rfl | rfl | rfl | rfl | rfl | rfl | rfl | rfl <;> simp [dir_offset] <;> omega

/-! ## The choice of a direction -/

theorem foldl_nonneg {α : Type} (f : Int → α → Int) (l : List α)
    (hf : ∀ c a, 0 ≤ c → 0 ≤ f c a) (c : Int) (hc : 0 ≤ c) : 0 ≤ l.foldl f c := by
  induction l generalizing c with
  | nil => simpa
  | cons a l ih => simp only [List.foldl_cons]; exact ih _ (hf c a hc)

theorem vmap_count_adjacent_nonneg (W : World) (vmap : Int → Char) (loc : Int)
    (adj_char : List Char) : 0 ≤ vmap_count_adjacent W vmap loc adj_char := by
  unfold vmap_count_adjacent
  apply foldl_nonneg _ _ _ 0 (le_refl 0)
  intro c i hc
  split
  · split
    · exact hc
    · rename_i p hp
      have := strchr_lt hp
      have : (0:Int) ≤ 8 * ((adj_char.length : Int) - (p : Int)) := by omega
      omega
  · exact hc

theorem vmap_count_path_nonneg (W : World) (pmap : Int → path_map_t) (loc : Int) :
    0 ≤ vmap_count_path W pmap loc := by
  unfold vmap_count_path
  apply foldl_nonneg _ _ _ 0 (le_refl 0)
  intro c i hc
  split
  · split
    · omega
    · exact hc
  · exact hc

theorem find_dir_step_inv (W : World) (path_map : Int → path_map_t) (vmap : Int → Char)
    (loc : Int) (terrain adj_char : List Char) (hI : 0 ≤ W.INFINITY)
    (pre : List Nat) (b : dir_best) (d : Nat)
    (h : find_dir_inv W path_map vmap loc terrain pre b) :
    find_dir_inv W path_map vmap loc terrain (pre ++ [d])
      (find_dir_step W path_map vmap loc terrain adj_char b d) := by
  have keep : find_dir_inv W path_map vmap loc terrain (pre ++ [d]) b ∨
      dir_candidate W path_map vmap loc terrain d := by
    by_cases hc : dir_candidate W path_map vmap loc terrain d
    · exact Or.inr hc
    · left
      rcases h with ⟨h1, h2, h3, h4⟩ | ⟨e, he, h1, h2⟩
      · left
        refine ⟨h1, h2, h3, ?_⟩
        intro x hx
        rcases List.mem_append.1 hx with hx | hx
        · exact h4 x hx
        · simp at hx; subst hx; exact hc
      · right
        exact ⟨e, List.mem_append_left _ he, h1, h2⟩
  have keep2 : ¬ dir_candidate W path_map vmap loc terrain d →
      find_dir_inv W path_map vmap loc terrain (pre ++ [d]) b := by
    intro hn; rcases keep with k | k
    · exact k
    · exact absurd k hn
  unfold find_dir_step
  by_cases hp : (path_map (loc + dir_offset W d)).terrain = T_PATH
  · simp only [hp, if_true]
    cases hs : strchr terrain (vmap (loc + dir_offset W d)) with
    | none =>
      simp only
      exact keep2 (fun hc => (strchr_eq_none.1 hs) hc.2)
    | some i =>
      simp only
      have hc : dir_candidate W path_map vmap loc terrain d :=
        ⟨hp, strchr_isSome.1 ⟨i, hs⟩⟩
      split
      · right
        exact ⟨d, by simp, rfl, hc⟩
      · rename_i hnot
        rcases h with ⟨h1, h2, h3, h4⟩ | ⟨e, he, h1, h2⟩
        · exfalso
          apply hnot
          have c0 := vmap_count_adjacent_nonneg W vmap (loc + dir_offset W d) adj_char
          have p0 := vmap_count_path_nonneg W path_map (loc + dir_offset W d)
          rw [h2, h3]
          by_cases hz : vmap_count_adjacent W vmap (loc + dir_offset W d) adj_char > -W.INFINITY
          · exact Or.inl hz
          · right
            constructor <;> omega
        · right
          exact ⟨e, List.mem_append_left _ he, h1, h2⟩
  · simp only [hp, if_false]
    exact keep2 (fun hc => hp hc.1)

theorem find_dir_foldl_inv (W : World) (path_map : Int → path_map_t) (vmap : Int → Char)
    (loc : Int) (terrain adj_char : List Char) (hI : 0 ≤ W.INFINITY)
    (l pre : List Nat) (b : dir_best)
    (h : find_dir_inv W path_map vmap loc terrain pre b) :
    find_dir_inv W path_map vmap loc terrain (pre ++ l)
      (l.foldl (find_dir_step W path_map vmap loc terrain adj_char) b) := by
  induction l generalizing pre b with
  | nil => simpa using h
  | cons d l ih =>
    simp only [List.foldl_cons]
    have := ih (pre ++ [d]) _ (find_dir_step_inv W path_map vmap loc terrain adj_char hI pre b d h)
    simpa using this

/-- C10: `vmap_find_dir` returns `loc` itself or one of the eight neighbours
`loc + dir_offset[d]` that is marked T_PATH in the path map and whose view
glyph occurs in the terrain string, and it returns `loc` exactly when no
neighbour meets both conditions (INFINITY is not negative and the map is at
least two cells wide, so that no neighbour offset is zero). -/
theorem vmap_find_dir_result (W : World) (path_map : Int → path_map_t) (vmap : Int → Char)
    (loc : Int) (terrain adj_char : List Char)
    (hI : 0 ≤ W.INFINITY) (hW : 1 < W.MAP_WIDTH) :
    (vmap_find_dir W path_map vmap loc terrain adj_char = loc ∨
      ∃ d, d < 8 ∧ vmap_find_dir W path_map vmap loc terrain adj_char = loc + dir_offset W d ∧
        (path_map (vmap_find_dir W path_map vmap loc terrain adj_char)).terrain = T_PATH ∧
        vmap (vmap_find_dir W path_map vmap loc terrain adj_char) ∈ terrain) ∧
    (vmap_find_dir W path_map vmap loc terrain adj_char = loc ↔
      ¬ ∃ d, d < 8 ∧ (path_map (loc + dir_offset W d)).terrain = T_PATH ∧
        vmap (loc + dir_offset W d) ∈ terrain) := by
  have h0 : find_dir_inv W path_map vmap loc terrain []
      { bestcount := -W.INFINITY, bestpath := -1, bestloc := loc } :=
    Or.inl ⟨rfl, rfl, rfl, by simp⟩
  have h := find_dir_foldl_inv W path_map vmap loc terrain adj_char hI order [] _ h0
  simp only [List.nil_append] at h
  unfold vmap_find_dir
  rcases h with ⟨h1, _, _, h4⟩ | ⟨e, he, h1, h2⟩
  · refine ⟨Or.inl h1, fun _ => ?_, fun _ => h1⟩
    rintro ⟨d, hd, hc⟩
    exact h4 d (mem_order.2 hd) hc
  · have he8 := mem_order.1 he
    refine ⟨Or.inr ⟨e, he8, h1, ?_, ?_⟩, fun hl => ?_, fun hn => ?_⟩
    · rw [h1]; exact h2.1
    · rw [h1]; exact h2.2
    · exfalso
      rw [h1] at hl
      have := dir_offset_ne_zero W hW he8
      omega
    · exact absurd ⟨e, he8, h2⟩ hn

/-! ## The view map is restored -/

theorem upd_upd_self {β : Type} (f : Int → β) (i : Int) (v : β) :
    upd (upd f i v) i (f i) = f := by
  funext j
  unfold upd
  by_cases h : j = i
  · simp [h]
  · simp [h]

/-- C4: for all inputs, when `vmap_find_dest` returns, the view map it leaves
is cell for cell the view map it was called with: the magic glyph written at
`dest_loc` has been replaced by the former contents and no other cell was
changed. -/
theorem vmap_find_dest_restores (W : World) (vmap : Int → Char) (cur_loc dest_loc owner : Int)
    (terrain fuel : Nat) (s : map_state) (r : Int × map_state × (Int → Char))
    (h : vmap_find_dest W vmap cur_loc dest_loc owner terrain fuel s = some r) :
    r.2.2 = vmap := by
  unfold vmap_find_dest at h
  simp only at h
  split at h
  · cases h
  · rename_i best s1 _
    cases h
    exact upd_upd_self vmap dest_loc '%'

/-! ## Path marking -/

theorem mark_rel_refl (pm : Int → path_map_t) : mark_rel pm pm :=
  fun _ => ⟨rfl, rfl, Or.inl rfl⟩

theorem mark_rel_trans {pm pm1 pm2 : Int → path_map_t} (h1 : mark_rel pm pm1)
    (h2 : mark_rel pm1 pm2) : mark_rel pm pm2 := by
  intro c
  obtain ⟨a1, b1, c1⟩ := h1 c
  obtain ⟨a2, b2, c2⟩ := h2 c
  refine ⟨a2.trans a1, b2.trans b1, ?_⟩
  rcases c2 with c2 | ⟨c2, d2⟩
  · rcases c1 with c1 | ⟨c1, d1⟩
    · exact Or.inl (c2.trans c1)
    · exact Or.inr ⟨c2.trans c1, d1⟩
  · exact Or.inr ⟨c2, by rw [← a1]; exact d2⟩

theorem mark_rel_mono {pm pm1 : Int → path_map_t} (h : mark_rel pm pm1) {c : Int}
    (hc : (pm c).terrain = T_PATH) : (pm1 c).terrain = T_PATH := by
  rcases (h c).2.2 with e | e
  · rw [e, hc]
  · exact e.1

theorem back_step_congr (W : World) {pm pm1 : Int → path_map_t} (h : mark_rel pm pm1)
    {y z : Int} : back_step W pm1 y z ↔ back_step W pm y z := by
  unfold back_step
  rw [(h z).1, (h y).1, (h y).2.1]

theorem mark_rel_upd (pm : Int → path_map_t) (x : Int) (h0 : (pm x).cost ≠ 0) :
    mark_rel pm (upd pm x
      { cost := (pm x).cost, inc_cost := (pm x).inc_cost, terrain := T_PATH }) := by
  intro c
  unfold upd
  by_cases hc : c = x
  · subst hc; simp [h0]
  · simp [hc]

theorem vmap_mark_path_sound (W : World) (fuel : Nat) :
    ∀ (pm : Int → path_map_t) (x : Int) (pm1 : Int → path_map_t),
      vmap_mark_path W fuel pm x = some pm1 → mark_rel pm pm1 ∧ mark_justified W pm pm1 x := by
  induction fuel with
  | zero => intro pm x pm1 h; simp [vmap_mark_path] at h
  | succ fuel ih =>
    intro pm x pm1 h
    unfold vmap_mark_path at h
    by_cases h0 : (pm x).cost = 0
    · simp only [h0, if_true] at h
      cases h
      exact ⟨mark_rel_refl pm, fun S hS => absurd hS.2 hS.1⟩
    · simp only [h0, if_false] at h
      by_cases hp : (pm x).terrain = T_PATH
      · simp only [hp, if_true] at h
        cases h
        exact ⟨mark_rel_refl pm, fun S hS => absurd hS.2 hS.1⟩
      · simp only [hp, if_false] at h
        have hx0 := mark_rel_upd pm x h0
        have key := loopM_inv _
          (fun q => mark_rel pm q ∧ (q x).terrain = T_PATH ∧ mark_justified W pm q x)
          adj_dirs ?_ _ pm1 ⟨hx0, by simp [upd], ?_⟩ h
        · exact ⟨key.1, key.2.2⟩
        · intro q n q1 hn ⟨hq, hqx, hj⟩ hstep
          have hn8 := mem_adj_dirs.1 hn
          split at hstep
          · rename_i hcost
            obtain ⟨hr, hjs⟩ := ih q (x + dir_offset W n) q1 hstep
            have hbs : back_step W pm x (x + dir_offset W n) :=
              (back_step_congr W hq).1 ⟨⟨n, hn8, rfl⟩, hcost⟩
            refine ⟨mark_rel_trans hq hr, mark_rel_mono hr hqx, ?_⟩
            intro S hS
            by_cases hqS : (q S).terrain = T_PATH
            · rcases hj S ⟨hS.1, hqS⟩ with e | ⟨P, hP, hb⟩
              · exact Or.inl e
              · exact Or.inr ⟨P, ⟨hP.1, mark_rel_mono hr hP.2⟩, hb⟩
            · rcases hjs S ⟨hqS, hS.2⟩ with e | ⟨P, hP, hb⟩
              · right
                refine ⟨x, ⟨hp, mark_rel_mono hr hqx⟩, ?_⟩
                rw [e]; exact hbs
              · right
                refine ⟨P, ⟨fun hpm => hP.1 (mark_rel_mono hq hpm), hP.2⟩, ?_⟩
                exact (back_step_congr W hq).1 hb
          · cases hstep
            exact ⟨hq, hqx, hj⟩
        · intro S hS
          left
          by_contra hne
          have : (upd pm x
              { cost := (pm x).cost, inc_cost := (pm x).inc_cost, terrain := T_PATH } S) = pm S := by
            simp [upd, hne]
          exact hS.1 (this ▸ hS.2)

/-- C7: for every path map and destination, every cell `S` other than `dest`
that `vmap_mark_path(path_map, vmap, dest)` marks T_PATH is one of the eight
neighbours of a cell `P` marked by the same call, with
`path_map[S].cost == path_map[P].cost - path_map[P].inc_cost`. -/
theorem vmap_mark_path_consistent (W : World) (fuel : Nat) (path_map : Int → path_map_t)
    (dest : Int) (pm1 : Int → path_map_t)
    (h : vmap_mark_path W fuel path_map dest = some pm1) (S : Int) (hS : S ≠ dest)
    (hnew : (path_map S).terrain ≠ T_PATH ∧ (pm1 S).terrain = T_PATH) :
    ∃ P, ((path_map P).terrain ≠ T_PATH ∧ (pm1 P).terrain = T_PATH) ∧
      (∃ n, n < 8 ∧ S = P + dir_offset W n) ∧
      (pm1 S).cost = (pm1 P).cost - (pm1 P).inc_cost := by
  obtain ⟨hr, hj⟩ := vmap_mark_path_sound W fuel path_map dest pm1 h
  rcases hj S hnew with e | ⟨P, hP, hb⟩
  · exact absurd e hS
  · have hb1 := (back_step_congr W hr).2 hb
    exact ⟨P, hP, hb1.1, hb1.2⟩

/-- C8 (as the code has it): `vmap_mark_path` returns at a cell of cost 0
before marking it, so the origin of the search (the cell with cost 0) is never
marked: its path map entry is left as it was. -/
theorem vmap_mark_path_origin_unmarked (W : World) (fuel : Nat) (path_map : Int → path_map_t)
    (dest origin : Int) (pm1 : Int → path_map_t)
    (h0 : (path_map origin).cost = 0)
    (h : vmap_mark_path W fuel path_map dest = some pm1) :
    pm1 origin = path_map origin := by
  obtain ⟨hr, _⟩ := vmap_mark_path_sound W fuel path_map dest pm1 h
  obtain ⟨a, b, c⟩ := hr origin
  have ht : (pm1 origin).terrain = (path_map origin).terrain := by
    rcases c with c | c
    · exact c
    · exact absurd h0 c.2
  cases hp : pm1 origin
  cases hq : path_map origin
  simp [hp, hq] at a b ht
  simp [a, b, ht]

/-! ## One step of the expansion: what it may change -/

theorem upd_same {β : Type} (f : Int → β) (i : Int) (v : β) : upd f i v i = v := by
  simp [upd]

theorem upd_other {β : Type} (f : Int → β) (i : Int) (v : β) {j : Int} (h : j ≠ i) :
    upd f i v j = f j := by
  simp [upd, h]

theorem set_perim_same (f : perim_id → List Int) (p : perim_id) (l : List Int) :
    set_perim f p l p = l := by
  simp [set_perim]

theorem set_perim_other (f : perim_id → List Int) (p : perim_id) (l : List Int)
    {q : perim_id} (h : q ≠ p) : set_perim f p l q = f q := by
  simp [set_perim, h]

theorem add_cell_eq {s s1 : map_state} {b : Int} {perim : Option perim_id} {t : Nat}
    {k i : Int} (h : add_cell s b perim t k i = some s1) :
    ∃ p, perim = some p ∧
      s1.pmap = upd s.pmap b { terrain := t, inc_cost := i, cost := k + i } ∧
      s1.perim = set_perim s.perim p (s.perim p ++ [b]) ∧
      s1.best_cost = s.best_cost ∧ s1.best_loc = s.best_loc := by
  unfold add_cell at h
  cases perim with
  | none => simp at h
  | some p =>
    simp at h
    subst h
    exact ⟨p, rfl, rfl, rfl, rfl, rfl⟩

theorem place_cell_frame {W : World} {type : Nat} {k iw il : Int}
    {waterp landp : Option perim_id} {s s1 : map_state} {b : Int} {t : Nat}
    (h : place_cell W type k iw il waterp landp s b t = some s1) :
    (∀ c, c ≠ b → s1.pmap c = s.pmap c) ∧ s1.best_cost = s.best_cost ∧
      s1.best_loc = s.best_loc := by
  unfold place_cell at h
  split at h
  · obtain ⟨p, _, h1, _, h3, h4⟩ := add_cell_eq h
    exact ⟨fun c hc => by rw [h1, upd_other _ _ _ hc], h3, h4⟩
  · split at h
    · obtain ⟨p, _, h1, _, h3, h4⟩ := add_cell_eq h
      exact ⟨fun c hc => by rw [h1, upd_other _ _ _ hc], h3, h4⟩
    · split at h
      · cases h
        exact ⟨fun c hc => by simp [upd_other _ _ _ hc], rfl, rfl⟩
      · cases h
        exact ⟨fun _ _ => rfl, rfl, rfl⟩

theorem note_objective_frame {W : World} {vmap : Int → Char} {mi : move_info_t} {k : Int}
    {s1 s2 : map_state} {b : Int} {t : Nat}
    (h : note_objective W vmap mi k s1 b t = some s2) :
    (∀ c, c ≠ b → s2.pmap c = s1.pmap c) ∧ s2.perim = s1.perim ∧
      s2.best_cost ≤ s1.best_cost ∧
      ((s2 = s1) ∨
        (s2.best_loc = b ∧ objective_cost W vmap mi b k = some s2.best_cost ∧
          s2.best_cost < s1.best_cost)) := by
  unfold note_objective at h
  cases ho : objective_cost W vmap mi b k with
  | none => simp [ho] at h
  | some oc =>
    simp only [ho] at h
    split at h
    · rename_i hlt
      split at h
      · cases h
        exact ⟨fun c hc => by simp [upd_other _ _ _ hc], rfl, le_of_lt hlt,
          Or.inr ⟨rfl, rfl, hlt⟩⟩
      · cases h
        exact ⟨fun _ _ => rfl, rfl, le_of_lt hlt, Or.inr ⟨rfl, rfl, hlt⟩⟩
    · cases h
      exact ⟨fun _ _ => rfl, rfl, le_refl _, Or.inl rfl⟩

/-- A step that does not find its cell on the board and outside the perimeter
changes nothing. -/
theorem expand_step_skip {W : World} {vmap : Int → Char} {mi : move_info_t} {type : Nat}
    {k iw il : Int} {waterp landp : Option perim_id} {a : Int} {s : map_state} {j : Nat}
    (h : (W.map (a + dir_offset W j)).on_board = false ∨
      (s.pmap (a + dir_offset W j)).cost ≠ W.INFINITY) :
    expand_step W vmap mi type k iw il waterp landp a s j = some s := by
  unfold expand_step
  rcases h with h | h
  · simp [h]
  · simp [h]

/-- A step on a cell that is on the board and outside the perimeter. -/
theorem expand_step_visit {W : World} {vmap : Int → Char} {mi : move_info_t} {type : Nat}
    {k iw il : Int} {waterp landp : Option perim_id} {a : Int} {s : map_state} {j : Nat}
    (hon : (W.map (a + dir_offset W j)).on_board = true)
    (hc : (s.pmap (a + dir_offset W j)).cost = W.INFINITY) :
    expand_step W vmap mi type k iw il waterp landp a s j =
      (terrain_type W s.pmap vmap mi a (a + dir_offset W j)).bind fun t =>
        (place_cell W type k iw il waterp landp s (a + dir_offset W j) t).bind fun s1 =>
          if (s1.pmap (a + dir_offset W j)).cost ≠ W.INFINITY then
            note_objective W vmap mi k s1 (a + dir_offset W j) t
          else some s1 := by
  unfold expand_step
  simp only [hon, hc, if_true]
  cases terrain_type W s.pmap vmap mi a (a + dir_offset W j) with
  | none => rfl
  | some t =>
    simp only [Option.bind]
    cases place_cell W type k iw il waterp landp s (a + dir_offset W j) t with
    | none => rfl
    | some s1 => rfl

/-- A step changes the path map at most at the cell it visits. -/
theorem expand_step_frame {W : World} {vmap : Int → Char} {mi : move_info_t} {type : Nat}
    {k iw il : Int} {waterp landp : Option perim_id} {a : Int} {s s2 : map_state} {j : Nat}
    (h : expand_step W vmap mi type k iw il waterp landp a s j = some s2) :
    (∀ c, c ≠ a + dir_offset W j → s2.pmap c = s.pmap c) ∧ s2.best_cost ≤ s.best_cost := by
  by_cases hon : (W.map (a + dir_offset W j)).on_board = true
  · by_cases hc : (s.pmap (a + dir_offset W j)).cost = W.INFINITY
    · rw [expand_step_visit hon hc] at h
      cases ht : terrain_type W s.pmap vmap mi a (a + dir_offset W j) with
      | none => simp [ht] at h
      | some t =>
        simp only [ht, Option.bind] at h
        cases hp : place_cell W type k iw il waterp landp s (a + dir_offset W j) t with
        | none => simp [hp] at h
        | some s1 =>
          simp only [hp] at h
          obtain ⟨p1, p2, _⟩ := place_cell_frame hp
          split at h
          · obtain ⟨n1, _, n3, _⟩ := note_objective_frame h
            exact ⟨fun c hc => by rw [n1 c hc, p1 c hc], by rw [← p2]; exact n3⟩
          · cases h
            exact ⟨p1, le_of_eq p2⟩
    · rw [expand_step_skip (Or.inr hc)] at h
      cases h
      exact ⟨fun _ _ => rfl, le_refl _⟩
  · rw [expand_step_skip (Or.inl (by simpa using hon))] at h
    cases h
    exact ⟨fun _ _ => rfl, le_refl _⟩

/-- A step leaves alone every cell that is already inside the perimeter. -/
theorem expand_step_frozen {W : World} {vmap : Int → Char} {mi : move_info_t} {type : Nat}
    {k iw il : Int} {waterp landp : Option perim_id} {a : Int} {s s2 : map_state} {j : Nat}
    (h : expand_step W vmap mi type k iw il waterp landp a s j = some s2)
    (c : Int) (hc : (s.pmap c).cost ≠ W.INFINITY) : s2.pmap c = s.pmap c := by
  by_cases hb : c = a + dir_offset W j
  · subst hb
    rw [expand_step_skip (Or.inr hc)] at h
    cases h; rfl
  · exact (expand_step_frame h).1 c hb

/-! ## `vmap_find_dest` on a grid of eligible terrain: one step -/

theorem terrain_type_eligible (W : World) (vmap : Int → Char) (dest owner : Int)
    (terrain : Nat) (pm : Int → path_map_t) (a b : Int) (hg : glyphs_ok W)
    (hb : b ≠ dest) (he : eligible_view W vmap terrain b) :
    terrain_type W pm (upd vmap dest '%') (dest_move_info owner) a b =
      some (view_class W vmap b) ∧
    ((view_class W vmap b = T_LAND ∧ terrain &&& T_LAND ≠ 0) ∨
      (view_class W vmap b = T_WATER ∧ terrain &&& T_WATER ≠ 0)) := by
  obtain ⟨g1, _, _, g4, g5, _⟩ := hg
  have hv : upd vmap dest '%' b = vmap b := upd_other _ _ _ hb
  have hcls : view_class W vmap b = if vmap b = W.MAP_LAND then T_LAND else T_WATER := rfl
  by_cases hl : vmap b = W.MAP_LAND
  · rw [hcls, if_pos hl]
    constructor
    · unfold terrain_type
      rw [hv, if_pos hl]
    · left
      refine ⟨rfl, ?_⟩
      rcases he with ⟨h, _⟩ | ⟨h, h2⟩ | ⟨h, _⟩
      · subst h; decide
      · exact absurd (hl.symm.trans h2) g1
      · subst h; decide
  · have hs : vmap b = W.MAP_SEA := by
      rcases he with ⟨_, h⟩ | ⟨_, h⟩ | ⟨_, h | h⟩
      · exact absurd h hl
      · exact h
      · exact absurd h hl
      · exact h
    rw [hcls, if_neg hl]
    constructor
    · unfold terrain_type
      rw [hv, if_neg hl, if_pos hs]
    · right
      refine ⟨rfl, ?_⟩
      rcases he with ⟨_, h⟩ | ⟨h, _⟩ | ⟨h, _⟩
      · exact absurd h hl
      · subst h; decide
      · subst h; decide

theorem objective_cost_plain (W : World) (vmap : Int → Char) (dest owner : Int)
    (terrain : Nat) (b : Int) (k : Int) (hg : glyphs_ok W)
    (hb : b ≠ dest) (he : eligible_view W vmap terrain b) :
    objective_cost W (upd vmap dest '%') (dest_move_info owner) b k = some W.INFINITY := by
  obtain ⟨_, _, _, g4, g5, _⟩ := hg
  have hv : upd vmap dest '%' b = vmap b := upd_other _ _ _ hb
  have hne : vmap b ≠ '%' := by
    rcases he with ⟨_, h⟩ | ⟨_, h⟩ | ⟨_, h | h⟩ <;> rw [h] <;> assumption
  have hne2 : ¬ '%' = vmap b := fun e => hne e.symm
  unfold objective_cost
  simp [hv, dest_move_info, strchr, hne2]

theorem objective_cost_dest (W : World) (vmap : Int → Char) (dest owner : Int) (k : Int) :
    objective_cost W (upd vmap dest '%') (dest_move_info owner) dest k = some (1 + k) := by
  unfold objective_cost
  simp [upd_same, dest_move_info, strchr]

/-- The step of the expansion on a cell other than the destination: the cell
enters the new perimeter with cost `k + 1`. -/
theorem step_plain (W : World) (vmap : Int → Char) (dest owner : Int) (terrain : Nat)
    (k : Int) (tp : perim_id) (a : Int) (s : map_state) (j : Nat) (hg : glyphs_ok W)
    (hon : (W.map (a + dir_offset W j)).on_board = true)
    (hc : (s.pmap (a + dir_offset W j)).cost = W.INFINITY)
    (hb : a + dir_offset W j ≠ dest)
    (he : eligible_view W vmap terrain (a + dir_offset W j))
    (hbest : s.best_cost ≤ W.INFINITY) :
    ∃ s2, expand_step W (upd vmap dest '%') (dest_move_info owner) terrain k 1 1
        (some tp) (some tp) a s j = some s2 ∧
      s2.pmap = upd s.pmap (a + dir_offset W j)
        { cost := k + 1, inc_cost := 1, terrain := view_class W vmap (a + dir_offset W j) } ∧
      s2.perim = set_perim s.perim tp (s.perim tp ++ [a + dir_offset W j]) ∧
      s2.best_cost = s.best_cost ∧ s2.best_loc = s.best_loc := by
  obtain ⟨ht, hm⟩ := terrain_type_eligible W vmap dest owner terrain s.pmap a _ hg hb he
  have ho := objective_cost_plain W vmap dest owner terrain _ k hg hb he
  rw [expand_step_visit hon hc, ht]
  simp only [Option.bind]
  have hp : place_cell W terrain k 1 1 (some tp) (some tp) s (a + dir_offset W j)
      (view_class W vmap (a + dir_offset W j)) =
      some { s with
        pmap := upd s.pmap (a + dir_offset W j)
          { cost := k + 1, inc_cost := 1,
            terrain := view_class W vmap (a + dir_offset W j) }
        perim := set_perim s.perim tp (s.perim tp ++ [a + dir_offset W j]) } := by
    unfold place_cell
    rcases hm with ⟨h1, h2⟩ | ⟨h1, h2⟩
    · simp [h1, h2, add_cell]
    · have : ¬ (T_WATER = T_LAND) := by decide
      simp [h1, h2, add_cell, this]
  rw [hp]
  simp only
  split
  · unfold note_objective
    rw [ho]
    simp only
    have : ¬ W.INFINITY < s.best_cost := not_lt.2 hbest
    simp only [this, if_false]
    exact ⟨_, rfl, rfl, rfl, rfl, rfl⟩
  · exact ⟨_, rfl, rfl, rfl, rfl, rfl⟩

/-- The step of the expansion on the destination, marked with the magic
glyph: it becomes the best objective, at cost `k + 1`, and its path map
entry gets the cost `k + 2` and the increment 2. -/
theorem step_dest (W : World) (vmap : Int → Char) (dest owner : Int) (terrain : Nat)
    (k : Int) (tp : perim_id) (a : Int) (s : map_state) (j : Nat) (hg : glyphs_ok W)
    (hon : (W.map (a + dir_offset W j)).on_board = true)
    (hc : (s.pmap (a + dir_offset W j)).cost = W.INFINITY)
    (hb : a + dir_offset W j = dest)
    (hbest : s.best_cost = W.INFINITY)
    (hk : k + 1 < W.INFINITY) (hk2 : k + Int.tdiv W.INFINITY 2 ≠ W.INFINITY) :
    ∃ s2, expand_step W (upd vmap dest '%') (dest_move_info owner) terrain k 1 1
        (some tp) (some tp) a s j = some s2 ∧
      s2.pmap = upd s.pmap dest { cost := k + 2, inc_cost := 2, terrain := T_UNKNOWN } ∧
      s2.perim = s.perim ∧ s2.best_cost = k + 1 ∧ s2.best_loc = dest := by
  obtain ⟨_, _, _, g4, g5, _⟩ := hg
  rw [expand_step_visit hon hc, hb]
  have ht : terrain_type W s.pmap (upd vmap dest '%') (dest_move_info owner) a dest =
      some T_UNKNOWN := by
    unfold terrain_type
    have g4' : ¬ '%' = W.MAP_LAND := fun e => g4 e.symm
    have g5' : ¬ '%' = W.MAP_SEA := fun e => g5 e.symm
    simp [upd_same, g4', g5']
  rw [ht]
  simp only [Option.bind]
  have hp : place_cell W terrain k 1 1 (some tp) (some tp) s dest T_UNKNOWN =
      some { s with
        pmap := upd s.pmap dest
          { terrain := T_UNKNOWN, cost := k + Int.tdiv W.INFINITY 2,
            inc_cost := Int.tdiv W.INFINITY 2 } } := by
    unfold place_cell
    have h1 : ¬ (T_UNKNOWN = T_LAND) := by decide
    have h2 : ¬ (T_UNKNOWN = T_WATER) := by decide
    simp [h1, h2]
  rw [hp]
  simp only [upd_same, ne_eq, hk2, not_false_eq_true, if_true]
  unfold note_objective
  rw [objective_cost_dest]
  have hlt : 1 + k < W.INFINITY := by omega
  simp only [hbest, hlt, if_true, upd_same]
  refine ⟨_, rfl, ?_, rfl, by simp; omega, rfl⟩
  funext c
  by_cases hcd : c = dest
  · subst hcd; simp [upd_same]
  · simp [upd_other _ _ _ hcd]

/-! ## `vmap_find_dest` on a grid of eligible terrain: one round -/

theorem reach_ne_dest {W : World} {cur dest : Int} {n : Nat} {c : Int}
    (h : reach W cur dest n c) (hne : cur ≠ dest) : c ≠ dest := by
  cases h with
  | zero => exact hne
  | step _ _ _ hb => exact hb

theorem bfs_inv_dest {W : World} {vmap : Int → Char} {cur dest : Int} {start k : Nat}
    {fp : perim_id} {s : map_state} (h : bfs_inv W vmap cur dest start k fp s)
    (hne : cur ≠ dest) : (s.pmap dest).cost = W.INFINITY := by
  by_contra hc
  obtain ⟨j, _, _, hr, _⟩ := h.fin dest hc
  exact reach_ne_dest hr hne rfl

theorem round_inv_start {W : World} {vmap : Int → Char} {cur dest : Int} {start k : Nat}
    {fp tp : perim_id} {s0 : map_state} (h : bfs_inv W vmap cur dest start k fp s0)
    (hne : cur ≠ dest) (hfp : fp ≠ tp) :
    round_inv W vmap cur dest k fp tp s0 { s0 with perim := set_perim s0.perim tp [] } where
  old := fun _ _ => rfl
  new := fun _ hc _ => Or.inl hc
  out := by
    intro c
    simp only [set_perim_same]
    constructor
    · intro hc; cases hc
    · rintro ⟨h1, _, h3⟩; exact absurd h1 h3
  src := set_perim_other _ _ _ hfp
  best := Or.inl ⟨h.best.1, h.best.2, (bfs_inv_dest h hne : (s0.pmap dest).cost = W.INFINITY)⟩

/-- One step of a round keeps the round invariant, does not abort, and leaves
the visited cell inside the perimeter when it is on the board. -/
theorem round_step (W : World) (vmap : Int → Char) (cur dest owner : Int) (terrain : Nat)
    (k : Nat) (fp tp : perim_id) (s0 s : map_state) (a : Int) (j : Nat)
    (hu : eligible_grid W vmap cur dest terrain) (hfp : fp ≠ tp)
    (hk : (k : Int) + 2 < W.INFINITY) (hk2 : (k : Int) + Int.tdiv W.INFINITY 2 ≠ W.INFINITY)
    (ha : a ∈ s0.perim fp) (hj : j < 8)
    (hr : round_inv W vmap cur dest k fp tp s0 s) :
    ∃ s2, expand_step W (upd vmap dest '%') (dest_move_info owner) terrain k 1 1
        (some tp) (some tp) a s j = some s2 ∧
      round_inv W vmap cur dest k fp tp s0 s2 ∧
      ((W.map (a + dir_offset W j)).on_board = true →
        (s2.pmap (a + dir_offset W j)).cost ≠ W.INFINITY) := by
  by_cases hon : (W.map (a + dir_offset W j)).on_board = true
  swap
  · exact ⟨s, expand_step_skip (Or.inl (by simpa using hon)), hr, fun h => absurd h hon⟩
  by_cases hc : (s.pmap (a + dir_offset W j)).cost = W.INFINITY
  swap
  · exact ⟨s, expand_step_skip (Or.inr hc), hr, fun _ => hc⟩
  have hc0 : (s0.pmap (a + dir_offset W j)).cost = W.INFINITY := by
    by_contra hne
    rw [hr.old _ hne] at hc
    exact hne hc
  have hbest : s.best_cost ≤ W.INFINITY := by
    rcases hr.best with ⟨h, _⟩ | ⟨h, _⟩
    · exact le_of_eq h
    · rw [h]; omega
  by_cases hb : a + dir_offset W j = dest
  · -- the destination
    have hbest2 : s.best_cost = W.INFINITY := by
      rcases hr.best with ⟨h, _⟩ | ⟨_, _, h, _⟩
      · exact h
      · exfalso
        rw [hb, h] at hc
        simp at hc
        omega
    obtain ⟨s2, he, e1, e2, e3, e4⟩ := step_dest W vmap dest owner terrain k tp a s j
      hu.glyphs hon hc hb hbest2 (by omega) hk2
    refine ⟨s2, he, ?_, ?_⟩
    · refine ⟨?_, ?_, ?_, ?_, ?_⟩
      · intro c hcc
        have hcd : c ≠ dest := by
          rintro rfl; rw [← hb] at hcc; exact hcc hc0
        rw [e1, upd_other _ _ _ hcd]
        exact hr.old c hcc
      · intro c hcc hcd
        rw [e1, upd_other _ _ _ hcd]
        exact hr.new c hcc hcd
      · intro c
        rw [e2, hr.out c]
        by_cases hcd : c = dest
        · simp [hcd]
        · rw [e1, upd_other _ _ _ hcd]
      · rw [e2]; exact hr.src
      · right
        refine ⟨e3, e4, ?_, hb ▸ hon, a, ha, ⟨j, hj, hb.symm⟩⟩
        rw [e1, upd_same]
    · intro _
      rw [hb, e1, upd_same]
      simp
      omega
  · -- any other cell
    obtain ⟨s2, he, e1, e2, e3, e4⟩ := step_plain W vmap dest owner terrain k tp a s j
      hu.glyphs hon hc hb (hu.elig _ hon) hbest
    refine ⟨s2, he, ?_, ?_⟩
    · refine ⟨?_, ?_, ?_, ?_, ?_⟩
      · intro c hcc
        have hcb : c ≠ a + dir_offset W j := by
          rintro rfl; exact hcc hc0
        rw [e1, upd_other _ _ _ hcb]
        exact hr.old c hcc
      · intro c hcc hcd
        by_cases hcb : c = a + dir_offset W j
        · right
          subst hcb
          rw [e1, upd_same]
          exact ⟨rfl, hon, a, ha, ⟨j, hj, rfl⟩⟩
        · rw [e1, upd_other _ _ _ hcb]
          exact hr.new c hcc hcd
      · intro c
        rw [e2, set_perim_same, List.mem_append, hr.out c]
        by_cases hcb : c = a + dir_offset W j
        · subst hcb
          rw [e1, upd_same]
          simp only [List.mem_singleton, or_true, true_iff]
          refine ⟨hc0, hb, ?_⟩
          simp
          omega
        · rw [e1, upd_other _ _ _ hcb]
          simp [hcb]
      · rw [e2, set_perim_other _ _ _ hfp]; exact hr.src
      · have hd : dest ≠ a + dir_offset W j := fun e => hb e.symm
        rw [e3, e4, e1, upd_other _ _ _ hd]
        exact hr.best
    · intro _
      rw [e1, upd_same]
      simp
      omega

/-! ## Chains -/

theorem reach_chain {W : World} {cur dest : Int} {n : Nat} {c : Int}
    (h : reach W cur dest n c) : chain W cur n c := by
  induction h with
  | zero => exact chain.zero
  | step _ ha hon _ ih => exact chain.step ih ha hon

theorem chain_reach {W : World} {cur dest : Int} {n : Nat} {c : Int}
    (h : chain W cur n c) (hfar : ∀ m, chain W cur m dest → n < m) :
    reach W cur dest n c := by
  induction h with
  | zero => exact reach.zero
  | @step n a b hc ha hon ih =>
    refine reach.step (ih fun m hm => by have := hfar m hm; omega) ha hon ?_
    rintro rfl
    have := hfar (n + 1) (chain.step hc ha hon)
    omega

theorem chain_concat {W : World} {cur c e : Int} {n m : Nat}
    (h1 : chain W cur n c) (h2 : chain W c m e) : chain W cur (n + m) e := by
  induction h2 with
  | zero => exact h1
  | step _ ha hon ih => exact chain.step ih ha hon

theorem chain_split {W : World} {cur e : Int} {N : Nat} (h : chain W cur N e) :
    ∀ n, n ≤ N → ∃ c, chain W cur n c ∧ chain W c (N - n) e := by
  induction h with
  | zero =>
    intro n hn
    have : n = 0 := by omega
    subst this
    exact ⟨cur, chain.zero, chain.zero⟩
  | @step N a b hc ha hon ih =>
    intro n hn
    by_cases hN : n = N + 1
    · subst hN
      refine ⟨b, chain.step hc ha hon, ?_⟩
      simp only [Nat.sub_self]
      exact chain.zero
    · obtain ⟨c, h1, h2⟩ := ih n (by omega)
      refine ⟨c, h1, ?_⟩
      have e : N + 1 - n = (N - n) + 1 := by omega
      rw [e]
      exact chain.step h2 ha hon

/-! ## `vmap_find_dest` on a grid of eligible terrain: the rounds -/

/-- A loop none of whose iterations aborts: the invariant holds at the end,
and so does, for every element, what its iteration establishes and the later
ones keep. -/
theorem loopM_run {σ α : Type} (f : σ → α → Option σ) (P : σ → Prop) (Q : α → σ → Prop)
    (l : List α)
    (hstep : ∀ s a, a ∈ l → P s → ∃ s1, f s a = some s1 ∧ P s1 ∧ Q a s1)
    (hkeep : ∀ s a s1 b, a ∈ l → P s → f s a = some s1 → Q b s → Q b s1)
    (s : σ) (h0 : P s) : ∃ s2, loopM f l s = some s2 ∧ P s2 ∧ ∀ a ∈ l, Q a s2 := by
  obtain ⟨s2, h2, _⟩ := loopM_total f P l
    (fun s a ha hs => by
      obtain ⟨s1, h1, h3, _⟩ := hstep s a ha hs
      exact ⟨s1, h1, h3⟩) s h0
  have := loopM_each f P Q l
    (fun s a s1 ha hs hf => by
      obtain ⟨s1', h1, h3, h4⟩ := hstep s a ha hs
      rw [hf] at h1
      cases h1
      exact ⟨h3, h4, fun b hb => hkeep s a s1 b ha hs hf hb⟩) s s2 h0 h2
  exact ⟨s2, h2, this.1, this.2⟩

/-- One round of `vmap_find_dest`: the expansion does not abort, keeps the
round invariant, and leaves every on-board neighbour of a cell of the old
perimeter inside the perimeter. -/
theorem round_run (W : World) (vmap : Int → Char) (cur dest owner : Int) (terrain : Nat)
    (start k : Nat) (fp tp : perim_id) (s0 : map_state)
    (hu : eligible_grid W vmap cur dest terrain) (hfp : fp ≠ tp)
    (hk : (k : Int) + 2 < W.INFINITY) (hk2 : (k : Int) + Int.tdiv W.INFINITY 2 ≠ W.INFINITY)
    (hi : bfs_inv W vmap cur dest start k fp s0) :
    ∃ s1, expand_perimeter W (upd vmap dest '%') (dest_move_info owner) fp terrain k 1 1
        (some tp) (some tp) { s0 with perim := set_perim s0.perim tp [] } = some s1 ∧
      round_inv W vmap cur dest k fp tp s0 s1 ∧
      ∀ a, a ∈ s0.perim fp → ∀ j, j < 8 → (W.map (a + dir_offset W j)).on_board = true →
        (s1.pmap (a + dir_offset W j)).cost ≠ W.INFINITY := by
  unfold expand_perimeter
  have hl : set_perim s0.perim tp [] fp = s0.perim fp := set_perim_other _ _ _ hfp
  simp only [hl]
  apply loopM_run _ (round_inv W vmap cur dest k fp tp s0)
    (fun a s => ∀ j, j < 8 → (W.map (a + dir_offset W j)).on_board = true →
        (s.pmap (a + dir_offset W j)).cost ≠ W.INFINITY)
  · intro s a ha hs
    unfold expand_cell
    have := loopM_run
      (expand_step W (upd vmap dest '%') (dest_move_info owner) terrain k 1 1
        (some tp) (some tp) a)
      (round_inv W vmap cur dest k fp tp s0)
      (fun j s => (W.map (a + dir_offset W j)).on_board = true →
        (s.pmap (a + dir_offset W j)).cost ≠ W.INFINITY)
      adj_dirs
      (fun s j hj hs =>
        round_step W vmap cur dest owner terrain k fp tp s0 s a j hu hfp hk hk2 ha
          (mem_adj_dirs.1 hj) hs)
      (fun s j s1 b _ _ hf hq hon => by
        rw [expand_step_frozen hf _ (hq hon)]; exact hq hon)
      s hs
    obtain ⟨s2, h2, h3, h4⟩ := this
    exact ⟨s2, h2, h3, fun j hj => h4 j (mem_adj_dirs.2 hj)⟩
  · intro s a s1 b _ _ hf hq j hj hon
    have hfrozen : ∀ c, (s.pmap c).cost ≠ W.INFINITY → s1.pmap c = s.pmap c := by
      unfold expand_cell at hf
      have := loopM_inv
        (expand_step W (upd vmap dest '%') (dest_move_info owner) terrain k 1 1
          (some tp) (some tp) a)
        (fun t => ∀ c, (s.pmap c).cost ≠ W.INFINITY → t.pmap c = s.pmap c) adj_dirs
        (fun t i t1 _ ht hft c hc => by
          have h1 := ht c hc
          rw [expand_step_frozen hft c (by rw [h1]; exact hc), h1])
        s s1 (fun _ _ => rfl) hf
      exact this
    rw [hfrozen _ (hq j hj hon)]
    exact hq j hj hon
  · exact round_inv_start hi hu.distinct hfp

/-- After a round, the cells other than the destination that are inside the
perimeter are those at most `k + 1` steps away, with their number of steps as
cost. -/
theorem round_cells {W : World} {vmap : Int → Char} {cur dest : Int} {start k : Nat}
    {fp tp : perim_id} {s0 s1 : map_state}
    (hk : (k : Int) + 2 < W.INFINITY)
    (hi : bfs_inv W vmap cur dest start k fp s0)
    (hr : round_inv W vmap cur dest k fp tp s0 s1)
    (hp : ∀ a, a ∈ s0.perim fp → ∀ j, j < 8 → (W.map (a + dir_offset W j)).on_board = true →
        (s1.pmap (a + dir_offset W j)).cost ≠ W.INFINITY) :
    s1.pmap cur = { cost := 0, inc_cost := 0, terrain := start } ∧
    (∀ c, c ≠ dest → (s1.pmap c).cost ≠ W.INFINITY → ∃ j : Nat, j ≤ k + 1 ∧
      (s1.pmap c).cost = j ∧ reach W cur dest j c ∧ (∀ m, reach W cur dest m c → j ≤ m) ∧
      (c ≠ cur → (s1.pmap c).inc_cost = 1 ∧ (s1.pmap c).terrain = view_class W vmap c)) ∧
    (∀ c j, j ≤ k + 1 → reach W cur dest j c → (s1.pmap c).cost ≠ W.INFINITY) ∧
    (∀ c, c ≠ dest → (c ∈ s1.perim tp ↔ (s1.pmap c).cost = ((k + 1 : Nat) : Int))) := by
  have hcur : (s0.pmap cur).cost ≠ W.INFINITY := by
    rw [hi.origin]; simp; omega
  have hfin : ∀ c, c ≠ dest → (s1.pmap c).cost ≠ W.INFINITY → ∃ j : Nat, j ≤ k + 1 ∧
      (s1.pmap c).cost = j ∧ reach W cur dest j c ∧ (∀ m, reach W cur dest m c → j ≤ m) ∧
      (c ≠ cur → (s1.pmap c).inc_cost = 1 ∧ (s1.pmap c).terrain = view_class W vmap c) := by
    intro c hcd hc
    by_cases hc0 : (s0.pmap c).cost = W.INFINITY
    · rcases hr.new c hc0 hcd with h | ⟨h1, h2, a, ha, hadj⟩
      · exact absurd h hc
      · have hak : (s0.pmap a).cost = k := (hi.front a).1 ha
        obtain ⟨j, _, hj2, hj3, _⟩ := hi.fin a (by rw [hak]; omega)
        have hjk : j = k := by rw [hak] at hj2; exact_mod_cast hj2.symm
        subst hjk
        refine ⟨j + 1, le_refl _, ?_, reach.step hj3 hadj h2 hcd, ?_, ?_⟩
        · rw [h1]; simp
        · intro m hm
          by_contra hlt
          exact hi.compl c m (by omega) hm hc0
        · intro _
          rw [h1]; exact ⟨rfl, rfl⟩
    · rw [hr.old c hc0]
      obtain ⟨j, hj1, hj⟩ := hi.fin c hc0
      exact ⟨j, by omega, hj⟩
  have hcompl : ∀ c j, j ≤ k + 1 → reach W cur dest j c → (s1.pmap c).cost ≠ W.INFINITY := by
    intro c j hj hrc
    by_cases hjk : j ≤ k
    · have := hi.compl c j hjk hrc
      rw [hr.old c this]; exact this
    · have hj' : j = k + 1 := by omega
      subst hj'
      cases hrc with
      | @step _ p _ hrp hadj hon hcd =>
        have hp0 := hi.compl p k (le_refl _) hrp
        obtain ⟨j', hj1, hj2, hj3, hj4, _⟩ := hi.fin p hp0
        by_cases hlt : j' < k
        · have := hi.compl c (j' + 1) (by omega) (reach.step hj3 hadj hon hcd)
          rw [hr.old c this]; exact this
        · have hjk' : j' = k := by omega
          subst hjk'
          have hpf : p ∈ s0.perim fp := (hi.front p).2 hj2
          obtain ⟨d, hd, rfl⟩ := hadj
          exact hp p hpf d hd hon
  refine ⟨?_, hfin, hcompl, ?_⟩
  · rw [hr.old cur hcur]; exact hi.origin
  · intro c hcd
    rw [hr.out c]
    constructor
    · rintro ⟨h1, _, h3⟩
      rcases hr.new c h1 hcd with h | ⟨h, _⟩
      · exact absurd h h3
      · rw [h]; simp
    · intro h
      have hne : (s1.pmap c).cost ≠ W.INFINITY := by
        rw [h]; push_cast; omega
      refine ⟨?_, hcd, hne⟩
      by_contra hc0
      obtain ⟨j, hj1, hj2, _⟩ := hi.fin c hc0
      rw [hr.old c hc0, hj2] at h
      have : j = k + 1 := by exact_mod_cast h
      omega

/-- A round that does not reach the destination leads to the state before the
next round. -/
theorem bfs_next {W : World} {vmap : Int → Char} {cur dest : Int} {start k : Nat}
    {fp tp : perim_id} {s0 s1 : map_state}
    (hk : (k : Int) + 2 < W.INFINITY)
    (hi : bfs_inv W vmap cur dest start k fp s0)
    (hr : round_inv W vmap cur dest k fp tp s0 s1)
    (hp : ∀ a, a ∈ s0.perim fp → ∀ j, j < 8 → (W.map (a + dir_offset W j)).on_board = true →
        (s1.pmap (a + dir_offset W j)).cost ≠ W.INFINITY)
    (hb : s1.best_cost = W.INFINITY ∧ s1.best_loc = cur ∧ (s1.pmap dest).cost = W.INFINITY) :
    bfs_inv W vmap cur dest start (k + 1) tp s1 := by
  obtain ⟨h1, h2, h3, h4⟩ := round_cells hk hi hr hp
  refine ⟨h1, ?_, h3, ?_, ⟨hb.1, hb.2.1⟩⟩
  · intro c hc
    have hcd : c ≠ dest := by rintro rfl; exact hc hb.2.2
    exact h2 c hcd hc
  · intro c
    by_cases hcd : c = dest
    · subst hcd
      rw [hr.out c, hb.2.2]
      constructor
      · rintro ⟨_, h, _⟩; exact absurd rfl h
      · intro h; exfalso; push_cast at h; omega
    · exact h4 c hcd

/-- The round that reaches the destination leads to the final state. -/
theorem bfs_last {W : World} {vmap : Int → Char} {cur dest : Int} {start k : Nat}
    {fp tp : perim_id} {s0 s1 : map_state}
    (hk : (k : Int) + 2 < W.INFINITY)
    (hi : bfs_inv W vmap cur dest start k fp s0)
    (hr : round_inv W vmap cur dest k fp tp s0 s1)
    (hp : ∀ a, a ∈ s0.perim fp → ∀ j, j < 8 → (W.map (a + dir_offset W j)).on_board = true →
        (s1.pmap (a + dir_offset W j)).cost ≠ W.INFINITY)
    (hb : s1.best_cost = k + 1 ∧ s1.best_loc = dest ∧
      s1.pmap dest = { cost := k + 2, inc_cost := 2, terrain := T_UNKNOWN }) :
    bfs_final W vmap cur dest start (k + 1) s1 := by
  obtain ⟨h1, h2, h3, _⟩ := round_cells hk hi hr hp
  refine ⟨h1, h2, h3, ?_, ?_, hb.2.1⟩
  · rw [hb.2.2]; simp; omega
  · rw [hb.1]; simp

/-! ## `vmap_find_dest` on a grid of eligible terrain: the search -/

theorem chain_one_inv {W : World} {c e : Int} (h : chain W c 1 e) :
    adj W c e ∧ (W.map e).on_board = true := by
  cases h with
  | step h0 ha hon =>
    cases h0
    exact ⟨ha, hon⟩

theorem bfs_inv_start (W : World) (vmap : Int → Char) (cur dest : Int) (start : Nat)
    (s : map_state) (hI : 0 < W.INFINITY) :
    bfs_inv W vmap cur dest start 0 perim_id.p1
      (start_perimeter W s perim_id.p1 cur start) := by
  have hinit : ∀ c, c ≠ cur →
      ((start_perimeter W s perim_id.p1 cur start).pmap c).cost = W.INFINITY := by
    intro c hc
    simp [start_perimeter, upd_other _ _ _ hc]
  have hcur : (start_perimeter W s perim_id.p1 cur start).pmap cur =
      { cost := 0, inc_cost := 0, terrain := start } := by
    simp [start_perimeter, upd_same]
  refine ⟨hcur, ?_, ?_, ?_, ⟨rfl, rfl⟩⟩
  · intro c hc
    have hcc : c = cur := by
      by_contra hne; exact hc (hinit c hne)
    subst hcc
    refine ⟨0, le_refl _, by rw [hcur]; simp, reach.zero, fun _ _ => Nat.zero_le _, ?_⟩
    intro h; exact absurd rfl h
  · intro c j hj hr
    have hj0 : j = 0 := by omega
    subst hj0
    cases hr
    rw [hcur]; simp; omega
  · intro c
    simp only [start_perimeter, set_perim_same, List.mem_singleton]
    constructor
    · rintro rfl; simp [upd_same]
    · intro h
      by_contra hne
      rw [upd_other _ _ _ hne] at h
      simp at h
      omega

/-- The loop of `vmap_find_dest`, started `r` rounds before the destination is
reached, returns the destination after `r` rounds. -/
theorem single_loop_dest (W : World) (vmap : Int → Char) (cur dest owner : Int)
    (terrain start d : Nat) (hu : eligible_grid W vmap cur dest terrain)
    (hd : hop_count W cur dest d) (hI : 2 * (d : Int) + 2 < W.INFINITY) :
    ∀ (r k : Nat) (fp tp : perim_id) (s0 : map_state) (fuel : Nat),
      1 ≤ r → k + r = d → r ≤ fuel → fp ≠ tp →
      bfs_inv W vmap cur dest start k fp s0 →
      ∃ s1, single_loop W (upd vmap dest '%') (dest_move_info owner) terrain fuel fp tp k s0 =
          some (dest, s1) ∧ bfs_final W vmap cur dest start d s1 := by
  intro r
  induction r with
  | zero => intro k fp tp s0 fuel h; omega
  | succ r ih =>
    intro k fp tp s0 fuel _ hkr hfuel hfp hi
    obtain ⟨fuel', rfl⟩ : ∃ f, fuel = f + 1 := ⟨fuel - 1, by omega⟩
    have hk : (k : Int) + 2 < W.INFINITY := by omega
    have hk2 : (k : Int) + Int.tdiv W.INFINITY 2 ≠ W.INFINITY := by
      rw [Int.tdiv_eq_ediv (by omega) (by omega)]
      omega
    obtain ⟨s1, he, hr, hp⟩ :=
      round_run W vmap cur dest owner terrain start k fp tp s0 hu hfp hk hk2 hi
    unfold single_loop
    rw [he]
    simp only
    -- a frontier cell at `k` steps from which the chain to `dest` goes on
    obtain ⟨c, hc1, hc2⟩ := chain_split hd.1 k (by omega)
    have hcr : reach W cur dest k c :=
      chain_reach hc1 (fun m hm => by have := hd.2 m hm; omega)
    have hcf : c ∈ s0.perim fp := by
      have h0 := hi.compl c k (le_refl _) hcr
      obtain ⟨j, hj1, hj2, hj3, _⟩ := hi.fin c h0
      have hjk : j = k := by
        by_contra hne
        have := hd.2 _ (chain_concat (reach_chain hj3) hc2)
        omega
      subst hjk
      exact (hi.front c).2 hj2
    by_cases hlast : r = 0
    · -- the destination is a neighbour of the frontier
      subst hlast
      have hdk : d - k = 1 := by omega
      rw [hdk] at hc2
      obtain ⟨⟨j, hj, hje⟩, hon⟩ := chain_one_inv hc2
      have hdest : (s1.pmap dest).cost ≠ W.INFINITY := by
        rw [hje]; exact hp c hcf j hj (hje ▸ hon)
      have hb : s1.best_cost = k + 1 ∧ s1.best_loc = dest ∧
          s1.pmap dest = { cost := k + 2, inc_cost := 2, terrain := T_UNKNOWN } := by
        rcases hr.best with ⟨_, _, h⟩ | ⟨h1, h2, h3, _⟩
        · exact absurd h hdest
        · exact ⟨h1, h2, h3⟩
      have hfin := bfs_last hk hi hr hp hb
      have hkd : k + 1 = d := by omega
      rw [hkd] at hfin
      refine ⟨s1, ?_, hfin⟩
      rw [if_pos (Or.inr (le_of_eq hb.1)), hb.2.1]
    · -- the destination is further away
      have hb : s1.best_cost = W.INFINITY ∧ s1.best_loc = cur ∧
          (s1.pmap dest).cost = W.INFINITY := by
        rcases hr.best with h | ⟨_, _, _, hon, a, ha, hadj⟩
        · exact h
        · exfalso
          have hak : (s0.pmap a).cost = k := (hi.front a).1 ha
          obtain ⟨j, _, hj2, hj3, _⟩ := hi.fin a (by rw [hak]; omega)
          have hjk : j = k := by rw [hak] at hj2; exact_mod_cast hj2.symm
          subst hjk
          have := hd.2 _ (chain.step (reach_chain hj3) hadj hon)
          omega
      have hnext := bfs_next hk hi hr hp hb
      -- the new perimeter holds the next cell of a shortest chain
      obtain ⟨c', hc1', hc2'⟩ := chain_split hd.1 (k + 1) (by omega)
      have hcr' : reach W cur dest (k + 1) c' :=
        chain_reach hc1' (fun m hm => by have := hd.2 m hm; omega)
      have hcf' : c' ∈ s1.perim tp := by
        have h0 := hnext.compl c' (k + 1) (le_refl _) hcr'
        obtain ⟨j, hj1, hj2, hj3, _⟩ := hnext.fin c' h0
        have hjk : j = k + 1 := by
          by_contra hne
          have := hd.2 _ (chain_concat (reach_chain hj3) hc2')
          omega
        subst hjk
        exact (hnext.front c').2 hj2
      have hcond : ¬ ((s1.perim tp).length = 0 ∨ s1.best_cost ≤ (k : Int) + 1) := by
        rintro (h | h)
        · rw [List.length_eq_zero] at h
          rw [h] at hcf'
          cases hcf'
        · rw [hb.1] at h; omega
      rw [if_neg hcond]
      have hcast : ((k : Int) + 1) = ((k + 1 : Nat) : Int) := by push_cast; rfl
      rw [hcast]
      exact ih (k + 1) tp fp s1 fuel' (by omega) (by omega) (by omega) (Ne.symm hfp) hnext

theorem hop_count_pos {W : World} {cur dest : Int} {d : Nat} (hd : hop_count W cur dest d)
    (hne : cur ≠ dest) : 1 ≤ d := by
  by_contra h
  have h0 : d = 0 := by omega
  have h1 := hd.1
  rw [h0] at h1
  cases h1
  exact hne rfl

theorem hop_count_exists {W : World} {cur dest : Int} {n : Nat} (h : chain W cur n dest) :
    ∃ d, d ≤ n ∧ hop_count W cur dest d := by
  classical
  have hex : ∃ m, chain W cur m dest := ⟨n, h⟩
  refine ⟨Nat.find hex, Nat.find_min' hex h, Nat.find_spec hex, ?_⟩
  intro m hm
  exact Nat.find_min' hex hm

/-- On a grid of eligible terrain, `vmap_find_dest` returns the destination
and ends in the final state of the search, within `d` rounds when the
destination is `d` steps away. -/
theorem vmap_find_dest_final (W : World) (vmap : Int → Char) (cur dest owner : Int)
    (terrain d fuel : Nat) (s : map_state)
    (hu : eligible_grid W vmap cur dest terrain)
    (hd : hop_count W cur dest d) (hI : 2 * (d : Int) + 2 < W.INFINITY) (hf : d ≤ fuel) :
    ∃ s1, vmap_find_dest W vmap cur dest owner terrain fuel s = some (dest, s1, vmap) ∧
      bfs_final W vmap cur dest (if terrain = T_AIR then T_LAND else terrain) d s1 := by
  have hpos := hop_count_pos hd hu.distinct
  obtain ⟨s1, h1, h2⟩ := single_loop_dest W vmap cur dest owner terrain
    (if terrain = T_AIR then T_LAND else terrain) d hu hd hI d 0 perim_id.p1 perim_id.p2
    (start_perimeter W s perim_id.p1 cur (if terrain = T_AIR then T_LAND else terrain)) fuel
    hpos (by omega) hf (by decide)
    (bfs_inv_start W vmap cur dest _ s (by omega))
  refine ⟨s1, ?_, h2⟩
  unfold vmap_find_dest
  simp only [Nat.cast_zero] at h1
  simp only [h1]
  rw [upd_upd_self]

/-! ## Path marking: what is reached is marked -/

theorem adj_symm {W : World} {a b : Int} (h : adj W a b) : adj W b a := by
  obtain ⟨d, hd, rfl⟩ := h
  have h8 : d = 0 ∨ d = 1 ∨ d = 2 ∨ d = 3 ∨ d = 4 ∨ d = 5 ∨ d = 6 ∨ d = 7 := by omega
  rcases h8 with rfl | rfl | rfl | rfl | rfl | rfl | rfl | rfl
  · exact ⟨4, by omega, by simp [dir_offset]⟩
  · exact ⟨5, by omega, by simp [dir_offset]; ring⟩
  · exact ⟨6, by omega, by simp [dir_offset]⟩
  · exact ⟨7, by omega, by simp [dir_offset]; ring⟩
  · exact ⟨0, by omega, by simp [dir_offset]⟩
  · exact ⟨1, by omega, by simp [dir_offset]; ring⟩
  · exact ⟨2, by omega, by simp [dir_offset]⟩
  · exact ⟨3, by omega, by simp [dir_offset]; ring⟩

theorem back_path_trans {W : World} {pm : Int → path_map_t} {x y z : Int}
    (h1 : back_path W pm x y) (h2 : back_path W pm y z) : back_path W pm x z := by
  induction h2 with
  | start => exact h1
  | step _ hs ih => exact back_path.step ih hs

theorem back_path_congr {W : World} {pm pm1 : Int → path_map_t} (h : mark_rel pm pm1)
    {x c : Int} (hp : back_path W pm1 x c) : back_path W pm x c := by
  induction hp with
  | start => exact back_path.start
  | step _ hs ih => exact back_path.step ih ((back_step_congr W h).1 hs)

/-- Every cell that a call of `vmap_mark_path` at `x` marks is arrived at from
`x` by backtracking steps. -/
theorem vmap_mark_path_reach (W : World) (fuel : Nat) :
    ∀ (pm : Int → path_map_t) (x : Int) (pm1 : Int → path_map_t),
      vmap_mark_path W fuel pm x = some pm1 →
      ∀ c, newly_marked pm pm1 c → back_path W pm x c := by
  induction fuel with
  | zero => intro pm x pm1 h; simp [vmap_mark_path] at h
  | succ fuel ih =>
    intro pm x pm1 h
    unfold vmap_mark_path at h
    by_cases h0 : (pm x).cost = 0
    · simp only [h0, if_true] at h
      cases h
      exact fun c hc => absurd hc.2 hc.1
    · simp only [h0, if_false] at h
      by_cases hp : (pm x).terrain = T_PATH
      · simp only [hp, if_true] at h
        cases h
        exact fun c hc => absurd hc.2 hc.1
      · simp only [hp, if_false] at h
        have hx0 := mark_rel_upd pm x h0
        have key := loopM_inv _
          (fun q => mark_rel pm q ∧ ∀ c, newly_marked pm q c → back_path W pm x c)
          adj_dirs ?_ _ pm1 ⟨hx0, ?_⟩ h
        · exact key.2
        · intro q n q1 hn ⟨hq, hj⟩ hstep
          have hn8 := mem_adj_dirs.1 hn
          split at hstep
          · rename_i hcost
            have hr := (vmap_mark_path_sound W fuel q (x + dir_offset W n) q1 hstep).1
            have hbs : back_step W pm x (x + dir_offset W n) :=
              (back_step_congr W hq).1 ⟨⟨n, hn8, rfl⟩, hcost⟩
            refine ⟨mark_rel_trans hq hr, ?_⟩
            intro c hc
            by_cases hqc : (q c).terrain = T_PATH
            · exact hj c ⟨hc.1, hqc⟩
            · have := ih q (x + dir_offset W n) q1 hstep c ⟨hqc, hc.2⟩
              exact back_path_trans (back_path.step back_path.start hbs)
                (back_path_congr hq this)
          · cases hstep
            exact ⟨hq, hj⟩
        · intro c hc
          by_cases hcx : c = x
          · subst hcx; exact back_path.start
          · exfalso
            have : (upd pm x
                { cost := (pm x).cost, inc_cost := (pm x).inc_cost, terrain := T_PATH } c) =
                pm c := upd_other _ _ _ hcx
            exact hc.1 (this ▸ hc.2)

/-- A call of `vmap_mark_path` at `x` marks `x` unless its cost is 0, and for
every cell it marks it marks the cells of cost other than 0 that a
backtracking step arrives at. -/
theorem vmap_mark_path_complete (W : World) (fuel : Nat) :
    ∀ (pm : Int → path_map_t) (x : Int) (pm1 : Int → path_map_t),
      vmap_mark_path W fuel pm x = some pm1 →
      ((pm x).cost ≠ 0 → (pm1 x).terrain = T_PATH) ∧
      ∀ y, newly_marked pm pm1 y → ∀ z, back_step W pm y z → (pm z).cost ≠ 0 →
        (pm1 z).terrain = T_PATH := by
  induction fuel with
  | zero => intro pm x pm1 h; simp [vmap_mark_path] at h
  | succ fuel ih =>
    intro pm x pm1 h
    unfold vmap_mark_path at h
    by_cases h0 : (pm x).cost = 0
    · simp only [h0, if_true] at h
      cases h
      exact ⟨fun hne => absurd h0 hne, fun y hy => absurd hy.2 hy.1⟩
    · simp only [h0, if_false] at h
      by_cases hp : (pm x).terrain = T_PATH
      · simp only [hp, if_true] at h
        cases h
        exact ⟨fun _ => hp, fun y hy => absurd hy.2 hy.1⟩
      · simp only [hp, if_false] at h
        have hx0 := mark_rel_upd pm x h0
        have key := loopM_each _
          (fun q => mark_rel pm q ∧ (q x).terrain = T_PATH ∧
            ∀ y, y ≠ x → newly_marked pm q y → ∀ z, back_step W pm y z → (pm z).cost ≠ 0 →
              (q z).terrain = T_PATH)
          (fun n q => (pm (x + dir_offset W n)).cost = (pm x).cost - (pm x).inc_cost →
            (pm (x + dir_offset W n)).cost ≠ 0 → (q (x + dir_offset W n)).terrain = T_PATH)
          adj_dirs ?_ _ pm1 ⟨hx0, by simp [upd], ?_⟩ h
        · obtain ⟨⟨hr, hx, hcl⟩, hq⟩ := key
          refine ⟨fun _ => hx, ?_⟩
          intro y hy z hb hz
          by_cases hyx : y = x
          · subst hyx
            obtain ⟨⟨n, hn, rfl⟩, hcost⟩ := hb
            exact hq n (mem_adj_dirs.2 hn) hcost hz
          · exact hcl y hyx hy z hb hz
        · intro q n q1 hn ⟨hq, hqx, hcl⟩ hstep
          split at hstep
          · rename_i hcost
            have hr := (vmap_mark_path_sound W fuel q (x + dir_offset W n) q1 hstep).1
            obtain ⟨i1, i2⟩ := ih q (x + dir_offset W n) q1 hstep
            refine ⟨⟨mark_rel_trans hq hr, mark_rel_mono hr hqx, ?_⟩, ?_, ?_⟩
            · intro y hyx hy z hb hz
              by_cases hqy : (q y).terrain = T_PATH
              · exact mark_rel_mono hr (hcl y hyx ⟨hy.1, hqy⟩ z hb hz)
              · exact i2 y ⟨hqy, hy.2⟩ z ((back_step_congr W hq).2 hb)
                  (by rw [(hq z).1]; exact hz)
            · intro _ hz
              exact i1 (by rw [(hq _).1]; exact hz)
            · intro b hb hc hz
              exact mark_rel_mono hr (hb hc hz)
          · cases hstep
            refine ⟨⟨hq, hqx, hcl⟩, ?_, fun b hb => hb⟩
            intro hc hz
            exfalso
            rename_i hne
            apply hne
            rw [(hq _).1, (hq x).1, (hq x).2.1]
            exact hc
        · intro y hyx hy
          exfalso
          have : (upd pm x
              { cost := (pm x).cost, inc_cost := (pm x).inc_cost, terrain := T_PATH } y) =
              pm y := upd_other _ _ _ hyx
          exact hy.1 (this ▸ hy.2)

theorem descending_congr {W : World} {pm pm1 : Int → path_map_t} {B : Int}
    (h : mark_rel pm pm1) (hd : descending W pm B) : descending W pm1 B := by
  intro y z h1 h2 h3
  rw [(h y).1] at h1 h2
  rw [(h y).1, (h z).1]
  exact hd y z h1 h2 ((back_step_congr W h).1 h3)

/-- When the costs go down along the backtracking steps, `vmap_mark_path`
returns: the depth of its recursion is at most the cost of the cell it starts
at, plus one. -/
theorem vmap_mark_path_total (W : World) (B : Int) (fuel : Nat) :
    ∀ (pm : Int → path_map_t) (x : Int), descending W pm B →
      0 ≤ (pm x).cost → (pm x).cost ≤ B → (pm x).cost < fuel →
      ∃ pm1, vmap_mark_path W fuel pm x = some pm1 := by
  induction fuel with
  | zero => intro pm x _ h1 _ h3; exfalso; simp at h3; omega
  | succ fuel ih =>
    intro pm x hd h1 h2 h3
    unfold vmap_mark_path
    by_cases h0 : (pm x).cost = 0
    · exact ⟨pm, by simp [h0]⟩
    · simp only [h0, if_false]
      by_cases hp : (pm x).terrain = T_PATH
      · exact ⟨pm, by simp [hp]⟩
      · simp only [hp, if_false]
        have hx0 := mark_rel_upd pm x h0
        have hstep : ∀ (q : Int → path_map_t) (n : Nat), n ∈ adj_dirs → mark_rel pm q →
            ∃ q1, (if (q (x + dir_offset W n)).cost = (q x).cost - (q x).inc_cost then
                vmap_mark_path W fuel q (x + dir_offset W n) else some q) = some q1 ∧
              mark_rel pm q1 := by
          intro q n hn hq
          have hn8 := mem_adj_dirs.1 hn
          by_cases hcost : (q (x + dir_offset W n)).cost = (q x).cost - (q x).inc_cost
          · simp only [hcost, if_true]
            have hdq := descending_congr hq hd
            have hqx : (q x).cost = (pm x).cost := (hq x).1
            obtain ⟨z1, z2⟩ := hdq x (x + dir_offset W n) (by rw [hqx]; omega)
              (by rw [hqx]; exact h2) ⟨⟨n, hn8, rfl⟩, hcost⟩
            obtain ⟨q1, hq1⟩ := ih q (x + dir_offset W n) hdq z1 (by omega)
              (by push_cast at h3; omega)
            exact ⟨q1, hq1,
              mark_rel_trans hq (vmap_mark_path_sound W fuel q _ q1 hq1).1⟩
          · simp only [hcost, if_false]
            exact ⟨q, rfl, hq⟩
        obtain ⟨pm1, hpm1, _⟩ := loopM_total _ (fun q => mark_rel pm q) adj_dirs hstep _ hx0
        exact ⟨pm1, hpm1⟩

/-! ## A search leaves no path mark -/

theorem terrain_type_no_path {W : World} {pm : Int → path_map_t} {vmap : Int → Char}
    {mi : move_info_t} {a b : Int} {t : Nat}
    (h : terrain_type W pm vmap mi a b = some t) (ha : (pm a).terrain ≠ T_PATH) :
    t ≠ T_PATH := by
  unfold terrain_type at h
  have hl : T_LAND ≠ T_PATH := by decide
  have hw : T_WATER ≠ T_PATH := by decide
  have hu : T_UNKNOWN ≠ T_PATH := by decide
  split at h
  · cases h; exact hl
  split at h
  · cases h; exact hw
  split at h
  · cases h; exact hu
  split at h
  · cases h; exact ha
  split at h
  · cases h; exact hw
  split at h
  · cases h; exact hl
  split at h
  · split at h
    · cases h
    · split at h
      · cases h; exact hw
      · cases h; exact hu
  · cases h

theorem place_cell_terrain {W : World} {type : Nat} {k iw il : Int}
    {waterp landp : Option perim_id} {s s1 : map_state} {b : Int} {t : Nat}
    (h : place_cell W type k iw il waterp landp s b t = some s1) :
    (s1.pmap b).terrain = t ∨ s1.pmap b = s.pmap b := by
  unfold place_cell at h
  split at h
  · obtain ⟨p, _, h1, _⟩ := add_cell_eq h
    left; rw [h1, upd_same]
  · split at h
    · obtain ⟨p, _, h1, _⟩ := add_cell_eq h
      left; rw [h1, upd_same]
    · split at h
      · cases h
        left; simp [upd_same]
      · cases h
        right; rfl

theorem note_objective_terrain {W : World} {vmap : Int → Char} {mi : move_info_t} {k : Int}
    {s1 s2 : map_state} {b : Int} {t : Nat}
    (h : note_objective W vmap mi k s1 b t = some s2) :
    (s2.pmap b).terrain = (s1.pmap b).terrain := by
  unfold note_objective at h
  cases ho : objective_cost W vmap mi b k with
  | none => simp [ho] at h
  | some oc =>
    simp only [ho] at h
    split at h
    · split at h
      · cases h; simp [upd_same]
      · cases h; rfl
    · cases h; rfl

theorem expand_step_no_path {W : World} {vmap : Int → Char} {mi : move_info_t} {type : Nat}
    {k iw il : Int} {waterp landp : Option perim_id} {a : Int} {s s2 : map_state} {j : Nat}
    (h : expand_step W vmap mi type k iw il waterp landp a s j = some s2)
    (hs : ∀ c, (s.pmap c).terrain ≠ T_PATH) : ∀ c, (s2.pmap c).terrain ≠ T_PATH := by
  intro c
  by_cases hcb : c = a + dir_offset W j
  swap
  · rw [(expand_step_frame h).1 c hcb]; exact hs c
  subst hcb
  by_cases hon : (W.map (a + dir_offset W j)).on_board = true
  swap
  · rw [expand_step_skip (Or.inl (by simpa using hon))] at h
    cases h; exact hs _
  by_cases hc : (s.pmap (a + dir_offset W j)).cost = W.INFINITY
  swap
  · rw [expand_step_skip (Or.inr hc)] at h
    cases h; exact hs _
  rw [expand_step_visit hon hc] at h
  cases ht : terrain_type W s.pmap vmap mi a (a + dir_offset W j) with
  | none => simp [ht] at h
  | some t =>
    simp only [ht, Option.bind] at h
    have htp := terrain_type_no_path ht (hs a)
    cases hp : place_cell W type k iw il waterp landp s (a + dir_offset W j) t with
    | none => simp [hp] at h
    | some s1 =>
      simp only [hp] at h
      have h1 : (s1.pmap (a + dir_offset W j)).terrain ≠ T_PATH := by
        rcases place_cell_terrain hp with e | e
        · rw [e]; exact htp
        · rw [e]; exact hs _
      split at h
      · rw [note_objective_terrain h]; exact h1
      · cases h; exact h1

theorem expand_perimeter_no_path {W : World} {vmap : Int → Char} {mi : move_info_t}
    {curp : perim_id} {type : Nat} {k iw il : Int} {waterp landp : Option perim_id}
    {s s2 : map_state}
    (h : expand_perimeter W vmap mi curp type k iw il waterp landp s = some s2)
    (hs : ∀ c, (s.pmap c).terrain ≠ T_PATH) : ∀ c, (s2.pmap c).terrain ≠ T_PATH := by
  unfold expand_perimeter at h
  refine loopM_inv _ (fun t => ∀ c, (t.pmap c).terrain ≠ T_PATH) _ ?_ s s2 hs h
  intro t a t1 _ ht hf
  unfold expand_cell at hf
  exact loopM_inv _ (fun t => ∀ c, (t.pmap c).terrain ≠ T_PATH) _
    (fun u j u1 _ hu hfu => expand_step_no_path hfu hu) t t1 ht hf

theorem single_loop_no_path (W : World) (vmap : Int → Char) (mi : move_info_t) (expand : Nat)
    (fuel : Nat) : ∀ (fp tp : perim_id) (k : Int) (s : map_state) (r : Int × map_state),
      single_loop W vmap mi expand fuel fp tp k s = some r →
      (∀ c, (s.pmap c).terrain ≠ T_PATH) → ∀ c, (r.2.pmap c).terrain ≠ T_PATH := by
  induction fuel with
  | zero => intro fp tp k s r h; simp [single_loop] at h
  | succ fuel ih =>
    intro fp tp k s r h hs
    unfold single_loop at h
    cases he : expand_perimeter W vmap mi fp expand k 1 1 (some tp) (some tp)
        { s with perim := set_perim s.perim tp [] } with
    | none => simp [he] at h
    | some s1 =>
      simp only [he] at h
      have h1 := expand_perimeter_no_path he hs
      split at h
      · cases h; exact h1
      · exact ih tp fp (k + 1) s1 r h h1

/-- More rounds than needed do not change the result of the loop. -/
theorem single_loop_mono (W : World) (vmap : Int → Char) (mi : move_info_t) (expand : Nat)
    (fuel : Nat) : ∀ (fp tp : perim_id) (k : Int) (s : map_state) (r : Int × map_state)
      (fuel1 : Nat), single_loop W vmap mi expand fuel fp tp k s = some r → fuel ≤ fuel1 →
      single_loop W vmap mi expand fuel1 fp tp k s = some r := by
  induction fuel with
  | zero => intro fp tp k s r fuel1 h; simp [single_loop] at h
  | succ fuel ih =>
    intro fp tp k s r fuel1 h hle
    obtain ⟨f1, rfl⟩ : ∃ f, fuel1 = f + 1 := ⟨fuel1 - 1, by omega⟩
    unfold single_loop at h ⊢
    cases he : expand_perimeter W vmap mi fp expand k 1 1 (some tp) (some tp)
        { s with perim := set_perim s.perim tp [] } with
    | none => simp [he] at h
    | some s1 =>
      simp only [he] at h ⊢
      split at h
      · rename_i hc
        rw [if_pos hc]; exact h
      · rename_i hc
        rw [if_neg hc]
        exact ih tp fp (k + 1) s1 r f1 h (by omega)

/-! ## The marked cells are the cells of the shortest chains -/

theorem vmap_find_dest_mono {W : World} {vmap : Int → Char} {cur dest owner : Int}
    {terrain fuel fuel1 : Nat} {s : map_state} {r : Int × map_state × (Int → Char)}
    (h : vmap_find_dest W vmap cur dest owner terrain fuel s = some r) (hle : fuel ≤ fuel1) :
    vmap_find_dest W vmap cur dest owner terrain fuel1 s = some r := by
  unfold vmap_find_dest at h ⊢
  simp only at h ⊢
  cases hl : single_loop W (upd vmap dest '%') (dest_move_info owner) terrain fuel
      perim_id.p1 perim_id.p2 0
      (start_perimeter W s perim_id.p1 cur (if terrain = T_AIR then T_LAND else terrain)) with
  | none => simp [hl] at h
  | some r1 =>
    rw [single_loop_mono W _ _ _ fuel _ _ _ _ r1 fuel1 hl hle]
    rw [hl] at h
    exact h

theorem vmap_find_dest_no_path {W : World} {vmap : Int → Char} {cur dest owner : Int}
    {terrain fuel : Nat} {s : map_state} {r : Int × map_state × (Int → Char)}
    (h : vmap_find_dest W vmap cur dest owner terrain fuel s = some r)
    (ht : terrain ≠ T_PATH) : ∀ c, (r.2.1.pmap c).terrain ≠ T_PATH := by
  unfold vmap_find_dest at h
  simp only at h
  cases hl : single_loop W (upd vmap dest '%') (dest_move_info owner) terrain fuel
      perim_id.p1 perim_id.p2 0
      (start_perimeter W s perim_id.p1 cur (if terrain = T_AIR then T_LAND else terrain)) with
  | none => simp [hl] at h
  | some r1 =>
    rw [hl] at h
    cases h
    refine single_loop_no_path W _ _ _ fuel _ _ _ _ r1 hl ?_
    intro c
    unfold start_perimeter
    simp only
    by_cases hc : c = cur
    · subst hc
      rw [upd_same]
      simp only
      split
      · decide
      · exact ht
    · rw [upd_other _ _ _ hc]
      show T_UNKNOWN ≠ T_PATH
      decide

theorem chain_on_board {W : World} {cur c : Int} {n : Nat} (h : chain W cur (n + 1) c) :
    (W.map c).on_board = true := by
  cases h with
  | step _ _ hon => exact hon

theorem reach_zero_eq {W : World} {cur dest c : Int} (h : reach W cur dest 0 c) : c = cur := by
  cases h; rfl

theorem chain_zero_eq {W : World} {cur c : Int} (h : chain W cur 0 c) : c = cur := by
  cases h; rfl

theorem eligible_view_mask {W : World} {vmap : Int → Char} {terrain : Nat} {c : Int}
    (h : eligible_view W vmap terrain c) : terrain ≠ T_PATH := by
  rcases h with ⟨h, _⟩ | ⟨h, _⟩ | ⟨h, _⟩ <;> subst h <;> decide

/-- In the final state, a cell at position `i` of a shortest chain has cost `i`. -/
theorem bfs_final_cost {W : World} {vmap : Int → Char} {cur dest : Int} {start d : Nat}
    {s1 : map_state} (hf : bfs_final W vmap cur dest start d s1)
    (hd : hop_count W cur dest d) (hne : cur ≠ dest) {i m : Nat} {c : Int}
    (h1 : chain W cur i c) (h2 : chain W c m dest) (him : i + m = d) (hm : 1 ≤ m) :
    c ≠ dest ∧ (s1.pmap c).cost = i ∧ reach W cur dest i c := by
  have hr : reach W cur dest i c :=
    chain_reach h1 (fun n hn => by have := hd.2 n hn; omega)
  have hcd := reach_ne_dest hr hne
  obtain ⟨j, _, hj2, hj3, hj4, _⟩ := hf.fin c hcd (hf.compl c i (by omega) hr)
  have hji := hj4 i hr
  have := hd.2 _ (chain_concat (reach_chain hj3) h2)
  have hj : j = i := by omega
  subst hj
  exact ⟨hcd, hj2, hr⟩

theorem bfs_final_descending {W : World} {vmap : Int → Char} {cur dest : Int} {start d : Nat}
    {s1 : map_state} (hf : bfs_final W vmap cur dest start d s1) (hd1 : 1 ≤ d)
    (hI : (d : Int) + 1 < W.INFINITY) : descending W s1.pmap (d + 1) := by
  intro y z h1 h2 h3
  obtain ⟨_, hc⟩ := h3
  by_cases hy : y = dest
  · subst hy
    rw [hf.destcell] at hc h1 h2 ⊢
    simp only at hc h1 h2 ⊢
    omega
  · have hyc : y ≠ cur := by
      rintro rfl
      rw [hf.origin] at h1
      simp at h1
    obtain ⟨j, _, hj2, _, _, hj5⟩ := hf.fin y hy (by omega)
    rw [(hj5 hyc).1] at hc
    omega

/-- Every cell that the backtracking arrives at from the destination is the
destination or a cell of a shortest chain. -/
theorem bfs_final_back_path {W : World} {vmap : Int → Char} {cur dest : Int} {start d : Nat}
    {s1 : map_state} (hf : bfs_final W vmap cur dest start d s1)
    (hd : hop_count W cur dest d) (hne : cur ≠ dest)
    (hI : (d : Int) + 1 < W.INFINITY) {c : Int} (hp : back_path W s1.pmap dest c) :
    c = dest ∨ ∃ j : Nat, j < d ∧ (s1.pmap c).cost = j ∧ reach W cur dest j c ∧
      chain W c (d - j) dest := by
  have hd1 := hop_count_pos hd hne
  have hond : (W.map dest).on_board = true := by
    obtain ⟨e, rfl⟩ : ∃ e, d = e + 1 := ⟨d - 1, by omega⟩
    exact chain_on_board hd.1
  induction hp with
  | start => exact Or.inl rfl
  | @step y z _ hs ih =>
    obtain ⟨⟨n, hn, hz⟩, hc⟩ := hs
    have hadj : adj W z y := adj_symm ⟨n, hn, hz⟩
    right
    rcases ih with rfl | ⟨j, hj1, hj2, hj3, hj4⟩
    · -- a step from the destination
      rw [hf.destcell] at hc
      simp only at hc
      have hzd : z ≠ y := by
        intro e
        rw [e, hf.destcell] at hc
        simp at hc
        omega
      obtain ⟨j, _, hj2, hj3, _⟩ := hf.fin z hzd (by omega)
      have hj : j = d - 1 := by omega
      refine ⟨j, by omega, hj2, hj3, ?_⟩
      have e : d - j = 0 + 1 := by omega
      rw [e]
      exact chain.step chain.zero hadj hond
    · by_cases hy : y = cur
      · -- the origin: no further step leaves it
        subst hy
        rw [hf.origin] at hc hj2
        simp only at hc hj2
        have hzd : z ≠ dest := by
          intro e
          rw [e, hf.destcell] at hc
          simp at hc
          omega
        obtain ⟨j', _, hj2', hj3', _⟩ := hf.fin z hzd (by omega)
        have hj0 : j' = 0 := by omega
        subst hj0
        have hzy := reach_zero_eq hj3'
        subst hzy
        refine ⟨j, hj1, ?_, hj3, hj4⟩
        rw [hf.origin]; simp; omega
      · have hyd := reach_ne_dest hj3 hne
        obtain ⟨j', _, hj2', _, _, hj5'⟩ := hf.fin y hyd (by omega)
        rw [(hj5' hy).1, hj2] at hc
        have hjpos : 1 ≤ j := by
          by_contra h0
          have : j = 0 := by omega
          subst this
          exact hy (reach_zero_eq hj3)
        have hzd : z ≠ dest := by
          intro e
          rw [e, hf.destcell] at hc
          simp at hc
          omega
        obtain ⟨i, _, hi2, hi3, _⟩ := hf.fin z hzd (by omega)
        have hi : i = j - 1 := by omega
        have hony : (W.map y).on_board = true := by
          obtain ⟨e, rfl⟩ : ∃ e, j = e + 1 := ⟨j - 1, by omega⟩
          exact chain_on_board (reach_chain hj3)
        refine ⟨i, by omega, hi2, hi3, ?_⟩
        have e : d - i = (0 + 1) + (d - j) := by omega
        rw [e]
        exact chain_concat (chain.step chain.zero hadj hony) hj4

/-- Every cell other than the origin on a shortest chain to the destination is
marked: by induction on the number `m` of steps left to the destination. -/
theorem bfs_final_marks {W : World} {vmap : Int → Char} {cur dest : Int} {start d : Nat}
    {s1 : map_state} {fuel2 : Nat} {pm1 : Int → path_map_t}
    (hf : bfs_final W vmap cur dest start d s1)
    (hd : hop_count W cur dest d) (hne : cur ≠ dest)
    (hnp : ∀ c, (s1.pmap c).terrain ≠ T_PATH)
    (hm : vmap_mark_path W fuel2 s1.pmap dest = some pm1) :
    ∀ (m : Nat) (c : Int), m ≤ d → chain W cur (d - m) c → chain W c m dest → c ≠ cur →
      (pm1 c).terrain = T_PATH := by
  obtain ⟨hx, hcl⟩ := vmap_mark_path_complete W fuel2 s1.pmap dest pm1 hm
  intro m
  induction m with
  | zero =>
    intro c _ _ h2 _
    have := chain_zero_eq h2
    subst this
    apply hx
    rw [hf.destcell]; simp; omega
  | succ m ih =>
    intro c hmd h1 h2 hc
    obtain ⟨c', hc1, hc2⟩ := chain_split h2 1 (by omega)
    simp only [Nat.add_sub_cancel] at hc2
    obtain ⟨hadj, hon⟩ := chain_one_inv hc1
    have h1' : chain W cur (d - m) c' := by
      have e : d - m = (d - (m + 1)) + 1 := by omega
      rw [e]
      exact chain.step h1 hadj hon
    have hc'cur : c' ≠ cur := by
      rintro rfl
      have := hd.2 m hc2
      omega
    have hmark := ih c' (by omega) h1' hc2 hc'cur
    obtain ⟨_, hcost, _⟩ := bfs_final_cost hf hd hne h1 h2 (by omega) (by omega)
    have hi0 : d - (m + 1) ≠ 0 := by
      intro e
      rw [e] at h1
      exact hc (chain_zero_eq h1)
    obtain ⟨n, hn, hcn⟩ := adj_symm hadj
    apply hcl c' ⟨hnp c', hmark⟩ c
    · refine ⟨⟨n, hn, hcn⟩, ?_⟩
      rw [hcost]
      by_cases hm0 : m = 0
      · subst hm0
        have := chain_zero_eq hc2
        subst this
        rw [hf.destcell]
        simp only
        push_cast
        omega
      · obtain ⟨hc'd, hcost', _⟩ := bfs_final_cost hf hd hne h1' hc2 (by omega) (by omega)
        obtain ⟨j, _, _, _, _, hj5⟩ := hf.fin c' hc'd (by
          rw [hcost']
          have := (hf.compl c' (d - m) (by omega)
            (chain_reach h1' (fun n hn => by have := hd.2 n hn; omega)))
          rw [hcost'] at this
          exact this)
        rw [hcost', (hj5 hc'cur).1]
        omega
    · rw [hcost]
      omega

/-- C1: on a view map where every on-board cell shows terrain eligible for
the terrain mask (land for T_LAND, sea for T_WATER, land or sea for T_AIR),
for distinct cells `cur_loc` and `dest_loc` joined by a chain of 8-adjacent
on-board cells, `vmap_find_dest` returns `dest_loc` (INFINITY being more than
twice the length of the chain plus 2, and the round budget at least that
length). -/
theorem vmap_find_dest_returns_dest (W : World) (vmap : Int → Char) (cur_loc dest_loc : Int)
    (owner : Int) (terrain n fuel : Nat) (s : map_state)
    (hg : glyphs_ok W)
    (he : ∀ c, (W.map c).on_board = true → eligible_view W vmap terrain c)
    (hne : cur_loc ≠ dest_loc) (hch : chain W cur_loc n dest_loc)
    (hI : 2 * (n : Int) + 2 < W.INFINITY) (hf : n ≤ fuel) :
    ∃ s1, vmap_find_dest W vmap cur_loc dest_loc owner terrain fuel s =
      some (dest_loc, s1, vmap) := by
  obtain ⟨d, hdn, hd⟩ := hop_count_exists hch
  obtain ⟨s1, h1, _⟩ := vmap_find_dest_final W vmap cur_loc dest_loc owner terrain d fuel s
    ⟨hg, he, hne⟩ hd (by omega) (by omega)
  exact ⟨s1, h1⟩

/-- C2 (as the code has it): under the hypotheses of C1, when `d` is the hop
count from `cur_loc` to `dest_loc`, `vmap_find_dest` returns `dest_loc` with
`path_map[dest_loc].cost` equal to `d + 1` and `path_map[dest_loc].inc_cost`
equal to 2 (the cost `d - 1` of the perimeter cell it was reached from, plus
the increment 2 written for the best objective of unknown type); the hop count
itself is what `best_cost` holds. -/
theorem vmap_find_dest_cost (W : World) (vmap : Int → Char) (cur_loc dest_loc : Int)
    (owner : Int) (terrain d fuel : Nat) (s : map_state)
    (hg : glyphs_ok W)
    (he : ∀ c, (W.map c).on_board = true → eligible_view W vmap terrain c)
    (hne : cur_loc ≠ dest_loc) (hd : hop_count W cur_loc dest_loc d)
    (hI : 2 * (d : Int) + 2 < W.INFINITY) (hf : d ≤ fuel) :
    ∃ s1, vmap_find_dest W vmap cur_loc dest_loc owner terrain fuel s =
        some (dest_loc, s1, vmap) ∧
      (s1.pmap dest_loc).cost = d + 1 ∧ (s1.pmap dest_loc).inc_cost = 2 ∧
      s1.best_cost = d := by
  obtain ⟨s1, h1, h2⟩ := vmap_find_dest_final W vmap cur_loc dest_loc owner terrain d fuel s
    ⟨hg, he, hne⟩ hd hI hf
  refine ⟨s1, h1, ?_, ?_, h2.best.1⟩
  · rw [h2.destcell]
  · rw [h2.destcell]

/-- C9: on a grid of only eligible terrain, if `vmap_find_dest` from the
origin returns `dest` other than the origin and `vmap_mark_path` is then
applied to the path map, it returns, and a cell other than the origin is
marked T_PATH if and only if it lies on some shortest chain of 8-adjacent
on-board cells from the origin to `dest` (`d` being the hop count, INFINITY
more than `2 * d + 2`, and the recursion budget at least `d + 2`). -/
theorem vmap_mark_path_lattice (W : World) (vmap : Int → Char) (origin dest : Int)
    (owner : Int) (terrain d fuel fuel2 : Nat) (s s1 : map_state) (v1 : Int → Char)
    (hg : glyphs_ok W)
    (he : ∀ c, (W.map c).on_board = true → eligible_view W vmap terrain c)
    (hne : dest ≠ origin)
    (hres : vmap_find_dest W vmap origin dest owner terrain fuel s = some (dest, s1, v1))
    (hd : hop_count W origin dest d)
    (hI : 2 * (d : Int) + 2 < W.INFINITY) (hf2 : d + 2 ≤ fuel2) :
    ∃ pm1, vmap_mark_path W fuel2 s1.pmap dest = some pm1 ∧
      ∀ c, c ≠ origin → ((pm1 c).terrain = T_PATH ↔ on_shortest W origin dest d c) := by
  have hne' : origin ≠ dest := Ne.symm hne
  have hd1 := hop_count_pos hd hne'
  -- the state the search returns in
  obtain ⟨s1', h1, hfin⟩ := vmap_find_dest_final W vmap origin dest owner terrain d
    (max fuel d) s ⟨hg, he, hne'⟩ hd hI (le_max_right _ _)
  have h2 := vmap_find_dest_mono hres (le_max_left fuel d)
  rw [h1] at h2
  have hs : s1' = s1 := by
    have := Option.some.inj h2
    exact (Prod.mk.inj (Prod.mk.inj this).2).1
  subst hs
  have hond : (W.map dest).on_board = true := by
    obtain ⟨e, rfl⟩ : ∃ e, d = e + 1 := ⟨d - 1, by omega⟩
    exact chain_on_board hd.1
  have hnp := vmap_find_dest_no_path hres (eligible_view_mask (he dest hond))
  simp only at hnp
  -- the marking returns
  have hdesc := bfs_final_descending hfin hd1 (by omega)
  obtain ⟨pm1, hm⟩ := vmap_mark_path_total W (d + 1) fuel2 s1'.pmap dest hdesc
    (by rw [hfin.destcell]; simp; omega) (by rw [hfin.destcell]) (by
      rw [hfin.destcell]; simp; omega)
  refine ⟨pm1, hm, ?_⟩
  intro c hc
  constructor
  · intro hmk
    have hp := vmap_mark_path_reach W fuel2 s1'.pmap dest pm1 hm c ⟨hnp c, hmk⟩
    rcases bfs_final_back_path hfin hd hne' (by omega) hp with rfl | ⟨j, hj1, _, hj3, hj4⟩
    · exact ⟨d, le_refl _, hd.1, by simp only [Nat.sub_self]; exact chain.zero⟩
    · exact ⟨j, by omega, reach_chain hj3, hj4⟩
  · rintro ⟨i, hi, hc1, hc2⟩
    have e : d - (d - i) = i := by omega
    exact bfs_final_marks hfin hd hne' hnp hm (d - i) c (by omega) (by rw [e]; exact hc1)
      hc2 hc

/-! ## Invariants of `expand_perimeter` -/

/-- A property kept by every step of the expansion is kept by
`expand_perimeter`. -/
theorem expand_perimeter_inv {W : World} {vmap : Int → Char} {mi : move_info_t}
    {curp : perim_id} {type : Nat} {k iw il : Int} {waterp landp : Option perim_id}
    {s s2 : map_state} (P : map_state → Prop)
    (hstep : ∀ a j t t1, a ∈ s.perim curp → j < 8 → P t →
      expand_step W vmap mi type k iw il waterp landp a t j = some t1 → P t1)
    (h0 : P s)
    (h : expand_perimeter W vmap mi curp type k iw il waterp landp s = some s2) : P s2 := by
  unfold expand_perimeter at h
  refine loopM_inv _ P _ ?_ s s2 h0 h
  intro t a t1 ha ht hf
  unfold expand_cell at hf
  exact loopM_inv _ P _
    (fun u j u1 hj hu hfu => hstep a j u u1 ha (mem_adj_dirs.1 hj) hu hfu) t t1 ht hf

/-- An expansion no step of which aborts does not abort. -/
theorem expand_perimeter_total {W : World} {vmap : Int → Char} {mi : move_info_t}
    {curp : perim_id} {type : Nat} {k iw il : Int} {waterp landp : Option perim_id}
    {s : map_state} (P : map_state → Prop)
    (hstep : ∀ a j t, a ∈ s.perim curp → j < 8 → P t →
      ∃ t1, expand_step W vmap mi type k iw il waterp landp a t j = some t1 ∧ P t1)
    (h0 : P s) :
    ∃ s2, expand_perimeter W vmap mi curp type k iw il waterp landp s = some s2 ∧ P s2 := by
  unfold expand_perimeter
  refine loopM_total _ P _ ?_ s h0
  intro t a ha ht
  unfold expand_cell
  exact loopM_total _ P _
    (fun u j hj hu => hstep a j u ha (mem_adj_dirs.1 hj) hu) t ht

/-! ## `vmap_find_dest` when the destination cannot be reached -/

theorem terrain_type_static {W : World} {pm : Int → path_map_t} {vmap : Int → Char}
    {mi : move_info_t} {a b : Int} (hb : vmap b ≠ ' ') :
    terrain_type W pm vmap mi a b = static_type W vmap mi b := by
  unfold static_type terrain_type
  simp only [hb, if_false]

theorem static_type_congr {W : World} {vmap v1 : Int → Char} {mi : move_info_t} {b : Int}
    (h : v1 b = vmap b) : static_type W v1 mi b = static_type W vmap mi b := by
  unfold static_type terrain_type
  rw [h]

theorem static_type_some {W : World} (vmap : Int → Char) (mi : move_info_t) {b : Int}
    (hm : map_ok W) (hon : (W.map b).on_board = true) :
    ∃ t, static_type W vmap mi b = some t := by
  unfold static_type terrain_type
  split
  · exact ⟨_, rfl⟩
  split
  · exact ⟨_, rfl⟩
  split
  · exact ⟨_, rfl⟩
  split
  · exact ⟨_, rfl⟩
  split
  · exact ⟨_, rfl⟩
  split
  · exact ⟨_, rfl⟩
  rcases hm b hon with h | h | ⟨h1, h2⟩
  · rename_i hs _; exact absurd h hs
  · rename_i hl; exact absurd h hl
  · rw [if_pos h1]
    cases hc : (W.map b).cityp with
    | none => exact absurd hc h2
    | some cityp =>
      simp only
      split
      · exact ⟨_, rfl⟩
      · exact ⟨_, rfl⟩

/-- A step of the expansion when the destination cannot be reached: it does
not abort, finds nothing, and adds to the new perimeter only cells that a
chain of eligible terrain leads to. -/
theorem blocked_step (W : World) (vmap : Int → Char) (cur dest owner : Int) (terrain : Nat)
    (k : Int) (tp : perim_id) (a : Int) (s : map_state) (j : Nat)
    (hm : map_ok W)
    (hexp : ∀ c, (W.map c).on_board = true → vmap c ≠ ' ' ∧ vmap c ≠ '%')
    (hun : ∀ a, open_reach W vmap (dest_move_info owner) terrain cur a → adj W a dest →
      (W.map dest).on_board = true → False)
    (ha : open_reach W vmap (dest_move_info owner) terrain cur a) (hj : j < 8)
    (hs : blocked_inv W vmap owner terrain cur tp s) :
    ∃ s2, expand_step W (upd vmap dest '%') (dest_move_info owner) terrain k 1 1
        (some tp) (some tp) a s j = some s2 ∧
      blocked_inv W vmap owner terrain cur tp s2 ∧
      ∀ p, p ≠ tp → s2.perim p = s.perim p := by
  by_cases hon : (W.map (a + dir_offset W j)).on_board = true
  swap
  · exact ⟨s, expand_step_skip (Or.inl (by simpa using hon)), hs, fun _ _ => rfl⟩
  by_cases hc : (s.pmap (a + dir_offset W j)).cost = W.INFINITY
  swap
  · exact ⟨s, expand_step_skip (Or.inr hc), hs, fun _ _ => rfl⟩
  have hbd : a + dir_offset W j ≠ dest := by
    intro e
    exact hun a ha ⟨j, hj, e.symm⟩ (e ▸ hon)
  have hv : upd vmap dest '%' (a + dir_offset W j) = vmap (a + dir_offset W j) :=
    upd_other _ _ _ hbd
  obtain ⟨hx1, hx2⟩ := hexp _ hon
  obtain ⟨t, ht⟩ := static_type_some vmap (dest_move_info owner) hm hon
  have htt : terrain_type W s.pmap (upd vmap dest '%') (dest_move_info owner) a
      (a + dir_offset W j) = some t := by
    rw [terrain_type_static (by rw [hv]; exact hx1), static_type_congr hv, ht]
  have ho : objective_cost W (upd vmap dest '%') (dest_move_info owner)
      (a + dir_offset W j) k = some W.INFINITY := by
    have hne2 : ¬ '%' = vmap (a + dir_offset W j) := fun e => hx2 e.symm
    unfold objective_cost
    simp [hv, dest_move_info, strchr, hne2]
  rw [expand_step_visit hon hc, htt]
  simp only [Option.bind]
  -- the objective part never changes the state
  have hnote : ∀ s1 : map_state, s1.best_cost = W.INFINITY →
      (if (s1.pmap (a + dir_offset W j)).cost ≠ W.INFINITY then
        note_objective W (upd vmap dest '%') (dest_move_info owner) k s1
          (a + dir_offset W j) t else some s1) = some s1 := by
    intro s1 hb
    split
    · unfold note_objective
      rw [ho]
      simp [hb]
    · rfl
  obtain ⟨hb1, hb2, hb3⟩ := hs
  unfold place_cell
  by_cases h1 : t = T_LAND ∧ terrain &&& T_LAND ≠ 0
  · rw [if_pos h1]
    simp only [add_cell]
    refine ⟨_, hnote { s with
        pmap := upd s.pmap (a + dir_offset W j) { terrain := t, inc_cost := 1, cost := k + 1 }
        perim := set_perim s.perim tp (s.perim tp ++ [a + dir_offset W j]) } hb1,
      ⟨hb1, hb2, ?_⟩, fun p hp => set_perim_other _ _ _ hp⟩
    intro c hcm
    simp only [set_perim_same, List.mem_append, List.mem_singleton] at hcm
    rcases hcm with hcm | rfl
    · exact hb3 c hcm
    · exact open_reach.step ha ⟨j, hj, rfl⟩ hon (Or.inl ⟨by rw [ht, h1.1], h1.2⟩)
  · rw [if_neg h1]
    by_cases h2 : t = T_WATER ∧ terrain &&& T_WATER ≠ 0
    · rw [if_pos h2]
      simp only [add_cell]
      refine ⟨_, hnote { s with
          pmap := upd s.pmap (a + dir_offset W j)
            { terrain := t, inc_cost := 1, cost := k + 1 }
          perim := set_perim s.perim tp (s.perim tp ++ [a + dir_offset W j]) } hb1,
        ⟨hb1, hb2, ?_⟩, fun p hp => set_perim_other _ _ _ hp⟩
      intro c hcm
      simp only [set_perim_same, List.mem_append, List.mem_singleton] at hcm
      rcases hcm with hcm | rfl
      · exact hb3 c hcm
      · exact open_reach.step ha ⟨j, hj, rfl⟩ hon (Or.inr ⟨by rw [ht, h2.1], h2.2⟩)
    · rw [if_neg h2]
      by_cases h3 : t = T_UNKNOWN
      · rw [if_pos h3]
        simp only
        exact ⟨_, hnote { s with
            pmap := upd s.pmap (a + dir_offset W j)
              { terrain := t, cost := k + Int.tdiv W.INFINITY 2,
                inc_cost := Int.tdiv W.INFINITY 2 } } hb1,
          ⟨hb1, hb2, hb3⟩, fun _ _ => rfl⟩
      · rw [if_neg h3]
        simp only
        exact ⟨s, hnote s hb1, ⟨hb1, hb2, hb3⟩, fun _ _ => rfl⟩

/-- The loop of `vmap_find_dest` when the destination cannot be reached
returns the origin, at the latest when the cost reaches INFINITY. -/
theorem single_loop_blocked (W : World) (vmap : Int → Char) (cur dest owner : Int)
    (terrain : Nat) (hm : map_ok W)
    (hexp : ∀ c, (W.map c).on_board = true → vmap c ≠ ' ' ∧ vmap c ≠ '%')
    (hun : ∀ a, open_reach W vmap (dest_move_info owner) terrain cur a → adj W a dest →
      (W.map dest).on_board = true → False) (fuel : Nat) :
    ∀ (k : Int) (fp tp : perim_id) (s : map_state), fp ≠ tp → 1 ≤ fuel →
      W.INFINITY - k ≤ fuel → blocked_inv W vmap owner terrain cur fp s →
      ∃ s1, single_loop W (upd vmap dest '%') (dest_move_info owner) terrain fuel fp tp k s =
        some (cur, s1) := by
  induction fuel with
  | zero => intro k fp tp s _ h; omega
  | succ fuel ih =>
    intro k fp tp s hfp _ hk hs
    unfold single_loop
    have hstart : blocked_inv W vmap owner terrain cur tp
        { s with perim := set_perim s.perim tp [] } ∧
        ({ s with perim := set_perim s.perim tp [] } : map_state).perim fp = s.perim fp :=
      ⟨⟨hs.1, hs.2.1, by simp [set_perim_same]⟩, set_perim_other _ _ _ hfp⟩
    obtain ⟨s1, he, h1, _⟩ := expand_perimeter_total
      (fun t => blocked_inv W vmap owner terrain cur tp t ∧ t.perim fp = s.perim fp)
      (fun a j t ha hj ht => by
        have hra : open_reach W vmap (dest_move_info owner) terrain cur a := by
          apply hs.2.2
          rw [← hstart.2]; exact ha
        obtain ⟨t1, e1, e2, e3⟩ := blocked_step W vmap cur dest owner terrain k tp a t j
          hm hexp hun hra hj ht.1
        exact ⟨t1, e1, e2, by rw [e3 fp hfp]; exact ht.2⟩)
      hstart
    rw [he]
    simp only
    by_cases hcond : (s1.perim tp).length = 0 ∨ s1.best_cost ≤ k + 1
    · rw [if_pos hcond]
      exact ⟨s1, by rw [h1.2.1]⟩
    · rw [if_neg hcond]
      have hb : ¬ s1.best_cost ≤ k + 1 := fun h => hcond (Or.inr h)
      rw [h1.1] at hb
      exact ih (k + 1) tp fp s1 (Ne.symm hfp) (by omega) (by omega) h1

/-- C3 (as the code has it): for a fully explored view map (no on-board cell
shows the blank or the magic glyph) over a well-formed true map, any terrain
mask, origin and destination: if no chain of 8-adjacent on-board cells of
eligible terrain leads from `cur_loc` to a cell of which `dest_loc` is an
on-board neighbour (the terrain of `cur_loc` and of `dest_loc` themselves is
not examined), `vmap_find_dest` returns `cur_loc`; a round budget of INFINITY,
and at least 1, is enough. -/
theorem vmap_find_dest_unreachable (W : World) (vmap : Int → Char) (cur_loc dest_loc : Int)
    (owner : Int) (terrain fuel : Nat) (s : map_state) (hm : map_ok W)
    (hexp : ∀ c, (W.map c).on_board = true → vmap c ≠ ' ' ∧ vmap c ≠ '%')
    (hun : ¬ ∃ a, open_reach W vmap (dest_move_info owner) terrain cur_loc a ∧
      adj W a dest_loc ∧ (W.map dest_loc).on_board = true)
    (hf1 : 1 ≤ fuel) (hf : W.INFINITY ≤ fuel) :
    ∃ s1, vmap_find_dest W vmap cur_loc dest_loc owner terrain fuel s =
      some (cur_loc, s1, vmap) := by
  obtain ⟨s1, h1⟩ := single_loop_blocked W vmap cur_loc dest_loc owner terrain hm hexp
    (fun a h1 h2 h3 => hun ⟨a, h1, h2, h3⟩) fuel 0 perim_id.p1 perim_id.p2
    (start_perimeter W s perim_id.p1 cur_loc (if terrain = T_AIR then T_LAND else terrain))
    (by decide) hf1 (by omega)
    ⟨rfl, rfl, by
      intro a ha
      simp only [start_perimeter, set_perim_same, List.mem_singleton] at ha
      subst ha
      exact open_reach.start⟩
  refine ⟨s1, ?_⟩
  unfold vmap_find_dest
  simp only [h1]
  rw [upd_upd_self]

/-! ## The best objective of a search -/

theorem objective_cost_mem {W : World} {vmap : Int → Char} {mi : move_info_t} {b : Int}
    {k oc : Int} (h : objective_cost W vmap mi b k = some oc) (hne : oc ≠ W.INFINITY) :
    vmap b ∈ mi.objectives := by
  by_contra hm
  rw [← strchr_eq_none] at hm
  unfold objective_cost at h
  rw [hm] at h
  simp at h
  exact hne h.symm

/-- The comparison of a finalized cell with the best objective. -/
theorem note_objective_best {W : World} {vmap : Int → Char} {mi : move_info_t} {k : Int}
    {s1 s2 : map_state} {b : Int} {t : Nat}
    (h : note_objective W vmap mi k s1 b t = some s2) :
    ∃ oc, objective_cost W vmap mi b k = some oc ∧ s2.best_cost ≤ oc ∧
      ((s2 = s1 ∧ ¬ oc < s1.best_cost) ∨
        (oc < s1.best_cost ∧ s2.best_cost = oc ∧ s2.best_loc = b ∧
          (s2.pmap b = s1.pmap b ∨ (s2.pmap b).cost = k + 2))) := by
  unfold note_objective at h
  cases ho : objective_cost W vmap mi b k with
  | none => simp [ho] at h
  | some oc =>
    simp only [ho] at h
    refine ⟨oc, rfl, ?_⟩
    split at h
    · rename_i hlt
      split at h
      · cases h
        exact ⟨le_refl _, Or.inr ⟨hlt, rfl, rfl, Or.inr (by simp [upd_same])⟩⟩
      · cases h
        exact ⟨le_refl _, Or.inr ⟨hlt, rfl, rfl, Or.inl rfl⟩⟩
    · rename_i hlt
      cases h
      exact ⟨not_lt.1 hlt, Or.inl ⟨rfl, hlt⟩⟩

/-- A step of the expansion keeps the invariant of the best objective. -/
theorem expand_step_best {W : World} {vmap : Int → Char} {mi : move_info_t} {type : Nat}
    {k iw il : Int} {waterp landp : Option perim_id} {a : Int} {s s2 : map_state} {j : Nat}
    {loc : Int} (hk : k + 2 ≠ W.INFINITY)
    (h : expand_step W vmap mi type k iw il waterp landp a s j = some s2)
    (hs : best_inv W vmap mi loc s) : best_inv W vmap mi loc s2 := by
  by_cases hon : (W.map (a + dir_offset W j)).on_board = true
  swap
  · rw [expand_step_skip (Or.inl (by simpa using hon))] at h
    cases h; exact hs
  by_cases hc : (s.pmap (a + dir_offset W j)).cost = W.INFINITY
  swap
  · rw [expand_step_skip (Or.inr hc)] at h
    cases h; exact hs
  rw [expand_step_visit hon hc] at h
  cases ht : terrain_type W s.pmap vmap mi a (a + dir_offset W j) with
  | none => simp [ht] at h
  | some t =>
    simp only [ht, Option.bind] at h
    cases hp : place_cell W type k iw il waterp landp s (a + dir_offset W j) t with
    | none => simp [hp] at h
    | some s1 =>
      simp only [hp] at h
      obtain ⟨p1, p2, p3⟩ := place_cell_frame hp
      have hs1 : best_inv W vmap mi loc s1 := by
        refine ⟨by rw [p2]; exact hs.1, ?_⟩
        rcases hs.2 with e | ⟨e1, e2⟩
        · left; rw [p3]; exact e
        · right
          rw [p3]
          have hne : s.best_loc ≠ a + dir_offset W j := by
            intro e; rw [e] at e2; exact e2 hc
          rw [p1 _ hne]
          exact ⟨e1, e2⟩
      split at h
      · rename_i hfin
        obtain ⟨oc, ho, _, hcase⟩ := note_objective_best h
        rcases hcase with ⟨e, _⟩ | ⟨hlt, e1, e2, e3⟩
        · rw [e]; exact hs1
        · have hoc : oc < W.INFINITY := lt_of_lt_of_le hlt hs1.1
          refine ⟨by rw [e1]; exact le_of_lt hoc, Or.inr ?_⟩
          rw [e2]
          refine ⟨objective_cost_mem ho (ne_of_lt hoc), ?_⟩
          rcases e3 with e3 | e3
          · rw [e3]; exact hfin
          · rw [e3]; exact hk
      · cases h; exact hs1

theorem expand_perimeter_best {W : World} {vmap : Int → Char} {mi : move_info_t}
    {curp : perim_id} {type : Nat} {k iw il : Int} {waterp landp : Option perim_id}
    {s s2 : map_state} {loc : Int} (hk : k + 2 ≠ W.INFINITY)
    (h : expand_perimeter W vmap mi curp type k iw il waterp landp s = some s2)
    (hs : best_inv W vmap mi loc s) : best_inv W vmap mi loc s2 :=
  expand_perimeter_inv (best_inv W vmap mi loc)
    (fun _ _ _ _ _ _ ht hf => expand_step_best hk hf ht) hs h

theorem best_inv_perim {W : World} {vmap : Int → Char} {mi : move_info_t} {loc : Int}
    {s : map_state} (hs : best_inv W vmap mi loc s) (f : perim_id → List Int) :
    best_inv W vmap mi loc { s with perim := f } := hs

theorem single_loop_best (W : World) (vmap : Int → Char) (mi : move_info_t) (expand : Nat)
    (loc : Int) (fuel : Nat) :
    ∀ (fp tp : perim_id) (k : Int) (s : map_state) (r : Int × map_state),
      single_loop W vmap mi expand fuel fp tp k s = some r →
      0 ≤ k → k + fuel + 1 < W.INFINITY → best_inv W vmap mi loc s →
      best_inv W vmap mi loc r.2 ∧ r.1 = r.2.best_loc := by
  induction fuel with
  | zero => intro fp tp k s r h; simp [single_loop] at h
  | succ fuel ih =>
    intro fp tp k s r h hk0 hk hs
    unfold single_loop at h
    cases he : expand_perimeter W vmap mi fp expand k 1 1 (some tp) (some tp)
        { s with perim := set_perim s.perim tp [] } with
    | none => simp [he] at h
    | some s1 =>
      simp only [he] at h
      have h1 : best_inv W vmap mi loc s1 :=
        expand_perimeter_best (by push_cast at hk; omega) he (best_inv_perim hs _)
      split at h
      · cases h; exact ⟨h1, rfl⟩
      · exact ih tp fp (k + 1) s1 r h (by omega) (by push_cast at hk ⊢; omega) h1

theorem lwobj_loop_best (W : World) (vmap : Int → Char) (mi : move_info_t)
    (loc : Int) (fuel : Nat) :
    ∀ (cl cw nl nw : perim_id) (k : Int) (s : map_state) (r : Int × map_state),
      lwobj_loop W vmap mi fuel cl cw nl nw k s = some r →
      0 ≤ k → k + 2 * fuel + 1 < W.INFINITY → best_inv W vmap mi loc s →
      best_inv W vmap mi loc r.2 ∧ r.1 = r.2.best_loc := by
  induction fuel with
  | zero => intro cl cw nl nw k s r h; simp [lwobj_loop] at h
  | succ fuel ih =>
    intro cl cw nl nw k s r h hk0 hk hs
    push_cast at hk
    unfold lwobj_loop at h
    cases he1 : expand_perimeter W vmap mi cw T_WATER k 1 1 (some nw) none
        { s with perim := set_perim (set_perim s.perim nw []) nl [] } with
    | none => simp [he1] at h
    | some s1 =>
      simp only [he1] at h
      have h1 : best_inv W vmap mi loc s1 :=
        expand_perimeter_best (by omega) he1 (best_inv_perim hs _)
      cases he2 : expand_perimeter W vmap mi cl T_AIR k 1 2 (some nw) (some nl) s1 with
      | none => simp [he2] at h
      | some s2 =>
        simp only [he2] at h
        have h2 : best_inv W vmap mi loc s2 := expand_perimeter_best (by omega) he2 h1
        cases he3 : expand_perimeter W vmap mi nw T_WATER (k + 1) 1 1 (some cw) none
            { s2 with perim := set_perim s2.perim cw [] } with
        | none => simp [he3] at h
        | some s3 =>
          simp only [he3] at h
          have h3 : best_inv W vmap mi loc s3 :=
            expand_perimeter_best (by omega) he3 (best_inv_perim h2 _)
          split at h
          · cases h; exact ⟨h3, rfl⟩
          · exact ih nl cw cl nw (k + 2) s3 r h (by omega) (by omega) h3

theorem wlobj_loop_best (W : World) (vmap : Int → Char) (mi : move_info_t)
    (loc : Int) (fuel : Nat) :
    ∀ (cl cw nl nw : perim_id) (k : Int) (s : map_state) (r : Int × map_state),
      wlobj_loop W vmap mi fuel cl cw nl nw k s = some r →
      0 ≤ k → k + 2 * fuel + 1 < W.INFINITY → best_inv W vmap mi loc s →
      best_inv W vmap mi loc r.2 ∧ r.1 = r.2.best_loc := by
  induction fuel with
  | zero => intro cl cw nl nw k s r h; simp [wlobj_loop] at h
  | succ fuel ih =>
    intro cl cw nl nw k s r h hk0 hk hs
    push_cast at hk
    unfold wlobj_loop at h
    cases he1 : expand_perimeter W vmap mi cw T_AIR k 1 2 (some nw) (some nl)
        { s with perim := set_perim (set_perim s.perim nw []) nl [] } with
    | none => simp [he1] at h
    | some s1 =>
      simp only [he1] at h
      have h1 : best_inv W vmap mi loc s1 :=
        expand_perimeter_best (by omega) he1 (best_inv_perim hs _)
      cases he2 : expand_perimeter W vmap mi cl T_LAND k 1 2 none (some nl) s1 with
      | none => simp [he2] at h
      | some s2 =>
        simp only [he2] at h
        have h2 : best_inv W vmap mi loc s2 := expand_perimeter_best (by omega) he2 h1
        cases he3 : expand_perimeter W vmap mi nw T_WATER (k + 1) 1 1 (some cw) none
            { s2 with perim := set_perim s2.perim cw [] } with
        | none => simp [he3] at h
        | some s3 =>
          simp only [he3] at h
          have h3 : best_inv W vmap mi loc s3 :=
            expand_perimeter_best (by omega) he3 (best_inv_perim h2 _)
          split at h
          · cases h; exact ⟨h3, rfl⟩
          · exact ih nl cw cl nw (k + 2) s3 r h (by omega) (by omega) h3

theorem best_inv_start (W : World) (vmap : Int → Char) (mi : move_info_t) (loc : Int)
    (s : map_state) (p : perim_id) (t : Nat) :
    best_inv W vmap mi loc (start_perimeter W s p loc t) :=
  ⟨le_refl _, Or.inl rfl⟩

theorem vmap_find_xobj_origin (W : World) (vmap : Int → Char) (loc : Int) (mi : move_info_t)
    (start expand fuel : Nat) (s : map_state) (hI : 2 * (fuel : Int) + 1 < W.INFINITY)
    (r : Int × map_state)
    (h : vmap_find_xobj W vmap loc mi start expand fuel s = some r)
    (hno : ∀ c, c ≠ loc → (r.2.pmap c).cost ≠ W.INFINITY → vmap c ∉ mi.objectives) :
    r.1 = loc := by
  unfold vmap_find_xobj at h
  obtain ⟨h1, h2⟩ := single_loop_best W vmap mi expand loc fuel _ _ 0 _ r h (le_refl _)
    (by omega) (best_inv_start W vmap mi loc s _ _)
  rw [h2]
  rcases h1.2 with e | ⟨e1, e2⟩
  · exact e
  · by_contra hne
    exact hno _ hne e2 e1

/-- C5 (as the code has it): for `vmap_find_lobj`, `vmap_find_wobj`,
`vmap_find_aobj` and `vmap_find_wlobj`, and for `vmap_find_lwobj` with a
`beat_cost` of at most INFINITY: if no cell finalized during the search (a
cell other than the origin whose cost in the final path map is not INFINITY)
has a view glyph that occurs in `move_info->objectives`, the function returns
the origin `loc` (INFINITY being above the costs of the rounds run). -/
theorem find_obj_origin (W : World) (vmap : Int → Char) (loc : Int) (mi : move_info_t)
    (fuel : Nat) (s : map_state) (hI : 2 * (fuel : Int) + 1 < W.INFINITY) :
    (∀ r, vmap_find_lobj W vmap loc mi fuel s = some r →
      (∀ c, c ≠ loc → (r.2.pmap c).cost ≠ W.INFINITY → vmap c ∉ mi.objectives) →
      r.1 = loc) ∧
    (∀ r, vmap_find_wobj W vmap loc mi fuel s = some r →
      (∀ c, c ≠ loc → (r.2.pmap c).cost ≠ W.INFINITY → vmap c ∉ mi.objectives) →
      r.1 = loc) ∧
    (∀ r, vmap_find_aobj W vmap loc mi fuel s = some r →
      (∀ c, c ≠ loc → (r.2.pmap c).cost ≠ W.INFINITY → vmap c ∉ mi.objectives) →
      r.1 = loc) ∧
    (∀ r, vmap_find_wlobj W vmap loc mi fuel s = some r →
      (∀ c, c ≠ loc → (r.2.pmap c).cost ≠ W.INFINITY → vmap c ∉ mi.objectives) →
      r.1 = loc) ∧
    (∀ beat_cost r, beat_cost ≤ W.INFINITY →
      vmap_find_lwobj W vmap loc mi beat_cost fuel s = some r →
      (∀ c, c ≠ loc → (r.2.pmap c).cost ≠ W.INFINITY → vmap c ∉ mi.objectives) →
      r.1 = loc) := by
  have fin : ∀ r : Int × map_state, best_inv W vmap mi loc r.2 ∧ r.1 = r.2.best_loc →
      (∀ c, c ≠ loc → (r.2.pmap c).cost ≠ W.INFINITY → vmap c ∉ mi.objectives) →
      r.1 = loc := by
    intro r ⟨h1, h2⟩ hno
    rw [h2]
    rcases h1.2 with e | ⟨e1, e2⟩
    · exact e
    · by_contra hne
      exact hno _ hne e2 e1
  refine ⟨?_, ?_, ?_, ?_, ?_⟩
  · intro r h
    exact vmap_find_xobj_origin W vmap loc mi _ _ fuel s hI r h
  · intro r h
    exact vmap_find_xobj_origin W vmap loc mi _ _ fuel s hI r h
  · intro r h
    exact vmap_find_xobj_origin W vmap loc mi _ _ fuel s hI r h
  · intro r h
    unfold vmap_find_wlobj at h
    exact fin r (wlobj_loop_best W vmap mi loc fuel _ _ _ _ 0 _ r h (le_refl _) (by omega)
      (best_inv_perim (best_inv_start W vmap mi loc s _ _) _))
  · intro beat_cost r hb h
    unfold vmap_find_lwobj at h
    exact fin r (lwobj_loop_best W vmap mi loc fuel _ _ _ _ 0 _ r h (le_refl _) (by omega)
      ⟨hb, Or.inl rfl⟩)

/-! ## The best objective is the cheapest: one expansion -/

theorem round_track_refl (W : World) (vmap : Int → Char) (mi : move_info_t) (k : Int)
    (s : map_state) : round_track W vmap mi k s s :=
  ⟨le_refl _, fun _ _ => rfl, fun _ h1 h2 => absurd h1 h2, Or.inl ⟨rfl, rfl⟩⟩

/-- A step of the expansion keeps `round_track`. -/
theorem expand_step_track {W : World} {vmap : Int → Char} {mi : move_info_t} {type : Nat}
    {k iw il : Int} {waterp landp : Option perim_id} {a : Int} {s t t2 : map_state} {j : Nat}
    (hk : k + 2 ≠ W.INFINITY)
    (h : expand_step W vmap mi type k iw il waterp landp a t j = some t2)
    (ht : round_track W vmap mi k s t) : round_track W vmap mi k s t2 := by
  obtain ⟨r1, r2, r3, r4⟩ := ht
  by_cases hon : (W.map (a + dir_offset W j)).on_board = true
  swap
  · rw [expand_step_skip (Or.inl (by simpa using hon))] at h
    cases h; exact ⟨r1, r2, r3, r4⟩
  by_cases hc : (t.pmap (a + dir_offset W j)).cost = W.INFINITY
  swap
  · rw [expand_step_skip (Or.inr hc)] at h
    cases h; exact ⟨r1, r2, r3, r4⟩
  have hfr := expand_step_frame h
  have hcs : (s.pmap (a + dir_offset W j)).cost = W.INFINITY := by
    by_contra hne
    rw [r2 _ hne] at hc
    exact hne hc
  -- the cells other than the one visited
  have hold : ∀ c, (s.pmap c).cost ≠ W.INFINITY → t2.pmap c = s.pmap c := by
    intro c hcc
    have hcb : c ≠ a + dir_offset W j := by rintro rfl; exact hcc hcs
    rw [hfr.1 c hcb]; exact r2 c hcc
  have hkeep : ∀ c, c ≠ a + dir_offset W j → (s.pmap c).cost = W.INFINITY →
      (t2.pmap c).cost ≠ W.INFINITY →
      ∃ oc, objective_cost W vmap mi c k = some oc ∧ t2.best_cost ≤ oc := by
    intro c hcb h1 h2
    rw [hfr.1 c hcb] at h2
    obtain ⟨oc, e1, e2⟩ := r3 c h1 h2
    exact ⟨oc, e1, le_trans hfr.2 e2⟩
  have hbest_keep : t2.best_cost = t.best_cost → t2.best_loc = t.best_loc →
      t2.pmap t.best_loc = t.pmap t.best_loc ∨ (t.pmap t.best_loc).cost = W.INFINITY →
      (t2.best_cost = s.best_cost ∧ t2.best_loc = s.best_loc) ∨
      (t2.best_cost < s.best_cost ∧
        objective_cost W vmap mi t2.best_loc k = some t2.best_cost ∧
        (s.pmap t2.best_loc).cost = W.INFINITY ∧ (t2.pmap t2.best_loc).cost ≠ W.INFINITY) := by
    intro e1 e2 e3
    rcases r4 with ⟨q1, q2⟩ | ⟨q1, q2, q3, q4⟩
    · left; exact ⟨e1.trans q1, e2.trans q2⟩
    · right
      rw [e1, e2]
      refine ⟨q1, q2, q3, ?_⟩
      rcases e3 with e3 | e3
      · rw [e3]; exact q4
      · exact absurd e3 q4
  rw [expand_step_visit hon hc] at h
  cases htt : terrain_type W t.pmap vmap mi a (a + dir_offset W j) with
  | none => simp [htt] at h
  | some ty =>
    simp only [htt, Option.bind] at h
    cases hp : place_cell W type k iw il waterp landp t (a + dir_offset W j) ty with
    | none => simp [hp] at h
    | some s1 =>
      simp only [hp] at h
      obtain ⟨p1, p2, p3⟩ := place_cell_frame hp
      have hbl : t.best_loc ≠ a + dir_offset W j → s1.pmap t.best_loc = t.pmap t.best_loc :=
        fun hne => p1 _ hne
      split at h
      · rename_i hfin
        obtain ⟨oc, ho, hle, hcase⟩ := note_objective_best h
        refine ⟨le_trans hfr.2 r1, hold, ?_, ?_⟩
        · intro c h1 h2
          by_cases hcb : c = a + dir_offset W j
          · subst hcb; exact ⟨oc, ho, hle⟩
          · exact hkeep c hcb h1 h2
        · rcases hcase with ⟨e, _⟩ | ⟨hlt, e1, e2, e3⟩
          · subst e
            apply hbest_keep p2 p3
            by_cases hne : t.best_loc = a + dir_offset W j
            · right; rw [hne]; exact hc
            · left; exact hbl hne
          · right
            rw [e2, e1]
            refine ⟨lt_of_lt_of_le (by rw [p2] at hlt; exact hlt) r1, ho, hcs, ?_⟩
            rcases e3 with e3 | e3
            · rw [e3]; exact hfin
            · rw [e3]; exact hk
      · rename_i hfin
        cases h
        refine ⟨le_trans hfr.2 r1, hold, ?_, ?_⟩
        · intro c h1 h2
          by_cases hcb : c = a + dir_offset W j
          · subst hcb; exact absurd h2 hfin
          · exact hkeep c hcb h1 h2
        · apply hbest_keep p2 p3
          by_cases hne : t.best_loc = a + dir_offset W j
          · right; rw [hne]; exact hc
          · left; exact hbl hne

theorem expand_perimeter_track {W : World} {vmap : Int → Char} {mi : move_info_t}
    {curp : perim_id} {type : Nat} {k iw il : Int} {waterp landp : Option perim_id}
    {s s2 : map_state} (hk : k + 2 ≠ W.INFINITY)
    (h : expand_perimeter W vmap mi curp type k iw il waterp landp s = some s2) :
    round_track W vmap mi k s s2 :=
  expand_perimeter_inv (round_track W vmap mi k s)
    (fun _ _ _ _ _ _ ht hf => expand_step_track hk hf ht) (round_track_refl W vmap mi k s) h

/-- An expansion of an empty perimeter changes nothing. -/
theorem expand_perimeter_empty {W : World} {vmap : Int → Char} {mi : move_info_t}
    {curp : perim_id} {type : Nat} {k iw il : Int} {waterp landp : Option perim_id}
    {s : map_state} (h : s.perim curp = []) :
    expand_perimeter W vmap mi curp type k iw il waterp landp s = some s := by
  unfold expand_perimeter
  rw [h]
  rfl

/-! ## The best objective is the cheapest: the rounds -/

theorem free_rounds_succ {W : World} {vmap : Int → Char} {mi : move_info_t} {expand : Nat}
    {s : map_state} {n : Nat} {fp tp : perim_id} {t t1 : map_state}
    (h : free_rounds W vmap mi expand s n = some (fp, tp, t))
    (he : expand_perimeter W vmap mi fp expand n 1 1 (some tp) (some tp)
      { t with perim := set_perim t.perim tp [] } = some t1) :
    free_rounds W vmap mi expand s (n + 1) = some (tp, fp, t1) := by
  simp only [free_rounds, h, he]

theorem free_rounds_inv {W : World} {vmap : Int → Char} {mi : move_info_t} {expand : Nat}
    {s : map_state} {n : Nat} {x : perim_id × perim_id × map_state}
    (h : free_rounds W vmap mi expand s (n + 1) = some x) :
    ∃ fp tp t t1, free_rounds W vmap mi expand s n = some (fp, tp, t) ∧
      expand_perimeter W vmap mi fp expand n 1 1 (some tp) (some tp)
        { t with perim := set_perim t.perim tp [] } = some t1 ∧ x = (tp, fp, t1) := by
  simp only [free_rounds] at h
  cases h0 : free_rounds W vmap mi expand s n with
  | none => simp [h0] at h
  | some y =>
    obtain ⟨fp, tp, t⟩ := y
    simp only [h0] at h
    cases he : expand_perimeter W vmap mi fp expand n 1 1 (some tp) (some tp)
        { t with perim := set_perim t.perim tp [] } with
    | none => simp [he] at h
    | some t1 =>
      simp only [he] at h
      exact ⟨fp, tp, t, t1, rfl, he, (Option.some.inj h).symm⟩

theorem free_rounds_ne {W : World} {vmap : Int → Char} {mi : move_info_t} {expand : Nat}
    {s : map_state} (n : Nat) : ∀ {fp tp : perim_id} {t : map_state},
    free_rounds W vmap mi expand s n = some (fp, tp, t) → fp ≠ tp := by
  induction n with
  | zero =>
    intro fp tp t h
    simp only [free_rounds] at h
    cases h
    decide
  | succ n ih =>
    intro fp tp t h
    obtain ⟨fp0, tp0, t0, t1, h0, _, hx⟩ := free_rounds_inv h
    cases hx
    exact Ne.symm (ih h0)

/-- The loop of `vmap_find_xobj` returns the state that the un-truncated
expansion is in after some number `n` of rounds, at which the new perimeter is
empty or the best cost is at most `n`. -/
theorem single_loop_free (W : World) (vmap : Int → Char) (mi : move_info_t) (expand : Nat)
    (s : map_state) (fuel : Nat) :
    ∀ (k : Nat) (fp tp : perim_id) (t : map_state) (r : Int × map_state),
      free_rounds W vmap mi expand s k = some (fp, tp, t) →
      single_loop W vmap mi expand fuel fp tp k t = some r →
      ∃ n fp1 tp1, k < n ∧ n ≤ k + fuel ∧
        free_rounds W vmap mi expand s n = some (fp1, tp1, r.2) ∧ r.1 = r.2.best_loc ∧
        ((r.2.perim fp1).length = 0 ∨ r.2.best_cost ≤ n) := by
  induction fuel with
  | zero => intro k fp tp t r _ h; simp [single_loop] at h
  | succ fuel ih =>
    intro k fp tp t r hk h
    unfold single_loop at h
    cases he : expand_perimeter W vmap mi fp expand k 1 1 (some tp) (some tp)
        { t with perim := set_perim t.perim tp [] } with
    | none => simp [he] at h
    | some t1 =>
      simp only [he] at h
      have hk1 := free_rounds_succ hk he
      have hcast : ((k : Int) + 1) = ((k + 1 : Nat) : Int) := by push_cast; rfl
      split at h
      · rename_i hc
        cases h
        rw [hcast] at hc
        exact ⟨k + 1, tp, fp, by omega, by omega, hk1, rfl, hc⟩
      · rw [hcast] at h
        obtain ⟨n, fp1, tp1, h1, h2, h3⟩ := ih (k + 1) tp fp t1 r hk1 h
        exact ⟨n, fp1, tp1, by omega, by omega, h3⟩

theorem expand_perimeter_best_le {W : World} {vmap : Int → Char} {mi : move_info_t}
    {curp : perim_id} {type : Nat} {k iw il : Int} {waterp landp : Option perim_id}
    {s s2 : map_state}
    (h : expand_perimeter W vmap mi curp type k iw il waterp landp s = some s2) :
    s2.best_cost ≤ s.best_cost :=
  expand_perimeter_inv (fun t => t.best_cost ≤ s.best_cost)
    (fun _ _ _ _ _ _ ht hf => le_trans (expand_step_frame hf).2 ht) (le_refl _) h

/-- The best cost does not grow along the un-truncated expansion. -/
theorem free_rounds_best_le {W : World} {vmap : Int → Char} {mi : move_info_t} {expand : Nat}
    {s : map_state} (n m : Nat) : ∀ {x y : perim_id × perim_id × map_state},
    free_rounds W vmap mi expand s n = some x →
    free_rounds W vmap mi expand s (n + m) = some y → y.2.2.best_cost ≤ x.2.2.best_cost := by
  induction m with
  | zero =>
    intro x y hx hy
    rw [Nat.add_zero, hx] at hy
    cases hy
    exact le_refl _
  | succ m ih =>
    intro x y hx hy
    obtain ⟨fp, tp, t, t1, h0, he, hy'⟩ := free_rounds_inv (n := n + m) hy
    subst hy'
    exact le_trans (expand_perimeter_best_le he) (ih hx h0)

/-- Once the perimeter to expand is empty, the un-truncated expansion changes
the path map no more. -/
theorem free_rounds_dead {W : World} {vmap : Int → Char} {mi : move_info_t} {expand : Nat}
    {s : map_state} {n : Nat} {fp tp : perim_id} {t : map_state}
    (h : free_rounds W vmap mi expand s n = some (fp, tp, t)) (he : t.perim fp = []) (m : Nat) :
    ∃ fp1 tp1 t1, free_rounds W vmap mi expand s (n + m) = some (fp1, tp1, t1) ∧
      t1.pmap = t.pmap ∧ t1.perim fp1 = [] := by
  induction m with
  | zero => exact ⟨fp, tp, t, h, rfl, he⟩
  | succ m ih =>
    obtain ⟨fp1, tp1, t1, h1, h2, h3⟩ := ih
    have hne := free_rounds_ne _ h1
    have hexp : expand_perimeter W vmap mi fp1 expand ((n + m : Nat) : Int) 1 1
        (some tp1) (some tp1) { t1 with perim := set_perim t1.perim tp1 [] } =
        some { t1 with perim := set_perim t1.perim tp1 [] } :=
      expand_perimeter_empty (by
        show set_perim t1.perim tp1 [] fp1 = []
        rw [set_perim_other _ _ _ hne]; exact h3)
    exact ⟨tp1, fp1, _, free_rounds_succ h1 hexp, h2, set_perim_same _ _ _⟩

/-- The invariant of the best objective along the un-truncated expansion. -/
theorem free_rounds_best_track {W : World} {vmap : Int → Char} {mi : move_info_t}
    {expand : Nat} {s : map_state} {loc : Int}
    (hs : s.best_cost = W.INFINITY ∧ s.best_loc = loc) (n : Nat) :
    ∀ {fp tp : perim_id} {t : map_state}, (n : Int) + 1 < W.INFINITY →
      free_rounds W vmap mi expand s n = some (fp, tp, t) →
      best_track W vmap mi expand s loc n t := by
  induction n with
  | zero =>
    intro fp tp t _ h
    simp only [free_rounds] at h
    cases h
    exact ⟨le_of_eq hs.1, Or.inl ⟨hs.2, hs.1⟩⟩
  | succ n ih =>
    intro fp tp t hn h
    obtain ⟨fp0, tp0, t0, t1, h0, he, hx⟩ := free_rounds_inv h
    cases hx
    push_cast at hn
    obtain ⟨b1, b2⟩ := ih (by omega) h0
    obtain ⟨r1, _, _, r4⟩ := expand_perimeter_track (by omega) he
    simp only at r1 r4
    refine ⟨le_trans r1 b1, ?_⟩
    rcases r4 with ⟨e1, e2⟩ | ⟨e1, e2, e3, e4⟩
    · rcases b2 with ⟨c1, c2⟩ | ⟨kb, c1, c2, c3, c4⟩
      · left; exact ⟨e2.trans c1, e1.trans c2⟩
      · right
        refine ⟨kb, by omega, by rw [e1]; exact c2, ?_, ?_⟩
        · rw [e1, e2]; exact c3
        · rw [e2]; exact c4
    · right
      exact ⟨n, by omega, lt_of_lt_of_le e1 b1, e2, ⟨_, _, h0, h, e3, e4⟩⟩

theorem getD_nonneg (l : List Int) (hl : ∀ w ∈ l, 0 ≤ w) (i : Nat) : 0 ≤ l.getD i 0 := by
  induction l generalizing i with
  | nil => simp
  | cons x xs ih =>
    cases i with
    | zero => simpa using hl x (List.mem_cons_self _ _)
    | succ i =>
      simpa using ih (fun w hw => hl w (List.mem_cons_of_mem _ hw)) i

theorem objective_cost_weight {W : World} {vmap : Int → Char} {mi : move_info_t} {c : Int}
    {i : Nat} (hw : ∀ w ∈ mi.weights, 0 ≤ w) (hi : strchr mi.objectives (vmap c) = some i)
    (k : Int) : objective_cost W vmap mi c k = some (mi.weights.getD i 0 + k) := by
  unfold objective_cost
  rw [hi]
  simp only
  rw [if_pos (getD_nonneg _ hw i)]

/-- C6: for `vmap_find_xobj` (and so `vmap_find_lobj`, `vmap_find_wobj`,
`vmap_find_aobj`) with every weight non-negative: if the search returns a
cell `b` other than the origin, `b` is an objective, finalized from the
perimeter of some cost `kb`, with `best_cost = weight(b) + kb`, and it
minimises the weighted objective cost: for every cell `c` that the
un-truncated expansion finalizes from a perimeter of cost `k'` and whose glyph
is an objective of weight `w'`, `weight(b) + kb <= w' + k'` (INFINITY being
above the costs of the rounds run). -/
theorem vmap_find_xobj_cheapest (W : World) (vmap : Int → Char) (loc : Int)
    (mi : move_info_t) (start expand fuel : Nat) (s0 : map_state) (b : Int) (s1 : map_state)
    (hw : ∀ w ∈ mi.weights, 0 ≤ w) (hI : (fuel : Int) + 1 < W.INFINITY)
    (hres : vmap_find_xobj W vmap loc mi start expand fuel s0 = some (b, s1))
    (hb : b ≠ loc) :
    ∃ (kb ib : Nat), strchr mi.objectives (vmap b) = some ib ∧
      finalized_at W vmap mi expand (start_perimeter W s0 perim_id.p1 loc start) kb b ∧
      s1.best_cost = mi.weights.getD ib 0 + kb ∧
      ∀ (c : Int) (k' i' : Nat),
        finalized_at W vmap mi expand (start_perimeter W s0 perim_id.p1 loc start) k' c →
        strchr mi.objectives (vmap c) = some i' →
        mi.weights.getD ib 0 + (kb : Int) ≤ mi.weights.getD i' 0 + k' := by
  unfold vmap_find_xobj at hres
  have h0 : free_rounds W vmap mi expand (start_perimeter W s0 perim_id.p1 loc start) 0 =
      some (perim_id.p1, perim_id.p2, start_perimeter W s0 perim_id.p1 loc start) := rfl
  obtain ⟨n, fp1, tp1, hn1, hn2, hfree, hbest, hstop⟩ :=
    single_loop_free W vmap mi expand _ fuel 0 _ _ _ (b, s1) h0 (by simpa using hres)
  simp only at hfree hbest hstop
  have hsi : (start_perimeter W s0 perim_id.p1 loc start).best_cost = W.INFINITY ∧
      (start_perimeter W s0 perim_id.p1 loc start).best_loc = loc := ⟨rfl, rfl⟩
  have hnI : (n : Int) + 1 < W.INFINITY := by
    have : (n : Int) ≤ fuel := by exact_mod_cast (by omega : n ≤ fuel)
    omega
  obtain ⟨_, htr⟩ := free_rounds_best_track hsi n hnI hfree
  rcases htr with ⟨e, _⟩ | ⟨kb, hkb, hlt, hobj, hfin⟩
  · exact absurd (hbest.trans e) hb
  rw [← hbest] at hobj hfin
  have hmem := objective_cost_mem hobj (ne_of_lt hlt)
  obtain ⟨ib, hib⟩ := strchr_isSome.2 hmem
  have hcost : s1.best_cost = mi.weights.getD ib 0 + kb := by
    rw [objective_cost_weight hw hib] at hobj
    exact (Option.some.inj hobj).symm
  refine ⟨kb, ib, hib, hfin, hcost, ?_⟩
  intro c k' i' hc hi'
  rw [← hcost]
  obtain ⟨u, u1, hu, hu1, hc1, hc2⟩ := hc
  by_cases hk' : k' < n
  · -- finalized before the search stopped: it was compared with the best cost
    obtain ⟨fp, tp, t, t1, h0', he, hx⟩ := free_rounds_inv hu1
    rw [hu] at h0'
    cases h0'
    subst hx
    have hk2 : (k' : Int) + 2 ≠ W.INFINITY := by
      have : (k' : Int) + 1 ≤ n := by exact_mod_cast hk'
      omega
    obtain ⟨_, _, r3, _⟩ := expand_perimeter_track hk2 he
    obtain ⟨oc, ho, hle⟩ := r3 c hc1 hc2
    rw [objective_cost_weight hw hi'] at ho
    cases ho
    have hmono := free_rounds_best_le (k' + 1) (n - (k' + 1)) hu1
      (by rw [show k' + 1 + (n - (k' + 1)) = n by omega]; exact hfree)
    simp only at hmono
    exact le_trans hmono hle
  · -- finalized after the search stopped
    rcases hstop with hempty | hle
    · exfalso
      rw [List.length_eq_zero] at hempty
      obtain ⟨_, _, t1, g1, g2, _⟩ := free_rounds_dead hfree hempty (k' - n)
      obtain ⟨_, _, t2, g3, g4, _⟩ := free_rounds_dead hfree hempty (k' + 1 - n)
      rw [show n + (k' - n) = k' by omega, hu] at g1
      rw [show n + (k' + 1 - n) = k' + 1 by omega, hu1] at g3
      cases g1
      cases g3
      rw [g4, ← g2] at hc2
      exact hc2 hc1
    · have h1 := getD_nonneg _ hw i'
      have : (n : Int) ≤ k' := by exact_mod_cast (by omega : n ≤ k')
      omega

/-! ## Concrete runs -/

theorem getD_of_isSome {α : Type} {o : Option α} (h : o.isSome = true) (d : α) :
    o = some (o.getD d) := by
  cases o with
  | none => cases h
  | some x => rfl

theorem demo_eligible :
    ∀ c, (demo_world.map c).on_board = true → eligible_view demo_world demo_land T_LAND c :=
  fun _ _ => Or.inl ⟨rfl, rfl⟩

theorem demo_chain : chain demo_world 6 2 18 :=
  chain.step (chain.step chain.zero (by decide : adj demo_world 6 12) (by decide))
    (by decide : adj demo_world 12 18) (by decide)

theorem demo_hop_count : hop_count demo_world 6 18 2 := by
  refine ⟨demo_chain, ?_⟩
  intro n h
  match n, h with
  | 0, h => exact absurd (chain_zero_eq h) (by decide)
  | 1, h => exact absurd (chain_one_inv h).1 (by decide)
  | n + 2, _ => omega

theorem demo_found_eq :
    vmap_find_dest demo_world demo_land 6 18 0 T_LAND 5 demo_state =
      some (18, demo_found.2.1, demo_found.2.2) := by
  have h := getD_of_isSome
    (o := vmap_find_dest demo_world demo_land 6 18 0 T_LAND 5 demo_state) (by decide)
    (0, demo_state, demo_land)
  have h1 : demo_found.1 = 18 := by decide
  rw [h]
  show some demo_found = _
  rw [← h1]

theorem demo_marked_eq :
    vmap_mark_path demo_world 5 demo_found.2.1.pmap 18 = some demo_marked :=
  getD_of_isSome (by decide) _

theorem demo_objective_eq :
    vmap_find_xobj demo_world demo_city 6 demo_move_info T_LAND T_LAND 5 demo_state =
      some (18, demo_objective.2) := by
  have h := getD_of_isSome
    (o := vmap_find_lobj demo_world demo_city 6 demo_move_info 5 demo_state) (by decide)
    (0, demo_state)
  have h1 : demo_objective.1 = 18 := by decide
  show vmap_find_lobj demo_world demo_city 6 demo_move_info 5 demo_state = _
  rw [h]
  show some demo_objective = _
  rw [← h1]

theorem open_reach_cases {W : World} {vmap : Int → Char} {mi : move_info_t} {terrain : Nat}
    {cur b : Int} (h : open_reach W vmap mi terrain cur b) :
    b = cur ∨ ((W.map b).on_board = true ∧ passable W vmap mi terrain b) := by
  cases h with
  | start => exact Or.inl rfl
  | step _ _ hon hp => exact Or.inr ⟨hon, hp⟩

theorem demo_wall_reach (a : Int)
    (h : open_reach demo_world demo_wall (dest_move_info 0) T_LAND 6 a) :
    a = 6 ∨ a = 11 ∨ a = 16 := by
  induction h with
  | start => exact Or.inl rfl
  | step _ hadj hon hp ih =>
    obtain ⟨d, hd, rfl⟩ := hadj
    rcases ih with rfl | rfl | rfl <;> interval_cases d <;> revert hon hp <;> decide

theorem demo_wall_blocked :
    ¬ ∃ a, open_reach demo_world demo_wall (dest_move_info 0) T_LAND 6 a ∧
      adj demo_world a 8 ∧ (demo_world.map 8).on_board = true := by
  rintro ⟨a, hr, hadj, _⟩
  rcases demo_wall_reach a hr with rfl | rfl | rfl <;> exact absurd hadj (by decide)

/-- Witness of C1: on the small all-land map, from 6 to 18. -/
theorem vmap_find_dest_returns_dest_witness :
    ∃ s1, vmap_find_dest demo_world demo_land 6 18 0 T_LAND 5 demo_state =
      some (18, s1, demo_land) :=
  vmap_find_dest_returns_dest demo_world demo_land 6 18 0 T_LAND 2 5 demo_state
    (by decide) demo_eligible (by decide) demo_chain (by decide) (by decide)

/-- Counterexample to C2 as stated: on the small all-land map the hop count
from 6 to 18 is 2, and `vmap_find_dest` returns 18 with
`path_map[18].cost = 3`. -/
theorem vmap_find_dest_cost_counterexample :
    (∀ c, (demo_world.map c).on_board = true → eligible_view demo_world demo_land T_LAND c) ∧
    hop_count demo_world 6 18 2 ∧
    (vmap_find_dest demo_world demo_land 6 18 0 T_LAND 5 demo_state).map
      (fun r => (r.1, (r.2.1.pmap 18).cost)) = some (18, 3) :=
  ⟨demo_eligible, demo_hop_count, by decide⟩

/-- Witness of C2 as amended: from 6 to 18, hop count 2. -/
theorem vmap_find_dest_cost_witness :
    ∃ s1, vmap_find_dest demo_world demo_land 6 18 0 T_LAND 5 demo_state =
        some (18, s1, demo_land) ∧
      (s1.pmap 18).cost = (2 : Nat) + 1 ∧ (s1.pmap 18).inc_cost = 2 ∧
      s1.best_cost = (2 : Nat) :=
  vmap_find_dest_cost demo_world demo_land 6 18 0 T_LAND 2 5 demo_state
    (by decide) demo_eligible (by decide) demo_hop_count (by decide) (by decide)

/-- Counterexample to C3 as stated: the view is fully explored and the
destination 7 shows sea, so that no chain of cells of terrain eligible for a
land mover leads from 6 to 7; `vmap_find_dest` returns 7, not the origin 6. -/
theorem vmap_find_dest_unreachable_counterexample :
    (∀ c, (demo_world.map c).on_board = true → demo_coast c ≠ ' ') ∧
    (¬ open_reach demo_world demo_coast (dest_move_info 0) T_LAND 6 7) ∧
    (vmap_find_dest demo_world demo_coast 6 7 0 T_LAND 100 demo_state).map (fun r => r.1) =
      some 7 := by
  refine ⟨?_, ?_, by decide⟩
  · intro c _
    unfold demo_coast
    split <;> decide
  · intro h
    rcases open_reach_cases h with h | ⟨_, h⟩
    · exact absurd h (by decide)
    · exact absurd h (by decide)

/-- Witness of C3 as amended: the middle column is sea, the destination 8 lies
behind it, the origin is 6. -/
theorem vmap_find_dest_unreachable_witness :
    ∃ s1, vmap_find_dest demo_world demo_wall 6 8 0 T_LAND 100 demo_state =
      some (6, s1, demo_wall) :=
  vmap_find_dest_unreachable demo_world demo_wall 6 8 0 T_LAND 100 demo_state
    (fun _ _ => Or.inr (Or.inl rfl))
    (fun c _ => by unfold demo_wall; split <;> exact ⟨by decide, by decide⟩)
    demo_wall_blocked (by decide) (by decide)

/-- Witness of C4: the view map that the search from 6 to 18 leaves. -/
theorem vmap_find_dest_restores_witness : demo_found.2.2 = demo_land :=
  vmap_find_dest_restores demo_world demo_land 6 18 0 T_LAND 5 demo_state
    (18, demo_found.2.1, demo_found.2.2) demo_found_eq

/-- Counterexample to C5 as stated: no cell shows the objective glyph, and
`vmap_find_lwobj` called with a `beat_cost` above INFINITY returns the cell 7,
not the origin 6. -/
theorem find_obj_origin_counterexample :
    (∀ c, demo_land c ∉ demo_move_info.objectives) ∧
    (vmap_find_lwobj demo_world demo_land 6 demo_move_info 101 5 demo_state).map
      (fun r => r.1) = some 7 :=
  ⟨fun _ => by show '+' ∉ ['X']; decide, by decide⟩

/-- Witness of C5 as amended: the five searches on the small all-land map,
where no cell shows the objective glyph; the land search returns the origin. -/
theorem find_obj_origin_witness :
    (vmap_find_lobj demo_world demo_land 6 demo_move_info 5 demo_state).map (fun r => r.1) =
      some 6 := by
  have h := getD_of_isSome
    (o := vmap_find_lobj demo_world demo_land 6 demo_move_info 5 demo_state) (by decide)
    (0, demo_state)
  have h1 := (find_obj_origin demo_world demo_land 6 demo_move_info 5 demo_state
    (by decide)).1 _ h (fun _ _ _ => by show '+' ∉ ['X']; decide)
  rw [h, Option.map_some', h1]

/-- Witness of C6: the land search from 6 on the view with the enemy city
glyph at 18 returns 18. -/
theorem vmap_find_xobj_cheapest_witness :
    ∃ (kb ib : Nat), strchr demo_move_info.objectives (demo_city 18) = some ib ∧
      finalized_at demo_world demo_city demo_move_info T_LAND
        (start_perimeter demo_world demo_state perim_id.p1 6 T_LAND) kb 18 ∧
      demo_objective.2.best_cost = demo_move_info.weights.getD ib 0 + kb ∧
      ∀ (c : Int) (k' i' : Nat),
        finalized_at demo_world demo_city demo_move_info T_LAND
          (start_perimeter demo_world demo_state perim_id.p1 6 T_LAND) k' c →
        strchr demo_move_info.objectives (demo_city c) = some i' →
        demo_move_info.weights.getD ib 0 + (kb : Int) ≤
          demo_move_info.weights.getD i' 0 + k' :=
  vmap_find_xobj_cheapest demo_world demo_city 6 demo_move_info T_LAND T_LAND 5 demo_state
    18 demo_objective.2 (by decide) (by decide) demo_objective_eq (by decide)

/-- Witness of C7: the cell 12, marked by the call at 18. -/
theorem vmap_mark_path_consistent_witness :
    ∃ P, ((demo_found.2.1.pmap P).terrain ≠ T_PATH ∧ (demo_marked P).terrain = T_PATH) ∧
      (∃ n, n < 8 ∧ 12 = P + dir_offset demo_world n) ∧
      (demo_marked 12).cost = (demo_marked P).cost - (demo_marked P).inc_cost :=
  vmap_mark_path_consistent demo_world 5 demo_found.2.1.pmap 18 demo_marked demo_marked_eq
    12 (by decide) (by decide)

/-- Counterexample to C8 as stated: after the search from the origin 6 to 18
and `vmap_mark_path` from 18, the destination is marked and the origin is
not: its terrain is still T_LAND. -/
theorem vmap_mark_path_origin_counterexample :
    vmap_find_dest demo_world demo_land 6 18 0 T_LAND 5 demo_state =
      some (18, demo_found.2.1, demo_found.2.2) ∧
    (demo_found.2.1.pmap 6).cost = 0 ∧
    (demo_found.2.1.pmap 18).cost ≠ demo_world.INFINITY ∧
    vmap_mark_path demo_world 5 demo_found.2.1.pmap 18 = some demo_marked ∧
    (demo_marked 18).terrain = T_PATH ∧
    (demo_marked 6).terrain = T_LAND ∧ (demo_marked 6).terrain ≠ T_PATH :=
  ⟨demo_found_eq, by decide, by decide, demo_marked_eq, by decide, by decide, by decide⟩

/-- Witness of C8 as amended: the origin 6 of the search to 18. -/
theorem vmap_mark_path_origin_unmarked_witness :
    demo_marked 6 = demo_found.2.1.pmap 6 :=
  vmap_mark_path_origin_unmarked demo_world 5 demo_found.2.1.pmap 18 6 demo_marked
    (by decide) demo_marked_eq

/-- Witness of C9: the search from 6 to 18 and the marking from 18. -/
theorem vmap_mark_path_lattice_witness :
    ∃ pm1, vmap_mark_path demo_world 5 demo_found.2.1.pmap 18 = some pm1 ∧
      ∀ c, c ≠ 6 → ((pm1 c).terrain = T_PATH ↔ on_shortest demo_world 6 18 2 c) :=
  vmap_mark_path_lattice demo_world demo_land 6 18 0 T_LAND 2 5 5 demo_state
    demo_found.2.1 demo_found.2.2 (by decide) demo_eligible (by decide) demo_found_eq
    demo_hop_count (by decide) (by decide)

/-- Witness of C10: the direction chosen at 6 on the marked path map. -/
theorem vmap_find_dir_result_witness :
    (vmap_find_dir demo_world demo_marked demo_land 6 ['+'] [] = 6 ∨
      ∃ d, d < 8 ∧
        vmap_find_dir demo_world demo_marked demo_land 6 ['+'] [] = 6 + dir_offset demo_world d ∧
        (demo_marked (vmap_find_dir demo_world demo_marked demo_land 6 ['+'] [])).terrain =
          T_PATH ∧
        demo_land (vmap_find_dir demo_world demo_marked demo_land 6 ['+'] []) ∈ ['+']) ∧
    (vmap_find_dir demo_world demo_marked demo_land 6 ['+'] [] = 6 ↔
      ¬ ∃ d, d < 8 ∧ (demo_marked (6 + dir_offset demo_world d)).terrain = T_PATH ∧
        demo_land (6 + dir_offset demo_world d) ∈ ['+']) :=
  vmap_find_dir_result demo_world demo_marked demo_land 6 ['+'] [] (by decide) (by decide)

/-! ## The cost of an objective -/

theorem strchr_eq_some {s : List Char} {c : Char} {i : Nat} :
    strchr s c = some i ↔ s.get? i = some c ∧ ∀ j, j < i → s.get? j ≠ some c := by
  induction s generalizing i with
  | nil => simp [strchr]
  | cons x xs ih =>
    by_cases hx : x = c
    · subst hx
      simp only [strchr, if_true]
      constructor
      · intro h
        cases h
        exact ⟨rfl, fun j hj => absurd hj (Nat.not_lt_zero j)⟩
      · rintro ⟨h1, h2⟩
        cases i with
        | zero => rfl
        | succ i => exact absurd rfl (h2 0 (Nat.succ_pos i))
    · simp only [strchr, hx, if_false]
      cases i with
      | zero =>
        simp only [List.get?_cons_zero, Option.some.injEq]
        constructor
        · intro h
          cases hs : strchr xs c <;> simp [hs] at h
        · rintro ⟨h1, _⟩
          exact absurd h1 hx
      | succ i =>
        simp only [List.get?_cons_succ]
        constructor
        · intro h
          have hs : strchr xs c = some i := by
            cases hs : strchr xs c with
            | none => simp [hs] at h
            | some k => simp [hs] at h; rw [h]
          obtain ⟨h1, h2⟩ := ih.1 hs
          refine ⟨h1, ?_⟩
          intro j hj
          cases j with
          | zero => simpa using hx
          | succ j => simpa using h2 j (by omega)
        · rintro ⟨h1, h2⟩
          have hs : strchr xs c = some i :=
            ih.2 ⟨h1, fun j hj => by simpa using h2 (j + 1) (by omega)⟩
          simp [hs]

/-- C18: for every view map, move_info, location and base cost,
`objective_cost` returns INFINITY when the view glyph of the cell does not
occur in `move_info->objectives`, and returns `base_cost + w` when the glyph
first occurs at index `i` of the objectives and `w = move_info->weights[i]`
is not negative. -/
theorem objective_cost_found (W : World) (vmap : Int → Char) (move_info : move_info_t)
    (loc base_cost : Int) :
    (vmap loc ∉ move_info.objectives →
      objective_cost W vmap move_info loc base_cost = some W.INFINITY) ∧
    (∀ i, move_info.objectives.get? i = some (vmap loc) →
      (∀ j, j < i → move_info.objectives.get? j ≠ some (vmap loc)) →
      0 ≤ move_info.weights.getD i 0 →
      objective_cost W vmap move_info loc base_cost =
        some (base_cost + move_info.weights.getD i 0)) := by
  constructor
  · intro h
    unfold objective_cost
    rw [strchr_eq_none.2 h]
  · intro i h1 h2 hw
    unfold objective_cost
    rw [strchr_eq_some.2 ⟨h1, h2⟩]
    simp only
    rw [if_pos hw, add_comm]

/-- C19: when the weight matched is the sentinel W_TT_BUILD, `objective_cost`
returns `base_cost + 2` if there is no city at the location or the city does
not produce TRANSPORT, and otherwise the larger of
`2 * (build_time of a transport - work of the city)` and `base_cost + 2`; any
other negative weight reaches ABORT. -/
theorem objective_cost_tt_build (W : World) (vmap : Int → Char) (move_info : move_info_t)
    (loc base_cost : Int) (i : Nat)
    (hi : strchr move_info.objectives (vmap loc) = some i) :
    (move_info.weights.getD i 0 = W_TT_BUILD →
      (find_city W loc = none →
        objective_cost W vmap move_info loc base_cost = some (base_cost + 2)) ∧
      (∀ cityp, find_city W loc = some cityp → cityp.prod ≠ W.TRANSPORT →
        objective_cost W vmap move_info loc base_cost = some (base_cost + 2)) ∧
      (∀ cityp, find_city W loc = some cityp → cityp.prod = W.TRANSPORT →
        objective_cost W vmap move_info loc base_cost =
          some (max (2 * (W.transport_build_time - cityp.work)) (base_cost + 2)))) ∧
    (move_info.weights.getD i 0 < 0 → move_info.weights.getD i 0 ≠ W_TT_BUILD →
      objective_cost W vmap move_info loc base_cost = none) := by
  constructor
  · intro hw
    have hneg : ¬ (0 : Int) ≤ W_TT_BUILD := by decide
    refine ⟨?_, ?_, ?_⟩
    · intro hc
      unfold objective_cost
      rw [hi]
      simp only [hw, hneg, if_false, if_true, hc]
    · intro cityp hc hp
      unfold objective_cost
      rw [hi]
      simp only [hw, hneg, if_false, if_true, hc, ne_eq, hp, not_false_eq_true]
    · intro cityp hc hp
      unfold objective_cost
      rw [hi]
      simp only [hw, hneg, if_false, if_true, hc, ne_eq, hp, not_true_eq_false]
      by_cases hlt : (W.transport_build_time - cityp.work) * 2 < base_cost + 2
      · rw [if_pos hlt]
        congr 1
        rw [max_eq_right (by omega)]
      · rw [if_neg hlt]
        congr 1
        rw [max_eq_left (by omega)]
        ring
  · intro hneg hne
    unfold objective_cost
    rw [hi]
    simp only [not_le.2 hneg, if_false, hne]

/-! ## The ranking of the candidates of `vmap_find_dir` -/

theorem score_lt_trans {a b c : Int × Int} (h1 : score_lt a b) (h2 : score_lt b c) :
    score_lt a c := by
  unfold score_lt at *
  omega

theorem score_le_lt_trans {a b c : Int × Int} (h1 : score_le a b) (h2 : score_lt b c) :
    score_lt a c := by
  unfold score_lt score_le at *
  omega

theorem score_le_of_not_lt {a b : Int × Int} (h : ¬ score_lt a b) : score_le b a := by
  unfold score_lt score_le at *
  omega

theorem dir_offset_inj (W : World) (hW : 2 < W.MAP_WIDTH) {d e : Nat} (hd : d < 8) (he : e < 8)
    (h : dir_offset W d = dir_offset W e) : d = e := by
  interval_cases d <;> interval_cases e <;> simp only [dir_offset] at h <;>
    first | rfl | (exfalso; omega)

theorem find_dir_step_lex (W : World) (path_map : Int → path_map_t) (vmap : Int → Char)
    (loc : Int) (terrain adj_char : List Char) (hI : 0 ≤ W.INFINITY)
    (pre : List Nat) (b : dir_best) (d : Nat)
    (h : find_dir_lex W path_map vmap loc terrain adj_char pre b) :
    find_dir_lex W path_map vmap loc terrain adj_char (pre ++ [d])
      (find_dir_step W path_map vmap loc terrain adj_char b d) := by
  have keep : ¬ dir_candidate W path_map vmap loc terrain d →
      find_dir_lex W path_map vmap loc terrain adj_char (pre ++ [d]) b := by
    intro hc
    rcases h with ⟨h1, h2⟩ | ⟨l1, e, l2, hp, hce, hb, hl1, hl2⟩
    · left
      refine ⟨h1, ?_⟩
      intro x hx
      rcases List.mem_append.1 hx with hx | hx
      · exact h2 x hx
      · simp at hx; subst hx; exact hc
    · right
      refine ⟨l1, e, l2 ++ [d], by rw [hp]; simp, hce, hb, hl1, ?_⟩
      intro x hx hcx
      rcases List.mem_append.1 hx with hx | hx
      · exact hl2 x hx hcx
      · simp at hx; subst hx; exact absurd hcx hc
  unfold find_dir_step
  by_cases hp : (path_map (loc + dir_offset W d)).terrain = T_PATH
  · simp only [hp, if_true]
    cases hs : strchr terrain (vmap (loc + dir_offset W d)) with
    | none =>
      simp only
      exact keep (fun hc => (strchr_eq_none.1 hs) hc.2)
    | some i =>
      simp only
      have hc : dir_candidate W path_map vmap loc terrain d :=
        ⟨hp, strchr_isSome.1 ⟨i, hs⟩⟩
      have c0 := vmap_count_adjacent_nonneg W vmap (loc + dir_offset W d) adj_char
      have p0 := vmap_count_path_nonneg W path_map (loc + dir_offset W d)
      rcases h with ⟨h1, h2⟩ | ⟨l1, e, l2, hpre, hce, hb, hl1, hl2⟩
      · subst h1
        have hcond : vmap_count_adjacent W vmap (loc + dir_offset W d) adj_char >
              -W.INFINITY ∨
            (vmap_count_adjacent W vmap (loc + dir_offset W d) adj_char = -W.INFINITY ∧
              vmap_count_path W path_map (loc + dir_offset W d) > -1) := by
          omega
        rw [if_pos hcond]
        right
        refine ⟨pre, d, [], rfl, hc, rfl, ?_, ?_⟩
        · intro x hx hcx
          exact absurd hcx (h2 x hx)
        · intro x hx
          simp at hx
      · subst hb
        split
        · rename_i hcond
          simp only [dir_score] at hcond
          right
          have hlt : score_lt (dir_score W path_map vmap loc adj_char e)
              (dir_score W path_map vmap loc adj_char d) := by
            unfold score_lt dir_score
            simp only
            omega
          refine ⟨l1 ++ e :: l2, d, [], by rw [hpre], hc, rfl, ?_, ?_⟩
          · intro x hx hcx
            rcases List.mem_append.1 hx with hx | hx
            · exact score_lt_trans (hl1 x hx hcx) hlt
            · rcases List.mem_cons.1 hx with hx | hx
              · subst hx; exact hlt
              · exact score_le_lt_trans (hl2 x hx hcx) hlt
          · intro x hx
            simp at hx
        · rename_i hcond
          simp only [dir_score] at hcond
          right
          have hle : score_le (dir_score W path_map vmap loc adj_char d)
              (dir_score W path_map vmap loc adj_char e) := by
            apply score_le_of_not_lt
            unfold score_lt dir_score
            simp only
            omega
          refine ⟨l1, e, l2 ++ [d], by rw [hpre]; simp, hce, rfl, hl1, ?_⟩
          intro x hx hcx
          rcases List.mem_append.1 hx with hx | hx
          · exact hl2 x hx hcx
          · simp at hx; subst hx; exact hle
  · simp only [hp, if_false]
    exact keep (fun hc => hp hc.1)

theorem find_dir_foldl_lex (W : World) (path_map : Int → path_map_t) (vmap : Int → Char)
    (loc : Int) (terrain adj_char : List Char) (hI : 0 ≤ W.INFINITY)
    (l pre : List Nat) (b : dir_best)
    (h : find_dir_lex W path_map vmap loc terrain adj_char pre b) :
    find_dir_lex W path_map vmap loc terrain adj_char (pre ++ l)
      (l.foldl (find_dir_step W path_map vmap loc terrain adj_char) b) := by
  induction l generalizing pre b with
  | nil => simpa using h
  | cons d l ih =>
    have h1 := find_dir_step_lex W path_map vmap loc terrain adj_char hI pre b d h
    have h2 := ih (pre ++ [d]) _ h1
    simpa using h2

/-- The choice of `vmap_find_dir` with its ranking among the eight directions. -/
theorem vmap_find_dir_lex (W : World) (path_map : Int → path_map_t) (vmap : Int → Char)
    (loc : Int) (terrain adj_char : List Char) (hI : 0 ≤ W.INFINITY) :
    (vmap_find_dir W path_map vmap loc terrain adj_char = loc ∧
      ∀ d ∈ order, ¬ dir_candidate W path_map vmap loc terrain d) ∨
    ∃ l1 e l2, order = l1 ++ e :: l2 ∧ dir_candidate W path_map vmap loc terrain e ∧
      vmap_find_dir W path_map vmap loc terrain adj_char = loc + dir_offset W e ∧
      (∀ d ∈ l1, dir_candidate W path_map vmap loc terrain d →
        score_lt (dir_score W path_map vmap loc adj_char d)
          (dir_score W path_map vmap loc adj_char e)) ∧
      (∀ d ∈ l2, dir_candidate W path_map vmap loc terrain d →
        score_le (dir_score W path_map vmap loc adj_char d)
          (dir_score W path_map vmap loc adj_char e)) := by
  have h0 : find_dir_lex W path_map vmap loc terrain adj_char []
      { bestcount := -W.INFINITY, bestpath := -1, bestloc := loc } :=
    Or.inl ⟨rfl, fun d hd => by simp at hd⟩
  have h := find_dir_foldl_lex W path_map vmap loc terrain adj_char hI order [] _ h0
  simp only [List.nil_append] at h
  unfold vmap_find_dir
  rcases h with ⟨h1, h2⟩ | ⟨l1, e, l2, hp, hce, hb, hl1, hl2⟩
  · left
    rw [h1]
    exact ⟨rfl, h2⟩
  · right
    refine ⟨l1, e, l2, hp, hce, ?_, hl1, hl2⟩
    rw [hb]

/-- C11 (as amended): of two candidates of `vmap_find_dir` with the same
interest score, the one that comes later in the order NW, NE, SW, SE, W, E, N,
S is never returned, provided its count of adjacent path cells is not greater
than that of the earlier one. -/
theorem vmap_find_dir_earlier (W : World) (path_map : Int → path_map_t) (vmap : Int → Char)
    (loc : Int) (terrain adj_char : List Char) (d1 d2 : Nat)
    (hI : 0 ≤ W.INFINITY) (hW : 2 < W.MAP_WIDTH) (h2 : d2 < 8)
    (hc1 : (path_map (loc + dir_offset W d1)).terrain = T_PATH ∧
      vmap (loc + dir_offset W d1) ∈ terrain)
    (hc2 : (path_map (loc + dir_offset W d2)).terrain = T_PATH ∧
      vmap (loc + dir_offset W d2) ∈ terrain)
    (hord : order.indexOf d1 < order.indexOf d2)
    (heq : vmap_count_adjacent W vmap (loc + dir_offset W d1) adj_char =
      vmap_count_adjacent W vmap (loc + dir_offset W d2) adj_char)
    (hpath : vmap_count_path W path_map (loc + dir_offset W d2) ≤
      vmap_count_path W path_map (loc + dir_offset W d1)) :
    vmap_find_dir W path_map vmap loc terrain adj_char ≠ loc + dir_offset W d2 := by
  intro hres
  rcases vmap_find_dir_lex W path_map vmap loc terrain adj_char hI with
    ⟨_, hno⟩ | ⟨l1, e, l2, hp, hce, hb, hl1, _⟩
  · exact hno d2 (mem_order.2 h2) hc2
  · have he8 : e < 8 := mem_order.1 (by rw [hp]; simp)
    have hoff : dir_offset W e = dir_offset W d2 := by
      rw [hb] at hres
      omega
    have hed : e = d2 := dir_offset_inj W hW he8 h2 hoff
    subst hed
    have hmem : d1 ∈ l1 := by
      by_contra hn
      have hi1 : order.indexOf d1 = l1.length + (e :: l2).indexOf d1 := by
        rw [hp]
        exact List.indexOf_append_of_not_mem hn
      have hi2 : order.indexOf e ≤ l1.length := by
        rw [hp]
        by_cases hm : e ∈ l1
        · rw [List.indexOf_append_of_mem hm]
          exact le_of_lt (List.indexOf_lt_length.2 hm)
        · rw [List.indexOf_append_of_not_mem hm]
          simp
      omega
    have hlt := hl1 d1 hmem hc1
    unfold score_lt dir_score at hlt
    simp only at hlt
    omega

/-! ## Concrete runs: the choice of a direction and the cost of an objective -/

/-- Counterexample to C11 as stated: at the cell 12 of the small world with
the cells 6 (north-west), 8 (north-east) and 13 (east) on the path, the
candidates 6 and 8 have the same interest score 0, which is the greatest of
all, and north-west comes first in the order; yet `vmap_find_dir` returns 8,
which has one neighbour on the path where 6 has none. -/
theorem vmap_find_dir_earlier_counterexample :
    ((demo_paths (12 + dir_offset demo_world NORTHWEST)).terrain = T_PATH ∧
      demo_land (12 + dir_offset demo_world NORTHWEST) ∈ ['+']) ∧
    ((demo_paths (12 + dir_offset demo_world NORTHEAST)).terrain = T_PATH ∧
      demo_land (12 + dir_offset demo_world NORTHEAST) ∈ ['+']) ∧
    order.indexOf NORTHWEST < order.indexOf NORTHEAST ∧
    vmap_count_adjacent demo_world demo_land (12 + dir_offset demo_world NORTHWEST) [] =
      vmap_count_adjacent demo_world demo_land (12 + dir_offset demo_world NORTHEAST) [] ∧
    (∀ d, d < 8 →
      vmap_count_adjacent demo_world demo_land (12 + dir_offset demo_world d) [] ≤
        vmap_count_adjacent demo_world demo_land (12 + dir_offset demo_world NORTHWEST) []) ∧
    vmap_find_dir demo_world demo_paths demo_land 12 ['+'] [] =
      12 + dir_offset demo_world NORTHEAST := by
  refine ⟨⟨by decide, by decide⟩, ⟨by decide, by decide⟩, by decide, by decide, ?_, by decide⟩
  intro d hd
  interval_cases d <;> decide

/-- Witness of C11 as amended: at the cell 12, north-east (8) and east (13)
have the same interest score and the same path count, and 13 is not returned. -/
theorem vmap_find_dir_earlier_witness :
    vmap_find_dir demo_world demo_paths demo_land 12 ['+'] [] ≠
      12 + dir_offset demo_world EAST :=
  vmap_find_dir_earlier demo_world demo_paths demo_land 12 ['+'] [] NORTHEAST EAST
    (by decide) (by decide) (by decide) ⟨by decide, by decide⟩ ⟨by decide, by decide⟩
    (by decide) (by decide) (by decide)

/-- Witness of C18: the enemy city glyph at the cell 18, of weight 1, and the
land glyph at the cell 6, which is no objective. -/
theorem objective_cost_found_witness :
    objective_cost demo_world demo_city demo_move_info 18 3 = some (3 + 1) ∧
    objective_cost demo_world demo_city demo_move_info 6 3 = some demo_world.INFINITY :=
  ⟨(objective_cost_found demo_world demo_city demo_move_info 18 3).2 0 (by decide)
      (fun j hj => absurd hj (Nat.not_lt_zero j)) (by decide),
    (objective_cost_found demo_world demo_city demo_move_info 6 3).1 (by decide)⟩

/-- Witness of C19: the weight W_TT_BUILD at the cell 18 of the small world,
where no city stands. -/
theorem objective_cost_tt_build_witness :
    objective_cost demo_world demo_city demo_tt_info 18 3 = some (3 + 2) :=
  ((objective_cost_tt_build demo_world demo_city demo_tt_info 18 3 0 (by decide)).1
    (by decide)).1 (by decide)

/-! ## Grid addressing -/

/-- C23: the location of the row and the column of a location is the
location, the row and the column of the location of a row and a column are
that row and that column, and the `ASSERT` of `loc_disp` holds for every
argument, so that `loc_disp` returns the row followed by the column digits. -/
theorem loc_round_trip (W : World) :
    (∀ loc, 0 ≤ loc →
      loc_row W loc = loc / W.MAP_WIDTH ∧ loc_col W loc = loc % W.MAP_WIDTH ∧
      row_col_loc W (loc_row W loc) (loc_col W loc) = loc) ∧
    (∀ row col, 0 ≤ row → 0 ≤ col → col < W.MAP_WIDTH →
      loc_row W (row_col_loc W row col) = row ∧ loc_col W (row_col_loc W row col) = col) ∧
    (∀ loc, loc_disp_assert W loc = true) ∧
    (∀ loc n, COL_DIGITS W = some n →
      loc_disp W loc = some (loc_row W loc * 10 ^ n + loc_col W loc)) := by
  have hassert : ∀ loc, loc_disp_assert W loc = true := by
    intro loc
    unfold loc_disp_assert
    rw [decide_eq_true_eq]
    have := Int.tdiv_add_tmod loc W.MAP_WIDTH
    rw [mul_comm] at this
    exact this.symm
  refine ⟨?_, ?_, hassert, ?_⟩
  · intro loc h0
    unfold loc_row loc_col row_col_loc
    refine ⟨?_, ?_, ?_⟩
    · by_cases hW : 0 ≤ W.MAP_WIDTH
      · exact Int.tdiv_eq_ediv h0 hW
      · have hneg : W.MAP_WIDTH = -(-W.MAP_WIDTH) := by ring
        rw [hneg, Int.tdiv_neg, Int.ediv_neg, Int.tdiv_eq_ediv h0 (by omega)]
    · by_cases hW : 0 ≤ W.MAP_WIDTH
      · exact Int.tmod_eq_emod h0 hW
      · have hneg : W.MAP_WIDTH = -(-W.MAP_WIDTH) := by ring
        rw [hneg, Int.tmod_neg, Int.emod_neg, Int.tmod_eq_emod h0 (by omega)]
    · have := Int.tdiv_add_tmod loc W.MAP_WIDTH
      rw [mul_comm] at this
      exact this
  · intro row col hr hc hlt
    have hW : 0 < W.MAP_WIDTH := by omega
    have hnn : 0 ≤ row * W.MAP_WIDTH + col :=
      add_nonneg (mul_nonneg hr (le_of_lt hW)) hc
    unfold loc_row loc_col row_col_loc
    rw [Int.tdiv_eq_ediv hnn (le_of_lt hW), Int.tmod_eq_emod hnn (le_of_lt hW)]
    constructor
    · rw [add_comm, Int.add_mul_ediv_right _ _ (ne_of_gt hW), Int.ediv_eq_zero_of_lt hc hlt]
      simp
    · rw [add_comm, Int.add_mul_emod_self]
      exact Int.emod_eq_of_lt hc hlt
  · intro loc n hn
    unfold loc_disp
    simp only [hassert loc, if_true, hn]
    unfold loc_row loc_col
    congr 2
    have hfold : ∀ (m : Nat) (r : Int),
        (List.range m).foldl (fun nrow _ => nrow * 10) r = r * 10 ^ m := by
      intro m
      induction m with
      | zero => intro r; simp
      | succ m ih =>
        intro r
        rw [List.range_succ, List.foldl_append, ih]
        simp only [List.foldl_cons, List.foldl_nil]
        ring
    exact hfold n _

/-- Witness of C23: location 17 of the small world is row 3, column 2. -/
theorem loc_round_trip_witness :
    row_col_loc demo_world (loc_row demo_world 17) (loc_col demo_world 17) = 17 ∧
    (loc_row demo_world (row_col_loc demo_world 3 2) = 3 ∧
      loc_col demo_world (row_col_loc demo_world 3 2) = 2) ∧
    loc_disp demo_world 17 = some (loc_row demo_world 17 * 10 ^ 2 + loc_col demo_world 17) :=
  ⟨((loc_round_trip demo_world).1 17 (by decide)).2.2,
    (loc_round_trip demo_world).2.1 3 2 (by decide) (by decide) (by decide),
    (loc_round_trip demo_world).2.2.2 17 2 (by decide)⟩

/-! ## The interest score -/

theorem strchr_indexOf {s : List Char} {c : Char} (h : c ∈ s) :
    strchr s c = some (s.indexOf c) := by
  induction s with
  | nil => simp at h
  | cons x xs ih =>
    by_cases hx : x = c
    · subst hx
      simp [strchr]
    · have hc : c ∈ xs := by
        rcases List.mem_cons.1 h with h | h
        · exact absurd h.symm hx
        · exact h
      have hne : c ≠ x := fun e => hx e.symm
      simp only [strchr, hx, if_false, ih hc, Option.map_some']
      rw [List.indexOf_cons_ne _ hx]

theorem interest_weight_none {adj_char : List Char} {c : Char}
    (h : strchr adj_char c = none) : interest_weight adj_char c = 0 := by
  unfold interest_weight
  rw [if_neg (strchr_eq_none.1 h)]

theorem interest_weight_some {adj_char : List Char} {c : Char} {p : Nat}
    (h : strchr adj_char c = some p) :
    interest_weight adj_char c = 8 * ((adj_char.length : Int) - (p : Int)) := by
  have hm : c ∈ adj_char := strchr_isSome.1 ⟨p, h⟩
  unfold interest_weight
  rw [if_pos hm]
  rw [strchr_indexOf hm] at h
  cases h
  rfl

theorem foldl_add_sum (f : Int → Nat → Int) (g : Nat → Int) (hf : ∀ c i, f c i = c + g i)
    (l : List Nat) (c : Int) : l.foldl f c = c + (l.map g).sum := by
  induction l generalizing c with
  | nil => simp
  | cons a l ih =>
    rw [List.foldl_cons, ih, hf]
    simp only [List.map_cons, List.sum_cons]
    ring

theorem interest_weight_bounds (adj_char : List Char) (c : Char) :
    0 ≤ interest_weight adj_char c ∧
      interest_weight adj_char c ≤ 8 * (adj_char.length : Int) := by
  unfold interest_weight
  by_cases h : c ∈ adj_char
  · rw [if_pos h]
    have := List.indexOf_lt_length.2 h
    omega
  · rw [if_neg h]
    omega

/-- C28: `vmap_count_adjacent` is the sum, over the neighbours of `loc` on the
board, of 8 times the length of the interest string less the position of the
neighbour's glyph in it (nothing for a glyph that does not occur); it lies
between 0 and 64 times the length; and in a string without repetition the
glyph at an earlier position outweighs the glyph at a later one. -/
theorem vmap_count_adjacent_sum (W : World) (vmap : Int → Char) (loc : Int)
    (adj_char : List Char) :
    vmap_count_adjacent W vmap loc adj_char = interest_sum W vmap loc adj_char ∧
    0 ≤ vmap_count_adjacent W vmap loc adj_char ∧
    vmap_count_adjacent W vmap loc adj_char ≤ 64 * (adj_char.length : Int) ∧
    (adj_char.Nodup → ∀ (p q : Nat) (c1 c2 : Char), adj_char.get? p = some c1 →
      adj_char.get? q = some c2 →
      interest_weight adj_char c1 = 8 * ((adj_char.length : Int) - (p : Int)) ∧
      (p < q → interest_weight adj_char c2 < interest_weight adj_char c1)) := by
  have hsum : vmap_count_adjacent W vmap loc adj_char = interest_sum W vmap loc adj_char := by
    unfold vmap_count_adjacent interest_sum
    have hl : adj_dirs = [0, 1, 2, 3, 4, 5, 6, 7] := by decide
    refine (foldl_add_sum _ (fun d => if (W.map (loc + dir_offset W d)).on_board = true then
      interest_weight adj_char (vmap (loc + dir_offset W d)) else 0) ?_ _ _).trans ?_
    · intro c i
      by_cases hb : (W.map (loc + dir_offset W i)).on_board = true
      · simp only [hb, if_true]
        split
        · rename_i hs
          rw [interest_weight_none hs]
          simp
        · rename_i p hs
          rw [interest_weight_some hs]
      · simp only [hb, if_false]
        simp
    · rw [hl]
      simp only [List.map_cons, List.map_nil, List.sum_cons, List.sum_nil,
        Finset.sum_range_succ, Finset.range_zero, Finset.sum_empty]
      ring
  have hterm : ∀ d, 0 ≤ (if (W.map (loc + dir_offset W d)).on_board = true then
        interest_weight adj_char (vmap (loc + dir_offset W d)) else 0) ∧
      (if (W.map (loc + dir_offset W d)).on_board = true then
        interest_weight adj_char (vmap (loc + dir_offset W d)) else 0) ≤
        8 * (adj_char.length : Int) := by
    intro d
    have hb := interest_weight_bounds adj_char (vmap (loc + dir_offset W d))
    split_ifs
    · exact hb
    · omega
  have hw : ∀ (hn : adj_char.Nodup) (p : Nat) (c : Char), adj_char.get? p = some c →
      interest_weight adj_char c = 8 * ((adj_char.length : Int) - (p : Int)) := by
    intro hn p c hp
    obtain ⟨hlt, hget⟩ := List.get?_eq_some.1 hp
    have hmem : c ∈ adj_char := by rw [← hget]; exact List.get_mem _ _ _
    unfold interest_weight
    rw [if_pos hmem]
    have hidx : adj_char.indexOf c = p := by
      rw [← hget]
      exact List.get_indexOf hn ⟨p, hlt⟩
    rw [hidx]
  refine ⟨hsum, ?_, ?_, ?_⟩
  · exact vmap_count_adjacent_nonneg W vmap loc adj_char
  · rw [hsum]
    unfold interest_sum
    have := Finset.sum_le_sum (fun d (_ : d ∈ Finset.range 8) => (hterm d).2)
    simp only [Finset.sum_const, Finset.card_range, nsmul_eq_mul] at this
    calc _ ≤ _ := this
      _ = 64 * (adj_char.length : Int) := by push_cast; ring
  · intro hn p q c1 c2 hp hq
    refine ⟨hw hn p c1 hp, ?_⟩
    intro hpq
    rw [hw hn p c1 hp, hw hn q c2 hq]
    omega

/-- Witness of C28: the interest string "+." at the cell 12 of the small
world, whose neighbours all show land: eight times 16. -/
theorem vmap_count_adjacent_sum_witness :
    vmap_count_adjacent demo_world demo_coast 12 ['+', '.'] =
      interest_sum demo_world demo_coast 12 ['+', '.'] ∧
    interest_weight ['+', '.'] '+' = 8 * (((['+', '.'] : List Char).length : Int) - (0 : Nat)) ∧
    interest_weight ['+', '.'] '.' < interest_weight ['+', '.'] '+' :=
  ⟨(vmap_count_adjacent_sum demo_world demo_coast 12 ['+', '.']).1,
    ((vmap_count_adjacent_sum demo_world demo_coast 12 ['+', '.']).2.2.2 (by decide) 0 1
      '+' '.' (by decide) (by decide)).1,
    ((vmap_count_adjacent_sum demo_world demo_coast 12 ['+', '.']).2.2.2 (by decide) 0 1
      '+' '.' (by decide) (by decide)).2 (by decide)⟩

/-! ## A land search surrounded by sea -/

theorem expand_step_sea {W : World} {vmap : Int → Char} {mi : move_info_t}
    {k iw il : Int} {waterp landp : Option perim_id} {a : Int} {s : map_state} {j : Nat}
    (hne : W.MAP_SEA ≠ W.MAP_LAND)
    (hsea : (W.map (a + dir_offset W j)).on_board = true →
      vmap (a + dir_offset W j) = W.MAP_SEA) :
    expand_step W vmap mi T_LAND k iw il waterp landp a s j = some s := by
  by_cases hon : (W.map (a + dir_offset W j)).on_board = true
  · by_cases hc : (s.pmap (a + dir_offset W j)).cost = W.INFINITY
    · rw [expand_step_visit hon hc]
      have ht : terrain_type W s.pmap vmap mi a (a + dir_offset W j) = some T_WATER := by
        unfold terrain_type
        rw [hsea hon, if_neg hne, if_pos rfl]
      have hp : place_cell W T_LAND k iw il waterp landp s (a + dir_offset W j) T_WATER =
          some s := by
        unfold place_cell
        have h1 : ¬ (T_WATER = T_LAND ∧ T_LAND &&& T_LAND ≠ 0) := by decide
        have h2 : ¬ (T_WATER = T_WATER ∧ T_LAND &&& T_WATER ≠ 0) := by decide
        have h3 : ¬ (T_WATER = T_UNKNOWN) := by decide
        rw [if_neg h1, if_neg h2, if_neg h3]
      rw [ht, Option.some_bind, hp, Option.some_bind]
      simp only [hc, ne_eq, not_true_eq_false, if_false]
    · exact expand_step_skip (Or.inr hc)
  · exact expand_step_skip (Or.inl (by simpa using hon))

/-- C14 (as amended): when every neighbour of `loc` on the board shows sea, as
at a corner of the all-sea grid with the lone city at its centre, the land
search `vmap_find_lobj` expands nothing: it returns `loc` itself after one
round and the cost of every other cell, the city included, is still
INFINITY. -/
theorem vmap_find_lobj_sea (W : World) (vmap : Int → Char) (loc : Int) (mi : move_info_t)
    (fuel : Nat) (s : map_state) (hne : W.MAP_SEA ≠ W.MAP_LAND)
    (hsea : ∀ d, d < 8 → (W.map (loc + dir_offset W d)).on_board = true →
      vmap (loc + dir_offset W d) = W.MAP_SEA)
    (hf : 1 ≤ fuel) :
    ∃ s1, vmap_find_lobj W vmap loc mi fuel s = some (loc, s1) ∧
      ∀ c, c ≠ loc → (s1.pmap c).cost = W.INFINITY := by
  obtain ⟨n, rfl⟩ : ∃ n, fuel = n + 1 := ⟨fuel - 1, by omega⟩
  unfold vmap_find_lobj vmap_find_xobj single_loop
  have hcell : ∀ t : map_state,
      expand_cell W vmap mi T_LAND 0 1 1 (some perim_id.p2) (some perim_id.p2) t loc =
        some t := by
    intro t
    unfold expand_cell
    obtain ⟨t2, h2, hP⟩ := loopM_total
      (expand_step W vmap mi T_LAND 0 1 1 (some perim_id.p2) (some perim_id.p2) loc)
      (fun u => u = t) adj_dirs
      (fun u j hj hu => ⟨u, expand_step_sea hne (hsea j (mem_adj_dirs.1 hj)), hu⟩) t rfl
    rw [h2, hP]
  have hexp : expand_perimeter W vmap mi perim_id.p1 T_LAND 0 1 1 (some perim_id.p2)
      (some perim_id.p2)
      { start_perimeter W s perim_id.p1 loc T_LAND with
        perim := set_perim (start_perimeter W s perim_id.p1 loc T_LAND).perim perim_id.p2 [] } =
      some { start_perimeter W s perim_id.p1 loc T_LAND with
        perim := set_perim (start_perimeter W s perim_id.p1 loc T_LAND).perim perim_id.p2 [] } := by
    unfold expand_perimeter
    have hp : set_perim (start_perimeter W s perim_id.p1 loc T_LAND).perim perim_id.p2 []
        perim_id.p1 = [loc] := by
      rw [set_perim_other _ _ _ (by decide)]
      show set_perim s.perim perim_id.p1 [loc] perim_id.p1 = [loc]
      exact set_perim_same _ _ _
    simp only [hp, loopM, hcell]
  rw [hexp]
  simp only [set_perim_same, List.length_nil, true_or, if_true]
  refine ⟨_, rfl, ?_⟩
  intro c hc
  simp only [start_perimeter]
  rw [upd_other _ _ _ hc]

/-- Counterexample to C14 as stated: on the 5 by 5 board that is all sea but
the enemy city at its centre 24, the land search from the corner 8 with the
enemy city glyph as only objective returns 8, not 24, and the cost of the
centre is INFINITY (100), not the distance 2. -/
theorem vmap_find_lobj_sea_counterexample :
    (∀ c, (scenario_world.map c).on_board = true → c ≠ 24 → scenario_view c = '.') ∧
    scenario_view 24 = 'X' ∧ (scenario_world.map 24).contents = scenario_world.MAP_CITY ∧
    demo_move_info.objectives = ['X'] ∧
    (vmap_find_lobj scenario_world scenario_view 8 demo_move_info 10 demo_state).map
      (fun r => (r.1, (r.2.pmap 24).cost)) = some (8, 100) := by
  refine ⟨?_, by decide, by decide, by decide, by decide⟩
  intro c _ hc
  simp only [scenario_view, hc, if_false]

/-- Witness of C14 as amended: the corner 8 of the scenario. -/
theorem vmap_find_lobj_sea_witness :
    ∃ s1, vmap_find_lobj scenario_world scenario_view 8 demo_move_info 10 demo_state =
        some (8, s1) ∧
      ∀ c, c ≠ 8 → (s1.pmap c).cost = scenario_world.INFINITY :=
  vmap_find_lobj_sea scenario_world scenario_view 8 demo_move_info 10 demo_state (by decide)
    (by
      intro d hd _
      interval_cases d <;> decide) (by decide)

/-! ## The effect of one step of `expand_perimeter` -/

theorem upd_upd {β : Type} (f : Int → β) (i : Int) (v w : β) :
    upd (upd f i v) i w = upd f i w := by
  funext j
  unfold upd
  split_ifs <;> rfl

theorem note_objective_pmap {W : World} {vmap : Int → Char} {mi : move_info_t} {k : Int}
    {s1 s2 : map_state} {b : Int} {t : Nat}
    (h : note_objective W vmap mi k s1 b t = some s2) :
    s2.perim = s1.perim ∧
    (s2.pmap = s1.pmap ∨
      (t = T_UNKNOWN ∧ s2.pmap = upd s1.pmap b
        { terrain := (s1.pmap b).terrain, cost := k + 2, inc_cost := 2 })) := by
  unfold note_objective at h
  cases ho : objective_cost W vmap mi b k with
  | none => simp [ho] at h
  | some oc =>
    simp only [ho] at h
    split at h
    · split at h
      · rename_i ht
        cases h
        exact ⟨rfl, Or.inr ⟨ht, rfl⟩⟩
      · cases h
        exact ⟨rfl, Or.inl rfl⟩
    · cases h
      exact ⟨rfl, Or.inl rfl⟩

/-- The cases of one step of `expand_perimeter`. -/
theorem expand_step_cases {W : World} {vmap : Int → Char} {mi : move_info_t} {type : Nat}
    {k iw il : Int} {waterp landp : Option perim_id} {a : Int} {s s2 : map_state} {j : Nat}
    (h : expand_step W vmap mi type k iw il waterp landp a s j = some s2) :
    (((W.map (a + dir_offset W j)).on_board = false ∨
        (s.pmap (a + dir_offset W j)).cost ≠ W.INFINITY) ∧ s2 = s) ∨
    ((W.map (a + dir_offset W j)).on_board = true ∧
      (s.pmap (a + dir_offset W j)).cost = W.INFINITY ∧
      ∃ t, terrain_type W s.pmap vmap mi a (a + dir_offset W j) = some t ∧
        step_effect W type k iw il waterp landp s s2 (a + dir_offset W j) t) := by
  by_cases hon : (W.map (a + dir_offset W j)).on_board = true
  swap
  · left
    have hoff : (W.map (a + dir_offset W j)).on_board = false := by simpa using hon
    rw [expand_step_skip (Or.inl hoff)] at h
    cases h
    exact ⟨Or.inl hoff, rfl⟩
  by_cases hc : (s.pmap (a + dir_offset W j)).cost = W.INFINITY
  swap
  · left
    rw [expand_step_skip (Or.inr hc)] at h
    cases h
    exact ⟨Or.inr hc, rfl⟩
  right
  refine ⟨hon, hc, ?_⟩
  rw [expand_step_visit hon hc] at h
  cases ht : terrain_type W s.pmap vmap mi a (a + dir_offset W j) with
  | none => rw [ht] at h; simp at h
  | some t =>
    rw [ht, Option.some_bind] at h
    refine ⟨t, rfl, ?_⟩
    cases hp : place_cell W type k iw il waterp landp s (a + dir_offset W j) t with
    | none => rw [hp] at h; simp at h
    | some s1 =>
      rw [hp, Option.some_bind] at h
      have hfin : s2.perim = s1.perim ∧ (s2.pmap = s1.pmap ∨
          (t = T_UNKNOWN ∧ s2.pmap = upd s1.pmap (a + dir_offset W j)
            { terrain := (s1.pmap (a + dir_offset W j)).terrain, cost := k + 2,
              inc_cost := 2 })) := by
        split at h
        · exact note_objective_pmap h
        · cases h
          exact ⟨rfl, Or.inl rfl⟩
      unfold place_cell at hp
      split at hp
      · rename_i h1
        obtain ⟨p, hpe, hpm, hpr, _, _⟩ := add_cell_eq hp
        left
        refine ⟨h1.1, h1.2, p, hpe, ?_, ?_⟩
        · rcases hfin.2 with e | ⟨e, _⟩
          · rw [e, hpm, h1.1]
          · rw [h1.1] at e
            exact absurd e (by decide)
        · rw [hfin.1, hpr]
      · rename_i h1
        split at hp
        · rename_i h2
          obtain ⟨p, hpe, hpm, hpr, _, _⟩ := add_cell_eq hp
          right; left
          refine ⟨h2.1, h2.2, p, hpe, ?_, ?_⟩
          · rcases hfin.2 with e | ⟨e, _⟩
            · rw [e, hpm, h2.1]
            · rw [h2.1] at e
              exact absurd e (by decide)
          · rw [hfin.1, hpr]
        · rename_i h2
          split at hp
          · rename_i h3
            cases hp
            right; right; left
            refine ⟨h3, hfin.1, ?_⟩
            rcases hfin.2 with e | ⟨_, e⟩
            · left
              rw [e, h3]
            · right
              rw [e]
              simp only [upd_same, upd_upd, h3]
          · rename_i h3
            cases hp
            right; right; right
            refine ⟨h1, h2, h3, ?_⟩
            rw [if_neg (by simpa using hc)] at h
            cases h
            rfl

/-! ## The effect of one call of `expand_perimeter` -/

theorem mem_set_perim_append {f : perim_id → List Int} {p q : perim_id} {b c : Int}
    (h : c ∈ set_perim f p (f p ++ [b]) q) : c ∈ f q ∨ (q = p ∧ c = b) := by
  by_cases hq : q = p
  · subst hq
    rw [set_perim_same] at h
    rcases List.mem_append.1 h with h | h
    · exact Or.inl h
    · exact Or.inr ⟨rfl, by simpa using h⟩
  · rw [set_perim_other _ _ _ hq] at h
    exact Or.inl h

theorem mem_set_perim_of_mem {f : perim_id → List Int} {p q : perim_id} {b c : Int}
    (h : c ∈ f q) : c ∈ set_perim f p (f p ++ [b]) q := by
  by_cases hq : q = p
  · subst hq
    rw [set_perim_same]
    exact List.mem_append_left _ h
  · rw [set_perim_other _ _ _ hq]
    exact h

theorem call_inv_refl (W : World) (type : Nat) (k iw il : Int)
    (waterp landp : Option perim_id) (curp : perim_id) (s : map_state) :
    call_inv W type k iw il waterp landp curp s s where
  frozen := fun _ _ => rfl
  fresh := fun _ h1 h2 => absurd h1 h2
  others := fun _ _ _ => rfl
  grow := fun _ _ h => h
  members := fun _ _ h => Or.inl h

theorem call_inv_step {W : World} {vmap : Int → Char} {mi : move_info_t} {type : Nat}
    {k iw il : Int} {waterp landp : Option perim_id} {curp : perim_id} {a : Int}
    {s t t1 : map_state} {j : Nat} (ha : a ∈ s.perim curp) (hj : j < 8)
    (hi : call_inv W type k iw il waterp landp curp s t)
    (h : expand_step W vmap mi type k iw il waterp landp a t j = some t1) :
    call_inv W type k iw il waterp landp curp s t1 := by
  rcases expand_step_cases h with ⟨_, rfl⟩ | ⟨hon, hc, ty, _, heff⟩
  · exact hi
  have hframe := (expand_step_frame h).1
  have hs : (s.pmap (a + dir_offset W j)).cost = W.INFINITY := by
    by_contra hne
    rw [hi.frozen _ hne] at hc
    exact hne hc
  have hadj : ∃ a', a' ∈ s.perim curp ∧ adj W a' (a + dir_offset W j) :=
    ⟨a, ha, j, hj, rfl⟩
  have hperim : ∀ p c, c ∈ t1.perim p → c ∈ t.perim p ∨
      (c = a + dir_offset W j ∧ (landp = some p ∨ waterp = some p)) := by
    intro p c hcm
    rcases heff with ⟨_, _, q, hq, _, hpr⟩ | ⟨_, _, q, hq, _, hpr⟩ | ⟨_, hpr, _⟩ |
      ⟨_, _, _, rfl⟩
    · rw [hpr] at hcm
      rcases mem_set_perim_append hcm with h1 | ⟨h1, h2⟩
      · exact Or.inl h1
      · subst h1; exact Or.inr ⟨h2, Or.inl hq⟩
    · rw [hpr] at hcm
      rcases mem_set_perim_append hcm with h1 | ⟨h1, h2⟩
      · exact Or.inl h1
      · subst h1; exact Or.inr ⟨h2, Or.inr hq⟩
    · rw [hpr] at hcm
      exact Or.inl hcm
    · exact Or.inl hcm
  have hgrow : ∀ p c, c ∈ t.perim p → c ∈ t1.perim p := by
    intro p c hcm
    rcases heff with ⟨_, _, q, hq, _, hpr⟩ | ⟨_, _, q, hq, _, hpr⟩ | ⟨_, hpr, _⟩ |
      ⟨_, _, _, rfl⟩
    · rw [hpr]; exact mem_set_perim_of_mem hcm
    · rw [hpr]; exact mem_set_perim_of_mem hcm
    · rw [hpr]; exact hcm
    · exact hcm
  have hothers : ∀ p, some p ≠ landp → some p ≠ waterp → t1.perim p = t.perim p := by
    intro p hl hw
    rcases heff with ⟨_, _, q, hq, _, hpr⟩ | ⟨_, _, q, hq, _, hpr⟩ | ⟨_, hpr, _⟩ |
      ⟨_, _, _, rfl⟩
    · rw [hpr]
      exact set_perim_other _ _ _ (fun e => hl (by rw [e, hq]))
    · rw [hpr]
      exact set_perim_other _ _ _ (fun e => hw (by rw [e, hq]))
    · rw [hpr]
    · rfl
  constructor
  · intro c hcs
    have hne : c ≠ a + dir_offset W j := fun e => hcs (e ▸ hs)
    rw [hframe c hne]
    exact hi.frozen c hcs
  · intro c hcs hct
    by_cases hb : c = a + dir_offset W j
    · subst hb
      refine ⟨hon, hadj, ?_⟩
      rcases heff with ⟨_, hm, q, _, hpm, _⟩ | ⟨_, hm, q, _, hpm, _⟩ | ⟨_, _, hpm | hpm⟩ |
        ⟨_, _, _, rfl⟩
      · left
        rw [hpm, upd_same]
        exact ⟨rfl, hm⟩
      · right; left
        rw [hpm, upd_same]
        exact ⟨rfl, hm⟩
      · right; right; left
        rw [hpm, upd_same]
      · right; right; right
        rw [hpm, upd_same]
      · exact absurd hc hct
    · rw [hframe c hb] at hct ⊢
      exact hi.fresh c hcs hct
  · intro p hl hw
    rw [hothers p hl hw]
    exact hi.others p hl hw
  · intro p c hcm
    exact hgrow p c (hi.grow p c hcm)
  · intro p c hcm
    rcases hperim p c hcm with h1 | ⟨h1, h2⟩
    · exact hi.members p c h1
    · subst h1
      exact Or.inr ⟨hs, hon, h2⟩

/-- What a call of `expand_perimeter` does, whatever its arguments. -/
theorem expand_perimeter_call {W : World} {vmap : Int → Char} {mi : move_info_t}
    {curp : perim_id} {type : Nat} {k iw il : Int} {waterp landp : Option perim_id}
    {s s2 : map_state}
    (h : expand_perimeter W vmap mi curp type k iw il waterp landp s = some s2) :
    call_inv W type k iw il waterp landp curp s s2 :=
  expand_perimeter_inv (fun t => call_inv W type k iw il waterp landp curp s t)
    (fun _ _ _ _ ha hj hi hst => call_inv_step ha hj hi hst)
    (call_inv_refl W type k iw il waterp landp curp s) h

theorem stamped_step {W : World} {vmap : Int → Char} {mi : move_info_t} {type : Nat}
    {k iw il : Int} {waterp landp : Option perim_id} {curp : perim_id} {a : Int}
    {s t t1 : map_state} {j : Nat}
    (hil : k + il ≠ W.INFINITY) (hiw : k + iw ≠ W.INFINITY)
    (hi : call_inv W type k iw il waterp landp curp s t)
    (hst : stamped W k iw il waterp landp s t)
    (h : expand_step W vmap mi type k iw il waterp landp a t j = some t1) :
    stamped W k iw il waterp landp s t1 := by
  rcases expand_step_cases h with ⟨_, rfl⟩ | ⟨hon, hc, ty, _, heff⟩
  · exact hst
  have hframe := (expand_step_frame h).1
  have hs : (s.pmap (a + dir_offset W j)).cost = W.INFINITY := by
    by_contra hne
    rw [hi.frozen _ hne] at hc
    exact hne hc
  -- a cell that is already in a list is not the cell visited
  have hold : ∀ p c, c ∈ t.perim p → c ∈ s.perim p ∨
      ((s.pmap c).cost = W.INFINITY ∧
        ((landp = some p ∧
            t1.pmap c = { cost := k + il, inc_cost := il, terrain := T_LAND }) ∨
          (waterp = some p ∧
            t1.pmap c = { cost := k + iw, inc_cost := iw, terrain := T_WATER }))) := by
    intro p c hcm
    rcases hst p c hcm with h1 | ⟨h1, h2⟩
    · exact Or.inl h1
    · right
      refine ⟨h1, ?_⟩
      have hne : c ≠ a + dir_offset W j := by
        intro e
        subst e
        rcases h2 with ⟨_, e2⟩ | ⟨_, e2⟩
        · rw [e2] at hc; exact hil hc
        · rw [e2] at hc; exact hiw hc
      rw [hframe c hne]
      exact h2
  intro p c hcm
  rcases heff with ⟨_, _, q, hq, hpm, hpr⟩ | ⟨_, _, q, hq, hpm, hpr⟩ | ⟨_, hpr, _⟩ |
    ⟨_, _, _, rfl⟩
  · rw [hpr] at hcm
    rcases mem_set_perim_append hcm with h1 | ⟨h1, h2⟩
    · exact hold p c h1
    · subst h1; subst h2
      right
      refine ⟨hs, Or.inl ⟨hq, ?_⟩⟩
      rw [hpm, upd_same]
  · rw [hpr] at hcm
    rcases mem_set_perim_append hcm with h1 | ⟨h1, h2⟩
    · exact hold p c h1
    · subst h1; subst h2
      right
      refine ⟨hs, Or.inr ⟨hq, ?_⟩⟩
      rw [hpm, upd_same]
  · rw [hpr] at hcm
    exact hold p c hcm
  · exact hst p c hcm

/-- The cells that a call of `expand_perimeter` puts into its output lists
carry the cost and the class of their list, when these costs are not
INFINITY. -/
theorem expand_perimeter_stamped {W : World} {vmap : Int → Char} {mi : move_info_t}
    {curp : perim_id} {type : Nat} {k iw il : Int} {waterp landp : Option perim_id}
    {s s2 : map_state}
    (hil : k + il ≠ W.INFINITY) (hiw : k + iw ≠ W.INFINITY)
    (h : expand_perimeter W vmap mi curp type k iw il waterp landp s = some s2) :
    stamped W k iw il waterp landp s s2 :=
  (expand_perimeter_inv
    (fun t => call_inv W type k iw il waterp landp curp s t ∧
      stamped W k iw il waterp landp s t)
    (fun _ _ _ _ ha hj hi hst =>
      ⟨call_inv_step ha hj hi.1 hst, stamped_step hil hiw hi.1 hi.2 hst⟩)
    ⟨call_inv_refl W type k iw il waterp landp curp s, fun _ _ hc => Or.inl hc⟩ h).2

theorem frontier_ok_step {W : World} {vmap : Int → Char} {mi : move_info_t} {type : Nat}
    {k iw il : Int} {waterp landp : Option perim_id} {a loc : Int} {ps : List perim_id}
    {t t1 : map_state} {j : Nat}
    (hil : k + il ≠ W.INFINITY) (hiw : k + iw ≠ W.INFINITY)
    (hl : ∀ p, landp = some p → p ∈ ps) (hw : ∀ p, waterp = some p → p ∈ ps)
    (hok : frontier_ok W loc ps t)
    (h : expand_step W vmap mi type k iw il waterp landp a t j = some t1) :
    frontier_ok W loc ps t1 := by
  rcases expand_step_cases h with ⟨_, rfl⟩ | ⟨hon, hc, ty, _, heff⟩
  · exact hok
  have hframe := (expand_step_frame h).1
  have hnot : ∀ p, p ∈ ps → a + dir_offset W j ∉ t.perim p :=
    fun p hp hm => ((hok p hp).2 _ hm).1 hc
  have hkeep : ∀ p, p ∈ ps → ∀ c, c ∈ t.perim p →
      (t1.pmap c).cost ≠ W.INFINITY ∧ (c = loc ∨ (W.map c).on_board = true) := by
    intro p hp c hcm
    have hne : c ≠ a + dir_offset W j := fun e => hnot p hp (e ▸ hcm)
    rw [hframe c hne]
    exact (hok p hp).2 c hcm
  have happ : ∀ (q : perim_id) (v : path_map_t), q ∈ ps → v.cost ≠ W.INFINITY →
      t1.pmap = upd t.pmap (a + dir_offset W j) v →
      t1.perim = set_perim t.perim q (t.perim q ++ [a + dir_offset W j]) →
      frontier_ok W loc ps t1 := by
    intro q v hq hv hpm hpr p hp
    rw [hpr]
    constructor
    · by_cases hpq : p = q
      · subst hpq
        rw [set_perim_same]
        exact List.Nodup.append (hok p hp).1 (List.nodup_singleton _)
          (by
            intro x hx1 hx2
            have : x = a + dir_offset W j := by simpa using hx2
            exact hnot p hp (this ▸ hx1))
      · rw [set_perim_other _ _ _ hpq]
        exact (hok p hp).1
    · intro c hcm
      rcases mem_set_perim_append hcm with h1 | ⟨_, h2⟩
      · exact hkeep p hp c h1
      · subst h2
        rw [hpm, upd_same]
        exact ⟨hv, Or.inr hon⟩
  rcases heff with ⟨_, _, q, hq, hpm, hpr⟩ | ⟨_, _, q, hq, hpm, hpr⟩ | ⟨_, hpr, _⟩ |
    ⟨_, _, _, rfl⟩
  · exact happ q _ (hl q hq) hil hpm hpr
  · exact happ q _ (hw q hq) hiw hpm hpr
  · intro p hp
    rw [hpr]
    exact ⟨(hok p hp).1, hkeep p hp⟩
  · exact hok

/-- A call of `expand_perimeter` keeps the perimeter lists free of repetition
and made of finalized cells. -/
theorem expand_perimeter_frontier_ok {W : World} {vmap : Int → Char} {mi : move_info_t}
    {curp : perim_id} {type : Nat} {k iw il : Int} {waterp landp : Option perim_id}
    {loc : Int} {ps : List perim_id} {s s2 : map_state}
    (hil : k + il ≠ W.INFINITY) (hiw : k + iw ≠ W.INFINITY)
    (hl : ∀ p, landp = some p → p ∈ ps) (hw : ∀ p, waterp = some p → p ∈ ps)
    (hok : frontier_ok W loc ps s)
    (h : expand_perimeter W vmap mi curp type k iw il waterp landp s = some s2) :
    frontier_ok W loc ps s2 :=
  expand_perimeter_inv (fun t => frontier_ok W loc ps t)
    (fun _ _ _ _ _ _ hi hst => frontier_ok_step hil hiw hl hw hi hst) hok h

/-! ## Steps that do not abort -/

theorem terrain_type_total {W : World} (pm : Int → path_map_t) (vmap : Int → Char)
    (mi : move_info_t) (a : Int) {b : Int} (hm : map_ok W)
    (hon : (W.map b).on_board = true) : ∃ t, terrain_type W pm vmap mi a b = some t := by
  unfold terrain_type
  by_cases h1 : vmap b = W.MAP_LAND
  · exact ⟨_, by rw [if_pos h1]⟩
  rw [if_neg h1]
  by_cases h2 : vmap b = W.MAP_SEA
  · exact ⟨_, by rw [if_pos h2]⟩
  rw [if_neg h2]
  by_cases h3 : vmap b = '%'
  · exact ⟨_, by rw [if_pos h3]⟩
  rw [if_neg h3]
  by_cases h4 : vmap b = ' '
  · exact ⟨_, by rw [if_pos h4]⟩
  rw [if_neg h4]
  by_cases h5 : (W.map b).contents = W.MAP_SEA
  · exact ⟨_, by rw [if_pos h5]⟩
  rw [if_neg h5]
  by_cases h6 : (W.map b).contents = W.MAP_LAND
  · exact ⟨_, by rw [if_pos h6]⟩
  rw [if_neg h6]
  rcases hm b hon with h | h | ⟨h, hcp⟩
  · exact absurd h h5
  · exact absurd h h6
  · rw [if_pos h]
    cases hcity : (W.map b).cityp with
    | none => exact absurd hcity hcp
    | some cityp =>
      simp only
      split_ifs
      · exact ⟨_, rfl⟩
      · exact ⟨_, rfl⟩

theorem objective_cost_total {W : World} (vmap : Int → Char) {mi : move_info_t}
    (hw : ∀ w ∈ mi.weights, 0 ≤ w) (c k : Int) :
    ∃ oc, objective_cost W vmap mi c k = some oc := by
  cases hs : strchr mi.objectives (vmap c) with
  | none =>
    refine ⟨W.INFINITY, ?_⟩
    unfold objective_cost
    rw [hs]
  | some i => exact ⟨_, objective_cost_weight hw hs k⟩

theorem note_objective_total {W : World} (vmap : Int → Char) {mi : move_info_t}
    (hw : ∀ w ∈ mi.weights, 0 ≤ w) (k : Int) (s1 : map_state) (b : Int) (t : Nat) :
    ∃ s2, note_objective W vmap mi k s1 b t = some s2 := by
  obtain ⟨oc, ho⟩ := objective_cost_total (W := W) vmap hw b k
  unfold note_objective
  rw [ho]
  simp only
  split_ifs
  · exact ⟨_, rfl⟩
  · exact ⟨_, rfl⟩
  · exact ⟨_, rfl⟩

/-- A step of `expand_perimeter` does not abort when the true map is well
formed, no weight is negative and a list is given for every class of the
terrain mask. -/
theorem expand_step_total {W : World} (vmap : Int → Char) {mi : move_info_t} (type : Nat)
    (k iw il : Int) {waterp landp : Option perim_id} (a : Int) (s : map_state) (j : Nat)
    (hm : map_ok W) (hw : ∀ w ∈ mi.weights, 0 ≤ w)
    (hl : type &&& T_LAND ≠ 0 → landp ≠ none) (hwp : type &&& T_WATER ≠ 0 → waterp ≠ none) :
    ∃ s2, expand_step W vmap mi type k iw il waterp landp a s j = some s2 := by
  by_cases hon : (W.map (a + dir_offset W j)).on_board = true
  swap
  · exact ⟨s, expand_step_skip (Or.inl (by simpa using hon))⟩
  by_cases hc : (s.pmap (a + dir_offset W j)).cost = W.INFINITY
  swap
  · exact ⟨s, expand_step_skip (Or.inr hc)⟩
  rw [expand_step_visit hon hc]
  obtain ⟨t, ht⟩ := terrain_type_total s.pmap vmap mi a hm hon
  rw [ht, Option.some_bind]
  have hp : ∃ s1, place_cell W type k iw il waterp landp s (a + dir_offset W j) t =
      some s1 := by
    unfold place_cell
    split_ifs with h1 h2 h3
    · cases hlp : landp with
      | none => exact absurd hlp (hl h1.2)
      | some p => exact ⟨_, rfl⟩
    · cases hwpp : waterp with
      | none => exact absurd hwpp (hwp h2.2)
      | some p => exact ⟨_, rfl⟩
    · exact ⟨_, rfl⟩
    · exact ⟨_, rfl⟩
  obtain ⟨s1, hs1⟩ := hp
  rw [hs1, Option.some_bind]
  split_ifs
  · exact note_objective_total vmap hw k s1 _ t
  · exact ⟨_, rfl⟩

/-- A call of `expand_perimeter` does not abort under the same conditions. -/
theorem expand_perimeter_runs {W : World} (vmap : Int → Char) {mi : move_info_t}
    (curp : perim_id) (type : Nat) (k iw il : Int) {waterp landp : Option perim_id}
    (s : map_state) (hm : map_ok W) (hw : ∀ w ∈ mi.weights, 0 ≤ w)
    (hl : type &&& T_LAND ≠ 0 → landp ≠ none) (hwp : type &&& T_WATER ≠ 0 → waterp ≠ none) :
    ∃ s2, expand_perimeter W vmap mi curp type k iw il waterp landp s = some s2 := by
  obtain ⟨s2, h, _⟩ := @expand_perimeter_total W vmap mi curp type k iw il waterp landp s
    (fun _ => True)
    (fun a j t _ _ _ => by
      obtain ⟨t1, ht1⟩ := expand_step_total vmap type k iw il a t j hm hw hl hwp
      exact ⟨t1, ht1, trivial⟩) trivial
  exact ⟨s2, h⟩

/-! ## Properties kept by every operation of a search -/

theorem single_loop_closed {W : World} {vmap : Int → Char} {mi : move_info_t}
    {ps : List perim_id} {K : Int} {P : map_state → Prop}
    (hP : call_closed W vmap mi ps K P) (expand : Nat) (fuel : Nat) :
    ∀ (fp tp : perim_id) (k : Int) (s : map_state) (r : Int × map_state),
      fp ∈ ps → tp ∈ ps → k + fuel ≤ K + 1 →
      single_loop W vmap mi expand fuel fp tp k s = some r → P s → P r.2 := by
  induction fuel with
  | zero => intro fp tp k s r _ _ _ h; simp [single_loop] at h
  | succ n ih =>
    intro fp tp k s r hfp htp hk h hs
    unfold single_loop at h
    cases he : expand_perimeter W vmap mi fp expand k 1 1 (some tp) (some tp)
        { s with perim := set_perim s.perim tp [] } with
    | none => rw [he] at h; simp at h
    | some s1 =>
      rw [he] at h
      simp only at h
      have hs1 : P s1 :=
        hP.2 fp expand k 1 1 (some tp) (some tp) _ s1 hfp (by push_cast at hk; omega) rfl
          (Or.inl rfl) (fun p e => by cases e; exact htp) (fun p e => by cases e; exact htp)
          he (hP.1 s tp htp hs)
      split at h
      · cases h
        exact hs1
      · exact ih tp fp (k + 1) s1 r htp hfp (by push_cast at hk ⊢; omega) h hs1

theorem lwobj_loop_closed {W : World} {vmap : Int → Char} {mi : move_info_t}
    {ps : List perim_id} {K : Int} {P : map_state → Prop}
    (hP : call_closed W vmap mi ps K P) (fuel : Nat) :
    ∀ (cl cw nl nw : perim_id) (k : Int) (s : map_state) (r : Int × map_state),
      cl ∈ ps → cw ∈ ps → nl ∈ ps → nw ∈ ps → k + 2 * fuel ≤ K + 1 →
      lwobj_loop W vmap mi fuel cl cw nl nw k s = some r → P s → P r.2 := by
  induction fuel with
  | zero => intro cl cw nl nw k s r _ _ _ _ _ h; simp [lwobj_loop] at h
  | succ n ih =>
    intro cl cw nl nw k s r hcl hcw hnl hnw hk h hs
    unfold lwobj_loop at h
    have h0 : P { s with perim := set_perim (set_perim s.perim nw []) nl [] } :=
      hP.1 { s with perim := set_perim s.perim nw [] } nl hnl (hP.1 s nw hnw hs)
    cases he1 : expand_perimeter W vmap mi cw T_WATER k 1 1 (some nw) none
        { s with perim := set_perim (set_perim s.perim nw []) nl [] } with
    | none => rw [he1] at h; simp at h
    | some s1 =>
      rw [he1] at h
      simp only at h
      have hs1 : P s1 :=
        hP.2 cw T_WATER k 1 1 (some nw) none _ s1 hcw (by push_cast at hk; omega) rfl
          (Or.inl rfl) (fun p e => by cases e; exact hnw) (fun p e => by cases e) he1 h0
      cases he2 : expand_perimeter W vmap mi cl T_AIR k 1 2 (some nw) (some nl) s1 with
      | none => rw [he2] at h; simp at h
      | some s2 =>
        rw [he2] at h
        simp only at h
        have hs2 : P s2 :=
          hP.2 cl T_AIR k 1 2 (some nw) (some nl) _ s2 hcl (by push_cast at hk; omega) rfl
            (Or.inr rfl) (fun p e => by cases e; exact hnw) (fun p e => by cases e; exact hnl)
            he2 hs1
        cases he3 : expand_perimeter W vmap mi nw T_WATER (k + 1) 1 1 (some cw) none
            { s2 with perim := set_perim s2.perim cw [] } with
        | none => rw [he3] at h; simp at h
        | some s3 =>
          rw [he3] at h
          simp only at h
          have hs3 : P s3 :=
            hP.2 nw T_WATER (k + 1) 1 1 (some cw) none _ s3 hnw (by push_cast at hk; omega)
              rfl (Or.inl rfl) (fun p e => by cases e; exact hcw) (fun p e => by cases e)
              he3 (hP.1 s2 cw hcw hs2)
          split at h
          · cases h
            exact hs3
          · exact ih nl cw cl nw (k + 2) s3 r hnl hcw hcl hnw
              (by push_cast at hk ⊢; omega) h hs3

theorem wlobj_loop_closed {W : World} {vmap : Int → Char} {mi : move_info_t}
    {ps : List perim_id} {K : Int} {P : map_state → Prop}
    (hP : call_closed W vmap mi ps K P) (fuel : Nat) :
    ∀ (cl cw nl nw : perim_id) (k : Int) (s : map_state) (r : Int × map_state),
      cl ∈ ps → cw ∈ ps → nl ∈ ps → nw ∈ ps → k + 2 * fuel ≤ K + 1 →
      wlobj_loop W vmap mi fuel cl cw nl nw k s = some r → P s → P r.2 := by
  induction fuel with
  | zero => intro cl cw nl nw k s r _ _ _ _ _ h; simp [wlobj_loop] at h
  | succ n ih =>
    intro cl cw nl nw k s r hcl hcw hnl hnw hk h hs
    unfold wlobj_loop at h
    have h0 : P { s with perim := set_perim (set_perim s.perim nw []) nl [] } :=
      hP.1 { s with perim := set_perim s.perim nw [] } nl hnl (hP.1 s nw hnw hs)
    cases he1 : expand_perimeter W vmap mi cw T_AIR k 1 2 (some nw) (some nl)
        { s with perim := set_perim (set_perim s.perim nw []) nl [] } with
    | none => rw [he1] at h; simp at h
    | some s1 =>
      rw [he1] at h
      simp only at h
      have hs1 : P s1 :=
        hP.2 cw T_AIR k 1 2 (some nw) (some nl) _ s1 hcw (by push_cast at hk; omega) rfl
          (Or.inr rfl) (fun p e => by cases e; exact hnw) (fun p e => by cases e; exact hnl)
          he1 h0
      cases he2 : expand_perimeter W vmap mi cl T_LAND k 1 2 none (some nl) s1 with
      | none => rw [he2] at h; simp at h
      | some s2 =>
        rw [he2] at h
        simp only at h
        have hs2 : P s2 :=
          hP.2 cl T_LAND k 1 2 none (some nl) _ s2 hcl (by push_cast at hk; omega) rfl
            (Or.inr rfl) (fun p e => by cases e) (fun p e => by cases e; exact hnl)
            he2 hs1
        cases he3 : expand_perimeter W vmap mi nw T_WATER (k + 1) 1 1 (some cw) none
            { s2 with perim := set_perim s2.perim cw [] } with
        | none => rw [he3] at h; simp at h
        | some s3 =>
          rw [he3] at h
          simp only at h
          have hs3 : P s3 :=
            hP.2 nw T_WATER (k + 1) 1 1 (some cw) none _ s3 hnw (by push_cast at hk; omega)
              rfl (Or.inl rfl) (fun p e => by cases e; exact hcw) (fun p e => by cases e)
              he3 (hP.1 s2 cw hcw hs2)
          split at h
          · cases h
            exact hs3
          · exact ih nl cw cl nw (k + 2) s3 r hnl hcw hcl hnw
              (by push_cast at hk ⊢; omega) h hs3

/-! ## Finalized cells, unknown cells and enemy cities -/

theorem all_perims (p : perim_id) :
    p ∈ [perim_id.p1, perim_id.p2, perim_id.p3, perim_id.p4] := by
  cases p <;> simp

theorem frozen_closed (W : World) (vmap : Int → Char) (mi : move_info_t) (K : Int)
    (s0 : map_state) :
    call_closed W vmap mi [perim_id.p1, perim_id.p2, perim_id.p3, perim_id.p4] K
      (fun t => ∀ c, (s0.pmap c).cost ≠ W.INFINITY → t.pmap c = s0.pmap c) := by
  constructor
  · intro s p _ hs
    exact hs
  · intro curp type k iw il waterp landp s s2 _ _ _ _ _ _ he hs c hc
    have h1 := hs c hc
    rw [← h1]
    exact (expand_perimeter_call he).frozen c (by rw [h1]; exact hc)

/-- C27: a cell that is finalized (its cost is not INFINITY) is never changed
again.  No step of `expand_perimeter` (the visit of one neighbour) changes the
cost, the increment or the terrain class of a cell that is finalized when the
step starts; so no run of later steps does: not the visits of further
neighbours of the same perimeter cell, not the rest of the perimeter cells of
the same call, not any call of `expand_perimeter`, and not any of the search
loops from the state in which the cell is finalized to the end of the
search. -/
theorem finalized_frozen (W : World) (vmap : Int → Char) (mi : move_info_t) :
    (∀ curp type k iw il waterp landp s s2,
      expand_perimeter W vmap mi curp type k iw il waterp landp s = some s2 →
      ∀ c, (s.pmap c).cost ≠ W.INFINITY → s2.pmap c = s.pmap c) ∧
    (∀ expand fuel fp tp k s r, single_loop W vmap mi expand fuel fp tp k s = some r →
      ∀ c, (s.pmap c).cost ≠ W.INFINITY → r.2.pmap c = s.pmap c) ∧
    (∀ fuel cl cw nl nw k s r, lwobj_loop W vmap mi fuel cl cw nl nw k s = some r →
      ∀ c, (s.pmap c).cost ≠ W.INFINITY → r.2.pmap c = s.pmap c) ∧
    (∀ fuel cl cw nl nw k s r, wlobj_loop W vmap mi fuel cl cw nl nw k s = some r →
      ∀ c, (s.pmap c).cost ≠ W.INFINITY → r.2.pmap c = s.pmap c) ∧
    (∀ type k iw il waterp landp a s j s2,
      expand_step W vmap mi type k iw il waterp landp a s j = some s2 →
      ∀ c, (s.pmap c).cost ≠ W.INFINITY → s2.pmap c = s.pmap c) ∧
    (∀ type k iw il waterp landp a (dirs : List Nat) s s2,
      loopM (expand_step W vmap mi type k iw il waterp landp a) dirs s = some s2 →
      ∀ c, (s.pmap c).cost ≠ W.INFINITY → s2.pmap c = s.pmap c) ∧
    (∀ type k iw il waterp landp (cells : List Int) s s2,
      loopM (expand_cell W vmap mi type k iw il waterp landp) cells s = some s2 →
      ∀ c, (s.pmap c).cost ≠ W.INFINITY → s2.pmap c = s.pmap c) := by
  have hdirs : ∀ type k iw il waterp landp a (dirs : List Nat) s s2,
      loopM (expand_step W vmap mi type k iw il waterp landp a) dirs s = some s2 →
      ∀ c, (s.pmap c).cost ≠ W.INFINITY → s2.pmap c = s.pmap c := by
    intro type k iw il waterp landp a dirs s s2 h
    exact loopM_inv _ (fun t => ∀ c, (s.pmap c).cost ≠ W.INFINITY → t.pmap c = s.pmap c) dirs
      (fun t j t1 _ ht hst c hc => by
        rw [expand_step_frozen hst c (by rw [ht c hc]; exact hc)]
        exact ht c hc) s s2 (fun _ _ => rfl) h
  refine ⟨?_, ?_, ?_, ?_, ?_, hdirs, ?_⟩
  · intro curp type k iw il waterp landp s s2 he
    exact (expand_perimeter_call he).frozen
  · intro expand fuel fp tp k s r h
    exact single_loop_closed (frozen_closed W vmap mi (k + fuel) s) expand fuel fp tp k s r
      (all_perims fp) (all_perims tp) (by omega) h (fun _ _ => rfl)
  · intro fuel cl cw nl nw k s r h
    exact lwobj_loop_closed (frozen_closed W vmap mi (k + 2 * fuel) s) fuel cl cw nl nw k s r
      (all_perims cl) (all_perims cw) (all_perims nl) (all_perims nw) (by omega) h
      (fun _ _ => rfl)
  · intro fuel cl cw nl nw k s r h
    exact wlobj_loop_closed (frozen_closed W vmap mi (k + 2 * fuel) s) fuel cl cw nl nw k s r
      (all_perims cl) (all_perims cw) (all_perims nl) (all_perims nw) (by omega) h
      (fun _ _ => rfl)
  · intro type k iw il waterp landp a s j s2 h
    exact expand_step_frozen h
  · intro type k iw il waterp landp cells s s2 h
    exact loopM_inv _ (fun t => ∀ c, (s.pmap c).cost ≠ W.INFINITY → t.pmap c = s.pmap c) cells
      (fun t a t1 _ ht hst c hc => by
        unfold expand_cell at hst
        rw [hdirs type k iw il waterp landp a adj_dirs t t1 hst c (by rw [ht c hc]; exact hc)]
        exact ht c hc) s s2 (fun _ _ => rfl) h

/-- C29: a step of `expand_perimeter` on a cell that is on the board, outside
the perimeter and classified as unknown appends it to no list; it finalizes
the cell at the cost `cur_cost + INFINITY / 2` with the increment
`INFINITY / 2`, unless the objective cost of the cell is below the best cost:
then the cell becomes the best objective and its cost is `cur_cost + 2`, its
increment 2. -/
theorem expand_step_unknown (W : World) (vmap : Int → Char) (mi : move_info_t) (type : Nat)
    (k iw il : Int) (waterp landp : Option perim_id) (a : Int) (s : map_state) (j : Nat)
    (oc : Int)
    (hon : (W.map (a + dir_offset W j)).on_board = true)
    (hc : (s.pmap (a + dir_offset W j)).cost = W.INFINITY)
    (ht : terrain_type W s.pmap vmap mi a (a + dir_offset W j) = some T_UNKNOWN)
    (hk : k + Int.tdiv W.INFINITY 2 ≠ W.INFINITY)
    (ho : objective_cost W vmap mi (a + dir_offset W j) k = some oc) :
    ∃ s2, expand_step W vmap mi type k iw il waterp landp a s j = some s2 ∧
      s2.perim = s.perim ∧ (∀ c, c ≠ a + dir_offset W j → s2.pmap c = s.pmap c) ∧
      (¬ oc < s.best_cost →
        s2.pmap (a + dir_offset W j) =
          { cost := k + Int.tdiv W.INFINITY 2, inc_cost := Int.tdiv W.INFINITY 2,
            terrain := T_UNKNOWN } ∧
        s2.best_cost = s.best_cost ∧ s2.best_loc = s.best_loc) ∧
      (oc < s.best_cost →
        s2.pmap (a + dir_offset W j) = { cost := k + 2, inc_cost := 2, terrain := T_UNKNOWN } ∧
        s2.best_cost = oc ∧ s2.best_loc = a + dir_offset W j) := by
  rw [expand_step_visit hon hc, ht, Option.some_bind]
  have hp : place_cell W type k iw il waterp landp s (a + dir_offset W j) T_UNKNOWN =
      some { s with
        pmap := upd s.pmap (a + dir_offset W j)
          { terrain := T_UNKNOWN, cost := k + Int.tdiv W.INFINITY 2,
            inc_cost := Int.tdiv W.INFINITY 2 } } := by
    unfold place_cell
    have h1 : ¬ (T_UNKNOWN = T_LAND ∧ type &&& T_LAND ≠ 0) := fun h => absurd h.1 (by decide)
    have h2 : ¬ (T_UNKNOWN = T_WATER ∧ type &&& T_WATER ≠ 0) := fun h => absurd h.1 (by decide)
    rw [if_neg h1, if_neg h2, if_pos rfl]
  rw [hp, Option.some_bind]
  simp only [upd_same, ne_eq, hk, not_false_eq_true, if_true]
  unfold note_objective
  rw [ho]
  simp only [upd_same, if_true]
  by_cases hlt : oc < s.best_cost
  · rw [if_pos hlt]
    refine ⟨_, rfl, rfl, ?_, fun hn => absurd hlt hn, fun _ => ⟨?_, rfl, rfl⟩⟩
    · intro c hcne
      simp only [upd_other _ _ _ hcne]
    · simp only [upd_same]
  · rw [if_neg hlt]
    refine ⟨_, rfl, rfl, ?_, fun _ => ⟨?_, rfl, rfl⟩, fun hn => absurd hn hlt⟩
    · intro c hcne
      simp only [upd_other _ _ _ hcne]
    · simp only [upd_same]

theorem terrain_type_enemy_city {W : World} {vmap : Int → Char} {mi : move_info_t} {b : Int}
    {cityp : city_info_t}
    (hv : vmap b ≠ W.MAP_LAND ∧ vmap b ≠ W.MAP_SEA ∧ vmap b ≠ '%' ∧ vmap b ≠ ' ')
    (hg : W.MAP_CITY ≠ W.MAP_SEA ∧ W.MAP_CITY ≠ W.MAP_LAND)
    (hm : (W.map b).contents = W.MAP_CITY) (hcity : (W.map b).cityp = some cityp)
    (hown : cityp.owner ≠ mi.city_owner) (pm : Int → path_map_t) (a : Int) :
    terrain_type W pm vmap mi a b = some T_UNKNOWN := by
  unfold terrain_type
  rw [if_neg hv.1, if_neg hv.2.1, if_neg hv.2.2.1, if_neg hv.2.2.2, hm, if_neg hg.1,
    if_neg hg.2, if_pos rfl, hcity]
  simp only [hown, if_false]

theorem enemy_city_step {W : World} {vmap : Int → Char} {mi : move_info_t} {type : Nat}
    {k iw il : Int} {waterp landp : Option perim_id} {a b : Int} {t t1 : map_state} {j : Nat}
    (hty : ∀ pm a, terrain_type W pm vmap mi a b = some T_UNKNOWN)
    (h : expand_step W vmap mi type k iw il waterp landp a t j = some t1)
    (p : perim_id) (hb : b ∈ t1.perim p) : b ∈ t.perim p := by
  rcases expand_step_cases h with ⟨_, rfl⟩ | ⟨_, _, ty, hty2, heff⟩
  · exact hb
  rcases heff with ⟨e, _, q, _, _, hpr⟩ | ⟨e, _, q, _, _, hpr⟩ | ⟨_, hpr, _⟩ | ⟨_, _, _, rfl⟩
  · rw [hpr] at hb
    rcases mem_set_perim_append hb with h1 | ⟨_, h2⟩
    · exact h1
    · rw [← h2, hty t.pmap a] at hty2
      cases hty2
      exact absurd e (by decide)
  · rw [hpr] at hb
    rcases mem_set_perim_append hb with h1 | ⟨_, h2⟩
    · exact h1
    · rw [← h2, hty t.pmap a] at hty2
      cases hty2
      exact absurd e (by decide)
  · rw [hpr] at hb
    exact hb
  · exact hb

theorem enemy_city_closed (W : World) (vmap : Int → Char) (mi : move_info_t) (K : Int)
    (b : Int) (hty : ∀ pm a, terrain_type W pm vmap mi a b = some T_UNKNOWN) :
    call_closed W vmap mi [perim_id.p1, perim_id.p2, perim_id.p3, perim_id.p4] K
      (fun t => ∀ p, b ∉ t.perim p) := by
  constructor
  · intro s p _ hs q hq
    by_cases hqp : q = p
    · subst hqp
      simp only [set_perim_same] at hq
      simp at hq
    · simp only [set_perim_other _ _ _ hqp] at hq
      exact hs q hq
  · intro curp type k iw il waterp landp s s2 _ _ _ _ _ _ he hs p hb
    exact hs p (expand_perimeter_inv (fun t => b ∈ t.perim p → b ∈ s.perim p)
      (fun _ _ _ _ _ _ hi hst hb1 => hi (enemy_city_step hty hst p hb1)) (fun hb0 => hb0)
      he hb)

/-- C30 (as amended): a neighbour that the view shows as something other than
land, sea, the magic glyph or unexplored and that is, on the true map, a city
of another owner than the mover's is classified as unknown by `terrain_type`;
so `expand_perimeter`, whatever the terrain mask, appends it to no list, and a
search in whose lists it is not at the start never has it in a list to expand
from. -/
theorem enemy_city_impassable (W : World) (vmap : Int → Char) (mi : move_info_t) (b : Int)
    (cityp : city_info_t)
    (hv : vmap b ≠ W.MAP_LAND ∧ vmap b ≠ W.MAP_SEA ∧ vmap b ≠ '%' ∧ vmap b ≠ ' ')
    (hg : W.MAP_CITY ≠ W.MAP_SEA ∧ W.MAP_CITY ≠ W.MAP_LAND)
    (hm : (W.map b).contents = W.MAP_CITY) (hcity : (W.map b).cityp = some cityp)
    (hown : cityp.owner ≠ mi.city_owner) :
    (∀ pm a, terrain_type W pm vmap mi a b = some T_UNKNOWN) ∧
    (∀ curp type k iw il waterp landp s s2,
      expand_perimeter W vmap mi curp type k iw il waterp landp s = some s2 →
      ∀ p, b ∈ s2.perim p → b ∈ s.perim p) ∧
    (∀ expand fuel fp tp k s r, single_loop W vmap mi expand fuel fp tp k s = some r →
      (∀ p, b ∉ s.perim p) → ∀ p, b ∉ r.2.perim p) ∧
    (∀ fuel cl cw nl nw k s r, lwobj_loop W vmap mi fuel cl cw nl nw k s = some r →
      (∀ p, b ∉ s.perim p) → ∀ p, b ∉ r.2.perim p) ∧
    (∀ fuel cl cw nl nw k s r, wlobj_loop W vmap mi fuel cl cw nl nw k s = some r →
      (∀ p, b ∉ s.perim p) → ∀ p, b ∉ r.2.perim p) := by
  have hty := terrain_type_enemy_city hv hg hm hcity hown
  refine ⟨hty, ?_, ?_, ?_, ?_⟩
  · intro curp type k iw il waterp landp s s2 he p hb
    exact expand_perimeter_inv (fun t => b ∈ t.perim p → b ∈ s.perim p)
      (fun _ _ _ _ _ _ hi hst hb1 => hi (enemy_city_step hty hst p hb1)) (fun hb0 => hb0)
      he hb
  · intro expand fuel fp tp k s r h
    exact single_loop_closed (enemy_city_closed W vmap mi (k + fuel) b hty) expand fuel
      fp tp k s r (all_perims fp) (all_perims tp) (by omega) h
  · intro fuel cl cw nl nw k s r h
    exact lwobj_loop_closed (enemy_city_closed W vmap mi (k + 2 * fuel) b hty) fuel
      cl cw nl nw k s r (all_perims cl) (all_perims cw) (all_perims nl) (all_perims nw)
      (by omega) h
  · intro fuel cl cw nl nw k s r h
    exact wlobj_loop_closed (enemy_city_closed W vmap mi (k + 2 * fuel) b hty) fuel
      cl cw nl nw k s r (all_perims cl) (all_perims cw) (all_perims nl) (all_perims nw)
      (by omega) h

/-! ## The rounds of the land/water searches -/

theorem lwobj_loop_round (W : World) (vmap : Int → Char) (mi : move_info_t) (fuel : Nat)
    (cl cw nl nw : perim_id) (k : Int) (s : map_state) :
    lwobj_loop W vmap mi (fuel + 1) cl cw nl nw k s =
      match dual_round W vmap mi true cl cw nl nw k s with
      | none => none
      | some (_, _, s3) =>
        if ((s3.perim cw).length = 0 ∧ (s3.perim nl).length = 0) ∨ s3.best_cost ≤ k + 2 then
          some (s3.best_loc, s3)
        else lwobj_loop W vmap mi fuel nl cw cl nw (k + 2) s3 := by
  unfold dual_round
  rw [lwobj_loop]
  simp only [if_true]
  cases expand_perimeter W vmap mi cw T_WATER k 1 1 (some nw) none
      { s with perim := set_perim (set_perim s.perim nw []) nl [] } with
  | none => rfl
  | some s1 =>
    simp only
    cases expand_perimeter W vmap mi cl T_AIR k 1 2 (some nw) (some nl) s1 with
    | none => rfl
    | some s2 =>
      simp only
      cases expand_perimeter W vmap mi nw T_WATER (k + 1) 1 1 (some cw) none
          { s2 with perim := set_perim s2.perim cw [] } with
      | none => rfl
      | some s3 => rfl

theorem wlobj_loop_round (W : World) (vmap : Int → Char) (mi : move_info_t) (fuel : Nat)
    (cl cw nl nw : perim_id) (k : Int) (s : map_state) :
    wlobj_loop W vmap mi (fuel + 1) cl cw nl nw k s =
      match dual_round W vmap mi false cl cw nl nw k s with
      | none => none
      | some (_, _, s3) =>
        if ((s3.perim cw).length = 0 ∧ (s3.perim nl).length = 0) ∨ s3.best_cost ≤ k + 2 then
          some (s3.best_loc, s3)
        else wlobj_loop W vmap mi fuel nl cw cl nw (k + 2) s3 := by
  unfold dual_round
  rw [wlobj_loop]
  simp only [Bool.false_eq_true, if_false]
  cases expand_perimeter W vmap mi cw T_AIR k 1 2 (some nw) (some nl)
      { s with perim := set_perim (set_perim s.perim nw []) nl [] } with
  | none => rfl
  | some s1 =>
    simp only
    cases expand_perimeter W vmap mi cl T_LAND k 1 2 none (some nl) s1 with
    | none => rfl
    | some s2 =>
      simp only
      cases expand_perimeter W vmap mi nw T_WATER (k + 1) 1 1 (some cw) none
          { s2 with perim := set_perim s2.perim cw [] } with
      | none => rfl
      | some s3 => rfl

/-! ## The cost of the cells of a perimeter list -/

theorem water_hop_call {W : World} {type : Nat} {k il : Int} {waterp landp : Option perim_id}
    {curp : perim_id} {s s2 : map_state}
    (hcall : call_inv W type k 1 il waterp landp curp s s2)
    (hf : ∀ A, A ∈ s.perim curp → (s.pmap A).cost = k) (hk : k ≠ W.INFINITY) :
    water_hops_one W (s.perim curp) s.pmap s2.pmap := by
  intro B hB1 hB2 hB3
  obtain ⟨_, hadj, hform⟩ := hcall.fresh B hB1 hB2
  have hpm : s2.pmap B = { cost := k + 1, inc_cost := 1, terrain := T_WATER } := by
    rcases hform with ⟨e, _⟩ | ⟨e, _⟩ | e | e
    · rw [e] at hB3; exact absurd hB3 (show T_LAND ≠ T_WATER by decide)
    · exact e
    · rw [e] at hB3; exact absurd hB3 (show T_UNKNOWN ≠ T_WATER by decide)
    · rw [e] at hB3; exact absurd hB3 (show T_UNKNOWN ≠ T_WATER by decide)
  refine ⟨by rw [hpm], hadj, ?_⟩
  intro A hA
  rw [hpm, hcall.frozen A (by rw [hf A hA]; exact hk), hf A hA]

theorem frontier_cells_call {W : World} {vmap : Int → Char} {mi : move_info_t}
    {curp : perim_id} {type : Nat} {k iw il : Int} {waterp landp : Option perim_id}
    {s s2 : map_state} {p : perim_id} {c0 : Int} {ty : Nat}
    (he : expand_perimeter W vmap mi curp type k iw il waterp landp s = some s2)
    (hil : k + il ≠ W.INFINITY) (hiw : k + iw ≠ W.INFINITY)
    (hf : frontier_cells s p c0 ty) (hc0 : c0 ≠ W.INFINITY)
    (hlp : landp = some p → c0 = k + il ∧ ty = T_LAND)
    (hwp : waterp = some p → c0 = k + iw ∧ ty = T_WATER) :
    frontier_cells s2 p c0 ty := by
  intro c hc
  rcases expand_perimeter_stamped hil hiw he p c hc with h1 | ⟨_, ⟨h2, h3⟩ | ⟨h2, h3⟩⟩
  · rw [(expand_perimeter_call he).frozen c (by rw [(hf c h1).1]; exact hc0)]
    exact hf c h1
  · rw [h3]
    exact ⟨(hlp h2).1.symm, (hlp h2).2.symm⟩
  · rw [h3]
    exact ⟨(hwp h2).1.symm, (hwp h2).2.symm⟩

theorem frontier_cells_reset {s : map_state} {p q : perim_id} {k : Int} {ty : Nat}
    (hf : p ≠ q → frontier_cells s p k ty) :
    frontier_cells { s with perim := set_perim s.perim q [] } p k ty := by
  intro c hc
  by_cases hpq : p = q
  · subst hpq
    simp only [set_perim_same] at hc
    simp at hc
  · simp only [set_perim_other _ _ _ hpq] at hc
    exact hf hpq c hc

theorem dual_round_calls {W : World} {vmap : Int → Char} {mi : move_info_t} {lw : Bool}
    {l cw nl nw : perim_id} {k : Int} {t s1 s2 s3 : map_state}
    (hd : dual_round W vmap mi lw l cw nl nw k t = some (s1, s2, s3)) :
    expand_perimeter W vmap mi cw (if lw = true then T_WATER else T_AIR) k 1
      (if lw = true then 1 else 2) (some nw) (if lw = true then none else some nl)
      { t with perim := set_perim (set_perim t.perim nw []) nl [] } = some s1 ∧
    expand_perimeter W vmap mi l (if lw = true then T_AIR else T_LAND) k 1 2
      (if lw = true then some nw else none) (some nl) s1 = some s2 ∧
    expand_perimeter W vmap mi nw T_WATER (k + 1) 1 1 (some cw) none
      { s2 with perim := set_perim s2.perim cw [] } = some s3 := by
  unfold dual_round at hd
  cases h1 : expand_perimeter W vmap mi cw (if lw = true then T_WATER else T_AIR) k 1
      (if lw = true then 1 else 2) (some nw) (if lw = true then none else some nl)
      { t with perim := set_perim (set_perim t.perim nw []) nl [] } with
  | none => rw [h1] at hd; simp at hd
  | some u1 =>
    rw [h1] at hd
    simp only at hd
    cases h2 : expand_perimeter W vmap mi l (if lw = true then T_AIR else T_LAND) k 1 2
        (if lw = true then some nw else none) (some nl) u1 with
    | none => rw [h2] at hd; simp at hd
    | some u2 =>
      rw [h2] at hd
      simp only at hd
      cases h3 : expand_perimeter W vmap mi nw T_WATER (k + 1) 1 1 (some cw) none
          { u2 with perim := set_perim u2.perim cw [] } with
      | none => rw [h3] at hd; simp at hd
      | some u3 =>
        rw [h3] at hd
        simp only [Option.some.injEq, Prod.mk.injEq] at hd
        obtain ⟨e1, e2, e3⟩ := hd
        subst e1; subst e2; subst e3
        exact ⟨rfl, h2, h3⟩

/-- The classes and costs of the cells of the four lists through one round
of a land/water search. -/
theorem dual_round_cells {W : World} {vmap : Int → Char} {mi : move_info_t} {lw : Bool}
    {l cw nl nw : perim_id} {k : Int} {t s1 s2 s3 : map_state}
    (hd : dual_round W vmap mi lw l cw nl nw k t = some (s1, s2, s3))
    (h2 : l ≠ nl) (h3 : l ≠ nw) (h4 : cw ≠ nl) (h5 : cw ≠ nw) (h6 : nl ≠ nw)
    (hk0 : k ≠ W.INFINITY) (hk1 : k + 1 ≠ W.INFINITY) (hk2 : k + 2 ≠ W.INFINITY)
    (hl : frontier_cells t l k T_LAND) :
    (s1.perim cw = t.perim cw ∧ s1.perim l = t.perim l ∧
      frontier_cells s1 l k T_LAND ∧ frontier_cells s1 nw (k + 1) T_WATER) ∧
    (frontier_cells s2 nw (k + 1) T_WATER ∧ frontier_cells s2 nl (k + 2) T_LAND) ∧
    (frontier_cells s3 nl (k + 2) T_LAND ∧ frontier_cells s3 cw (k + 2) T_WATER) := by
  obtain ⟨he1, he2, he3⟩ := dual_round_calls hd
  have hil1 : k + (if lw = true then (1 : Int) else 2) ≠ W.INFINITY := by
    cases lw
    · simpa using hk2
    · simpa using hk1
  -- the state after the two lists are emptied
  have hl0 : frontier_cells { t with perim := set_perim (set_perim t.perim nw []) nl [] }
      l k T_LAND := by
    intro c hc
    simp only [set_perim_other _ _ _ h2, set_perim_other _ _ _ h3] at hc
    exact hl c hc
  have hnw0 : frontier_cells { t with perim := set_perim (set_perim t.perim nw []) nl [] }
      nw (k + 1) T_WATER := by
    intro c hc
    simp only [set_perim_other _ _ _ h6.symm, set_perim_same] at hc
    simp at hc
  have hnl0 : frontier_cells { t with perim := set_perim (set_perim t.perim nw []) nl [] }
      nl (k + 2) T_LAND := by
    intro c hc
    simp only [set_perim_same] at hc
    simp at hc
  -- the first call
  have hc1 := expand_perimeter_call he1
  have hcw1 : s1.perim cw = t.perim cw := by
    rw [hc1.others cw (by cases lw <;> simp [h4]) (by simp [h5])]
    simp only [set_perim_other _ _ _ h4, set_perim_other _ _ _ h5]
  have hl1p : s1.perim l = t.perim l := by
    rw [hc1.others l (by cases lw <;> simp [h2]) (by simp [h3])]
    simp only [set_perim_other _ _ _ h2, set_perim_other _ _ _ h3]
  have hl1 : frontier_cells s1 l k T_LAND :=
    frontier_cells_call he1 hil1 hk1 hl0 hk0
      (by cases lw <;> simp [h2.symm]) (by simp [h3.symm])
  have hnw1 : frontier_cells s1 nw (k + 1) T_WATER :=
    frontier_cells_call he1 hil1 hk1 hnw0 hk1
      (by cases lw <;> simp [h6]) (fun _ => ⟨rfl, rfl⟩)
  have hnl1 : frontier_cells s1 nl (k + 2) T_LAND :=
    frontier_cells_call he1 hil1 hk1 hnl0 hk2
      (by cases lw <;> simp) (by simp [h6.symm])
  -- the second call
  have hnw2 : frontier_cells s2 nw (k + 1) T_WATER :=
    frontier_cells_call he2 hk2 hk1 hnw1 hk1 (by simp [h6])
      (by cases lw <;> simp)
  have hnl2 : frontier_cells s2 nl (k + 2) T_LAND :=
    frontier_cells_call he2 hk2 hk1 hnl1 hk2 (fun _ => ⟨rfl, rfl⟩)
      (by cases lw <;> simp [h6.symm])
  -- the third call
  have hk3 : k + 1 + 1 ≠ W.INFINITY := by
    intro e; apply hk2; rw [← e]; ring
  have hnl3 : frontier_cells s3 nl (k + 2) T_LAND :=
    frontier_cells_call he3 hk3 hk3 (frontier_cells_reset (fun _ => hnl2)) hk2
      (by simp) (by simp [h4])
  have hcw3 : frontier_cells s3 cw (k + 2) T_WATER :=
    frontier_cells_call he3 hk3 hk3
      (frontier_cells_reset (fun hne => absurd rfl hne)) hk2 (by simp)
      (fun _ => ⟨by ring, rfl⟩)
  exact ⟨⟨hcw1, hl1p, hl1, hnw1⟩, ⟨hnw2, hnl2⟩, ⟨hnl3, hcw3⟩⟩

/-! ## The land/water searches round by round -/

theorem lwobj_loop_rounds (W : World) (vmap : Int → Char) (mi : move_info_t)
    (cl0 cw nl0 nw : perim_id) (s0 : map_state) (fuel : Nat) :
    ∀ (n : Nat) (l nl : perim_id) (t : map_state) (r : Int × map_state),
      dual_rounds W vmap mi true cl0 cw nl0 nw s0 n = some (l, nl, t) →
      lwobj_loop W vmap mi fuel l cw nl nw (2 * (n : Int)) t = some r →
      ∃ (m : Nat) (l1 nl1 : perim_id) (t1 s1 s2 : map_state), n ≤ m ∧ m < n + fuel ∧
        dual_rounds W vmap mi true cl0 cw nl0 nw s0 m = some (l1, nl1, t1) ∧
        dual_round W vmap mi true l1 cw nl1 nw (2 * (m : Int)) t1 = some (s1, s2, r.2) ∧
        r.1 = r.2.best_loc := by
  induction fuel with
  | zero => intro n l nl t r _ h; simp [lwobj_loop] at h
  | succ f ih =>
    intro n l nl t r hr h
    rw [lwobj_loop_round] at h
    cases hd : dual_round W vmap mi true l cw nl nw (2 * (n : Int)) t with
    | none => rw [hd] at h; simp at h
    | some x =>
      obtain ⟨s1, s2, s3⟩ := x
      rw [hd] at h
      simp only at h
      split at h
      · cases h
        exact ⟨n, l, nl, t, s1, s2, le_refl n, by omega, hr, hd, rfl⟩
      · have hnext : dual_rounds W vmap mi true cl0 cw nl0 nw s0 (n + 1) = some (nl, l, s3) := by
          rw [dual_rounds, hr]
          simp only [hd]
        have hcost : (2 * (n : Int) + 2) = 2 * ((n + 1 : Nat) : Int) := by push_cast; ring
        rw [hcost] at h
        obtain ⟨m, l1, nl1, t1, u1, u2, h1, h2, h3, h4, h5⟩ := ih (n + 1) nl l s3 r hnext h
        exact ⟨m, l1, nl1, t1, u1, u2, by omega, by omega, h3, h4, h5⟩

theorem wlobj_loop_rounds (W : World) (vmap : Int → Char) (mi : move_info_t)
    (cl0 cw nl0 nw : perim_id) (s0 : map_state) (fuel : Nat) :
    ∀ (n : Nat) (l nl : perim_id) (t : map_state) (r : Int × map_state),
      dual_rounds W vmap mi false cl0 cw nl0 nw s0 n = some (l, nl, t) →
      wlobj_loop W vmap mi fuel l cw nl nw (2 * (n : Int)) t = some r →
      ∃ (m : Nat) (l1 nl1 : perim_id) (t1 s1 s2 : map_state), n ≤ m ∧ m < n + fuel ∧
        dual_rounds W vmap mi false cl0 cw nl0 nw s0 m = some (l1, nl1, t1) ∧
        dual_round W vmap mi false l1 cw nl1 nw (2 * (m : Int)) t1 = some (s1, s2, r.2) ∧
        r.1 = r.2.best_loc := by
  induction fuel with
  | zero => intro n l nl t r _ h; simp [wlobj_loop] at h
  | succ f ih =>
    intro n l nl t r hr h
    rw [wlobj_loop_round] at h
    cases hd : dual_round W vmap mi false l cw nl nw (2 * (n : Int)) t with
    | none => rw [hd] at h; simp at h
    | some x =>
      obtain ⟨s1, s2, s3⟩ := x
      rw [hd] at h
      simp only at h
      split at h
      · cases h
        exact ⟨n, l, nl, t, s1, s2, le_refl n, by omega, hr, hd, rfl⟩
      · have hnext : dual_rounds W vmap mi false cl0 cw nl0 nw s0 (n + 1) = some (nl, l, s3) := by
          rw [dual_rounds, hr]
          simp only [hd]
        have hcost : (2 * (n : Int) + 2) = 2 * ((n + 1 : Nat) : Int) := by push_cast; ring
        rw [hcost] at h
        obtain ⟨m, l1, nl1, t1, u1, u2, h1, h2, h3, h4, h5⟩ := ih (n + 1) nl l s3 r hnext h
        exact ⟨m, l1, nl1, t1, u1, u2, by omega, by omega, h3, h4, h5⟩

theorem dual_rounds_succ {W : World} {vmap : Int → Char} {mi : move_info_t} {lw : Bool}
    {cl0 cw nl0 nw : perim_id} {s0 : map_state} {n : Nat} {x : perim_id × perim_id × map_state}
    (h : dual_rounds W vmap mi lw cl0 cw nl0 nw s0 (n + 1) = some x) :
    ∃ l nl t s1 s2, dual_rounds W vmap mi lw cl0 cw nl0 nw s0 n = some (l, nl, t) ∧
      dual_round W vmap mi lw l cw nl nw (2 * (n : Int)) t = some (s1, s2, x.2.2) ∧
      x.1 = nl ∧ x.2.1 = l := by
  rw [dual_rounds] at h
  cases hr : dual_rounds W vmap mi lw cl0 cw nl0 nw s0 n with
  | none => rw [hr] at h; simp at h
  | some y =>
    obtain ⟨l, nl, t⟩ := y
    rw [hr] at h
    simp only at h
    cases hd : dual_round W vmap mi lw l cw nl nw (2 * (n : Int)) t with
    | none => rw [hd] at h; simp at h
    | some z =>
      obtain ⟨s1, s2, s3⟩ := z
      rw [hd] at h
      simp only [Option.some.injEq] at h
      subst h
      exact ⟨l, nl, t, s1, s2, rfl, hd, rfl, rfl⟩

/-- The cells of the current land list and of the current water list at the
start of every round of a land/water search have the cost of the round and
the class of their list. -/
theorem dual_rounds_cells (W : World) (vmap : Int → Char) (mi : move_info_t) (lw : Bool)
    (s0 : map_state)
    (hl0 : frontier_cells s0 perim_id.p1 0 T_LAND)
    (hw0 : frontier_cells s0 perim_id.p2 0 T_WATER) (n : Nat) :
    ∀ (l nl : perim_id) (t : map_state), 2 * (n : Int) < W.INFINITY →
      dual_rounds W vmap mi lw perim_id.p1 perim_id.p2 perim_id.p4 perim_id.p3 s0 n =
        some (l, nl, t) →
      ((l = perim_id.p1 ∧ nl = perim_id.p4) ∨ (l = perim_id.p4 ∧ nl = perim_id.p1)) ∧
      frontier_cells t l (2 * (n : Int)) T_LAND ∧
      frontier_cells t perim_id.p2 (2 * (n : Int)) T_WATER := by
  induction n with
  | zero =>
    intro l nl t _ h
    simp only [dual_rounds, Option.some.injEq, Prod.mk.injEq] at h
    obtain ⟨e1, e2, e3⟩ := h
    subst e1; subst e2; subst e3
    exact ⟨Or.inl ⟨rfl, rfl⟩, by simpa using hl0, by simpa using hw0⟩
  | succ n ih =>
    intro l nl t hI h
    obtain ⟨l1, nl1, t1, s1, s2, hr, hd, e1, e2⟩ := dual_rounds_succ h
    simp only at e1 e2 hd
    subst e1; subst e2
    have hI1 : 2 * (n : Int) < W.INFINITY := by push_cast at hI; omega
    obtain ⟨hp, hl, _⟩ := ih nl l t1 hI1 hr
    have hne : nl ≠ l ∧ nl ≠ perim_id.p3 ∧ perim_id.p2 ≠ l ∧ perim_id.p2 ≠ perim_id.p3 ∧
        l ≠ perim_id.p3 := by
      rcases hp with ⟨a, b⟩ | ⟨a, b⟩ <;> subst a <;> subst b <;> decide
    obtain ⟨_, _, h3⟩ := dual_round_cells hd hne.1 hne.2.1 hne.2.2.1 hne.2.2.2.1 hne.2.2.2.2
      (by push_cast at hI; omega) (by push_cast at hI; omega) (by push_cast at hI; omega) hl
    have hcost : (2 * (n : Int) + 2) = 2 * ((n + 1 : Nat) : Int) := by push_cast; ring
    rw [hcost] at h3
    exact ⟨hp.symm.imp (fun h => ⟨h.2, h.1⟩) (fun h => ⟨h.2, h.1⟩), h3.1, h3.2⟩

theorem dual_start_cells (W : World) (lw : Bool) (loc beat_cost : Int) (s : map_state) :
    frontier_cells (dual_start W lw loc beat_cost s) perim_id.p1 0 T_LAND ∧
    frontier_cells (dual_start W lw loc beat_cost s) perim_id.p2 0 T_WATER := by
  cases lw
  · constructor
    · intro c hc
      simp only [dual_start, Bool.false_eq_true, if_false, set_perim_same] at hc
      simp at hc
    · intro c hc
      simp only [dual_start, Bool.false_eq_true, if_false, start_perimeter,
        set_perim_other _ _ _ (show perim_id.p2 ≠ perim_id.p1 by decide), set_perim_same,
        List.mem_singleton] at hc
      subst hc
      simp only [dual_start, Bool.false_eq_true, if_false, start_perimeter, upd_same,
        and_self]
  · constructor
    · intro c hc
      simp only [dual_start, if_true, start_perimeter,
        set_perim_other _ _ _ (show perim_id.p1 ≠ perim_id.p2 by decide), set_perim_same,
        List.mem_singleton] at hc
      subst hc
      simp only [dual_start, if_true, start_perimeter, upd_same, and_self]
    · intro c hc
      simp only [dual_start, if_true, set_perim_same] at hc
      simp at hc

/-! ## The cost of a hop onto water -/

/-- The state that `vmap_find_lwobj` and `vmap_find_wlobj` return is the state
after the third call of one of the rounds of `dual_rounds`. -/
theorem dual_search_rounds (W : World) (vmap : Int → Char) (mi : move_info_t)
    (loc beat_cost : Int) (s0 : map_state) (fuel : Nat) (r : Int × map_state) :
    (vmap_find_lwobj W vmap loc mi beat_cost fuel s0 = some r →
      ∃ (m : Nat) (l nl : perim_id) (t s1 s2 : map_state), m < fuel ∧
        dual_rounds W vmap mi true perim_id.p1 perim_id.p2 perim_id.p4 perim_id.p3
          (dual_start W true loc beat_cost s0) m = some (l, nl, t) ∧
        dual_round W vmap mi true l perim_id.p2 nl perim_id.p3 (2 * (m : Int)) t =
          some (s1, s2, r.2)) ∧
    (vmap_find_wlobj W vmap loc mi fuel s0 = some r →
      ∃ (m : Nat) (l nl : perim_id) (t s1 s2 : map_state), m < fuel ∧
        dual_rounds W vmap mi false perim_id.p1 perim_id.p2 perim_id.p4 perim_id.p3
          (dual_start W false loc beat_cost s0) m = some (l, nl, t) ∧
        dual_round W vmap mi false l perim_id.p2 nl perim_id.p3 (2 * (m : Int)) t =
          some (s1, s2, r.2)) := by
  constructor
  · intro h
    have h' : lwobj_loop W vmap mi fuel perim_id.p1 perim_id.p2 perim_id.p4 perim_id.p3
        (2 * ((0 : Nat) : Int)) (dual_start W true loc beat_cost s0) = some r := h
    obtain ⟨m, l, nl, t, s1, s2, _, h2, h3, h4, _⟩ :=
      lwobj_loop_rounds W vmap mi perim_id.p1 perim_id.p2 perim_id.p4 perim_id.p3
        (dual_start W true loc beat_cost s0) fuel 0 perim_id.p1 perim_id.p4 _ r rfl h'
    exact ⟨m, l, nl, t, s1, s2, by omega, h3, h4⟩
  · intro h
    have h' : wlobj_loop W vmap mi fuel perim_id.p1 perim_id.p2 perim_id.p4 perim_id.p3
        (2 * ((0 : Nat) : Int)) (dual_start W false loc beat_cost s0) = some r := h
    obtain ⟨m, l, nl, t, s1, s2, _, h2, h3, h4, _⟩ :=
      wlobj_loop_rounds W vmap mi perim_id.p1 perim_id.p2 perim_id.p4 perim_id.p3
        (dual_start W false loc beat_cost s0) fuel 0 perim_id.p1 perim_id.p4 _ r rfl h'
    exact ⟨m, l, nl, t, s1, s2, by omega, h3, h4⟩

theorem dual_round_frame {W : World} {vmap : Int → Char} {mi : move_info_t} {lw : Bool}
    {loc beat_cost : Int} {s0 : map_state} {n : Nat} {l nl : perim_id}
    {t s1 s2 s3 : map_state}
    (hI : 2 * (n : Int) + 2 < W.INFINITY)
    (hr : dual_rounds W vmap mi lw perim_id.p1 perim_id.p2 perim_id.p4 perim_id.p3
      (dual_start W lw loc beat_cost s0) n = some (l, nl, t))
    (hd : dual_round W vmap mi lw l perim_id.p2 nl perim_id.p3 (2 * (n : Int)) t =
      some (s1, s2, s3)) :
    (l ≠ nl ∧ l ≠ perim_id.p3 ∧ perim_id.p2 ≠ nl ∧ perim_id.p2 ≠ perim_id.p3 ∧
      nl ≠ perim_id.p3 ∧ l ≠ perim_id.p2) ∧
    frontier_cells t l (2 * (n : Int)) T_LAND ∧
    frontier_cells t perim_id.p2 (2 * (n : Int)) T_WATER ∧
    s1.perim perim_id.p2 = t.perim perim_id.p2 ∧ s1.perim l = t.perim l ∧
    frontier_cells s1 l (2 * (n : Int)) T_LAND ∧
    frontier_cells s2 perim_id.p3 (2 * (n : Int) + 1) T_WATER := by
  obtain ⟨hl0, hw0⟩ := dual_start_cells W lw loc beat_cost s0
  obtain ⟨hp, hl, hw⟩ := dual_rounds_cells W vmap mi lw _ hl0 hw0 n l nl t (by omega) hr
  have hne : l ≠ nl ∧ l ≠ perim_id.p3 ∧ perim_id.p2 ≠ nl ∧ perim_id.p2 ≠ perim_id.p3 ∧
      nl ≠ perim_id.p3 ∧ l ≠ perim_id.p2 := by
    rcases hp with ⟨a, b⟩ | ⟨a, b⟩ <;> subst a <;> subst b <;> decide
  obtain ⟨⟨h1, h2, h3, _⟩, ⟨h5, _⟩, _⟩ := dual_round_cells hd hne.1 hne.2.1 hne.2.2.1
    hne.2.2.2.1 hne.2.2.2.2.1 (by omega) (by omega) (by omega) hl
  exact ⟨hne, hl, hw, h1, h2, h3, h5⟩

/-- C13: in every round of `vmap_find_lwobj` (`lw` true) and of
`vmap_find_wlobj` (`lw` false), the two calls of `expand_perimeter` that
expand a water list (the current water at the cost of the round, the new water
at that cost plus 1) do so from cells of class water that all have that cost,
and every cell they finalize as water has the increment 1 and costs 1 more
than the cells of the list expanded. -/
theorem water_to_water_hop (W : World) (vmap : Int → Char) (mi : move_info_t) (lw : Bool)
    (loc beat_cost : Int) (s0 : map_state) (n : Nat) (l nl : perim_id)
    (t s1 s2 s3 : map_state)
    (hI : 2 * (n : Int) + 2 < W.INFINITY)
    (hr : dual_rounds W vmap mi lw perim_id.p1 perim_id.p2 perim_id.p4 perim_id.p3
      (dual_start W lw loc beat_cost s0) n = some (l, nl, t))
    (hd : dual_round W vmap mi lw l perim_id.p2 nl perim_id.p3 (2 * (n : Int)) t =
      some (s1, s2, s3)) :
    (frontier_cells t perim_id.p2 (2 * (n : Int)) T_WATER ∧
      water_hops_one W (t.perim perim_id.p2) t.pmap s1.pmap) ∧
    (frontier_cells s2 perim_id.p3 (2 * (n : Int) + 1) T_WATER ∧
      water_hops_one W (s2.perim perim_id.p3) s2.pmap s3.pmap) := by
  obtain ⟨hne, _, hw, _, _, _, hnw⟩ := dual_round_frame hI hr hd
  obtain ⟨he1, _, he3⟩ := dual_round_calls hd
  refine ⟨⟨hw, ?_⟩, ⟨hnw, ?_⟩⟩
  · have h := water_hop_call (expand_perimeter_call he1)
      (by
        intro A hA
        simp only [set_perim_other _ _ _ hne.2.2.1, set_perim_other _ _ _ hne.2.2.2.1] at hA
        exact (hw A hA).1)
      (by omega)
    simp only [set_perim_other _ _ _ hne.2.2.1, set_perim_other _ _ _ hne.2.2.2.1] at h
    exact h
  · have h := water_hop_call (expand_perimeter_call he3)
      (by
        intro A hA
        simp only [set_perim_other _ _ _ hne.2.2.2.1.symm] at hA
        exact (hnw A hA).1)
      (by omega)
    simp only [set_perim_other _ _ _ hne.2.2.2.1.symm] at h
    exact h

/-- C12 (as amended): in every round of `vmap_find_lwobj` (`lw` true) the call
that expands the current land list does so from cells of class land that all
have the cost of the round, and every cell it finalizes as water has the
increment 1 and costs 1 more than they do (2 is the cost of a hop onto land);
in every round of `vmap_find_wlobj` (`lw` false) the call that expands the
current land list finalizes no cell as water. -/
theorem land_to_water_hop (W : World) (vmap : Int → Char) (mi : move_info_t) (lw : Bool)
    (loc beat_cost : Int) (s0 : map_state) (n : Nat) (l nl : perim_id)
    (t s1 s2 s3 : map_state)
    (hI : 2 * (n : Int) + 2 < W.INFINITY)
    (hr : dual_rounds W vmap mi lw perim_id.p1 perim_id.p2 perim_id.p4 perim_id.p3
      (dual_start W lw loc beat_cost s0) n = some (l, nl, t))
    (hd : dual_round W vmap mi lw l perim_id.p2 nl perim_id.p3 (2 * (n : Int)) t =
      some (s1, s2, s3)) :
    frontier_cells t l (2 * (n : Int)) T_LAND ∧ s1.perim l = t.perim l ∧
    (lw = true → water_hops_one W (t.perim l) s1.pmap s2.pmap) ∧
    (lw = false → ∀ B, (s1.pmap B).cost = W.INFINITY → (s2.pmap B).cost ≠ W.INFINITY →
      (s2.pmap B).terrain ≠ T_WATER) := by
  obtain ⟨_, hl, _, _, hlp, hl1, _⟩ := dual_round_frame hI hr hd
  obtain ⟨_, he2, _⟩ := dual_round_calls hd
  refine ⟨hl, hlp, ?_, ?_⟩
  · intro hlw
    subst hlw
    have h := water_hop_call (expand_perimeter_call he2) (fun A hA => (hl1 A hA).1)
      (by omega)
    rw [hlp] at h
    exact h
  · intro hlw B hB1 hB2 hB3
    subst hlw
    obtain ⟨_, _, hform⟩ := (expand_perimeter_call he2).fresh B hB1 hB2
    rcases hform with ⟨e, _⟩ | ⟨_, e⟩ | e | e
    · rw [e] at hB3; exact absurd hB3 (show T_LAND ≠ T_WATER by decide)
    · exact absurd e (by decide)
    · rw [e] at hB3; exact absurd hB3 (show T_UNKNOWN ≠ T_WATER by decide)
    · rw [e] at hB3; exact absurd hB3 (show T_UNKNOWN ≠ T_WATER by decide)

theorem demo_lw_round_eq :
    dual_round demo_world demo_coast demo_move_info true perim_id.p1 perim_id.p2 perim_id.p4
      perim_id.p3 (2 * ((0 : Nat) : Int)) (dual_start demo_world true 6 100 demo_state) =
      some (demo_lw_round.1, demo_lw_round.2.1, demo_lw_round.2.2) :=
  getD_of_isSome (by decide) (demo_state, demo_state, demo_state)

/-- Counterexample to C12 as stated: in the first round of `vmap_find_lwobj`
from the cell 6 of the small world, with sea at the cell 7, the current land
list is [6], of cost 0 and class land; the call that expands it finalizes the
neighbour 7 as water at the cost 1 with the increment 1, not 2. -/
theorem land_to_water_hop_counterexample :
    (dual_start demo_world true 6 100 demo_state).perim perim_id.p1 = [6] ∧
    (demo_lw_round.1.pmap 6).cost = 0 ∧ (demo_lw_round.1.pmap 6).terrain = T_LAND ∧
    adj demo_world 6 7 ∧
    (demo_lw_round.1.pmap 7).cost = demo_world.INFINITY ∧
    demo_lw_round.2.1.pmap 7 = { cost := 1, inc_cost := 1, terrain := T_WATER } ∧
    (demo_lw_round.2.1.pmap 7).cost ≠ (demo_lw_round.2.1.pmap 6).cost + 2 := by
  refine ⟨by decide, by decide, by decide, by decide, by decide, by decide, by decide⟩

/-- Witness of C12 as amended: the first round of the search from the cell 6. -/
theorem land_to_water_hop_witness :
    frontier_cells (dual_start demo_world true 6 100 demo_state) perim_id.p1
      (2 * ((0 : Nat) : Int)) T_LAND ∧
    demo_lw_round.1.perim perim_id.p1 =
      (dual_start demo_world true 6 100 demo_state).perim perim_id.p1 ∧
    (true = true → water_hops_one demo_world
      ((dual_start demo_world true 6 100 demo_state).perim perim_id.p1)
      demo_lw_round.1.pmap demo_lw_round.2.1.pmap) ∧
    (true = false → ∀ B, (demo_lw_round.1.pmap B).cost = demo_world.INFINITY →
      (demo_lw_round.2.1.pmap B).cost ≠ demo_world.INFINITY →
      (demo_lw_round.2.1.pmap B).terrain ≠ T_WATER) :=
  land_to_water_hop demo_world demo_coast demo_move_info true 6 100 demo_state 0
    perim_id.p1 perim_id.p4 _ _ _ _ (by decide) rfl demo_lw_round_eq

set_option maxRecDepth 100000 in
theorem demo_ww_round_eq :
    dual_round demo_world demo_wall demo_move_info true perim_id.p1 perim_id.p2 perim_id.p4
      perim_id.p3 (2 * ((0 : Nat) : Int)) (dual_start demo_world true 6 100 demo_state) =
      some (demo_ww_round.1, demo_ww_round.2.1, demo_ww_round.2.2) :=
  getD_of_isSome (by decide) (demo_state, demo_state, demo_state)

set_option maxRecDepth 100000 in
/-- Witness of C13: the first round of `vmap_find_lwobj` from the cell 6 on the
view whose middle column 7, 12, 17 is sea.  The call that expands the current
land list [6] finalizes the cells 7 and 12 as water into the new water list;
the call that expands the new water list then finalizes the cell 17, a
neighbour of the water cell 12 and outside the perimeter before, as water: by
the theorem its increment is 1 and its cost is the cost of the cell 12 plus
1. -/
theorem water_to_water_hop_witness :
    demo_ww_round.2.1.perim perim_id.p3 = [7, 12] ∧
    (demo_ww_round.2.1.pmap 12).terrain = T_WATER ∧ (demo_ww_round.2.1.pmap 12).cost = 1 ∧
    adj demo_world 12 17 ∧
    (demo_ww_round.2.1.pmap 17).cost = demo_world.INFINITY ∧
    (demo_ww_round.2.2.pmap 17).cost ≠ demo_world.INFINITY ∧
    (demo_ww_round.2.2.pmap 17).terrain = T_WATER ∧
    (demo_ww_round.2.2.pmap 17).inc_cost = 1 ∧
    (demo_ww_round.2.2.pmap 17).cost = (demo_ww_round.2.2.pmap 12).cost + 1 :=
  ⟨by decide, by decide, by decide, by decide, by decide, by decide, by decide,
    ((water_to_water_hop demo_world demo_wall demo_move_info true 6 100 demo_state 0
      perim_id.p1 perim_id.p4 _ _ _ _ (by decide) rfl demo_ww_round_eq).2.2 17
      (by decide) (by decide) (by decide)).1,
    ((water_to_water_hop demo_world demo_wall demo_move_info true 6 100 demo_state 0
      perim_id.p1 perim_id.p4 _ _ _ _ (by decide) rfl demo_ww_round_eq).2.2 17
      (by decide) (by decide) (by decide)).2.2 12 (by decide)⟩

/-- Witness of C27: the search for the city from the cell 6 leaves the cell 6,
finalized at the start, as it was. -/
theorem finalized_frozen_witness :
    demo_objective.2.pmap 6 =
      (start_perimeter demo_world demo_state perim_id.p1 6 T_LAND).pmap 6 :=
  (finalized_frozen demo_world demo_city demo_move_info).2.1 T_LAND 5 perim_id.p1
    perim_id.p2 0 _ (18, demo_objective.2) demo_objective_eq 6 (by decide)

/-- Witness of C29: the step from the cell 16 of the scenario to the enemy
city at 24, of objective cost 1, below the best cost 100. -/
theorem expand_step_unknown_witness :
    ∃ s2, expand_step scenario_world scenario_view demo_move_info T_LAND 0 1 1
        (some perim_id.p2) (some perim_id.p2) 16 scenario_start 3 = some s2 ∧
      s2.perim = scenario_start.perim ∧
      (∀ c, c ≠ 16 + dir_offset scenario_world 3 → s2.pmap c = scenario_start.pmap c) ∧
      (¬ (1 : Int) < scenario_start.best_cost →
        s2.pmap (16 + dir_offset scenario_world 3) =
          { cost := 0 + Int.tdiv scenario_world.INFINITY 2,
            inc_cost := Int.tdiv scenario_world.INFINITY 2, terrain := T_UNKNOWN } ∧
        s2.best_cost = scenario_start.best_cost ∧ s2.best_loc = scenario_start.best_loc) ∧
      ((1 : Int) < scenario_start.best_cost →
        s2.pmap (16 + dir_offset scenario_world 3) =
          { cost := 0 + 2, inc_cost := 2, terrain := T_UNKNOWN } ∧
        s2.best_cost = 1 ∧ s2.best_loc = 16 + dir_offset scenario_world 3) :=
  expand_step_unknown scenario_world scenario_view demo_move_info T_LAND 0 1 1
    (some perim_id.p2) (some perim_id.p2) 16 scenario_start 3 1 (by decide) (by decide)
    (by decide) (by decide) (by decide)

/-- Witness of C30: the enemy city at the centre 24 of the scenario. -/
theorem enemy_city_impassable_witness :
    terrain_type scenario_world scenario_start.pmap scenario_view demo_move_info 16 24 =
      some T_UNKNOWN :=
  (enemy_city_impassable scenario_world scenario_view demo_move_info 24
    { owner := 2, prod := 0, work := 0 } (by decide) (by decide) (by decide) (by decide)
    (by decide)).1 scenario_start.pmap 16

/-! ## The searches terminate -/

theorem unfinalized_mono {W : World} {pm pm2 : Int → path_map_t}
    (h : ∀ c, (pm c).cost ≠ W.INFINITY → (pm2 c).cost ≠ W.INFINITY) :
    unfinalized W pm2 ≤ unfinalized W pm := by
  unfold unfinalized
  apply Finset.card_le_card
  intro i hi
  simp only [Finset.mem_filter] at hi ⊢
  refine ⟨hi.1, hi.2.1, ?_⟩
  by_contra hne
  exact h _ hne hi.2.2

theorem unfinalized_lt {W : World} {pm pm2 : Int → path_map_t}
    (h : ∀ c, (pm c).cost ≠ W.INFINITY → (pm2 c).cost ≠ W.INFINITY)
    (hfin : board_finite W) {c : Int} (hon : (W.map c).on_board = true)
    (h1 : (pm c).cost = W.INFINITY) (h2 : (pm2 c).cost ≠ W.INFINITY) :
    unfinalized W pm2 < unfinalized W pm := by
  unfold unfinalized
  apply Finset.card_lt_card
  rw [Finset.ssubset_iff_of_subset]
  · obtain ⟨hc0, hc1⟩ := hfin c hon
    refine ⟨c.toNat, ?_, ?_⟩
    · simp only [Finset.mem_filter, Finset.mem_range]
      rw [Int.toNat_of_nonneg hc0]
      exact ⟨by omega, hon, h1⟩
    · simp only [Finset.mem_filter, Finset.mem_range]
      rw [Int.toNat_of_nonneg hc0]
      exact fun hx => h2 hx.2.2
  · intro i hi
    simp only [Finset.mem_filter] at hi ⊢
    refine ⟨hi.1, hi.2.1, ?_⟩
    by_contra hne
    exact h _ hne hi.2.2

theorem unfinalized_start {W : World} (hfin : board_finite W) {loc : Int}
    (hon : (W.map loc).on_board = true) (hI : W.INFINITY ≠ 0) (s : map_state) (p : perim_id)
    (t : Nat) :
    unfinalized W (start_perimeter W s p loc t).pmap < W.MAP_SIZE.toNat := by
  obtain ⟨hc0, hc1⟩ := hfin loc hon
  unfold unfinalized
  have hsub : (Finset.range W.MAP_SIZE.toNat).filter
      (fun i : Nat => (W.map (i : Int)).on_board = true ∧
        ((start_perimeter W s p loc t).pmap (i : Int)).cost = W.INFINITY) ⊂
      Finset.range W.MAP_SIZE.toNat := by
    rw [Finset.ssubset_iff_of_subset (Finset.filter_subset _ _)]
    refine ⟨loc.toNat, ?_, ?_⟩
    · simp only [Finset.mem_range]
      omega
    · simp only [Finset.mem_filter, Finset.mem_range]
      rw [Int.toNat_of_nonneg hc0]
      intro hx
      have : ((start_perimeter W s p loc t).pmap loc).cost = 0 := by
        simp only [start_perimeter, upd_same]
      rw [this] at hx
      exact hI hx.2.2.symm
  have := Finset.card_lt_card hsub
  simpa using this

/-- A call of `expand_perimeter` does not raise the number of cells that are
not finalized, and lowers it when it puts a cell into a list. -/
theorem call_progress {W : World} {vmap : Int → Char} {mi : move_info_t}
    {curp : perim_id} {type : Nat} {k iw il : Int} {waterp landp : Option perim_id}
    {s s2 : map_state}
    (he : expand_perimeter W vmap mi curp type k iw il waterp landp s = some s2)
    (hil : k + il ≠ W.INFINITY) (hiw : k + iw ≠ W.INFINITY) (hfin : board_finite W) :
    unfinalized W s2.pmap ≤ unfinalized W s.pmap ∧
    ((∃ p c, c ∈ s2.perim p ∧ c ∉ s.perim p) →
      unfinalized W s2.pmap < unfinalized W s.pmap) := by
  have hc := expand_perimeter_call he
  have hmono : ∀ c, (s.pmap c).cost ≠ W.INFINITY → (s2.pmap c).cost ≠ W.INFINITY := by
    intro c h
    rw [hc.frozen c h]
    exact h
  refine ⟨unfinalized_mono hmono, ?_⟩
  rintro ⟨p, c, h1, h2⟩
  rcases hc.members p c h1 with h3 | ⟨h3, hon, _⟩
  · exact absurd h3 h2
  · apply unfinalized_lt hmono hfin hon h3
    rcases expand_perimeter_stamped hil hiw he p c h1 with h4 | ⟨_, ⟨_, h4⟩ | ⟨_, h4⟩⟩
    · exact absurd h4 h2
    · rw [h4]; exact hil
    · rw [h4]; exact hiw

theorem single_loop_terminates {W : World} (vmap : Int → Char) {mi : move_info_t}
    (expand : Nat) (hm : map_ok W) (hw : ∀ w ∈ mi.weights, 0 ≤ w) (hfin : board_finite W)
    (fuel : Nat) :
    ∀ (fp tp : perim_id) (k : Int) (s : map_state), unfinalized W s.pmap < fuel →
      k + (unfinalized W s.pmap : Int) + 1 < W.INFINITY →
      ∃ r, single_loop W vmap mi expand fuel fp tp k s = some r := by
  induction fuel with
  | zero => intro fp tp k s h; omega
  | succ f ih =>
    intro fp tp k s hU hk
    obtain ⟨s1, he⟩ := @expand_perimeter_runs W vmap mi fp expand k 1 1 (some tp) (some tp)
      { s with perim := set_perim s.perim tp [] } hm hw (fun _ => by simp) (fun _ => by simp)
    unfold single_loop
    rw [he]
    simp only
    split
    · exact ⟨_, rfl⟩
    · rename_i hstop
      have hk1 : k + 1 ≠ W.INFINITY := by omega
      obtain ⟨hle, hlt⟩ := call_progress he hk1 hk1 hfin
      have hne : s1.perim tp ≠ [] := by
        intro e
        apply hstop
        left
        rw [e]
        rfl
      obtain ⟨c, hc⟩ := List.exists_mem_of_ne_nil _ hne
      have hlt2 := hlt ⟨tp, c, hc, by simp [set_perim_same]⟩
      have hU1 : unfinalized W s1.pmap < unfinalized W s.pmap := hlt2
      exact ih tp fp (k + 1) s1 (by omega) (by omega)

theorem dual_round_total {W : World} (vmap : Int → Char) {mi : move_info_t} (lw : Bool)
    (cl cw nl nw : perim_id) (k : Int) (s : map_state) (hm : map_ok W)
    (hw : ∀ w ∈ mi.weights, 0 ≤ w) :
    ∃ x, dual_round W vmap mi lw cl cw nl nw k s = some x := by
  unfold dual_round
  obtain ⟨s1, h1⟩ := @expand_perimeter_runs W vmap mi cw (if lw = true then T_WATER else T_AIR)
    k 1 (if lw = true then 1 else 2) (some nw) (if lw = true then none else some nl)
    { s with perim := set_perim (set_perim s.perim nw []) nl [] } hm hw
    (by cases lw <;> first | (simp; done) | (simp; decide)) (fun _ => by simp)
  rw [h1]
  simp only
  obtain ⟨s2, h2⟩ := @expand_perimeter_runs W vmap mi cl (if lw = true then T_AIR else T_LAND)
    k 1 2 (if lw = true then some nw else none) (some nl) s1 hm hw
    (fun _ => by simp) (by cases lw <;> first | (simp; done) | (simp; decide))
  rw [h2]
  simp only
  obtain ⟨s3, h3⟩ := @expand_perimeter_runs W vmap mi nw T_WATER (k + 1) 1 1 (some cw) none
    { s2 with perim := set_perim s2.perim cw [] } hm hw
    (fun h => absurd (show T_WATER &&& T_LAND = 0 by decide) h) (fun _ => by simp)
  rw [h3]
  exact ⟨_, rfl⟩

/-- A round of a land/water search does not raise the number of cells that
are not finalized, and lowers it when it leaves a cell in the current water
list or in the new land list. -/
theorem dual_round_progress {W : World} {vmap : Int → Char} {mi : move_info_t} {lw : Bool}
    {l cw nl nw : perim_id} {k : Int} {t s1 s2 s3 : map_state}
    (hd : dual_round W vmap mi lw l cw nl nw k t = some (s1, s2, s3))
    (h4 : cw ≠ nl)
    (hk1 : k + 1 ≠ W.INFINITY) (hk2 : k + 2 ≠ W.INFINITY) (hfin : board_finite W) :
    unfinalized W s3.pmap ≤ unfinalized W t.pmap ∧
    ((s3.perim cw ≠ [] ∨ s3.perim nl ≠ []) →
      unfinalized W s3.pmap < unfinalized W t.pmap) := by
  obtain ⟨he1, he2, he3⟩ := dual_round_calls hd
  have hil1 : k + (if lw = true then (1 : Int) else 2) ≠ W.INFINITY := by
    cases lw
    · simpa using hk2
    · simpa using hk1
  have hk3 : k + 1 + 1 ≠ W.INFINITY := by
    intro e; apply hk2; rw [← e]; ring
  obtain ⟨hle1, hlt1⟩ := call_progress he1 hil1 hk1 hfin
  obtain ⟨hle2, hlt2⟩ := call_progress he2 hk2 hk1 hfin
  obtain ⟨hle3, hlt3⟩ := call_progress he3 hk3 hk3 hfin
  have hle1' : unfinalized W s1.pmap ≤ unfinalized W t.pmap := hle1
  have hle3' : unfinalized W s3.pmap ≤ unfinalized W s2.pmap := hle3
  refine ⟨by omega, ?_⟩
  rintro (hne | hne)
  · obtain ⟨c, hc⟩ := List.exists_mem_of_ne_nil _ hne
    have := hlt3 ⟨cw, c, hc, by simp [set_perim_same]⟩
    have h' : unfinalized W s3.pmap < unfinalized W s2.pmap := this
    omega
  · obtain ⟨c, hc⟩ := List.exists_mem_of_ne_nil _ hne
    have hc2 : c ∈ s2.perim nl := by
      have := (expand_perimeter_call he3).others nl (by simp) (by simp [h4.symm])
      rw [this] at hc
      simpa [set_perim_other _ _ _ h4.symm] using hc
    by_cases hc1 : c ∈ s1.perim nl
    · have := hlt1 ⟨nl, c, hc1, by simp [set_perim_same]⟩
      have h' : unfinalized W s1.pmap < unfinalized W t.pmap := this
      omega
    · have := hlt2 ⟨nl, c, hc2, hc1⟩
      omega

theorem lwobj_loop_terminates {W : World} (vmap : Int → Char) {mi : move_info_t}
    (hm : map_ok W) (hw : ∀ w ∈ mi.weights, 0 ≤ w) (hfin : board_finite W) (fuel : Nat) :
    ∀ (cl cw nl nw : perim_id) (k : Int) (s : map_state),
      cl ≠ cw → cl ≠ nl → cl ≠ nw → cw ≠ nl → cw ≠ nw → nl ≠ nw →
      unfinalized W s.pmap < fuel →
      k + 2 * (unfinalized W s.pmap : Int) + 2 < W.INFINITY →
      ∃ r, lwobj_loop W vmap mi fuel cl cw nl nw k s = some r := by
  induction fuel with
  | zero => intro cl cw nl nw k s _ _ _ _ _ _ h; omega
  | succ f ih =>
    intro cl cw nl nw k s h1 h2 h3 h4 h5 h6 hU hk
    obtain ⟨⟨s1, s2, s3⟩, hd⟩ := dual_round_total vmap true cl cw nl nw k s hm hw
    obtain ⟨hle, hlt⟩ := dual_round_progress hd h4 (by omega) (by omega) hfin
    rw [lwobj_loop_round, hd]
    simp only
    split
    · exact ⟨_, rfl⟩
    · rename_i hstop
      have hne : s3.perim cw ≠ [] ∨ s3.perim nl ≠ [] := by
        by_contra hcon
        push_neg at hcon
        apply hstop
        left
        rw [hcon.1, hcon.2]
        exact ⟨rfl, rfl⟩
      have hU1 := hlt hne
      exact ih nl cw cl nw (k + 2) s3 h4.symm h2.symm h6 h1.symm h5 h3 (by omega) (by omega)

theorem wlobj_loop_terminates {W : World} (vmap : Int → Char) {mi : move_info_t}
    (hm : map_ok W) (hw : ∀ w ∈ mi.weights, 0 ≤ w) (hfin : board_finite W) (fuel : Nat) :
    ∀ (cl cw nl nw : perim_id) (k : Int) (s : map_state),
      cl ≠ cw → cl ≠ nl → cl ≠ nw → cw ≠ nl → cw ≠ nw → nl ≠ nw →
      unfinalized W s.pmap < fuel →
      k + 2 * (unfinalized W s.pmap : Int) + 2 < W.INFINITY →
      ∃ r, wlobj_loop W vmap mi fuel cl cw nl nw k s = some r := by
  induction fuel with
  | zero => intro cl cw nl nw k s _ _ _ _ _ _ h; omega
  | succ f ih =>
    intro cl cw nl nw k s h1 h2 h3 h4 h5 h6 hU hk
    obtain ⟨⟨s1, s2, s3⟩, hd⟩ := dual_round_total vmap false cl cw nl nw k s hm hw
    obtain ⟨hle, hlt⟩ := dual_round_progress hd h4 (by omega) (by omega) hfin
    rw [wlobj_loop_round, hd]
    simp only
    split
    · exact ⟨_, rfl⟩
    · rename_i hstop
      have hne : s3.perim cw ≠ [] ∨ s3.perim nl ≠ [] := by
        by_contra hcon
        push_neg at hcon
        apply hstop
        left
        rw [hcon.1, hcon.2]
        exact ⟨rfl, rfl⟩
      have hU1 := hlt hne
      exact ih nl cw cl nw (k + 2) s3 h4.symm h2.symm h6 h1.symm h5 h3 (by omega) (by omega)

/-- C22: on a finite board with a well formed true map, from an origin on the
board, with no negative weight and INFINITY above twice the number of cells,
every search returns within as many rounds as the map has cells: a round that
does not return leaves a newly finalized cell in a list (`call_progress`), and
there are fewer cells to finalize than cells of the map. -/
theorem searches_terminate (W : World) (vmap : Int → Char) (mi : move_info_t) (loc : Int)
    (fuel : Nat) (s : map_state)
    (hm : map_ok W) (hfin : board_finite W) (hon : (W.map loc).on_board = true)
    (hw : ∀ w ∈ mi.weights, 0 ≤ w) (hI : 2 * W.MAP_SIZE < W.INFINITY)
    (hf : W.MAP_SIZE.toNat ≤ fuel) :
    (∀ start expand, ∃ r, vmap_find_xobj W vmap loc mi start expand fuel s = some r) ∧
    (∀ beat_cost, ∃ r, vmap_find_lwobj W vmap loc mi beat_cost fuel s = some r) ∧
    (∃ r, vmap_find_wlobj W vmap loc mi fuel s = some r) ∧
    (∀ dest owner terrain,
      ∃ r, vmap_find_dest W vmap loc dest owner terrain fuel s = some r) := by
  obtain ⟨hc0, hc1⟩ := hfin loc hon
  have hI0 : W.INFINITY ≠ 0 := by omega
  have hU : ∀ (p : perim_id) (t : Nat),
      unfinalized W (start_perimeter W s p loc t).pmap < fuel ∧
      2 * (unfinalized W (start_perimeter W s p loc t).pmap : Int) + 2 < W.INFINITY := by
    intro p t
    have h := unfinalized_start hfin hon hI0 s p t
    refine ⟨by omega, ?_⟩
    have : ((unfinalized W (start_perimeter W s p loc t).pmap : Nat) : Int) <
        (W.MAP_SIZE.toNat : Int) := by exact_mod_cast h
    rw [Int.toNat_of_nonneg (by omega)] at this
    omega
  refine ⟨?_, ?_, ?_, ?_⟩
  · intro start expand
    unfold vmap_find_xobj
    exact single_loop_terminates vmap expand hm hw hfin fuel _ _ 0 _ (hU _ _).1
      (by have := (hU perim_id.p1 start).2; omega)
  · intro beat_cost
    unfold vmap_find_lwobj
    exact lwobj_loop_terminates vmap hm hw hfin fuel _ _ _ _ 0 _ (by decide) (by decide)
      (by decide) (by decide) (by decide) (by decide) (hU perim_id.p1 T_LAND).1
      (by have := (hU perim_id.p1 T_LAND).2; simp only at this ⊢; omega)
  · unfold vmap_find_wlobj
    exact wlobj_loop_terminates vmap hm hw hfin fuel _ _ _ _ 0 _ (by decide) (by decide)
      (by decide) (by decide) (by decide) (by decide) (hU perim_id.p2 T_WATER).1
      (by have := (hU perim_id.p2 T_WATER).2; simp only at this ⊢; omega)
  · intro dest owner terrain
    unfold vmap_find_dest
    obtain ⟨r, hr⟩ := @single_loop_terminates W (upd vmap dest '%') (dest_move_info owner)
      terrain hm (by intro w hw1; simp [dest_move_info] at hw1; omega) hfin fuel
      perim_id.p1 perim_id.p2 0
      (start_perimeter W s perim_id.p1 loc (if terrain = T_AIR then T_LAND else terrain))
      (hU _ _).1 (by have := (hU perim_id.p1 (if terrain = T_AIR then T_LAND else terrain)).2; omega)
    simp only [hr]
    exact ⟨_, rfl⟩

theorem demo_map_ok : map_ok demo_world := fun _ _ => Or.inr (Or.inl rfl)

theorem demo_board_finite : board_finite demo_world := by
  intro c hc
  simp only [demo_world, demo_on_board, Bool.and_eq_true, decide_eq_true_eq] at hc
  show 0 ≤ c ∧ c < 5 * 5
  omega

/-- Witness of C22: the searches from the cell 6 of the small world, with a
budget of 25 rounds. -/
theorem searches_terminate_witness :
    (∀ start expand,
      ∃ r, vmap_find_xobj demo_world demo_city 6 demo_move_info start expand 25 demo_state =
        some r) ∧
    (∀ beat_cost,
      ∃ r, vmap_find_lwobj demo_world demo_city 6 demo_move_info beat_cost 25 demo_state =
        some r) ∧
    (∃ r, vmap_find_wlobj demo_world demo_city 6 demo_move_info 25 demo_state = some r) ∧
    (∀ dest owner terrain,
      ∃ r, vmap_find_dest demo_world demo_city 6 dest owner terrain 25 demo_state = some r) :=
  searches_terminate demo_world demo_city demo_move_info 6 25 demo_state demo_map_ok
    demo_board_finite (by decide) (by decide) (by decide) (by decide)

/-! ## Continents of the true map -/

theorem region_cons {W : World} {bad : Char} {x n c : Int} (hx : good_cell W bad x)
    (ha : adj W x n) (h : region W bad n c) : region W bad x c := by
  induction h with
  | start hn => exact region.step (region.start hx) ha hn
  | step _ hab hb ih => exact region.step ih hab hb

theorem rmap_mark_up_cont_rel (W : World) (bad : Char) (fuel : Nat) :
    ∀ (cm : Int → Int) (x : Int) (cm1 : Int → Int),
      rmap_mark_up_cont W bad fuel cm x = some cm1 → cont_rel W bad cm cm1 x := by
  induction fuel with
  | zero => intro cm x cm1 h; simp [rmap_mark_up_cont] at h
  | succ fuel ih =>
    intro cm x cm1 h
    unfold rmap_mark_up_cont at h
    have hsame : ¬ good_cell W bad x ∨ cm x ≠ 0 → some cm = some cm1 → cont_rel W bad cm cm1 x := by
      intro hx e
      cases e
      exact ⟨fun _ _ => rfl, fun c h0 h1 => absurd h0 h1,
        fun hg => hx.elim (fun hn => absurd hg hn) id, fun y h0 h1 => absurd h0 h1⟩
    by_cases h1 : (W.map x).on_board = false
    · rw [if_pos h1] at h
      exact hsame (Or.inl (fun hg => by rw [hg.1] at h1; cases h1)) h
    rw [if_neg h1] at h
    by_cases h2 : cm x ≠ 0
    · rw [if_pos h2] at h
      exact hsame (Or.inr h2) h
    rw [if_neg h2] at h
    by_cases h3 : (W.map x).contents = bad
    · rw [if_pos h3] at h
      exact hsame (Or.inl (fun hg => hg.2 h3)) h
    rw [if_neg h3] at h
    have hx0 : cm x = 0 := by simpa using h2
    have hgx : good_cell W bad x := ⟨by simpa using h1, h3⟩
    have key := loopM_each
      (fun cm2 i => rmap_mark_up_cont W bad fuel cm2 (x + dir_offset W i))
      (fun q => (∀ c, upd cm x 1 c ≠ 0 → q c = upd cm x 1 c) ∧
        (∀ c, cm c = 0 → q c ≠ 0 → q c = 1 ∧ region W bad x c) ∧
        (∀ y, y ≠ x → cm y = 0 → q y ≠ 0 → ∀ z, adj W y z → good_cell W bad z → q z ≠ 0))
      (fun n q => good_cell W bad (x + dir_offset W n) → q (x + dir_offset W n) ≠ 0)
      adj_dirs ?_ _ cm1 ⟨fun _ _ => rfl, ?_, ?_⟩ h
    · obtain ⟨⟨k1, k2, k3⟩, kq⟩ := key
      have hx1 : cm1 x = 1 := by
        have := k1 x (by rw [upd_same]; decide)
        rw [this, upd_same]
      constructor
      · intro c hc
        have hne : c ≠ x := fun e => hc (e ▸ hx0)
        have := k1 c (by rw [upd_other _ _ _ hne]; exact hc)
        rw [this, upd_other _ _ _ hne]
      · exact k2
      · intro _
        rw [hx1]; decide
      · intro y hy0 hy1 z hz hg
        by_cases hyx : y = x
        · subst hyx
          obtain ⟨n, hn, rfl⟩ := hz
          exact kq n (mem_adj_dirs.2 hn) hg
        · exact k3 y hyx hy0 hy1 z hz hg
    · intro q n q1 hn ⟨p1, p2, p3⟩ hstep
      have hr := ih q (x + dir_offset W n) q1 hstep
      have hadj : adj W x (x + dir_offset W n) := ⟨n, mem_adj_dirs.1 hn, rfl⟩
      refine ⟨⟨?_, ?_, ?_⟩, hr.entry, ?_⟩
      · intro c hc
        rw [hr.keep c (by rw [p1 c hc]; exact hc), p1 c hc]
      · intro c hc0 hc1
        by_cases hq : q c = 0
        · obtain ⟨e, hreg⟩ := hr.fresh c hq hc1
          exact ⟨e, region_cons hgx hadj hreg⟩
        · rw [hr.keep c hq] at hc1 ⊢
          exact p2 c hc0 hc1
      · intro y hyx hy0 hy1 z hz hg
        by_cases hq : q y = 0
        · exact hr.closed y hq hy1 z hz hg
        · have := p3 y hyx hy0 hq z hz hg
          rw [hr.keep z this]
          exact this
      · intro b hb hg
        have := hb hg
        rw [hr.keep _ this]
        exact this
    · intro c hc0 hc1
      by_cases hcx : c = x
      · subst hcx
        rw [upd_same]
        exact ⟨rfl, region.start hgx⟩
      · rw [upd_other _ _ _ hcx] at hc1
        exact absurd hc0 hc1
    · intro y hyx hy0 hy1
      rw [upd_other _ _ _ hyx] at hy1
      exact absurd hy0 hy1

theorem unmarked_mono {W : World} {bad : Char} {cm cm2 : Int → Int}
    (h : ∀ c, cm c ≠ 0 → cm2 c ≠ 0) : unmarked W bad cm2 ≤ unmarked W bad cm := by
  unfold unmarked
  apply Finset.card_le_card
  intro i hi
  simp only [Finset.mem_filter] at hi ⊢
  refine ⟨hi.1, hi.2.1, ?_⟩
  by_contra hne
  exact h _ hne hi.2.2

theorem unmarked_lt {W : World} {bad : Char} {cm cm2 : Int → Int}
    (h : ∀ c, cm c ≠ 0 → cm2 c ≠ 0) (hfin : board_finite W) {c : Int}
    (hg : good_cell W bad c) (h1 : cm c = 0) (h2 : cm2 c ≠ 0) :
    unmarked W bad cm2 < unmarked W bad cm := by
  unfold unmarked
  apply Finset.card_lt_card
  rw [Finset.ssubset_iff_of_subset]
  · obtain ⟨hc0, hc1⟩ := hfin c hg.1
    refine ⟨c.toNat, ?_, ?_⟩
    · simp only [Finset.mem_filter, Finset.mem_range]
      rw [Int.toNat_of_nonneg hc0]
      exact ⟨by omega, hg, h1⟩
    · simp only [Finset.mem_filter, Finset.mem_range]
      rw [Int.toNat_of_nonneg hc0]
      exact fun hx => h2 hx.2.2
  · intro i hi
    simp only [Finset.mem_filter] at hi ⊢
    refine ⟨hi.1, hi.2.1, ?_⟩
    by_contra hne
    exact h _ hne hi.2.2

theorem unmarked_le_size (W : World) (bad : Char) (cm : Int → Int) :
    unmarked W bad cm ≤ W.MAP_SIZE.toNat := by
  unfold unmarked
  have := Finset.card_filter_le (Finset.range W.MAP_SIZE.toNat)
    (fun i : Nat => ((W.map (i : Int)).on_board = true ∧
      (W.map (i : Int)).contents ≠ bad) ∧ cm (i : Int) = 0)
  simpa using this

theorem rmap_mark_up_cont_total (W : World) (bad : Char) (hfin : board_finite W) (fuel : Nat) :
    ∀ (cm : Int → Int) (x : Int), unmarked W bad cm < fuel →
      ∃ cm1, rmap_mark_up_cont W bad fuel cm x = some cm1 := by
  induction fuel with
  | zero => intro cm x h; omega
  | succ fuel ih =>
    intro cm x hU
    unfold rmap_mark_up_cont
    by_cases h1 : (W.map x).on_board = false
    · rw [if_pos h1]; exact ⟨_, rfl⟩
    rw [if_neg h1]
    by_cases h2 : cm x ≠ 0
    · rw [if_pos h2]; exact ⟨_, rfl⟩
    rw [if_neg h2]
    by_cases h3 : (W.map x).contents = bad
    · rw [if_pos h3]; exact ⟨_, rfl⟩
    rw [if_neg h3]
    have hx0 : cm x = 0 := by simpa using h2
    have hgx : good_cell W bad x := ⟨by simpa using h1, h3⟩
    have hlt : unmarked W bad (upd cm x 1) < unmarked W bad cm := by
      apply unmarked_lt _ hfin hgx hx0 (by rw [upd_same]; decide)
      intro c hc
      have hne : c ≠ x := fun e => hc (e ▸ hx0)
      rw [upd_other _ _ _ hne]
      exact hc
    obtain ⟨cm1, hres, _⟩ := loopM_total
      (fun cm2 i => rmap_mark_up_cont W bad fuel cm2 (x + dir_offset W i))
      (fun q => unmarked W bad q ≤ unmarked W bad (upd cm x 1)) adj_dirs
      (by
        intro q n _ hq
        obtain ⟨q1, hq1⟩ := ih q (x + dir_offset W n) (by omega)
        refine ⟨q1, hq1, ?_⟩
        have hr := rmap_mark_up_cont_rel W bad fuel q _ q1 hq1
        have hm : unmarked W bad q1 ≤ unmarked W bad q :=
          unmarked_mono (fun c hc => by rw [hr.keep c hc]; exact hc)
        show unmarked W bad q1 ≤ unmarked W bad (upd cm x 1)
        omega)
      (upd cm x 1) (le_refl _)
    exact ⟨cm1, hres⟩

/-- C20: with a budget of recursion depth above the number of cells of a
finite board, `rmap_cont` returns, and the cells it marks with 1 are exactly
those joined to `loc` by a chain of 8-adjacent cells that are all on the board
and not of the bad terrain; every other cell is 0, and so is every cell when
`loc` itself is off the board or of the bad terrain. -/
theorem rmap_cont_region (W : World) (loc : Int) (bad_terrain : Char) (fuel : Nat)
    (hfin : board_finite W) (hf : W.MAP_SIZE.toNat < fuel) :
    ∃ cont_map, rmap_cont W fuel loc bad_terrain = some cont_map ∧
      (∀ c, cont_map c = 1 ↔ region W bad_terrain loc c) ∧
      (∀ c, cont_map c = 0 ↔ ¬ region W bad_terrain loc c) ∧
      (¬ ((W.map loc).on_board = true ∧ (W.map loc).contents ≠ bad_terrain) →
        ∀ c, cont_map c = 0) := by
  obtain ⟨cm1, hres⟩ := rmap_mark_up_cont_total W bad_terrain hfin fuel (fun _ => 0) loc
    (lt_of_le_of_lt (unmarked_le_size W bad_terrain _) hf)
  have hr := rmap_mark_up_cont_rel W bad_terrain fuel _ loc cm1 hres
  have hin : ∀ c, region W bad_terrain loc c → cm1 c ≠ 0 := by
    intro c hc
    induction hc with
    | start hg => exact hr.entry hg
    | step _ hab hb ih => exact hr.closed _ rfl ih _ hab hb
  have hval : ∀ c, cm1 c ≠ 0 → cm1 c = 1 ∧ region W bad_terrain loc c :=
    fun c hc => hr.fresh c rfl hc
  have hzero : ∀ c, cm1 c = 0 ↔ ¬ region W bad_terrain loc c := by
    intro c
    constructor
    · intro h0 hreg
      exact hin c hreg h0
    · intro hn
      by_contra hne
      exact hn (hval c hne).2
  refine ⟨cm1, hres, ?_, hzero, ?_⟩
  · intro c
    constructor
    · intro h1
      exact (hval c (by rw [h1]; decide)).2
    · intro hreg
      exact (hval c (hin c hreg)).1
  · intro hbad c
    rw [hzero]
    intro hreg
    have hgl : good_cell W bad_terrain loc := by
      induction hreg with
      | start hg => exact hg
      | step _ _ _ ih => exact ih
    exact hbad hgl

/-! ## Continents of a view map -/

theorem foldl_track {σ α : Type} (f : σ → α → σ) (P : List α → σ → Prop) (l : List α) :
    ∀ (pre : List α) (s : σ), P pre s →
      (∀ pre1 a s1, a ∈ l → P pre1 s1 → P (pre1 ++ [a]) (f s1 a)) →
      P (pre ++ l) (l.foldl f s) := by
  induction l with
  | nil => intro pre s h _; simpa using h
  | cons a l ih =>
    intro pre s h hstep
    have h1 := hstep pre a s (List.mem_cons_self a l) h
    have h2 := ih (pre ++ [a]) (f s a) h1
      (fun pre1 b s1 hb hp => hstep pre1 b s1 (List.mem_cons_of_mem a hb) hp)
    simpa using h2

/-- The effect of marking the cell `b` in a pass: every property of the pass
but those of the cell itself carries over. -/
theorem cont_round_mark {W : World} {vmap : Int → Char} {bad : Char} {loc : Int}
    {cm : Int → Int} {dn : List Int} {q : Int → Int} {ol ol1 : List Int} {b : Int}
    (hr : cont_round_inv W vmap bad loc cm dn (q, ol))
    (hb : cont_target W vmap bad loc b)
    (hto : ∀ a, a ∈ ol1 → a ∈ ol ∨ (a = b ∧ cont_reach W vmap bad loc b ∧ cm b = 0 ∧
      (W.map b).on_board = true))
    (hsub : ∀ a, a ∈ ol → a ∈ ol1) (hnd : ol1.Nodup)
    (hfresh : b ∈ ol1 ∨ vmap b = ' ') :
    cont_round_inv W vmap bad loc cm dn (upd q b 1, ol1) := by
  have hup : ∀ c, q c = 1 → upd q b 1 c = 1 := by
    intro c hc
    by_cases hcb : c = b
    · rw [hcb, upd_same]
    · rw [upd_other _ _ _ hcb]; exact hc
  constructor
  · intro c
    by_cases hcb : c = b
    · right; rw [hcb]; exact upd_same _ _ _
    · simp only [upd_other _ _ _ hcb]
      exact hr.values c
  · intro c hc
    by_cases hcb : c = b
    · rw [hcb]; exact hb
    · simp only [upd_other _ _ _ hcb] at hc
      exact hr.sound c hc
  · intro c hc
    exact hup c (hr.mono c hc)
  · intro a ha
    rcases hto a ha with h1 | ⟨h1, h2, h3, h4⟩
    · obtain ⟨r1, r2, r3, r4⟩ := hr.out a h1
      exact ⟨r1, hup a r2, r3, r4⟩
    · subst h1
      exact ⟨h2, upd_same _ _ _, h3, h4⟩
  · exact hnd
  · intro a ha j hj hon hc
    exact hup _ (hr.expanded a ha j hj hon hc)
  · intro c hc
    by_cases hcb : c = b
    · rw [hcb]
      rcases hfresh with h | h
      · exact Or.inr (Or.inl h)
      · exact Or.inr (Or.inr h)
    · simp only [upd_other _ _ _ hcb] at hc
      rcases hr.fresh c hc with h | h | h
      · exact Or.inl h
      · exact Or.inr (Or.inl (hsub c h))
      · exact Or.inr (Or.inr h)

theorem mark_up_step_inv {W : World} {vmap : Int → Char} {bad : Char} {loc : Int}
    {cm : Int → Int} {frm dn : List Int} {cur : Int}
    (hI : cont_inv W vmap bad loc cm frm) (hcur : cur ∈ frm)
    (pre : List Nat) (j : Nat) (hj : j < 8) (st : (Int → Int) × List Int)
    (hr : cont_round_inv W vmap bad loc cm dn st)
    (hpre : ∀ i, i ∈ pre → (W.map (cur + dir_offset W i)).on_board = true →
      (vmap (cur + dir_offset W i) = ' ' ∨ explored_good W vmap bad (cur + dir_offset W i)) →
      st.1 (cur + dir_offset W i) = 1) :
    cont_round_inv W vmap bad loc cm dn (mark_up_step W vmap bad cur st j) ∧
    ∀ i, i ∈ pre ++ [j] → (W.map (cur + dir_offset W i)).on_board = true →
      (vmap (cur + dir_offset W i) = ' ' ∨ explored_good W vmap bad (cur + dir_offset W i)) →
      (mark_up_step W vmap bad cur st j).1 (cur + dir_offset W i) = 1 := by
  obtain ⟨q, ol⟩ := st
  have hreach : cont_reach W vmap bad loc cur := (hI.front cur hcur).1
  have hadj : adj W cur (cur + dir_offset W j) := ⟨j, hj, rfl⟩
  -- the step leaves the state alone
  have hsame : ((W.map (cur + dir_offset W j)).on_board = true →
      (vmap (cur + dir_offset W j) = ' ' ∨ explored_good W vmap bad (cur + dir_offset W j)) →
      q (cur + dir_offset W j) = 1) →
      cont_round_inv W vmap bad loc cm dn (q, ol) ∧
      ∀ i, i ∈ pre ++ [j] → (W.map (cur + dir_offset W i)).on_board = true →
        (vmap (cur + dir_offset W i) = ' ' ∨
          explored_good W vmap bad (cur + dir_offset W i)) →
        q (cur + dir_offset W i) = 1 := by
    intro hnew
    refine ⟨hr, ?_⟩
    intro i hi hon hc
    rcases List.mem_append.1 hi with h | h
    · exact hpre i h hon hc
    · have : i = j := by simpa using h
      subst this
      exact hnew hon hc
  -- the step marks the cell
  have hmark : ∀ ol1, cont_round_inv W vmap bad loc cm dn
      (upd q (cur + dir_offset W j) 1, ol1) →
      cont_round_inv W vmap bad loc cm dn (upd q (cur + dir_offset W j) 1, ol1) ∧
      ∀ i, i ∈ pre ++ [j] → (W.map (cur + dir_offset W i)).on_board = true →
        (vmap (cur + dir_offset W i) = ' ' ∨
          explored_good W vmap bad (cur + dir_offset W i)) →
        upd q (cur + dir_offset W j) 1 (cur + dir_offset W i) = 1 := by
    intro ol1 h
    refine ⟨h, ?_⟩
    intro i hi hon hc
    rcases List.mem_append.1 hi with h1 | h1
    · by_cases hb : cur + dir_offset W i = cur + dir_offset W j
      · rw [hb, upd_same]
      · rw [upd_other _ _ _ hb]
        exact hpre i h1 hon hc
    · have : i = j := by simpa using h1
      subst this
      exact upd_same _ _ _
  unfold mark_up_step
  by_cases hon : (W.map (cur + dir_offset W j)).on_board = true
  swap
  · simp only [hon]
    exact hsame (fun h => absurd h hon)
  simp only [hon, if_true]
  by_cases hq : q (cur + dir_offset W j) = 0
  swap
  · simp only [hq, if_false]
    exact hsame (fun _ _ => (hr.values _).resolve_left hq)
  simp only [hq, if_true]
  have hcm0 : cm (cur + dir_offset W j) = 0 := by
    rcases hI.values (cur + dir_offset W j) with h | h
    · exact h
    · have := hr.mono _ h
      simp only at this
      rw [hq] at this
      exact absurd this (by decide)
  have hnotin : cur + dir_offset W j ∉ ol := by
    intro hm
    have := (hr.out _ hm).2.1
    simp only at this
    rw [hq] at this
    exact absurd this (by decide)
  by_cases hblank : vmap (cur + dir_offset W j) = ' '
  · simp only [hblank, if_true]
    exact hmark ol (cont_round_mark hr (Or.inr ⟨hon, hblank, cur, hreach, hadj⟩)
      (fun a ha => Or.inl ha) (fun a ha => ha) hr.nodup (Or.inr hblank))
  simp only [hblank, if_false]
  by_cases hbad : this_terrain W vmap (cur + dir_offset W j) ≠ bad
  · rw [if_pos hbad]
    have hreach2 : cont_reach W vmap bad loc (cur + dir_offset W j) :=
      cont_reach.step hreach hadj ⟨hon, hblank, hbad⟩
    apply hmark
    apply cont_round_mark hr (Or.inl hreach2)
    · intro a ha
      rcases List.mem_append.1 ha with h | h
      · exact Or.inl h
      · exact Or.inr ⟨by simpa using h, hreach2, hcm0, hon⟩
    · intro a ha
      exact List.mem_append_left _ ha
    · exact List.Nodup.append hr.nodup (List.nodup_singleton _)
        (by
          intro x hx1 hx2
          have : x = cur + dir_offset W j := by simpa using hx2
          exact hnotin (this ▸ hx1))
    · left
      simp
  · rw [if_neg hbad]
    apply hsame
    intro _ hc
    rcases hc with h | h
    · exact absurd h hblank
    · exact absurd h.2.2 hbad

theorem mark_up_round_inv {W : World} {vmap : Int → Char} {bad : Char} {loc : Int}
    {cm : Int → Int} {frm : List Int} (hI : cont_inv W vmap bad loc cm frm) :
    cont_round_inv W vmap bad loc cm frm (mark_up_round W vmap bad cm frm) := by
  have h0 : cont_round_inv W vmap bad loc cm [] (cm, []) :=
    ⟨hI.values, hI.sound, fun _ h => h, fun _ h => by simp at h, List.nodup_nil,
      fun _ h => by simp at h, fun _ h => Or.inl h⟩
  have key := foldl_track
    (fun st cur => adj_dirs.foldl (mark_up_step W vmap bad cur) st)
    (fun dn st => cont_round_inv W vmap bad loc cm dn st) frm [] (cm, []) h0 ?_
  · simpa [mark_up_round] using key
  · intro dn cur st hcur hr
    have inner := foldl_track (mark_up_step W vmap bad cur)
      (fun pre st1 => cont_round_inv W vmap bad loc cm dn st1 ∧
        ∀ i, i ∈ pre → (W.map (cur + dir_offset W i)).on_board = true →
          (vmap (cur + dir_offset W i) = ' ' ∨
            explored_good W vmap bad (cur + dir_offset W i)) →
          st1.1 (cur + dir_offset W i) = 1)
      adj_dirs [] st ⟨hr, fun _ h => by simp at h⟩
      (fun pre j st1 hj hp =>
        mark_up_step_inv hI hcur pre j (mem_adj_dirs.1 hj) st1 hp.1 hp.2)
    simp only [List.nil_append] at inner
    obtain ⟨h1, h2⟩ := inner
    refine ⟨h1.values, h1.sound, h1.mono, h1.out, h1.nodup, ?_, h1.fresh⟩
    intro a ha j hj hon hc
    rcases List.mem_append.1 ha with h | h
    · exact h1.expanded a h j hj hon hc
    · have : a = cur := by simpa using h
      subst this
      exact h2 j (mem_adj_dirs.2 hj) hon hc

theorem cont_reach_blank {W : World} {vmap : Int → Char} {bad : Char} {loc a : Int}
    (h : cont_reach W vmap bad loc a) (hb : vmap a = ' ') : a = loc := by
  cases h with
  | start => rfl
  | step _ _ hg => exact absurd hb hg.2.1

theorem cont_inv_next {W : World} {vmap : Int → Char} {bad : Char} {loc : Int}
    {cm : Int → Int} {frm : List Int} (hI : cont_inv W vmap bad loc cm frm) :
    cont_inv W vmap bad loc (mark_up_round W vmap bad cm frm).1
      (mark_up_round W vmap bad cm frm).2 := by
  have hr := mark_up_round_inv hI
  refine ⟨hr.values, hr.sound, fun a ha => ⟨(hr.out a ha).1, (hr.out a ha).2.1⟩, ?_,
    hr.mono loc hI.origin⟩
  intro a hreach hm hnot j hj hon hc
  by_cases hcm : cm a = 1
  · by_cases hf : a ∈ frm
    · exact hr.expanded a hf j hj hon hc
    · exact hr.mono _ (hI.closed a hreach hcm hf j hj hon hc)
  · rcases hr.fresh a hm with h | h | h
    · exact absurd h hcm
    · exact absurd h hnot
    · have := cont_reach_blank hreach h
      rw [this] at hcm
      exact absurd hI.origin hcm

theorem unmarked_board_le {W : World} {cm cm2 : Int → Int}
    (h : ∀ c, cm c = 1 → cm2 c = 1) (hv : ∀ c, cm c = 0 ∨ cm c = 1) :
    unmarked_board W cm2 ≤ unmarked_board W cm := by
  unfold unmarked_board
  apply Finset.card_le_card
  intro i hi
  simp only [Finset.mem_filter] at hi ⊢
  refine ⟨hi.1, hi.2.1, ?_⟩
  rcases hv i with h0 | h1
  · exact h0
  · rw [h _ h1] at hi
    exact absurd hi.2.2 (by decide)

theorem unmarked_board_lt {W : World} {cm cm2 : Int → Int}
    (h : ∀ c, cm c = 1 → cm2 c = 1) (hv : ∀ c, cm c = 0 ∨ cm c = 1)
    (hfin : board_finite W) {c : Int} (hon : (W.map c).on_board = true)
    (h1 : cm c = 0) (h2 : cm2 c = 1) :
    unmarked_board W cm2 < unmarked_board W cm := by
  unfold unmarked_board
  apply Finset.card_lt_card
  rw [Finset.ssubset_iff_of_subset]
  · obtain ⟨hc0, hc1⟩ := hfin c hon
    refine ⟨c.toNat, ?_, ?_⟩
    · simp only [Finset.mem_filter, Finset.mem_range]
      rw [Int.toNat_of_nonneg hc0]
      exact ⟨by omega, hon, h1⟩
    · simp only [Finset.mem_filter, Finset.mem_range]
      rw [Int.toNat_of_nonneg hc0]
      intro hx
      rw [h2] at hx
      exact absurd hx.2.2 (by decide)
  · intro i hi
    simp only [Finset.mem_filter] at hi ⊢
    refine ⟨hi.1, hi.2.1, ?_⟩
    rcases hv i with h0 | h1'
    · exact h0
    · rw [h _ h1'] at hi
      exact absurd hi.2.2 (by decide)

theorem unmarked_board_le_size (W : World) (cm : Int → Int) :
    unmarked_board W cm ≤ W.MAP_SIZE.toNat := by
  unfold unmarked_board
  have := Finset.card_filter_le (Finset.range W.MAP_SIZE.toNat)
    (fun i : Nat => (W.map (i : Int)).on_board = true ∧ cm (i : Int) = 0)
  simpa using this

theorem mark_up_loop_total {W : World} {vmap : Int → Char} {bad : Char} {loc : Int}
    (hfin : board_finite W) (fuel : Nat) :
    ∀ (cm : Int → Int) (frm : List Int), cont_inv W vmap bad loc cm frm →
      (if frm = [] then 1 else unmarked_board W cm + 2) ≤ fuel →
      ∃ cm1, mark_up_loop W vmap bad fuel cm frm = some cm1 ∧
        cont_inv W vmap bad loc cm1 [] := by
  induction fuel with
  | zero =>
    intro cm frm _ h
    split at h <;> omega
  | succ f ih =>
    intro cm frm hI hf
    unfold mark_up_loop
    by_cases he : frm = []
    · subst he
      simp only [List.length_nil, if_true]
      exact ⟨cm, rfl, hI⟩
    · have hlen : ¬ frm.length = 0 := fun h => he (List.length_eq_zero.1 h)
      rw [if_neg hlen]
      rw [if_neg he] at hf
      have hr := mark_up_round_inv hI
      apply ih _ _ (cont_inv_next hI)
      by_cases hto : (mark_up_round W vmap bad cm frm).2 = []
      · rw [if_pos hto]; omega
      · rw [if_neg hto]
        obtain ⟨a, ha⟩ := List.exists_mem_of_ne_nil _ hto
        obtain ⟨_, r2, r3, r4⟩ := hr.out a ha
        have := unmarked_board_lt hr.mono hI.values hfin r4 r3 r2
        omega

/-- C21: with a budget of passes above the number of cells of a finite board
plus 1, `vmap_cont` returns a map of zeros and ones, and the cells it marks
with 1 are exactly `loc`, the cells joined to `loc` by a chain of 8-adjacent
cells that are on the board, explored and whose terrain (the view glyph if
land or sea, else the true contents) is not the bad terrain, and the
unexplored cells of the board next to one of these. -/
theorem vmap_cont_marks (W : World) (vmap : Int → Char) (loc : Int) (bad_terrain : Char)
    (fuel : Nat) (hfin : board_finite W) (hf : W.MAP_SIZE.toNat + 2 ≤ fuel) :
    ∃ cont_map, vmap_cont W fuel vmap loc bad_terrain = some cont_map ∧
      (∀ c, cont_map c = 0 ∨ cont_map c = 1) ∧
      ∀ c, cont_map c = 1 ↔
        (cont_reach W vmap bad_terrain loc c ∨
          ((W.map c).on_board = true ∧ vmap c = ' ' ∧
            ∃ a, cont_reach W vmap bad_terrain loc a ∧ adj W a c)) := by
  have h0 : cont_inv W vmap bad_terrain loc (upd (fun _ => (0 : Int)) loc 1) [loc] := by
    have hval : ∀ c, upd (fun _ => (0 : Int)) loc 1 c = 1 → c = loc := by
      intro c hc
      by_contra hne
      rw [upd_other _ _ _ hne] at hc
      exact absurd hc (by decide)
    refine ⟨?_, ?_, ?_, ?_, upd_same _ _ _⟩
    · intro c
      by_cases hc : c = loc
      · right; rw [hc]; exact upd_same _ _ _
      · left; exact upd_other _ _ _ hc
    · intro c hc
      rw [hval c hc]
      exact Or.inl cont_reach.start
    · intro a ha
      have : a = loc := by simpa using ha
      subst this
      exact ⟨cont_reach.start, upd_same _ _ _⟩
    · intro a _ hm hnot
      exact absurd (by simp [hval a hm]) hnot
  obtain ⟨cm1, hres, hI⟩ := mark_up_loop_total hfin fuel _ _ h0
    (by
      have := unmarked_board_le_size W (upd (fun _ => (0 : Int)) loc 1)
      simp only [List.cons_ne_nil, if_false]
      omega)
  refine ⟨cm1, hres, hI.values, ?_⟩
  have hall : ∀ a, cont_reach W vmap bad_terrain loc a → cm1 a = 1 := by
    intro a ha
    induction ha with
    | start => exact hI.origin
    | step _ hab hg ih =>
      obtain ⟨j, hj, rfl⟩ := hab
      exact hI.closed _ (by assumption) ih (by simp) j hj hg.1 (Or.inr hg)
  intro c
  constructor
  · exact hI.sound c
  · rintro (h | ⟨hon, hb, a, ha, hadj⟩)
    · exact hall c h
    · obtain ⟨j, hj, rfl⟩ := hadj
      exact hI.closed a ha (hall a ha) (by simp) j hj hon (Or.inl hb)

/-! ## The capacity of the perimeter lists -/

theorem nodup_length_le (l : List Int) (n : Int) (hn : 0 ≤ n) (hnd : l.Nodup)
    (hr : ∀ c, c ∈ l → 0 ≤ c ∧ c < n) : (l.length : Int) ≤ n := by
  have hmap : (l.map Int.toNat).Nodup := by
    apply List.Nodup.map_on _ hnd
    intro x hx y hy hxy
    have h1 := (hr x hx).1
    have h2 := (hr y hy).1
    omega
  have hsub : (l.map Int.toNat).toFinset ⊆ Finset.range n.toNat := by
    intro i hi
    simp only [List.mem_toFinset, List.mem_map] at hi
    obtain ⟨c, hc, rfl⟩ := hi
    have := hr c hc
    simp only [Finset.mem_range]
    omega
  have hcard := Finset.card_le_card hsub
  rw [List.toFinset_card_of_nodup hmap, List.length_map, Finset.card_range] at hcard
  omega

theorem frontier_ok_reset {W : World} {loc : Int} {ps : List perim_id} {s : map_state}
    (p : perim_id) (h : frontier_ok W loc ps s) :
    frontier_ok W loc ps { s with perim := set_perim s.perim p [] } := by
  intro q hq
  by_cases hqp : q = p
  · subst hqp
    simp only [set_perim_same]
    exact ⟨List.nodup_nil, fun c hc => by simp at hc⟩
  · simp only [set_perim_other _ _ _ hqp]
    exact h q hq

theorem frontier_ok_closed (W : World) (vmap : Int → Char) (mi : move_info_t)
    (ps : List perim_id) (K : Int) (loc : Int) (hK : K + 2 < W.INFINITY) :
    call_closed W vmap mi ps K (fun t => frontier_ok W loc ps t) := by
  constructor
  · intro s p _ hs
    exact frontier_ok_reset p hs
  · intro curp type k iw il waterp landp s s2 _ hk hiw hil hwp hlp he hs
    subst hiw
    exact expand_perimeter_frontier_ok (by rcases hil with h | h <;> subst h <;> omega)
      (by omega) hlp hwp hs he

theorem set_perim_idem (f : perim_id → List Int) (p : perim_id) (l : List Int) :
    set_perim (set_perim f p l) p l = set_perim f p l := by
  funext q
  unfold set_perim
  split_ifs <;> rfl

theorem set_perim_comm_idem (f : perim_id → List Int) (p q : perim_id) (l : List Int) :
    set_perim (set_perim (set_perim (set_perim f p l) q l) p l) q l =
      set_perim (set_perim f p l) q l := by
  funext r
  unfold set_perim
  split_ifs <;> rfl

theorem single_loop_reset (W : World) (vmap : Int → Char) (mi : move_info_t) (expand : Nat)
    (fuel : Nat) (fp tp : perim_id) (k : Int) (s : map_state) :
    single_loop W vmap mi expand fuel fp tp k { s with perim := set_perim s.perim tp [] } =
      single_loop W vmap mi expand fuel fp tp k s := by
  cases fuel with
  | zero => simp [single_loop]
  | succ n =>
    rw [single_loop, single_loop]
    simp only [set_perim_idem]

theorem lwobj_loop_reset (W : World) (vmap : Int → Char) (mi : move_info_t)
    (fuel : Nat) (cl cw nl nw : perim_id) (k : Int) (s : map_state) :
    lwobj_loop W vmap mi fuel cl cw nl nw k
        { s with perim := set_perim (set_perim s.perim nw []) nl [] } =
      lwobj_loop W vmap mi fuel cl cw nl nw k s := by
  cases fuel with
  | zero => simp [lwobj_loop]
  | succ n =>
    rw [lwobj_loop, lwobj_loop]
    simp only [set_perim_comm_idem]

theorem wlobj_loop_reset (W : World) (vmap : Int → Char) (mi : move_info_t)
    (fuel : Nat) (cl cw nl nw : perim_id) (k : Int) (s : map_state) :
    wlobj_loop W vmap mi fuel cl cw nl nw k
        { s with perim := set_perim (set_perim s.perim nw []) nl [] } =
      wlobj_loop W vmap mi fuel cl cw nl nw k s := by
  cases fuel with
  | zero => simp [wlobj_loop]
  | succ n =>
    rw [wlobj_loop, wlobj_loop]
    simp only [set_perim_comm_idem]

theorem frontier_ok_start (W : World) (loc : Int) (s : map_state) (p : perim_id) (t : Nat)
    (ps : List perim_id) (hI : W.INFINITY ≠ 0)
    (f : perim_id → List Int) (hf : f p = [loc]) (hother : ∀ q, q ∈ ps → q ≠ p → f q = [])
    (bc : Int) :
    frontier_ok W loc ps
      { pmap := (start_perimeter W s p loc t).pmap, perim := f, best_cost := bc,
        best_loc := loc } := by
  intro q hq
  by_cases hqp : q = p
  · subst hqp
    simp only [hf]
    refine ⟨List.nodup_singleton _, ?_⟩
    intro c hc
    have : c = loc := by simpa using hc
    subst this
    refine ⟨?_, Or.inl rfl⟩
    simp only [start_perimeter, upd_same]
    exact fun e => hI e.symm
  · simp only [hother q hq hqp]
    exact ⟨List.nodup_nil, fun c hc => by simp at hc⟩

/-- C26: a cell is appended to a perimeter list only when it is outside the
perimeter, and is finalized by the append, so that it is never appended
again; hence the lists in use hold no cell twice and only cells of the map,
and never more than MAP_SIZE of them: in every call of `expand_perimeter`, in
the states the searches return, and in every pass of `vmap_mark_up_cont`. -/
theorem frontier_capacity (W : World) (vmap : Int → Char) (mi : move_info_t) (loc : Int)
    (hfin : board_finite W) (hloc : 0 ≤ loc ∧ loc < W.MAP_SIZE) :
    (∀ ps curp type k iw il waterp landp s s2, k + il ≠ W.INFINITY → k + iw ≠ W.INFINITY →
      (∀ p, landp = some p → p ∈ ps) → (∀ p, waterp = some p → p ∈ ps) →
      frontier_ok W loc ps s →
      expand_perimeter W vmap mi curp type k iw il waterp landp s = some s2 →
      frontier_ok W loc ps s2 ∧
      ∀ p c, c ∈ s2.perim p → c ∈ s.perim p ∨
        ((s.pmap c).cost = W.INFINITY ∧ (s2.pmap c).cost ≠ W.INFINITY)) ∧
    (∀ ps s, frontier_ok W loc ps s → ∀ p, p ∈ ps →
      ((s.perim p).length : Int) ≤ W.MAP_SIZE) ∧
    (∀ start expand (fuel : Nat) s r, (fuel : Int) + 2 < W.INFINITY →
      vmap_find_xobj W vmap loc mi start expand fuel s = some r →
      frontier_ok W loc [perim_id.p1, perim_id.p2] r.2) ∧
    (∀ beat_cost (fuel : Nat) s r, 2 * (fuel : Int) + 2 < W.INFINITY →
      vmap_find_lwobj W vmap loc mi beat_cost fuel s = some r →
      frontier_ok W loc [perim_id.p1, perim_id.p2, perim_id.p3, perim_id.p4] r.2) ∧
    (∀ (fuel : Nat) s r, 2 * (fuel : Int) + 2 < W.INFINITY →
      vmap_find_wlobj W vmap loc mi fuel s = some r →
      frontier_ok W loc [perim_id.p1, perim_id.p2, perim_id.p3, perim_id.p4] r.2) ∧
    (∀ vm bad l0 cm frm, cont_inv W vm bad l0 cm frm →
      (mark_up_round W vm bad cm frm).2.Nodup ∧
      (∀ a, a ∈ (mark_up_round W vm bad cm frm).2 →
        cm a = 0 ∧ (mark_up_round W vm bad cm frm).1 a = 1) ∧
      (∀ c, cm c = 1 → (mark_up_round W vm bad cm frm).1 c = 1) ∧
      (((mark_up_round W vm bad cm frm).2.length : Int) ≤ W.MAP_SIZE) ∧
      cont_inv W vm bad l0 (mark_up_round W vm bad cm frm).1
        (mark_up_round W vm bad cm frm).2) := by
  have hcap : ∀ ps s, frontier_ok W loc ps s → ∀ p, p ∈ ps →
      ((s.perim p).length : Int) ≤ W.MAP_SIZE := by
    intro ps s hs p hp
    apply nodup_length_le _ _ (by omega) (hs p hp).1
    intro c hc
    rcases ((hs p hp).2 c hc).2 with h | h
    · rw [h]; exact hloc
    · exact hfin c h
  refine ⟨?_, hcap, ?_, ?_, ?_, ?_⟩
  · intro ps curp type k iw il waterp landp s s2 hil hiw hlp hwp hs he
    refine ⟨expand_perimeter_frontier_ok hil hiw hlp hwp hs he, ?_⟩
    intro p c hc
    rcases expand_perimeter_stamped hil hiw he p c hc with h | ⟨h1, ⟨_, h2⟩ | ⟨_, h2⟩⟩
    · exact Or.inl h
    · exact Or.inr ⟨h1, by rw [h2]; exact hil⟩
    · exact Or.inr ⟨h1, by rw [h2]; exact hiw⟩
  · intro start expand fuel s r hI h
    have hI0 : W.INFINITY ≠ 0 := by omega
    unfold vmap_find_xobj at h
    rw [← single_loop_reset] at h
    exact single_loop_closed
      (frontier_ok_closed W vmap mi [perim_id.p1, perim_id.p2] fuel loc hI) expand fuel
      perim_id.p1 perim_id.p2 0 _ r (by simp) (by simp) (by omega) h
      (frontier_ok_start W loc s perim_id.p1 start _ hI0 _
        (by simp [start_perimeter, set_perim])
        (by
          intro q hq hne
          have : q = perim_id.p2 := by
            simp only [List.mem_cons, List.mem_singleton] at hq
            rcases hq with h | h | h
            · exact absurd h hne
            · exact h
            · simp at h
          subst this
          simp [set_perim]) _)
  · intro beat_cost fuel s r hI h
    have hI0 : W.INFINITY ≠ 0 := by omega
    unfold vmap_find_lwobj at h
    simp only at h
    rw [← lwobj_loop_reset] at h
    exact lwobj_loop_closed
      (frontier_ok_closed W vmap mi [perim_id.p1, perim_id.p2, perim_id.p3, perim_id.p4]
        (2 * fuel) loc hI) fuel
      perim_id.p1 perim_id.p2 perim_id.p4 perim_id.p3 0 _ r (by simp) (by simp) (by simp)
      (by simp) (by omega) h
      (frontier_ok_start W loc s perim_id.p1 T_LAND _ hI0 _
        (by simp [start_perimeter, set_perim])
        (by
          intro q _ hne
          cases q
          · exact absurd rfl hne
          · simp [set_perim]
          · simp [set_perim]
          · simp [set_perim]) _)
  · intro fuel s r hI h
    have hI0 : W.INFINITY ≠ 0 := by omega
    unfold vmap_find_wlobj at h
    simp only at h
    rw [← wlobj_loop_reset] at h
    exact wlobj_loop_closed
      (frontier_ok_closed W vmap mi [perim_id.p1, perim_id.p2, perim_id.p3, perim_id.p4]
        (2 * fuel) loc hI) fuel
      perim_id.p1 perim_id.p2 perim_id.p4 perim_id.p3 0 _ r (by simp) (by simp) (by simp)
      (by simp) (by omega) h
      (frontier_ok_start W loc s perim_id.p2 T_WATER _ hI0 _
        (by simp [start_perimeter, set_perim])
        (by
          intro q _ hne
          cases q
          · simp [set_perim]
          · exact absurd rfl hne
          · simp [set_perim]
          · simp [set_perim]) _)
  · intro vm bad l0 cm frm hI
    have hr := mark_up_round_inv hI
    refine ⟨hr.nodup, fun a ha => ⟨(hr.out a ha).2.2.1, (hr.out a ha).2.1⟩, hr.mono, ?_,
      cont_inv_next hI⟩
    apply nodup_length_le _ _ (by omega) hr.nodup
    intro c hc
    exact hfin c (hr.out c hc).2.2.2

/-! ## Concrete runs: continents and the perimeter lists -/

/-- Witness of C20: the continent of the cell 6 of the small world, all land,
with sea as the bad terrain. -/
theorem rmap_cont_region_witness :
    ∃ cont_map, rmap_cont demo_world 26 6 '.' = some cont_map ∧
      (∀ c, cont_map c = 1 ↔ region demo_world '.' 6 c) ∧
      (∀ c, cont_map c = 0 ↔ ¬ region demo_world '.' 6 c) ∧
      (¬ ((demo_world.map 6).on_board = true ∧ (demo_world.map 6).contents ≠ '.') →
        ∀ c, cont_map c = 0) :=
  rmap_cont_region demo_world 6 '.' 26 demo_board_finite (by decide)

/-- Witness of C21: the continent of the cell 6 on the view with sea at 7. -/
theorem vmap_cont_marks_witness :
    ∃ cont_map, vmap_cont demo_world 27 demo_coast 6 '.' = some cont_map ∧
      (∀ c, cont_map c = 0 ∨ cont_map c = 1) ∧
      ∀ c, cont_map c = 1 ↔
        (cont_reach demo_world demo_coast '.' 6 c ∨
          ((demo_world.map c).on_board = true ∧ demo_coast c = ' ' ∧
            ∃ a, cont_reach demo_world demo_coast '.' 6 a ∧ adj demo_world a c)) :=
  vmap_cont_marks demo_world demo_coast 6 '.' 27 demo_board_finite (by decide)

/-- Witness of C26: the lists of the search for the city from the cell 6. -/
theorem frontier_capacity_witness :
    frontier_ok demo_world 6 [perim_id.p1, perim_id.p2] demo_objective.2 :=
  (frontier_capacity demo_world demo_city demo_move_info 6 demo_board_finite
    (by decide)).2.2.1 T_LAND T_LAND 5 demo_state (18, demo_objective.2) (by decide)
    demo_objective_eq

/-! ## Concrete runs of the pruning -/

set_option maxRecDepth 100000 in
theorem prune_once_eq : vmap_prune_explore_locs demo_world 26 prune_view = some prune_once :=
  getD_of_isSome (by decide) _

set_option maxRecDepth 100000 in
theorem prune_twice_eq : vmap_prune_explore_locs demo_world 26 prune_once = some prune_twice :=
  getD_of_isSome (by decide) _

set_option maxRecDepth 100000 in
/-- Counterexample to C16: on the 5 by 5 map, all land, with only the cell 6
explored, the first run of `vmap_prune_explore_locs` leaves the cell 15
unexplored and the second run, on the output of the first, makes it land. -/
theorem prune_idempotent_counterexample :
    vmap_prune_explore_locs demo_world 26 prune_view = some prune_once ∧
    vmap_prune_explore_locs demo_world 26 prune_once = some prune_twice ∧
    prune_once 15 = ' ' ∧ prune_twice 15 = '+' ∧ prune_twice ≠ prune_once := by
  refine ⟨prune_once_eq, prune_twice_eq, by decide, by decide, ?_⟩
  intro h
  have h1 : prune_twice 15 = prune_once 15 := by rw [h]
  revert h1
  decide

/-! ## The rules of the passes of the pruning -/

theorem foldl_keep {σ α : Type} (f : σ → α → σ) (P : σ → Prop) (l : List α) (s : σ)
    (h0 : P s) (hstep : ∀ s1 a, a ∈ l → P s1 → P (f s1 a)) : P (l.foldl f s) := by
  induction l generalizing s with
  | nil => exact h0
  | cons a l ih =>
    exact ih (f s a) (hstep s a (List.mem_cons_self a l) h0)
      (fun s1 b hb hp => hstep s1 b (List.mem_cons_of_mem a hb) hp)

theorem expand_prune_step_vmap (W : World) (loc : Int) (type : Nat) (s : prune_state) (i : Nat) :
    (expand_prune_step W loc type s i).vmap = s.vmap ∧
    (expand_prune_step W loc type s i).explored = s.explored ∧
    (expand_prune_step W loc type s i).copied = s.copied := by
  unfold expand_prune_step
  split_ifs <;> exact ⟨rfl, rfl, rfl⟩

theorem expand_prune_vmap (W : World) (s : prune_state) (loc : Int) (type : Nat) :
    (expand_prune W s loc type).vmap =
      upd s.vmap loc (if type = T_LAND then W.MAP_LAND else W.MAP_SEA) ∧
    (expand_prune W s loc type).explored = s.explored + 1 ∧
    (expand_prune W s loc type).copied = s.copied := by
  unfold expand_prune
  exact foldl_keep (expand_prune_step W loc type)
    (fun t => t.vmap = upd s.vmap loc (if type = T_LAND then W.MAP_LAND else W.MAP_SEA) ∧
      t.explored = s.explored + 1 ∧ t.copied = s.copied) adj_dirs _ ⟨rfl, rfl, rfl⟩
    (fun s1 i _ h => by
      obtain ⟨h1, h2, h3⟩ := expand_prune_step_vmap W loc type s1 i
      exact ⟨h1.trans h.1, h2.trans h.2.1, h3.trans h.2.2⟩)

theorem expand_prune_land (W : World) (s : prune_state) (loc : Int) :
    (expand_prune W s loc T_LAND).vmap loc = W.MAP_LAND := by
  rw [(expand_prune_vmap W s loc T_LAND).1, upd_same]
  simp

theorem expand_prune_water (W : World) (s : prune_state) (loc : Int) :
    (expand_prune W s loc T_WATER).vmap loc = W.MAP_SEA := by
  rw [(expand_prune_vmap W s loc T_WATER).1, upd_same]
  rw [if_neg (by decide)]

/-- C24 (as amended): what a pass of high probability predictions does with
the perimeter cell `loc`, by its counts when it is visited.  With 5 land votes
or more it is committed to land, else with 5 water votes or more to water.
The lower thresholds are those of the first and last row of the array (3
votes) and of the first and last location of the array (2 votes); a cell of
the first or last column, or of one of the other two corners, gets no lower
threshold.  A cell that no rule commits is carried over unchanged. -/
theorem high_step_rule (W : World) (s : prune_state) (loc : Int) :
    ((s.pmap loc).cost ≥ 5 → (high_step W s loc).vmap loc = W.MAP_LAND) ∧
    ((s.pmap loc).cost < 5 → (s.pmap loc).inc_cost ≥ 5 →
      (high_step W s loc).vmap loc = W.MAP_SEA) ∧
    ((loc < W.MAP_WIDTH ∨ loc ≥ W.MAP_SIZE - W.MAP_WIDTH) → (s.pmap loc).cost ≥ 3 →
      (s.pmap loc).inc_cost < 5 → (high_step W s loc).vmap loc = W.MAP_LAND) ∧
    ((loc < W.MAP_WIDTH ∨ loc ≥ W.MAP_SIZE - W.MAP_WIDTH) → (s.pmap loc).cost < 3 →
      (s.pmap loc).inc_cost ≥ 3 → (high_step W s loc).vmap loc = W.MAP_SEA) ∧
    ((loc = 0 ∨ loc = W.MAP_SIZE - 1) → (s.pmap loc).cost ≥ 2 →
      (s.pmap loc).inc_cost < 3 → (high_step W s loc).vmap loc = W.MAP_LAND) ∧
    ((loc = 0 ∨ loc = W.MAP_SIZE - 1) → (s.pmap loc).cost < 2 →
      (s.pmap loc).inc_cost ≥ 2 → (high_step W s loc).vmap loc = W.MAP_SEA) ∧
    ((s.pmap loc).cost < 5 → (s.pmap loc).inc_cost < 5 →
      (¬ (loc < W.MAP_WIDTH ∨ loc ≥ W.MAP_SIZE - W.MAP_WIDTH) ∨
        ((s.pmap loc).cost < 3 ∧ (s.pmap loc).inc_cost < 3)) →
      (¬ (loc = 0 ∨ loc = W.MAP_SIZE - 1) ∨
        ((s.pmap loc).cost < 2 ∧ (s.pmap loc).inc_cost < 2)) →
      high_step W s loc =
        { s with to_perim := s.to_perim ++ [loc], copied := s.copied + 1 }) := by
  have hL := expand_prune_land W s loc
  have hS := expand_prune_water W s loc
  refine ⟨?_, ?_, ?_, ?_, ?_, ?_, ?_⟩
  · intro h1
    unfold high_step
    rw [if_pos h1]
    exact hL
  · intro h1 h2
    unfold high_step
    rw [if_neg (by omega), if_pos h2]
    exact hS
  · intro he h1 h2
    unfold high_step
    split_ifs <;> first | exact hL | exact hS | skip
    all_goals omega
  · intro he h1 h2
    unfold high_step
    split_ifs <;> first | exact hS | exact hL | skip
    all_goals omega
  · intro hc h1 h2
    unfold high_step
    split_ifs <;> first | exact hL | exact hS | skip
    all_goals omega
  · intro hc h1 h2
    unfold high_step
    split_ifs <;> first | exact hS | exact hL | skip
    all_goals omega
  · intro h1 h2 he hc
    have e1 : ¬ ((s.pmap loc).cost ≥ 5) := by omega
    have e2 : ¬ ((s.pmap loc).inc_cost ≥ 5) := by omega
    have e3 : ¬ ((loc < W.MAP_WIDTH ∨ loc ≥ W.MAP_SIZE - W.MAP_WIDTH) ∧ (s.pmap loc).cost ≥ 3) := by
      rintro ⟨a, b⟩
      rcases he with h | h
      · exact h a
      · omega
    have e4 : ¬ ((loc < W.MAP_WIDTH ∨ loc ≥ W.MAP_SIZE - W.MAP_WIDTH) ∧
        (s.pmap loc).inc_cost ≥ 3) := by
      rintro ⟨a, b⟩
      rcases he with h | h
      · exact h a
      · omega
    have e5 : ¬ ((loc = 0 ∨ loc = W.MAP_SIZE - 1) ∧ (s.pmap loc).cost ≥ 2) := by
      rintro ⟨a, b⟩
      rcases hc with h | h
      · exact h a
      · omega
    have e6 : ¬ ((loc = 0 ∨ loc = W.MAP_SIZE - 1) ∧ (s.pmap loc).inc_cost ≥ 2) := by
      rintro ⟨a, b⟩
      rcases hc with h | h
      · exact h a
      · omega
    unfold high_step
    rw [if_neg e1, if_neg e2, if_neg e3, if_neg e4, if_neg e5, if_neg e6]

/-- C25 (as amended): what a pass of low probability predictions does with
the perimeter cell `loc`, by its counts when it is visited.  With 4 land votes
or more and fewer than 4 water votes it is committed to land, with 4 water
votes or more and fewer than 4 land votes to water.  Otherwise a cell of the
first or last row of the array is committed to the terrain with the strict
majority of the votes, and every other cell, those of the first and last
column outside these rows included, is carried over unchanged. -/
theorem low_step_rule (W : World) (s : prune_state) (loc : Int) :
    ((s.pmap loc).cost ≥ 4 → (s.pmap loc).inc_cost < 4 →
      (low_step W s loc).vmap loc = W.MAP_LAND) ∧
    ((s.pmap loc).inc_cost ≥ 4 → (s.pmap loc).cost < 4 →
      (low_step W s loc).vmap loc = W.MAP_SEA) ∧
    ((loc < W.MAP_WIDTH ∨ loc ≥ W.MAP_SIZE - W.MAP_WIDTH) →
      (s.pmap loc).cost > (s.pmap loc).inc_cost →
      (low_step W s loc).vmap loc = W.MAP_LAND) ∧
    ((loc < W.MAP_WIDTH ∨ loc ≥ W.MAP_SIZE - W.MAP_WIDTH) →
      (s.pmap loc).inc_cost > (s.pmap loc).cost →
      (low_step W s loc).vmap loc = W.MAP_SEA) ∧
    (¬ ((s.pmap loc).cost ≥ 4 ∧ (s.pmap loc).inc_cost < 4) →
      ¬ ((s.pmap loc).inc_cost ≥ 4 ∧ (s.pmap loc).cost < 4) →
      (¬ (loc < W.MAP_WIDTH ∨ loc ≥ W.MAP_SIZE - W.MAP_WIDTH) ∨
        (s.pmap loc).cost = (s.pmap loc).inc_cost) →
      low_step W s loc =
        { s with to_perim := s.to_perim ++ [loc], copied := s.copied + 1 }) := by
  have hL := expand_prune_land W s loc
  have hS := expand_prune_water W s loc
  refine ⟨?_, ?_, ?_, ?_, ?_⟩
  · intro h1 h2
    unfold low_step
    rw [if_pos ⟨h1, h2⟩]
    exact hL
  · intro h1 h2
    unfold low_step
    rw [if_neg (by omega), if_pos ⟨h1, h2⟩]
    exact hS
  · intro he h1
    unfold low_step
    by_cases h3 : (s.pmap loc).cost ≥ 4 ∧ (s.pmap loc).inc_cost < 4
    · rw [if_pos h3]
      exact hL
    · rw [if_neg h3, if_neg (by omega), if_pos ⟨he, h1⟩]
      exact hL
  · intro he h1
    unfold low_step
    rw [if_neg (by omega)]
    by_cases h3 : (s.pmap loc).inc_cost ≥ 4 ∧ (s.pmap loc).cost < 4
    · rw [if_pos h3]
      exact hS
    · rw [if_neg h3, if_neg (by omega), if_pos ⟨he, h1⟩]
      exact hS
  · intro h1 h2 he
    have e3 : ¬ ((loc < W.MAP_WIDTH ∨ loc ≥ W.MAP_SIZE - W.MAP_WIDTH) ∧
        (s.pmap loc).cost > (s.pmap loc).inc_cost) := by
      rintro ⟨a, b⟩
      rcases he with h | h
      · exact h a
      · omega
    have e4 : ¬ ((loc < W.MAP_WIDTH ∨ loc ≥ W.MAP_SIZE - W.MAP_WIDTH) ∧
        (s.pmap loc).inc_cost > (s.pmap loc).cost) := by
      rintro ⟨a, b⟩
      rcases he with h | h
      · exact h a
      · omega
    unfold low_step
    rw [if_neg h1, if_neg h2, if_neg e3, if_neg e4]

/-! ## The rules of the passes, on the small world -/

set_option maxRecDepth 100000 in
/-- Counterexample to C24: on the small world (5 by 5, all land) with the
cells 5, 6 and 11 explored, the cell 10 lies on the first column and has three
land votes and no water vote, and the pass of high probability predictions
carries it over: it stays unexplored and enters the list `to`. -/
theorem high_step_rule_counterexample :
    loc_col demo_world 10 = 0 ∧
    (prune_edge_state.pmap 10).cost = 3 ∧ (prune_edge_state.pmap 10).inc_cost = 0 ∧
    (high_step demo_world prune_edge_state 10).vmap 10 = ' ' ∧
    (high_step demo_world prune_edge_state 10).to_perim = [10] := by
  decide

set_option maxRecDepth 100000 in
/-- The rule of the first and last row at work: a cell of the first row
with three land votes and no water vote is committed to land by the pass of
high probability predictions. -/
theorem high_step_rule_witness :
    (1 < demo_world.MAP_WIDTH ∨ 1 ≥ demo_world.MAP_SIZE - demo_world.MAP_WIDTH) ∧
    (({ prune_edge_state with
        pmap := fun _ => { cost := 3, inc_cost := 0, terrain := 0 } } : prune_state).pmap 1).cost
      ≥ 3 ∧
    (high_step demo_world
      { prune_edge_state with pmap := fun _ => { cost := 3, inc_cost := 0, terrain := 0 } }
      1).vmap 1 = demo_world.MAP_LAND :=
  ⟨by decide, by decide,
    (high_step_rule demo_world
      { prune_edge_state with pmap := fun _ => { cost := 3, inc_cost := 0, terrain := 0 } }
      1).2.2.1 (by decide) (by decide) (by decide)⟩

set_option maxRecDepth 100000 in
/-- The rule of the low probability pass at work: a cell off the first and
last row with four land votes and no water vote is committed to land. -/
theorem low_step_rule_witness :
    (({ prune_edge_state with
        pmap := fun _ => { cost := 4, inc_cost := 0, terrain := 0 } } : prune_state).pmap 12).cost
      ≥ 4 ∧
    (low_step demo_world
      { prune_edge_state with pmap := fun _ => { cost := 4, inc_cost := 0, terrain := 0 } }
      12).vmap 12 = demo_world.MAP_LAND :=
  ⟨by decide,
    (low_step_rule demo_world
      { prune_edge_state with pmap := fun _ => { cost := 4, inc_cost := 0, terrain := 0 } }
      12).1 (by decide) (by decide)⟩

/-! ## Counting the unexplored locations -/

theorem blanks_le (W : World) (vm : Int → Char) : blanks W vm ≤ W.MAP_SIZE.toNat := by
  unfold blanks blanks_upto
  have := Finset.card_filter_le (Finset.Ico (0 : Int) W.MAP_SIZE) (fun c => vm c = ' ')
  rw [Int.card_Ico] at this
  simpa using this

theorem blanks_upd {W : World} {vm : Int → Char} {a : Int} {g : Char}
    (ha : in_map W a) (hb : vm a = ' ') (hg : g ≠ ' ') :
    blanks W (upd vm a g) + 1 = blanks W vm := by
  unfold blanks blanks_upto
  have hset : (Finset.Ico (0 : Int) W.MAP_SIZE).filter (fun c => upd vm a g c = ' ') =
      ((Finset.Ico (0 : Int) W.MAP_SIZE).filter (fun c => vm c = ' ')).erase a := by
    ext c
    simp only [Finset.mem_filter, Finset.mem_Ico, Finset.mem_erase]
    by_cases hc : c = a
    · subst hc
      rw [upd_same]
      constructor
      · intro h
        exact absurd h.2 hg
      · intro h
        exact absurd rfl h.1
    · rw [upd_other _ _ _ hc]
      constructor
      · intro h
        exact ⟨hc, h⟩
      · intro h
        exact h.2
  rw [hset, Finset.card_erase_of_mem]
  · have hpos : 0 < ((Finset.Ico (0 : Int) W.MAP_SIZE).filter (fun c => vm c = ' ')).card := by
      apply Finset.card_pos.mpr
      exact ⟨a, by simp only [Finset.mem_filter, Finset.mem_Ico]; exact ⟨ha, hb⟩⟩
    omega
  · simp only [Finset.mem_filter, Finset.mem_Ico]
    exact ⟨ha, hb⟩

theorem blanks_upto_succ (vm : Int → Char) (k : Nat) :
    blanks_upto vm ((k : Int) + 1) =
      blanks_upto vm (k : Int) + (if vm (k : Int) = ' ' then 1 else 0) := by
  unfold blanks_upto
  have hset : Finset.Ico (0 : Int) ((k : Int) + 1) =
      insert (k : Int) (Finset.Ico (0 : Int) (k : Int)) := by
    ext c
    simp only [Finset.mem_Ico, Finset.mem_insert]
    omega
  rw [hset, Finset.filter_insert]
  split_ifs with h
  · rw [Finset.card_insert_of_not_mem]
    simp only [Finset.mem_filter, Finset.mem_Ico]
    omega
  · rfl

theorem blanks_upto_zero (vm : Int → Char) : blanks_upto vm 0 = 0 := by
  unfold blanks_upto
  simp

/-- A list of distinct unexplored locations is no longer than the number of
unexplored locations. -/
theorem length_le_blanks {W : World} {vm : Int → Char} {l : List Int} (hnd : l.Nodup)
    (hl : ∀ c, c ∈ l → in_map W c ∧ vm c = ' ') : l.length ≤ blanks W vm := by
  unfold blanks blanks_upto
  rw [← List.toFinset_card_of_nodup hnd]
  apply Finset.card_le_card
  intro c hc
  simp only [List.mem_toFinset] at hc
  simp only [Finset.mem_filter, Finset.mem_Ico]
  exact hl c hc

/-- If an unexplored location is missing from the list, the list is shorter. -/
theorem length_lt_blanks {W : World} {vm : Int → Char} {l : List Int} (hnd : l.Nodup)
    (hl : ∀ c, c ∈ l → in_map W c ∧ vm c = ' ') {d : Int} (hd : in_map W d) (hb : vm d = ' ')
    (hn : d ∉ l) : l.length < blanks W vm := by
  unfold blanks blanks_upto
  rw [← List.toFinset_card_of_nodup hnd]
  apply Finset.card_lt_card
  rw [Finset.ssubset_iff_of_subset]
  · refine ⟨d, ?_, ?_⟩
    · simp only [Finset.mem_filter, Finset.mem_Ico]
      exact ⟨hd, hb⟩
    · simpa using hn
  · intro c hc
    simp only [List.mem_toFinset] at hc
    simp only [Finset.mem_filter, Finset.mem_Ico]
    exact hl c hc

/-- If the list holds every unexplored location, it is as long as their
number. -/
theorem length_eq_blanks {W : World} {vm : Int → Char} {l : List Int} (hnd : l.Nodup)
    (hl : ∀ c, c ∈ l → in_map W c ∧ vm c = ' ')
    (hall : ∀ c, in_map W c → vm c = ' ' → c ∈ l) : l.length = blanks W vm := by
  apply le_antisymm (length_le_blanks hnd hl)
  unfold blanks blanks_upto
  rw [← List.toFinset_card_of_nodup hnd]
  apply Finset.card_le_card
  intro c hc
  simp only [Finset.mem_filter, Finset.mem_Ico] at hc
  simp only [List.mem_toFinset]
  exact hall c hc.1 hc.2

theorem dir_offset_opp (W : World) {i : Nat} (hi : i < 8) :
    ∃ j, j < 8 ∧ dir_offset W j = - dir_offset W i := by
  interval_cases i
  · exact ⟨4, by decide, by simp only [dir_offset]; ring⟩
  · exact ⟨5, by decide, by simp only [dir_offset]; ring⟩
  · exact ⟨6, by decide, by simp only [dir_offset]⟩
  · exact ⟨7, by decide, by simp only [dir_offset]; ring⟩
  · exact ⟨0, by decide, by simp only [dir_offset]⟩
  · exact ⟨1, by decide, by simp only [dir_offset]; ring⟩
  · exact ⟨2, by decide, by simp only [dir_offset]; ring⟩
  · exact ⟨3, by decide, by simp only [dir_offset]; ring⟩

/-! ## The invariant of a pass of the pruning -/

/-- Giving the unexplored cell `nb` one more count, and listing it if it had
none, keeps the invariant of the pass. -/
theorem prune_inv_vote {W : World} {rest : List Int} {u : prune_state} {nb : Int}
    {pm : Int → path_map_t} (h : prune_inv W rest u) (hnb : in_map W nb)
    (hblank : u.vmap nb = ' ') (hex : explored_nb W u.vmap nb)
    (hother : ∀ c, c ≠ nb → pm c = u.pmap c)
    (hup : (u.pmap nb).cost ≤ (pm nb).cost ∧ (u.pmap nb).inc_cost ≤ (pm nb).inc_cost)
    (hvoted : voted (pm nb)) :
    prune_inv W rest
      { u with
        to_perim :=
          if (u.pmap nb).cost = 0 ∧ (u.pmap nb).inc_cost = 0 then u.to_perim ++ [nb]
          else u.to_perim
        pmap := pm } := by
  have hnn : ∀ c, 0 ≤ (pm c).cost ∧ 0 ≤ (pm c).inc_cost := by
    intro c
    by_cases hc : c = nb
    · subst hc
      have := h.nonneg c
      omega
    · rw [hother c hc]
      exact h.nonneg c
  have hv : ∀ c, voted (u.pmap c) → voted (pm c) := by
    intro c hvc
    by_cases hc : c = nb
    · subst hc
      exact hvoted
    · rw [hother c hc]
      exact hvc
  by_cases hz : (u.pmap nb).cost = 0 ∧ (u.pmap nb).inc_cost = 0
  · have hnv : ¬ voted (u.pmap nb) := by
      unfold voted
      omega
    have hnot : nb ∉ rest ∧ nb ∉ u.to_perim :=
      ⟨fun hm => hnv (h.cells nb (Or.inl hm)).2.2, fun hm => hnv (h.cells nb (Or.inr hm)).2.2⟩
    refine ⟨hnn, h.nodup_rest, ?_, ?_, ?_, h.count, ?_⟩
    · simp only [if_pos hz]
      exact List.Nodup.append h.nodup_to (List.nodup_singleton nb)
        (by
          intro x hx1 hx2
          rw [List.mem_singleton] at hx2
          subst hx2
          exact hnot.2 hx1)
    · intro c hc
      simp only [if_pos hz, List.mem_append, List.mem_singleton]
      rintro (h1 | h1)
      · exact h.disjoint c hc h1
      · subst h1
        exact hnot.1 hc
    · intro c
      simp only [if_pos hz, List.mem_append, List.mem_singleton]
      rintro (h1 | h1 | h1)
      · obtain ⟨x1, x2, x3⟩ := h.cells c (Or.inl h1)
        exact ⟨x1, x2, hv c x3⟩
      · obtain ⟨x1, x2, x3⟩ := h.cells c (Or.inr h1)
        exact ⟨x1, x2, hv c x3⟩
      · subst h1
        exact ⟨hnb, hblank, hvoted⟩
    · intro c hc
      by_cases hcn : c = nb
      · subst hcn
        exact hex
      · apply h.nbs c
        have := hother c hcn
        simp only at hc
        rw [this] at hc
        exact hc
  · refine ⟨hnn, h.nodup_rest, ?_, ?_, ?_, h.count, ?_⟩
    · simp only [if_neg hz]
      exact h.nodup_to
    · intro c hc
      simp only [if_neg hz]
      exact h.disjoint c hc
    · intro c
      simp only [if_neg hz]
      intro hc
      obtain ⟨x1, x2, x3⟩ := h.cells c hc
      exact ⟨x1, x2, hv c x3⟩
    · intro c hc
      by_cases hcn : c = nb
      · subst hcn
        exact hex
      · apply h.nbs c
        have := hother c hcn
        simp only at hc
        rw [this] at hc
        exact hc

/-- One direction of the loop of `expand_prune` keeps the invariant of the
pass, the view map and `explored`, and lowers no count. -/
theorem expand_prune_step_inv {W : World} {rest : List Int} {a : Int} (ty : Nat)
    {u : prune_state} {i : Nat} (hi : i < 8) (ha : in_map W a) (hva : u.vmap a ≠ ' ')
    (h : prune_inv W rest u) :
    prune_inv W rest (expand_prune_step W a ty u i) ∧
    (expand_prune_step W a ty u i).vmap = u.vmap ∧
    (expand_prune_step W a ty u i).explored = u.explored ∧
    (expand_prune_step W a ty u i).copied = u.copied ∧
    (∀ c, (u.pmap c).cost ≤ ((expand_prune_step W a ty u i).pmap c).cost ∧
      (u.pmap c).inc_cost ≤ ((expand_prune_step W a ty u i).pmap c).inc_cost) := by
  unfold expand_prune_step
  by_cases hc : 0 ≤ a + dir_offset W i ∧ a + dir_offset W i < W.MAP_SIZE ∧
      u.vmap (a + dir_offset W i) = ' '
  · rw [if_pos hc]
    have hex : explored_nb W u.vmap (a + dir_offset W i) := by
      obtain ⟨j, hj, hjo⟩ := dir_offset_opp W hi
      refine ⟨j, hj, ?_⟩
      have : a + dir_offset W i + dir_offset W j = a := by
        rw [hjo]
        ring
      rw [this]
      exact ⟨ha, hva⟩
    have hnn := h.nonneg (a + dir_offset W i)
    by_cases hty : ty = T_LAND
    · simp only [if_pos hty]
      refine ⟨prune_inv_vote h ⟨hc.1, hc.2.1⟩ hc.2.2 hex ?_ ?_ ?_, trivial, trivial, trivial, ?_⟩
      · intro c hcn
        exact upd_other _ _ _ hcn
      · rw [upd_same]
        simp only
        omega
      · rw [upd_same]
        unfold voted
        simp only
        omega
      · intro c
        by_cases hcn : c = a + dir_offset W i
        · subst hcn
          simp only [upd_same]
          omega
        · simp only [upd_other _ _ _ hcn]
          omega
    · simp only [if_neg hty]
      refine ⟨prune_inv_vote h ⟨hc.1, hc.2.1⟩ hc.2.2 hex ?_ ?_ ?_, trivial, trivial, trivial, ?_⟩
      · intro c hcn
        exact upd_other _ _ _ hcn
      · rw [upd_same]
        simp only
        omega
      · rw [upd_same]
        unfold voted
        simp only
        omega
      · intro c
        by_cases hcn : c = a + dir_offset W i
        · subst hcn
          simp only [upd_same]
          omega
        · simp only [upd_other _ _ _ hcn]
          omega
  · rw [if_neg hc]
    exact ⟨h, rfl, rfl, rfl, fun c => ⟨le_refl _, le_refl _⟩⟩

theorem prune_frame_refl (W : World) (v : Int → Char) : prune_frame W v v :=
  ⟨fun _ _ => rfl, fun _ h => Or.inl h⟩

theorem prune_frame_trans {W : World} {v1 v2 v3 : Int → Char} (h12 : prune_frame W v1 v2)
    (h23 : prune_frame W v2 v3) : prune_frame W v1 v3 := by
  constructor
  · intro c hc
    have h2 := h12.1 c hc
    rw [h23.1 c (by rw [h2]; exact hc), h2]
  · intro c hc
    by_cases h2 : v2 c = ' '
    · exact h23.2 c h2
    · rw [h23.1 c h2]
      rcases h12.2 c hc with h | h
      · exact absurd h h2
      · exact Or.inr h

theorem prune_rel_refl (W : World) (s : prune_state) : prune_rel W s s :=
  ⟨prune_frame_refl W s.vmap, fun _ => ⟨le_refl _, le_refl _⟩, le_refl _, fun _ => ⟨rfl, rfl⟩⟩

theorem prune_rel_trans {W : World} {s t u : prune_state} (h1 : prune_rel W s t)
    (h2 : prune_rel W t u) : prune_rel W s u := by
  refine ⟨prune_frame_trans h1.frame h2.frame, ?_, ?_, ?_⟩
  · intro c
    have a := h1.votes c
    have b := h2.votes c
    omega
  · have a := h1.explored_le
    have b := h2.explored_le
    omega
  · intro he
    have a := h1.explored_le
    have b := h2.explored_le
    obtain ⟨x1, x2⟩ := h1.same (by omega)
    obtain ⟨y1, y2⟩ := h2.same (by omega)
    exact ⟨y1.trans x1, y2.trans x2⟩

/-- Source `expand_prune` on the next cell of the list `from`: the invariant
of the pass holds for the rest of the list, and the cell alone changes in the
view map. -/
theorem expand_prune_inv {W : World} {a : Int} {rest : List Int} {s : prune_state} (ty : Nat)
    (hg : W.MAP_LAND ≠ ' ' ∧ W.MAP_SEA ≠ ' ') (h : prune_inv W (a :: rest) s) :
    prune_inv W rest (expand_prune W s a ty) ∧ prune_rel W s (expand_prune W s a ty) := by
  obtain ⟨ha, hblank, hvoted⟩ := h.cells a (Or.inl (List.mem_cons_self a rest))
  have hgl : (if ty = T_LAND then W.MAP_LAND else W.MAP_SEA) ≠ ' ' := by
    split_ifs
    · exact hg.1
    · exact hg.2
  have hnd := List.nodup_cons.mp h.nodup_rest
  have hato : a ∉ s.to_perim := h.disjoint a (List.mem_cons_self a rest)
  have hkeep : ∀ c, s.vmap c ≠ ' ' →
      upd s.vmap a (if ty = T_LAND then W.MAP_LAND else W.MAP_SEA) c = s.vmap c := by
    intro c hc
    apply upd_other
    intro hca
    rw [hca] at hc
    exact hc hblank
  have h0 : prune_inv W rest
      { s with
        explored := s.explored + 1
        vmap := upd s.vmap a (if ty = T_LAND then W.MAP_LAND else W.MAP_SEA) } := by
    refine ⟨h.nonneg, hnd.2, h.nodup_to, ?_, ?_, ?_, ?_⟩
    · intro c hc
      exact h.disjoint c (List.mem_cons_of_mem a hc)
    · intro c hc
      have hca : c ≠ a := by
        rintro rfl
        rcases hc with hc | hc
        · exact hnd.1 hc
        · exact hato hc
      obtain ⟨x1, x2, x3⟩ := h.cells c (hc.imp (List.mem_cons_of_mem a) id)
      refine ⟨x1, ?_, x3⟩
      show upd s.vmap a _ c = ' '
      rw [upd_other _ _ _ hca]
      exact x2
    · have hb := blanks_upd ha hblank hgl
      have hc := h.count
      show s.explored + 1 + (blanks W (upd s.vmap a _) : Int) = _
      omega
    · intro c hc
      obtain ⟨i, hi, hin, hne⟩ := h.nbs c hc
      refine ⟨i, hi, hin, ?_⟩
      show upd s.vmap a _ (c + dir_offset W i) ≠ ' '
      rw [hkeep _ hne]
      exact hne
  have hfold := foldl_keep (expand_prune_step W a ty)
    (fun u => prune_inv W rest u ∧
      u.vmap = upd s.vmap a (if ty = T_LAND then W.MAP_LAND else W.MAP_SEA) ∧
      u.explored = s.explored + 1 ∧
      (∀ c, (s.pmap c).cost ≤ (u.pmap c).cost ∧ (s.pmap c).inc_cost ≤ (u.pmap c).inc_cost))
    adj_dirs _ ⟨h0, rfl, rfl, fun c => ⟨le_refl _, le_refl _⟩⟩
    (by
      intro u i hi hu
      obtain ⟨hu1, hu2, hu3, hu4⟩ := hu
      have hva : u.vmap a ≠ ' ' := by
        rw [hu2, upd_same]
        exact hgl
      obtain ⟨k1, k2, k3, _, k5⟩ := expand_prune_step_inv ty (mem_adj_dirs.mp hi) ha hva hu1
      refine ⟨k1, k2.trans hu2, k3.trans hu3, ?_⟩
      intro c
      have x := hu4 c
      have y := k5 c
      omega)
  obtain ⟨f1, f2, f3, f4⟩ := hfold
  refine ⟨f1, ⟨?_, f4, ?_, ?_⟩⟩
  · show prune_frame W s.vmap (expand_prune W s a ty).vmap
    unfold expand_prune
    rw [f2]
    constructor
    · exact hkeep
    · intro c hc
      by_cases hca : c = a
      · subst hca
        rw [upd_same]
        split_ifs
        · exact Or.inr (Or.inl rfl)
        · exact Or.inr (Or.inr rfl)
      · rw [upd_other _ _ _ hca]
        exact Or.inl hc
  · show s.explored ≤ (expand_prune W s a ty).explored
    unfold expand_prune
    rw [f3]
    omega
  · intro he
    exfalso
    unfold expand_prune at he
    rw [f3] at he
    omega

theorem prune_inv_copy {W : World} {a : Int} {rest : List Int} {s t : prune_state}
    (h : prune_inv W (a :: rest) s) (hv : t.vmap = s.vmap) (hp : t.pmap = s.pmap)
    (hto : t.to_perim = s.to_perim ++ [a]) (he : t.explored = s.explored) :
    prune_inv W rest t ∧ prune_rel W s t := by
  have hnd := List.nodup_cons.mp h.nodup_rest
  have hato : a ∉ s.to_perim := h.disjoint a (List.mem_cons_self a rest)
  refine ⟨⟨?_, hnd.2, ?_, ?_, ?_, ?_, ?_⟩, ⟨?_, ?_, ?_, ?_⟩⟩
  · rw [hp]
    exact h.nonneg
  · rw [hto]
    exact List.Nodup.append h.nodup_to (List.nodup_singleton a)
      (by
        intro x hx1 hx2
        rw [List.mem_singleton] at hx2
        subst hx2
        exact hato hx1)
  · intro c hc
    rw [hto, List.mem_append, List.mem_singleton]
    rintro (h1 | h1)
    · exact h.disjoint c (List.mem_cons_of_mem a hc) h1
    · subst h1
      exact hnd.1 hc
  · intro c hc
    rw [hv, hp]
    apply h.cells c
    rw [hto, List.mem_append, List.mem_singleton] at hc
    rcases hc with hc | hc | hc
    · exact Or.inl (List.mem_cons_of_mem a hc)
    · exact Or.inr hc
    · subst hc
      exact Or.inl (List.mem_cons_self c rest)
  · rw [hv, he]
    exact h.count
  · rw [hv, hp]
    exact h.nbs
  · rw [hv]
    exact prune_frame_refl W s.vmap
  · rw [hp]
    exact fun c => ⟨le_refl _, le_refl _⟩
  · rw [he]
  · exact fun _ => ⟨hv, hp⟩

/-- A pass of the pruning over the cells `l` of the list `from` keeps the
invariant. -/
theorem pass_inv {W : World} {step : prune_state → Int → prune_state}
    (hrule : pass_rule W step) (hg : W.MAP_LAND ≠ ' ' ∧ W.MAP_SEA ≠ ' ') :
    ∀ (l rest : List Int) (s : prune_state), prune_inv W (l ++ rest) s →
      prune_inv W rest (l.foldl step s) ∧ prune_rel W s (l.foldl step s) := by
  intro l
  induction l with
  | nil =>
    intro rest s h
    exact ⟨h, prune_rel_refl W s⟩
  | cons a l ih =>
    intro rest s h
    have hstep : prune_inv W (l ++ rest) (step s a) ∧ prune_rel W s (step s a) := by
      rcases hrule s a with h1 | h1 | h1
      · rw [h1]
        exact expand_prune_inv T_LAND hg h
      · rw [h1]
        exact expand_prune_inv T_WATER hg h
      · exact prune_inv_copy h h1.1 h1.2.1 h1.2.2.1 h1.2.2.2
    obtain ⟨k1, k2⟩ := ih rest (step s a) hstep.1
    exact ⟨k1, prune_rel_trans hstep.2 k2⟩

/-- A pass that counts its copies: the copies and the expansions add up to
the cells visited. -/
theorem pass_counted {W : World} {step : prune_state → Int → prune_state}
    (hrule : counted_rule W step) :
    ∀ (l : List Int) (s : prune_state),
      (l.foldl step s).copied + (l.foldl step s).explored =
        s.copied + s.explored + (l.length : Int) := by
  intro l
  induction l with
  | nil =>
    intro s
    simp
  | cons a l ih =>
    intro s
    rw [List.foldl_cons, ih (step s a), List.length_cons]
    rcases hrule s a with h1 | h1 | h1
    · rw [h1, (expand_prune_vmap W s a T_LAND).2.1, (expand_prune_vmap W s a T_LAND).2.2]
      push_cast
      ring
    · rw [h1, (expand_prune_vmap W s a T_WATER).2.1, (expand_prune_vmap W s a T_WATER).2.2]
      push_cast
      ring
    · rw [h1.1, h1.2]
      push_cast
      ring

theorem high_step_pass (W : World) : pass_rule W (high_step W) ∧ counted_rule W (high_step W) := by
  constructor
  · intro s loc
    unfold high_step
    split_ifs <;> first
      | exact Or.inl rfl
      | exact Or.inr (Or.inl rfl)
      | exact Or.inr (Or.inr ⟨rfl, rfl, rfl, rfl⟩)
  · intro s loc
    unfold high_step
    split_ifs <;> first
      | exact Or.inl rfl
      | exact Or.inr (Or.inl rfl)
      | exact Or.inr (Or.inr ⟨rfl, rfl⟩)

theorem low_step_pass (W : World) : pass_rule W (low_step W) ∧ counted_rule W (low_step W) := by
  constructor
  · intro s loc
    unfold low_step
    split_ifs <;> first
      | exact Or.inl rfl
      | exact Or.inr (Or.inl rfl)
      | exact Or.inr (Or.inr ⟨rfl, rfl, rfl, rfl⟩)
  · intro s loc
    unfold low_step
    split_ifs <;> first
      | exact Or.inl rfl
      | exact Or.inr (Or.inl rfl)
      | exact Or.inr (Or.inr ⟨rfl, rfl⟩)

theorem medium_step_pass (W : World) : pass_rule W (medium_step W) := by
  intro s loc
  unfold medium_step
  split_ifs <;> first
    | exact Or.inl rfl
    | exact Or.inr (Or.inl rfl)
    | exact Or.inr (Or.inr ⟨rfl, rfl, rfl, rfl⟩)

/-! ## The loops of the pruning -/

theorem prune_inv_head {W : World} {t : prune_state} (h : prune_inv W [] t) :
    prune_inv W t.to_perim { t with to_perim := [], copied := 0 } :=
  ⟨h.nonneg, h.nodup_to, List.nodup_nil, fun _ _ hm => absurd hm (List.not_mem_nil _),
    fun c hc => h.cells c (hc.elim Or.inr (fun hm => absurd hm (List.not_mem_nil _))),
    h.count, h.nbs⟩

theorem prune_inv_fields {W : World} {rest : List Int} {s t : prune_state}
    (h : prune_inv W rest s) (hv : t.vmap = s.vmap) (hp : t.pmap = s.pmap)
    (hto : t.to_perim = s.to_perim) (he : t.explored = s.explored) : prune_inv W rest t := by
  refine ⟨?_, h.nodup_rest, ?_, ?_, ?_, ?_, ?_⟩
  · rw [hp]
    exact h.nonneg
  · rw [hto]
    exact h.nodup_to
  · rw [hto]
    exact h.disjoint
  · rw [hto, hv, hp]
    exact h.cells
  · rw [hv, he]
    exact h.count
  · rw [hv, hp]
    exact h.nbs

/-- A whole pass from the head of a loop: the invariant holds at the end, the
copies and the expansions add up to the length of the list, and a pass that
expands nothing leaves the state of the head. -/
theorem pass_head {W : World} {step : prune_state → Int → prune_state}
    (hrule : pass_rule W step) (hg : W.MAP_LAND ≠ ' ' ∧ W.MAP_SEA ≠ ' ')
    {frm : List Int} {s : prune_state} (k : Int)
    (h : prune_inv W frm { s with to_perim := [], copied := k }) :
    prune_inv W [] (frm.foldl step { s with to_perim := [], copied := k }) ∧
    prune_rel W s (frm.foldl step { s with to_perim := [], copied := k }) ∧
    ((frm.foldl step { s with to_perim := [], copied := k }).explored = s.explored →
      prune_inv W frm
        { frm.foldl step { s with to_perim := [], copied := k } with
          to_perim := [], copied := 0 }) := by
  have h2 : prune_inv W (frm ++ []) { s with to_perim := [], copied := k } := by
    rw [List.append_nil]
    exact h
  obtain ⟨k1, k2⟩ := pass_inv hrule hg frm [] _ h2
  refine ⟨k1, ⟨k2.frame, k2.votes, k2.explored_le, k2.same⟩, ?_⟩
  intro he
  obtain ⟨hv, hp⟩ := k2.same he
  exact prune_inv_fields h hv hp rfl he

/-- The loop of high probability predictions ends within as many passes as
there are unexplored locations, plus one. -/
theorem high_loop_spec {W : World} (hg : W.MAP_LAND ≠ ' ' ∧ W.MAP_SEA ≠ ' ') :
    ∀ (fuel : Nat) (frm : List Int) (s : prune_state),
      prune_inv W frm { s with to_perim := [], copied := 0 } → blanks W s.vmap < fuel →
      ∃ b frm2 s2, high_loop W fuel frm s = some (b, frm2, s2) ∧ prune_rel W s s2 ∧
        prune_inv W frm2 { s2 with to_perim := [], copied := 0 } ∧
        (b = true → (frm2.length : Int) + s2.explored = W.MAP_SIZE) ∧
        (b = false → (frm2.length : Int) + s2.explored ≠ W.MAP_SIZE) := by
  intro fuel
  induction fuel with
  | zero =>
    intro frm s _ hf
    exact absurd hf (Nat.not_lt_zero _)
  | succ fuel ih =>
    intro frm s h hf
    unfold high_loop
    by_cases htest : (frm.length : Int) + s.explored = W.MAP_SIZE
    · rw [if_pos htest]
      exact ⟨true, frm, s, rfl, prune_rel_refl W s, h, fun _ => htest,
        fun hb => absurd hb (by decide)⟩
    · rw [if_neg htest]
      obtain ⟨k1, k2, k3⟩ := pass_head (high_step_pass W).1 hg 0 h
      have hcount := pass_counted (high_step_pass W).2 frm { s with to_perim := [], copied := 0 }
      simp only at hcount
      by_cases hcop : (frm.foldl (high_step W) { s with to_perim := [], copied := 0 }).copied =
          (frm.length : Int)
      · rw [if_pos hcop]
        have he : (frm.foldl (high_step W) { s with to_perim := [], copied := 0 }).explored =
            s.explored := by omega
        refine ⟨false, frm, _, rfl, k2, k3 he, fun hb => absurd hb (by decide), fun _ => ?_⟩
        rw [he]
        exact htest
      · rw [if_neg hcop]
        have hle := k2.explored_le
        have hc1 := k1.count
        have hc0 := h.count
        simp only at hc0
        have hblank : blanks W (frm.foldl (high_step W)
            { s with to_perim := [], copied := 0 }).vmap < fuel := by omega
        obtain ⟨b, frm2, s2, r1, r2, r3, r4⟩ := ih _ _ (prune_inv_head k1) hblank
        exact ⟨b, frm2, s2, r1, prune_rel_trans k2 r2, r3, r4⟩

/-- The loop of low probability predictions ends within as many passes as
there are unexplored locations, plus one. -/
theorem low_loop_spec {W : World} (hg : W.MAP_LAND ≠ ' ' ∧ W.MAP_SEA ≠ ' ') :
    ∀ (fuel : Nat) (frm : List Int) (s : prune_state),
      prune_inv W frm { s with to_perim := [], copied := 0 } → blanks W s.vmap < fuel →
      ∃ s2, low_loop W fuel frm s = some s2 ∧ prune_rel W s s2 := by
  intro fuel
  induction fuel with
  | zero =>
    intro frm s _ hf
    exact absurd hf (Nat.not_lt_zero _)
  | succ fuel ih =>
    intro frm s h hf
    unfold low_loop
    by_cases htest : (frm.length : Int) + s.explored ≥ W.MAP_SIZE - W.MAP_HEIGHT
    · rw [if_pos htest]
      exact ⟨s, rfl, prune_rel_refl W s⟩
    · rw [if_neg htest]
      obtain ⟨k1, k2, k3⟩ := pass_head (low_step_pass W).1 hg 0 h
      have hcount := pass_counted (low_step_pass W).2 frm { s with to_perim := [], copied := 0 }
      simp only at hcount
      by_cases hcop : (frm.foldl (low_step W) { s with to_perim := [], copied := 0 }).copied =
          (frm.length : Int)
      · rw [if_pos hcop]
        exact ⟨_, rfl, k2⟩
      · rw [if_neg hcop]
        have hle := k2.explored_le
        have hc1 := k1.count
        have hc0 := h.count
        simp only at hc0
        have hblank : blanks W (frm.foldl (low_step W)
            { s with to_perim := [], copied := 0 }).vmap < fuel := by omega
        obtain ⟨s2, r1, r2⟩ := ih _ _ (prune_inv_head k1) hblank
        exact ⟨s2, r1, prune_rel_trans k2 r2⟩

/-! ## The first loop of the pruning -/

theorem count_step (W : World) (vm : Int → Char) (loc : Int) (pm : Int → path_map_t)
    (i : Nat) :
    (∀ c, c ≠ loc → prune_count_step W vm loc pm i c = pm c) ∧
    (prune_count_step W vm loc pm i loc).cost = (pm loc).cost +
      (if (0 ≤ loc + dir_offset W i ∧ loc + dir_offset W i < W.MAP_SIZE) ∧
        vm (loc + dir_offset W i) ≠ ' ' ∧
        (W.map (loc + dir_offset W i)).contents ≠ W.MAP_SEA then 1 else 0) ∧
    (prune_count_step W vm loc pm i loc).inc_cost = (pm loc).inc_cost +
      (if (0 ≤ loc + dir_offset W i ∧ loc + dir_offset W i < W.MAP_SIZE) ∧
        vm (loc + dir_offset W i) ≠ ' ' ∧
        (W.map (loc + dir_offset W i)).contents = W.MAP_SEA then 1 else 0) := by
  unfold prune_count_step
  by_cases h1 : loc + dir_offset W i < 0 ∨ loc + dir_offset W i ≥ W.MAP_SIZE
  · have hr : ¬ (0 ≤ loc + dir_offset W i ∧ loc + dir_offset W i < W.MAP_SIZE) := by omega
    rw [if_pos h1, if_neg (fun h => hr h.1), if_neg (fun h => hr h.1)]
    exact ⟨fun _ _ => rfl, by omega, by omega⟩
  · have hr : 0 ≤ loc + dir_offset W i ∧ loc + dir_offset W i < W.MAP_SIZE := by omega
    rw [if_neg h1]
    by_cases h2 : vm (loc + dir_offset W i) = ' '
    · rw [if_pos h2, if_neg (fun h => h.2.1 h2), if_neg (fun h => h.2.1 h2)]
      exact ⟨fun _ _ => rfl, by omega, by omega⟩
    · rw [if_neg h2]
      by_cases h3 : (W.map (loc + dir_offset W i)).contents ≠ W.MAP_SEA
      · rw [if_pos h3, if_pos ⟨hr, h2, h3⟩, if_neg (fun h => h3 h.2.2)]
        refine ⟨fun c hc => upd_other _ _ _ hc, ?_, ?_⟩
        · rw [upd_same]
        · rw [upd_same]
          simp only
          omega
      · rw [if_neg h3, if_neg (fun h => h3 h.2.2), if_pos ⟨hr, h2, not_not.mp h3⟩]
        refine ⟨fun c hc => upd_other _ _ _ hc, ?_, ?_⟩
        · rw [upd_same]
          simp only
          omega
        · rw [upd_same]

/-- The `FOR_ADJ` loop of the first loop adds to the counts of `loc` the
explored neighbours inside the arrays, land and water by the true map. -/
theorem count_fold (W : World) (vm : Int → Char) (loc : Int) :
    ∀ (l : List Nat) (pm : Int → path_map_t),
      (∀ c, c ≠ loc → (l.foldl (prune_count_step W vm loc) pm) c = pm c) ∧
      ((l.foldl (prune_count_step W vm loc) pm) loc).cost = (pm loc).cost +
        ((l.filter (fun i =>
          decide ((0 ≤ loc + dir_offset W i ∧ loc + dir_offset W i < W.MAP_SIZE) ∧
            vm (loc + dir_offset W i) ≠ ' ' ∧
            (W.map (loc + dir_offset W i)).contents ≠ W.MAP_SEA))).length : Int) ∧
      ((l.foldl (prune_count_step W vm loc) pm) loc).inc_cost = (pm loc).inc_cost +
        ((l.filter (fun i =>
          decide ((0 ≤ loc + dir_offset W i ∧ loc + dir_offset W i < W.MAP_SIZE) ∧
            vm (loc + dir_offset W i) ≠ ' ' ∧
            (W.map (loc + dir_offset W i)).contents = W.MAP_SEA))).length : Int) := by
  intro l
  induction l with
  | nil =>
    intro pm
    simp
  | cons i l ih =>
    intro pm
    rw [List.foldl_cons]
    obtain ⟨k1, k2, k3⟩ := ih (prune_count_step W vm loc pm i)
    obtain ⟨c1, c2, c3⟩ := count_step W vm loc pm i
    rw [k2, k3, c2, c3]
    refine ⟨fun c hc => (k1 c hc).trans (c1 c hc), ?_, ?_⟩
    · rw [List.filter_cons]
      by_cases hp : (0 ≤ loc + dir_offset W i ∧ loc + dir_offset W i < W.MAP_SIZE) ∧
          vm (loc + dir_offset W i) ≠ ' ' ∧
          (W.map (loc + dir_offset W i)).contents ≠ W.MAP_SEA
      · rw [if_pos hp, if_pos (decide_eq_true hp), List.length_cons]
        push_cast
        ring
      · rw [if_neg hp, if_neg (by rw [decide_eq_true_eq]; exact hp)]
        ring
    · rw [List.filter_cons]
      by_cases hp : (0 ≤ loc + dir_offset W i ∧ loc + dir_offset W i < W.MAP_SIZE) ∧
          vm (loc + dir_offset W i) ≠ ' ' ∧
          (W.map (loc + dir_offset W i)).contents = W.MAP_SEA
      · rw [if_pos hp, if_pos (decide_eq_true hp), List.length_cons]
        push_cast
        ring
      · rw [if_neg hp, if_neg (by rw [decide_eq_true_eq]; exact hp)]
        ring

theorem votes_nonneg (W : World) (vm : Int → Char) (c : Int) :
    0 ≤ land_votes W vm c ∧ 0 ≤ water_votes W vm c := by
  unfold land_votes water_votes
  exact ⟨Int.natCast_nonneg _, Int.natCast_nonneg _⟩

/-- A cell has a count from the first loop exactly if it has an explored
neighbour inside the arrays. -/
theorem votes_iff (W : World) (vm : Int → Char) (c : Int) :
    (land_votes W vm c ≠ 0 ∨ water_votes W vm c ≠ 0) ↔ explored_nb W vm c := by
  unfold land_votes water_votes explored_nb in_map
  constructor
  · rintro (h | h)
    · have hne : adj_dirs.filter (fun i =>
          decide ((0 ≤ c + dir_offset W i ∧ c + dir_offset W i < W.MAP_SIZE) ∧
            vm (c + dir_offset W i) ≠ ' ' ∧
            (W.map (c + dir_offset W i)).contents ≠ W.MAP_SEA)) ≠ [] := by
        intro he
        rw [he] at h
        exact h rfl
      obtain ⟨i, hi⟩ := List.exists_mem_of_ne_nil _ hne
      rw [List.mem_filter, decide_eq_true_eq] at hi
      exact ⟨i, mem_adj_dirs.mp hi.1, hi.2.1, hi.2.2.1⟩
    · have hne : adj_dirs.filter (fun i =>
          decide ((0 ≤ c + dir_offset W i ∧ c + dir_offset W i < W.MAP_SIZE) ∧
            vm (c + dir_offset W i) ≠ ' ' ∧
            (W.map (c + dir_offset W i)).contents = W.MAP_SEA)) ≠ [] := by
        intro he
        rw [he] at h
        exact h rfl
      obtain ⟨i, hi⟩ := List.exists_mem_of_ne_nil _ hne
      rw [List.mem_filter, decide_eq_true_eq] at hi
      exact ⟨i, mem_adj_dirs.mp hi.1, hi.2.1, hi.2.2.1⟩
  · rintro ⟨i, hi, hin, hne⟩
    by_cases h3 : (W.map (c + dir_offset W i)).contents = W.MAP_SEA
    · right
      have hm : i ∈ adj_dirs.filter (fun i =>
          decide ((0 ≤ c + dir_offset W i ∧ c + dir_offset W i < W.MAP_SIZE) ∧
            vm (c + dir_offset W i) ≠ ' ' ∧
            (W.map (c + dir_offset W i)).contents = W.MAP_SEA)) := by
        rw [List.mem_filter, decide_eq_true_eq]
        exact ⟨mem_adj_dirs.mpr hi, hin, hne, h3⟩
      have := List.length_pos_of_mem hm
      omega
    · left
      have hm : i ∈ adj_dirs.filter (fun i =>
          decide ((0 ≤ c + dir_offset W i ∧ c + dir_offset W i < W.MAP_SIZE) ∧
            vm (c + dir_offset W i) ≠ ' ' ∧
            (W.map (c + dir_offset W i)).contents ≠ W.MAP_SEA)) := by
        rw [List.mem_filter, decide_eq_true_eq]
        exact ⟨mem_adj_dirs.mpr hi, hin, hne, h3⟩
      have := List.length_pos_of_mem hm
      omega

/-- One round of the first loop of the pruning extends its invariant to the
next location. -/
theorem prune_init_step_inv {W : World} {vm : Int → Char} {k : Nat} {st : prune_init_state}
    (h : init_inv W vm k st) : init_inv W vm (k + 1) (prune_init_step W vm st (k : Int)) := by
  have hsucc := blanks_upto_succ vm k
  have hcount := h.count
  by_cases hb : vm (k : Int) = ' '
  · rw [if_pos hb] at hsucc
    obtain ⟨c1, c2, c3⟩ := count_fold W vm (k : Int) adj_dirs st.pmap
    have hz := h.zero (k : Int) (by omega)
    rw [hz.1, zero_add] at c2
    rw [hz.2, zero_add] at c3
    have hnotin : (k : Int) ∉ st.from_perim := by
      intro hm
      have := ((h.listed _).mp hm).1
      omega
    have hzero : ∀ c, ¬ ((0 ≤ c ∧ c < ((k + 1 : Nat) : Int)) ∧ vm c = ' ') →
        ((adj_dirs.foldl (prune_count_step W vm (k : Int)) st.pmap) c).cost = 0 ∧
        ((adj_dirs.foldl (prune_count_step W vm (k : Int)) st.pmap) c).inc_cost = 0 := by
      intro c hc
      have hck : c ≠ (k : Int) := by
        rintro rfl
        exact hc ⟨by push_cast; omega, hb⟩
      rw [c1 c hck]
      apply h.zero c
      intro hx
      exact hc ⟨by push_cast; omega, hx.2⟩
    have hvotes : ∀ c, (0 ≤ c ∧ c < ((k + 1 : Nat) : Int)) → vm c = ' ' →
        ((adj_dirs.foldl (prune_count_step W vm (k : Int)) st.pmap) c).cost = land_votes W vm c ∧
        ((adj_dirs.foldl (prune_count_step W vm (k : Int)) st.pmap) c).inc_cost =
          water_votes W vm c := by
      intro c hc hcb
      by_cases hck : c = (k : Int)
      · subst hck
        exact ⟨c2, c3⟩
      · rw [c1 c hck]
        apply h.votes c _ hcb
        push_cast at hc
        omega
    have hcnt : st.explored + (blanks_upto vm ((k + 1 : Nat) : Int) : Int) = ((k + 1 : Nat) : Int) := by
      push_cast
      rw [hsucc]
      push_cast
      omega
    unfold prune_init_step
    rw [if_neg (not_not.mpr hb)]
    by_cases hv : ((adj_dirs.foldl (prune_count_step W vm (k : Int)) st.pmap) (k : Int)).cost ≠ 0 ∨
        ((adj_dirs.foldl (prune_count_step W vm (k : Int)) st.pmap) (k : Int)).inc_cost ≠ 0
    · rw [if_pos hv]
      refine ⟨hzero, hvotes, ?_, ?_, hcnt⟩
      · exact List.Nodup.append h.nodup (List.nodup_singleton _)
          (by
            intro x hx1 hx2
            rw [List.mem_singleton] at hx2
            subst hx2
            exact hnotin hx1)
      · intro c
        simp only [List.mem_append, List.mem_singleton]
        constructor
        · rintro (hm | hm)
          · obtain ⟨x1, x2, x3⟩ := (h.listed c).mp hm
            have hck : c ≠ (k : Int) := by omega
            rw [c1 c hck]
            exact ⟨by push_cast; omega, x2, x3⟩
          · subst hm
            exact ⟨by push_cast; omega, hb, hv⟩
        · rintro ⟨x1, x2, x3⟩
          by_cases hck : c = (k : Int)
          · exact Or.inr hck
          · left
            rw [c1 c hck] at x3
            apply (h.listed c).mpr
            push_cast at x1
            exact ⟨by omega, x2, x3⟩
    · rw [if_neg hv]
      refine ⟨hzero, hvotes, h.nodup, ?_, hcnt⟩
      intro c
      simp only
      constructor
      · intro hm
        obtain ⟨x1, x2, x3⟩ := (h.listed c).mp hm
        have hck : c ≠ (k : Int) := by omega
        rw [c1 c hck]
        exact ⟨by push_cast; omega, x2, x3⟩
      · rintro ⟨x1, x2, x3⟩
        have hck : c ≠ (k : Int) := by
          rintro rfl
          exact hv x3
        rw [c1 c hck] at x3
        apply (h.listed c).mpr
        push_cast at x1
        exact ⟨by omega, x2, x3⟩
  · rw [if_neg hb] at hsucc
    unfold prune_init_step
    rw [if_pos hb]
    refine ⟨?_, ?_, h.nodup, ?_, ?_⟩
    · intro c hc
      apply h.zero c
      intro hx
      exact hc ⟨by push_cast; omega, hx.2⟩
    · intro c hc hcb
      have hck : c ≠ (k : Int) := by
        rintro rfl
        exact hb hcb
      apply h.votes c _ hcb
      push_cast at hc
      omega
    · intro c
      simp only
      rw [h.listed c]
      constructor
      · rintro ⟨x1, x2, x3⟩
        exact ⟨by push_cast; omega, x2, x3⟩
      · rintro ⟨x1, x2, x3⟩
        have hck : c ≠ (k : Int) := by
          rintro rfl
          exact hb x2
        push_cast at x1
        exact ⟨by omega, x2, x3⟩
    · show st.explored + 1 + (blanks_upto vm ((k + 1 : Nat) : Int) : Int) = ((k + 1 : Nat) : Int)
      push_cast
      rw [hsucc]
      push_cast
      omega

/-- The first loop of the pruning over the locations below `k`. -/
theorem prune_init_upto (W : World) (vm : Int → Char) :
    ∀ k : Nat, init_inv W vm k
      (((List.range k).map (fun i : Nat => (i : Int))).foldl (prune_init_step W vm)
        { pmap := fun _ => { cost := 0, inc_cost := 0, terrain := 0 }, from_perim := [],
          explored := 0 }) := by
  intro k
  induction k with
  | zero =>
    refine ⟨fun _ _ => ⟨rfl, rfl⟩, ?_, List.nodup_nil, ?_, ?_⟩
    · intro c hc
      simp only [Nat.cast_zero] at hc
      omega
    · intro c
      simp only [List.range_zero, List.map_nil, List.foldl_nil, List.not_mem_nil, Nat.cast_zero,
        false_iff]
      intro hx
      omega
    · simp only [List.range_zero, List.map_nil, List.foldl_nil, Nat.cast_zero]
      rw [blanks_upto_zero]
      simp
  | succ k ih =>
    rw [List.range_succ, List.map_append, List.foldl_append]
    exact prune_init_step_inv ih

theorem blanks_upto_toNat (vm : Int → Char) (n : Int) :
    blanks_upto vm (n.toNat : Int) = blanks_upto vm n := by
  unfold blanks_upto
  congr 2
  ext c
  simp only [Finset.mem_Ico]
  omega

/-- The first loop of the pruning establishes the invariant of the passes. -/
theorem prune_init_inv (W : World) (vm : Int → Char) :
    init_inv W vm W.MAP_SIZE.toNat (prune_init W vm) ∧
    prune_inv W (prune_init W vm).from_perim (prune_start W vm) := by
  have h : init_inv W vm W.MAP_SIZE.toNat (prune_init W vm) := prune_init_upto W vm _
  refine ⟨h, ?_, h.nodup, List.nodup_nil, fun _ _ hm => absurd hm (List.not_mem_nil _), ?_, ?_, ?_⟩
  · intro c
    show 0 ≤ ((prune_init W vm).pmap c).cost ∧ 0 ≤ ((prune_init W vm).pmap c).inc_cost
    by_cases hc : (0 ≤ c ∧ c < (W.MAP_SIZE.toNat : Int)) ∧ vm c = ' '
    · obtain ⟨x1, x2⟩ := h.votes c hc.1 hc.2
      rw [x1, x2]
      exact votes_nonneg W vm c
    · obtain ⟨x1, x2⟩ := h.zero c hc
      rw [x1, x2]
      exact ⟨le_refl _, le_refl _⟩
  · intro c hc
    rcases hc with hc | hc
    · obtain ⟨x1, x2, x3⟩ := (h.listed c).mp hc
      refine ⟨?_, x2, x3⟩
      unfold in_map
      omega
    · exact absurd hc (List.not_mem_nil _)
  · have := h.count
    rw [blanks_upto_toNat] at this
    exact this
  · intro c hc
    show explored_nb W vm c
    have hc2 : voted ((prune_init W vm).pmap c) := hc
    by_cases hin : (0 ≤ c ∧ c < (W.MAP_SIZE.toNat : Int)) ∧ vm c = ' '
    · obtain ⟨x1, x2⟩ := h.votes c hin.1 hin.2
      apply (votes_iff W vm c).mp
      unfold voted at hc2
      rw [x1, x2] at hc2
      exact hc2
    · obtain ⟨x1, x2⟩ := h.zero c hin
      unfold voted at hc2
      rw [x1, x2] at hc2
      exact absurd rfl (hc2.elim id id)

/-! ## The pruning as a whole -/

/-- What follows the loop of high probability predictions: the function
returns, and the view map changes as `prune_frame` says. -/
theorem prune_tail {W : World} (hg : W.MAP_LAND ≠ ' ' ∧ W.MAP_SEA ≠ ' ') {vm : Int → Char}
    {fuel : Nat} (hf : W.MAP_SIZE.toNat < fuel) {b : Bool} {frm : List Int} {s : prune_state}
    (hh : high_loop W fuel (prune_init W vm).from_perim (prune_start W vm) = some (b, frm, s))
    (hinv : prune_inv W frm { s with to_perim := [], copied := 0 })
    (htest : b = false → (frm.length : Int) + s.explored ≠ W.MAP_SIZE) :
    ∃ v2, vmap_prune_explore_locs W fuel vm = some v2 ∧ prune_frame W s.vmap v2 ∧
      (b = true → v2 = s.vmap) := by
  unfold prune_start at hh
  unfold vmap_prune_explore_locs
  rw [hh]
  cases b with
  | true => exact ⟨s.vmap, rfl, prune_frame_refl W s.vmap, fun _ => rfl⟩
  | false =>
    dsimp only
    rw [if_neg (htest rfl)]
    have hinv2 : prune_inv W frm { s with to_perim := [], copied := s.copied } :=
      prune_inv_fields hinv rfl rfl rfl rfl
    obtain ⟨k1, k2, _⟩ := pass_head (medium_step_pass W) hg s.copied hinv2
    have hb := blanks_le W (frm.foldl (medium_step W) { s with to_perim := [] }).vmap
    obtain ⟨s3, r1, r2⟩ := low_loop_spec hg fuel _ _ (prune_inv_head k1) (by omega)
    rw [r1]
    exact ⟨s3.vmap, rfl, prune_frame_trans k2.frame r2.frame, fun hb => absurd hb (by decide)⟩

/-- The pruning returns, within a budget of passes above the number of
locations, and the view map changes as `prune_frame` says. -/
theorem prune_runs {W : World} (hg : W.MAP_LAND ≠ ' ' ∧ W.MAP_SEA ≠ ' ') (vm : Int → Char)
    {fuel : Nat} (hf : W.MAP_SIZE.toNat < fuel) :
    ∃ v2, vmap_prune_explore_locs W fuel vm = some v2 ∧ prune_frame W vm v2 := by
  have hinit := (prune_init_inv W vm).2
  have hb := blanks_le W vm
  obtain ⟨b, frm, s, r1, r2, r3, _, r5⟩ :=
    high_loop_spec hg fuel (prune_init W vm).from_perim (prune_start W vm) hinit
      (by
        show blanks W vm < fuel
        omega)
  obtain ⟨v2, t1, t2, _⟩ := prune_tail hg hf r1 r3 r5
  exact ⟨v2, t1, prune_frame_trans r2.frame t2⟩

/-- The test at the head of the first loop holds at the start exactly if every
unexplored location has an explored neighbour. -/
theorem prune_first_test {W : World} (vm : Int → Char) (hN : 0 ≤ W.MAP_SIZE) :
    (((prune_init W vm).from_perim.length : Int) + (prune_init W vm).explored = W.MAP_SIZE) ↔
      (∀ c, in_map W c → vm c = ' ' → explored_nb W vm c) := by
  obtain ⟨hi, hp⟩ := prune_init_inv W vm
  have hcount : (prune_init W vm).explored + (blanks W vm : Int) = (W.MAP_SIZE.toNat : Int) :=
    hp.count
  have hcells : ∀ c, c ∈ (prune_init W vm).from_perim → in_map W c ∧ vm c = ' ' := by
    intro c hc
    obtain ⟨x1, x2, _⟩ := hp.cells c (Or.inl hc)
    exact ⟨x1, x2⟩
  have hmem : ∀ c, in_map W c → vm c = ' ' →
      (c ∈ (prune_init W vm).from_perim ↔ explored_nb W vm c) := by
    intro c hc hb
    have hr : 0 ≤ c ∧ c < (W.MAP_SIZE.toNat : Int) := by
      unfold in_map at hc
      omega
    obtain ⟨x1, x2⟩ := hi.votes c hr hb
    rw [hi.listed c, ← votes_iff W vm c]
    unfold voted
    rw [x1, x2]
    constructor
    · intro h
      exact h.2.2
    · intro h
      exact ⟨hr, hb, h⟩
  constructor
  · intro htest c hc hb
    by_contra hne
    have hlt := length_lt_blanks hi.nodup hcells hc hb (fun hm => hne ((hmem c hc hb).mp hm))
    omega
  · intro hall
    have heq := length_eq_blanks hi.nodup hcells
      (fun c hc hb => (hmem c hc hb).mpr (hall c hc hb))
    omega

/-- On a view in which every unexplored location has an explored neighbour
the pruning changes no cell. -/
theorem prune_no_change {W : World} (vm : Int → Char) (hN : 0 ≤ W.MAP_SIZE) {fuel : Nat}
    (hf : 0 < fuel) (hall : ∀ c, in_map W c → vm c = ' ' → explored_nb W vm c) :
    vmap_prune_explore_locs W fuel vm = some vm := by
  obtain ⟨k, rfl⟩ : ∃ k, fuel = k + 1 := ⟨fuel - 1, by omega⟩
  have htest := (prune_first_test vm hN).mpr hall
  unfold vmap_prune_explore_locs high_loop
  rw [if_pos htest]

/-- C17: `vmap_prune_explore_locs` returns, within a budget of passes above
the number of locations, and on return every cell that was explored before the
call has its contents unchanged, and every cell that was unexplored is still
unexplored or is MAP_LAND or MAP_SEA.  The true map is an input of the
function only: the result is the view map. -/
theorem prune_frame_effect (W : World) (hg : W.MAP_LAND ≠ ' ' ∧ W.MAP_SEA ≠ ' ')
    (vm : Int → Char) (fuel : Nat) (hf : W.MAP_SIZE.toNat < fuel) :
    ∃ v2, vmap_prune_explore_locs W fuel vm = some v2 ∧
      ∀ c, (vm c ≠ ' ' → v2 c = vm c) ∧
        (vm c = ' ' → v2 c = ' ' ∨ v2 c = W.MAP_LAND ∨ v2 c = W.MAP_SEA) := by
  obtain ⟨v2, h1, h2⟩ := prune_runs hg vm hf
  exact ⟨v2, h1, fun c => ⟨h2.1 c, h2.2 c⟩⟩

theorem high_step_land {W : World} {s : prune_state} {loc : Int}
    (h : 5 ≤ (s.pmap loc).cost) : high_step W s loc = expand_prune W s loc T_LAND := by
  unfold high_step
  rw [if_pos h]

/-- A pass of high probability predictions commits to land a cell of the list
that has 5 land votes or more at the head of the pass. -/
theorem high_pass_land {W : World} (hg : W.MAP_LAND ≠ ' ' ∧ W.MAP_SEA ≠ ' ')
    {frm : List Int} {s : prune_state}
    (hp : prune_inv W frm { s with to_perim := [], copied := 0 }) {c : Int} (hmem : c ∈ frm)
    (hcost : 5 ≤ (s.pmap c).cost) :
    (frm.foldl (high_step W) { s with to_perim := [], copied := 0 }).vmap c = W.MAP_LAND ∧
    s.explored < (frm.foldl (high_step W) { s with to_perim := [], copied := 0 }).explored := by
  obtain ⟨pre, rest, hsplit⟩ := List.append_of_mem hmem
  subst hsplit
  obtain ⟨a1, a2⟩ := pass_inv (high_step_pass W).1 hg pre (c :: rest) _ hp
  have hcost1 : 5 ≤ ((pre.foldl (high_step W)
      { s with to_perim := [], copied := 0 }).pmap c).cost := by
    have := (a2.votes c).1
    simp only at this
    omega
  have hstep : high_step W (pre.foldl (high_step W) { s with to_perim := [], copied := 0 }) c =
      expand_prune W (pre.foldl (high_step W) { s with to_perim := [], copied := 0 }) c
        T_LAND := by
    exact high_step_land hcost1
  obtain ⟨b1, _⟩ := expand_prune_inv T_LAND hg a1
  have hrest : prune_inv W (rest ++ []) (expand_prune W (pre.foldl (high_step W)
      { s with to_perim := [], copied := 0 }) c T_LAND) := by
    rw [List.append_nil]
    exact b1
  obtain ⟨_, c2⟩ := pass_inv (high_step_pass W).1 hg rest [] _ hrest
  rw [List.foldl_append, List.foldl_cons, hstep]
  constructor
  · have := c2.frame.1 c (by rw [expand_prune_land]; exact hg.1)
    rw [this, expand_prune_land]
  · have e1 := a2.explored_le
    have e2 := (expand_prune_vmap W (pre.foldl (high_step W)
      { s with to_perim := [], copied := 0 }) c T_LAND).2.1
    have e3 := c2.explored_le
    simp only at e1
    omega

/-- The loop of high probability predictions, entered with a cell of 5 land
votes or more in the list and not left at once, ends with the cell committed
to land. -/
theorem high_loop_land {W : World} (hg : W.MAP_LAND ≠ ' ' ∧ W.MAP_SEA ≠ ' ')
    {frm : List Int} {s : prune_state} {fuel : Nat}
    (hp : prune_inv W frm { s with to_perim := [], copied := 0 }) {c : Int} (hmem : c ∈ frm)
    (hcost : 5 ≤ (s.pmap c).cost) (htest : (frm.length : Int) + s.explored ≠ W.MAP_SIZE)
    (hf : W.MAP_SIZE.toNat < fuel) :
    ∃ b frm2 s2, high_loop W fuel frm s = some (b, frm2, s2) ∧
      prune_inv W frm2 { s2 with to_perim := [], copied := 0 } ∧
      (b = false → (frm2.length : Int) + s2.explored ≠ W.MAP_SIZE) ∧
      s2.vmap c = W.MAP_LAND := by
  obtain ⟨k, rfl⟩ : ∃ k, fuel = k + 1 := ⟨fuel - 1, by omega⟩
  obtain ⟨hland, hexp⟩ := high_pass_land hg hp hmem hcost
  obtain ⟨k1, _, _⟩ := pass_head (high_step_pass W).1 hg 0 hp
  have hcount := pass_counted (high_step_pass W).2 frm { s with to_perim := [], copied := 0 }
  simp only at hcount
  have hcop : ¬ ((frm.foldl (high_step W) { s with to_perim := [], copied := 0 }).copied =
      (frm.length : Int)) := by
    intro h
    omega
  have hblank : blanks W (frm.foldl (high_step W)
      { s with to_perim := [], copied := 0 }).vmap < k := by
    have n1 := k1.count
    have n0 := hp.count
    have n2 := blanks_le W s.vmap
    simp only at n0
    omega
  obtain ⟨b, frm2, s2, r1, r2, r3, _, r5⟩ := high_loop_spec hg k _ _ (prune_inv_head k1) hblank
  refine ⟨b, frm2, s2, ?_, r3, r5, ?_⟩
  · rw [high_loop, if_neg htest, if_neg hcop]
    exact r1
  · rw [r2.frame.1 c (by rw [hland]; exact hg.1), hland]

/-- C15 (as amended): if an unexplored cell has 5 or more explored land
neighbours inside the arrays when `vmap_prune_explore_locs` is called (6 land
and 2 water neighbours, for one), and some unexplored location has no explored
neighbour, so that the function does not return at once, then the first pass
commits the cell to land: the function returns, and the cell is MAP_LAND in
the view map that it leaves. -/
theorem prune_commits_land (W : World) (hg : W.MAP_LAND ≠ ' ' ∧ W.MAP_SEA ≠ ' ')
    (vm : Int → Char) (fuel : Nat) (hf : W.MAP_SIZE.toNat < fuel) (c : Int)
    (hc : in_map W c) (hb : vm c = ' ') (hl : 5 ≤ land_votes W vm c)
    (d : Int) (hd : in_map W d) (hdb : vm d = ' ') (hdn : ¬ explored_nb W vm d) :
    ∃ v2, vmap_prune_explore_locs W fuel vm = some v2 ∧ v2 c = W.MAP_LAND := by
  obtain ⟨hi, hp⟩ := prune_init_inv W vm
  have hN : 0 ≤ W.MAP_SIZE := by
    unfold in_map at hc
    omega
  have hr : 0 ≤ c ∧ c < (W.MAP_SIZE.toNat : Int) := by
    unfold in_map at hc
    omega
  obtain ⟨x1, _⟩ := hi.votes c hr hb
  have hcost : 5 ≤ ((prune_start W vm).pmap c).cost := by
    show 5 ≤ ((prune_init W vm).pmap c).cost
    omega
  have hmem : c ∈ (prune_init W vm).from_perim := by
    rw [hi.listed c]
    refine ⟨hr, hb, Or.inl ?_⟩
    omega
  have htest : ((prune_init W vm).from_perim.length : Int) + (prune_start W vm).explored ≠
      W.MAP_SIZE := by
    intro h
    exact hdn ((prune_first_test vm hN).mp h d hd hdb)
  obtain ⟨b, frm2, s2, r1, r3, r5, hland⟩ := high_loop_land hg hp hmem hcost htest hf
  obtain ⟨v2, t1, t2, _⟩ := prune_tail hg hf r1 r3 r5
  refine ⟨v2, t1, ?_⟩
  rw [t2.1 c (by rw [hland]; exact hg.1), hland]

/-- C16 (as amended): the pruning changes no cell of a view in which every
unexplored location has an explored neighbour inside the arrays; and when a
run ends at the return of the first loop, where every location still
unexplored is in the perimeter list, a second run on the view that it leaves
changes no cell. -/
theorem prune_fixed_point (W : World) (hg : W.MAP_LAND ≠ ' ' ∧ W.MAP_SEA ≠ ' ')
    (vm : Int → Char) (fuel : Nat) (hf : W.MAP_SIZE.toNat < fuel) (hN : 0 ≤ W.MAP_SIZE) :
    ((∀ c, in_map W c → vm c = ' ' → explored_nb W vm c) →
      vmap_prune_explore_locs W fuel vm = some vm) ∧
    (∀ frm s, high_loop W fuel (prune_init W vm).from_perim (prune_start W vm) =
        some (true, frm, s) →
      vmap_prune_explore_locs W fuel vm = some s.vmap ∧
      vmap_prune_explore_locs W fuel s.vmap = some s.vmap) := by
  refine ⟨fun hall => prune_no_change vm hN (by omega) hall, ?_⟩
  intro frm s hh
  have hinit := (prune_init_inv W vm).2
  have hb := blanks_le W vm
  obtain ⟨b, frm2, s2, r1, _, r3, r4, _⟩ :=
    high_loop_spec hg fuel (prune_init W vm).from_perim (prune_start W vm) hinit
      (by
        show blanks W vm < fuel
        omega)
  rw [hh] at r1
  have e := Option.some.inj r1
  have eb : true = b := congrArg Prod.fst e
  have ef : frm = frm2 := congrArg (fun x => x.2.1) e
  have es : s = s2 := congrArg (fun x => x.2.2) e
  subst eb ef es
  obtain ⟨v2, t1, _, t3⟩ := prune_tail hg hf hh r3 (fun hb => absurd hb (by decide))
  rw [t3 rfl] at t1
  refine ⟨t1, prune_no_change s.vmap hN (by omega) ?_⟩
  intro c hc hcb
  have htest := r4 rfl
  have hcnt : s.explored + (blanks W s.vmap : Int) = (W.MAP_SIZE.toNat : Int) := r3.count
  have hin : c ∈ frm := by
    by_contra hn
    have hlt : frm.length < blanks W s.vmap := length_lt_blanks r3.nodup_rest
      (fun x hx => ⟨(r3.cells x (Or.inl hx)).1, (r3.cells x (Or.inl hx)).2.1⟩) hc hcb hn
    omega
  exact r3.nbs c (r3.cells c (Or.inl hin)).2.2

/-! ## Concrete runs of the pruning on a world with sea -/

set_option maxRecDepth 100000 in
/-- Counterexample to C15: on `prune_world` with every cell explored but the
cell 6, that cell has 6 explored land neighbours and 2 explored water
neighbours, and `vmap_prune_explore_locs` returns with the cell still
unexplored: every unexplored cell is in the perimeter list at the start, and
the function returns before the first pass. -/
theorem prune_commits_land_counterexample :
    prune_hole_view 6 = ' ' ∧
    land_votes prune_world prune_hole_view 6 = 6 ∧
    water_votes prune_world prune_hole_view 6 = 2 ∧
    (vmap_prune_explore_locs prune_world 26 prune_hole_view).map (fun v => v 6) = some ' ' := by
  decide

set_option maxRecDepth 100000 in
/-- The cell 6 of `prune_world`, with only its eight neighbours explored (6
land, 2 water), is committed to land. -/
theorem prune_commits_land_witness :
    land_votes prune_world prune_block_view 6 = 6 ∧
    water_votes prune_world prune_block_view 6 = 2 ∧
    ∃ v2, vmap_prune_explore_locs prune_world 26 prune_block_view = some v2 ∧
      v2 6 = prune_world.MAP_LAND :=
  ⟨by decide, by decide,
    prune_commits_land prune_world (by decide) prune_block_view 26 (by decide) 6
      ⟨by decide, by decide⟩ (by decide) (by decide) 24 ⟨by decide, by decide⟩ (by decide)
      (by
        unfold explored_nb in_map
        decide)⟩

set_option maxRecDepth 100000 in
/-- The run on the small world with only the cell 6 explored returns and
leaves the cell 6 as it was. -/
theorem prune_frame_effect_witness :
    ∃ v2, vmap_prune_explore_locs demo_world 26 prune_view = some v2 ∧
      v2 6 = prune_view 6 := by
  obtain ⟨v2, h1, h2⟩ := prune_frame_effect demo_world (by decide) prune_view 26 (by decide)
  exact ⟨v2, h1, (h2 6).1 (by decide)⟩

set_option maxRecDepth 100000 in
theorem prune_ring_end_eq :
    high_loop demo_world 26 (prune_init demo_world prune_ring_view).from_perim
      (prune_start demo_world prune_ring_view) =
      some (true, prune_ring_end.2.1, prune_ring_end.2.2) := by
  have h1 : high_loop demo_world 26 (prune_init demo_world prune_ring_view).from_perim
      (prune_start demo_world prune_ring_view) = some prune_ring_end :=
    getD_of_isSome (by decide) _
  have h2 : prune_ring_end.1 = true := by decide
  rw [h1, ← h2]

set_option maxRecDepth 100000 in
/-- The run on the small world with the block in the middle unexplored ends
at the return of the first loop, with the corners of the block land and the
rest of it unexplored, and a second run changes nothing. -/
theorem prune_fixed_point_witness :
    vmap_prune_explore_locs demo_world 26 prune_ring_view = some prune_ring_end.2.2.vmap ∧
    vmap_prune_explore_locs demo_world 26 prune_ring_end.2.2.vmap =
      some prune_ring_end.2.2.vmap ∧
    prune_ring_end.2.2.vmap 6 = '+' ∧ prune_ring_end.2.2.vmap 12 = ' ' :=
  ⟨((prune_fixed_point demo_world (by decide) prune_ring_view 26 (by decide) (by decide)).2
      _ _ prune_ring_end_eq).1,
    ((prune_fixed_point demo_world (by decide) prune_ring_view 26 (by decide) (by decide)).2
      _ _ prune_ring_end_eq).2,
    by decide, by decide⟩

/-! ## The ranking of `vmap_find_dir`, in full -/

theorem order_nodup : order.Nodup := by decide

theorem indexOf_split_le {l1 l2 : List Nat} {e d : Nat} (hnd : (l1 ++ e :: l2).Nodup)
    (hd : d ∈ e :: l2) : (l1 ++ e :: l2).indexOf e ≤ (l1 ++ e :: l2).indexOf d := by
  have hdis := List.nodup_append.mp hnd
  have he1 : e ∉ l1 := fun hm => hdis.2.2 hm (List.mem_cons_self e l2)
  have hd1 : d ∉ l1 := fun hm => hdis.2.2 hm hd
  rw [List.indexOf_append_of_not_mem he1, List.indexOf_append_of_not_mem hd1,
    List.indexOf_cons_self]
  omega

/-- C31: when some neighbour is a candidate (marked T_PATH, with its glyph in
the terrain string), `vmap_find_dir` returns a candidate that has the greatest
interest score `vmap_count_adjacent` of all candidates, the greatest path
count `vmap_count_path` of the candidates with that interest score, and the
earliest place in the order NW, NE, SW, SE, W, E, N, S of the candidates that
tie on both (INFINITY is not negative). -/
theorem vmap_find_dir_ranking (W : World) (path_map : Int → path_map_t) (vmap : Int → Char)
    (loc : Int) (terrain adj_char : List Char) (hI : 0 ≤ W.INFINITY)
    (hc : ∃ d, d < 8 ∧ (path_map (loc + dir_offset W d)).terrain = T_PATH ∧
      vmap (loc + dir_offset W d) ∈ terrain) :
    ∃ e, e < 8 ∧ vmap_find_dir W path_map vmap loc terrain adj_char = loc + dir_offset W e ∧
      ((path_map (loc + dir_offset W e)).terrain = T_PATH ∧
        vmap (loc + dir_offset W e) ∈ terrain) ∧
      ∀ d, d < 8 → (path_map (loc + dir_offset W d)).terrain = T_PATH →
        vmap (loc + dir_offset W d) ∈ terrain →
        vmap_count_adjacent W vmap (loc + dir_offset W d) adj_char ≤
          vmap_count_adjacent W vmap (loc + dir_offset W e) adj_char ∧
        (vmap_count_adjacent W vmap (loc + dir_offset W d) adj_char =
            vmap_count_adjacent W vmap (loc + dir_offset W e) adj_char →
          vmap_count_path W path_map (loc + dir_offset W d) ≤
            vmap_count_path W path_map (loc + dir_offset W e)) ∧
        (vmap_count_adjacent W vmap (loc + dir_offset W d) adj_char =
            vmap_count_adjacent W vmap (loc + dir_offset W e) adj_char →
          vmap_count_path W path_map (loc + dir_offset W d) =
            vmap_count_path W path_map (loc + dir_offset W e) →
          order.indexOf e ≤ order.indexOf d) := by
  rcases vmap_find_dir_lex W path_map vmap loc terrain adj_char hI with
    ⟨_, hno⟩ | ⟨l1, e, l2, hp, hce, hb, hl1, hl2⟩
  · obtain ⟨d, hd, hd1, hd2⟩ := hc
    exact absurd ⟨hd1, hd2⟩ (hno d (mem_order.2 hd))
  · have he8 : e < 8 := mem_order.1 (by rw [hp]; simp)
    refine ⟨e, he8, hb, hce, ?_⟩
    intro d hd hd1 hd2
    have hdo : d ∈ l1 ++ e :: l2 := by
      rw [← hp]
      exact mem_order.2 hd
    rcases List.mem_append.1 hdo with hm | hm
    · have hlt := hl1 d hm ⟨hd1, hd2⟩
      unfold score_lt dir_score at hlt
      simp only at hlt
      refine ⟨by omega, fun h => by omega, fun h1 h2 => by omega⟩
    · have hidx : order.indexOf e ≤ order.indexOf d := by
        have hnd : (l1 ++ e :: l2).Nodup := by
          rw [← hp]
          exact order_nodup
        rw [hp]
        exact indexOf_split_le hnd hm
      rcases List.mem_cons.1 hm with hm | hm
      · subst hm
        exact ⟨le_refl _, fun _ => le_refl _, fun _ _ => hidx⟩
      · have hle := hl2 d hm ⟨hd1, hd2⟩
        unfold score_le dir_score at hle
        simp only at hle
        exact ⟨by omega, fun h => by omega, fun _ _ => hidx⟩

/-- Witness of C31: at the cell 12 of the small world with the cells 6, 8 and
13 on the path, the cell chosen scores at least as high as the north-west
neighbour 6. -/
theorem vmap_find_dir_ranking_witness :
    ∃ e, e < 8 ∧
      vmap_find_dir demo_world demo_paths demo_land 12 ['+'] [] =
        12 + dir_offset demo_world e ∧
      vmap_count_adjacent demo_world demo_land (12 + dir_offset demo_world NORTHWEST) [] ≤
        vmap_count_adjacent demo_world demo_land (12 + dir_offset demo_world e) [] ∧
      (vmap_count_adjacent demo_world demo_land (12 + dir_offset demo_world NORTHWEST) [] =
          vmap_count_adjacent demo_world demo_land (12 + dir_offset demo_world e) [] →
        vmap_count_path demo_world demo_paths (12 + dir_offset demo_world NORTHWEST) ≤
          vmap_count_path demo_world demo_paths (12 + dir_offset demo_world e)) := by
  obtain ⟨e, h1, h2, _, h4⟩ :=
    vmap_find_dir_ranking demo_world demo_paths demo_land 12 ['+'] [] (by decide)
      ⟨NORTHWEST, by decide, by decide, by decide⟩
  exact ⟨e, h1, h2, (h4 NORTHWEST (by decide) (by decide) (by decide)).1,
    (h4 NORTHWEST (by decide) (by decide) (by decide)).2.1⟩

/-! ## Cells of terrain that the mask of a search does not admit -/

/-- A property kept by emptying a list and by the calls of `expand_perimeter`
that the loop of `vmap_find_xobj` makes is kept by the loop. -/
theorem single_loop_keep {W : World} {vmap : Int → Char} {mi : move_info_t} {expand : Nat}
    (P : map_state → Prop)
    (hreset : ∀ s p, P s → P { s with perim := set_perim s.perim p [] })
    (hcall : ∀ curp k tp s s2,
      expand_perimeter W vmap mi curp expand k 1 1 (some tp) (some tp) s = some s2 →
      P s → P s2) (fuel : Nat) :
    ∀ (fp tp : perim_id) (k : Int) (s : map_state) (r : Int × map_state),
      single_loop W vmap mi expand fuel fp tp k s = some r → P s → P r.2 := by
  induction fuel with
  | zero => intro fp tp k s r h; simp [single_loop] at h
  | succ fuel ih =>
    intro fp tp k s r h hs
    unfold single_loop at h
    cases he : expand_perimeter W vmap mi fp expand k 1 1 (some tp) (some tp)
        { s with perim := set_perim s.perim tp [] } with
    | none => simp [he] at h
    | some s1 =>
      simp only [he] at h
      have h1 : P s1 := hcall fp k tp _ s1 he (hreset s tp hs)
      split at h
      · cases h; exact h1
      · exact ih tp fp (k + 1) s1 r h h1

/-- A step of `expand_perimeter` on a cell whose class is known and is not
admitted by the terrain mask leaves the state as it is: the cell enters no
list, its cost stays INFINITY, and the test that guards `objective_cost`
fails. -/
theorem expand_step_ineligible {W : World} {vmap : Int → Char} {mi : move_info_t}
    {type : Nat} {k iw il : Int} {waterp landp : Option perim_id} {a : Int} {s : map_state}
    {j : Nat} {t : Nat}
    (hcls : terrain_type W s.pmap vmap mi a (a + dir_offset W j) = some t)
    (h1 : ¬ (t = T_LAND ∧ type &&& T_LAND ≠ 0)) (h2 : ¬ (t = T_WATER ∧ type &&& T_WATER ≠ 0))
    (h3 : t ≠ T_UNKNOWN) :
    expand_step W vmap mi type k iw il waterp landp a s j = some s := by
  by_cases hon : (W.map (a + dir_offset W j)).on_board = true
  swap
  · exact expand_step_skip (Or.inl (by simpa using hon))
  by_cases hc : (s.pmap (a + dir_offset W j)).cost = W.INFINITY
  swap
  · exact expand_step_skip (Or.inr hc)
  rw [expand_step_visit hon hc, hcls]
  simp only [Option.bind]
  unfold place_cell
  rw [if_neg h1, if_neg h2, if_neg h3]
  simp only
  rw [if_neg (not_not.mpr hc)]

theorem expand_perimeter_unvisited {W : World} {vmap : Int → Char} {mi : move_info_t}
    {curp : perim_id} {type : Nat} {k iw il : Int} {waterp landp : Option perim_id}
    {s s2 : map_state} {c : Int} {t : Nat}
    (hcls : ∀ pm a, terrain_type W pm vmap mi a c = some t)
    (h1 : ¬ (t = T_LAND ∧ type &&& T_LAND ≠ 0)) (h2 : ¬ (t = T_WATER ∧ type &&& T_WATER ≠ 0))
    (h3 : t ≠ T_UNKNOWN)
    (h : expand_perimeter W vmap mi curp type k iw il waterp landp s = some s2)
    (hs : (s.pmap c).cost = W.INFINITY) : (s2.pmap c).cost = W.INFINITY := by
  refine expand_perimeter_inv (fun u => (u.pmap c).cost = W.INFINITY) ?_ hs h
  intro a j u u1 _ _ hu hst
  by_cases hb : a + dir_offset W j = c
  · have hcl : terrain_type W u.pmap vmap mi a (a + dir_offset W j) = some t := by
      rw [hb]
      exact hcls u.pmap a
    rw [expand_step_ineligible hcl h1 h2 h3] at hst
    cases hst
    exact hu
  · rw [(expand_step_frame hst).1 c (fun e => hb e.symm)]
    exact hu

/-- A single-terrain search never finalizes and never returns a cell, other
than its origin, whose class is known and is not the class of the search. -/
theorem vmap_find_xobj_ineligible {W : World} {vmap : Int → Char} {mi : move_info_t}
    {c : Int} {t mask : Nat}
    (hcls : ∀ pm a, terrain_type W pm vmap mi a c = some t)
    (h1 : ¬ (t = T_LAND ∧ mask &&& T_LAND ≠ 0)) (h2 : ¬ (t = T_WATER ∧ mask &&& T_WATER ≠ 0))
    (h3 : t ≠ T_UNKNOWN) {loc : Int} {start fuel : Nat} {s : map_state} {r : Int × map_state}
    (hc : c ≠ loc) (hI : (fuel : Int) + 1 < W.INFINITY)
    (h : vmap_find_xobj W vmap loc mi start mask fuel s = some r) :
    (r.2.pmap c).cost = W.INFINITY ∧ r.1 ≠ c := by
  unfold vmap_find_xobj at h
  have hcost : (r.2.pmap c).cost = W.INFINITY := by
    refine single_loop_keep (fun u => (u.pmap c).cost = W.INFINITY) (fun _ _ hu => hu)
      (fun curp k tp u u2 he hu => expand_perimeter_unvisited hcls h1 h2 h3 he hu)
      fuel _ _ 0 _ r h ?_
    show ((start_perimeter W s perim_id.p1 loc start).pmap c).cost = W.INFINITY
    simp only [start_perimeter]
    rw [upd_other _ _ _ hc]
  obtain ⟨hb1, hb2⟩ := single_loop_best W vmap mi mask loc fuel _ _ 0 _ r h (le_refl _)
    (by omega) (best_inv_start W vmap mi loc s _ _)
  refine ⟨hcost, ?_⟩
  rw [hb2]
  rcases hb1.2 with e | ⟨_, e2⟩
  · rw [e]
    exact fun e1 => hc e1.symm
  · intro e
    rw [e] at e2
    exact e2 hcost

/-- C35: in a single-terrain search a cell, other than the origin, that
`terrain_type` classifies as terrain of the other class (for the land search
`vmap_find_lobj`: a cell that shows sea, a unit glyph over sea on the true
map, or a city of the mover's on the true map, all classified as water; for
the water search `vmap_find_wobj`: a cell classified as land) is left alone by
every step of `expand_perimeter` that visits it, so `objective_cost` is not
evaluated for it; its cost is still INFINITY when the search returns, and it
is not the location returned, whatever its glyph. -/
theorem ineligible_never_final (W : World) (vmap : Int → Char) (mi : move_info_t) (c : Int) :
    ((W.MAP_SEA ≠ W.MAP_LAND ∧
        (vmap c = W.MAP_SEA ∨
          ((vmap c ≠ W.MAP_LAND ∧ vmap c ≠ W.MAP_SEA ∧ vmap c ≠ '%' ∧ vmap c ≠ ' ') ∧
            ((W.map c).contents = W.MAP_SEA ∨
              (W.MAP_CITY ≠ W.MAP_SEA ∧ W.MAP_CITY ≠ W.MAP_LAND ∧
                (W.map c).contents = W.MAP_CITY ∧
                ∃ cityp, (W.map c).cityp = some cityp ∧ cityp.owner = mi.city_owner))))) →
      ∀ pm a, terrain_type W pm vmap mi a c = some T_WATER) ∧
    ((∀ pm a, terrain_type W pm vmap mi a c = some T_WATER) →
      (∀ k iw il waterp landp a s j, a + dir_offset W j = c →
        expand_step W vmap mi T_LAND k iw il waterp landp a s j = some s) ∧
      (∀ loc (fuel : Nat) s r, c ≠ loc → (fuel : Int) + 1 < W.INFINITY →
        vmap_find_lobj W vmap loc mi fuel s = some r →
        (r.2.pmap c).cost = W.INFINITY ∧ r.1 ≠ c)) ∧
    ((∀ pm a, terrain_type W pm vmap mi a c = some T_LAND) →
      (∀ k iw il waterp landp a s j, a + dir_offset W j = c →
        expand_step W vmap mi T_WATER k iw il waterp landp a s j = some s) ∧
      (∀ loc (fuel : Nat) s r, c ≠ loc → (fuel : Int) + 1 < W.INFINITY →
        vmap_find_wobj W vmap loc mi fuel s = some r →
        (r.2.pmap c).cost = W.INFINITY ∧ r.1 ≠ c)) := by
  refine ⟨?_, ?_, ?_⟩
  · rintro ⟨hg, hcase⟩ pm a
    unfold terrain_type
    rcases hcase with h | ⟨⟨v1, v2, v3, v4⟩, h⟩
    · rw [if_neg (by rw [h]; exact hg), if_pos h]
    · rw [if_neg v1, if_neg v2, if_neg v3, if_neg v4]
      rcases h with h | ⟨g1, g2, h, cityp, hcp, hown⟩
      · rw [if_pos h]
      · rw [if_neg (by rw [h]; exact g1), if_neg (by rw [h]; exact g2), if_pos h, hcp]
        simp only
        rw [if_pos hown]
  · intro hcls
    refine ⟨?_, ?_⟩
    · intro k iw il waterp landp a s j hb
      exact expand_step_ineligible (t := T_WATER) (by rw [hb]; exact hcls s.pmap a)
        (by decide) (by decide) (by decide)
    · intro loc fuel s r hc hI h
      exact vmap_find_xobj_ineligible hcls (by decide) (by decide) (by decide) hc hI h
  · intro hcls
    refine ⟨?_, ?_⟩
    · intro k iw il waterp landp a s j hb
      exact expand_step_ineligible (t := T_LAND) (by rw [hb]; exact hcls s.pmap a)
        (by decide) (by decide) (by decide)
    · intro loc fuel s r hc hI h
      exact vmap_find_xobj_ineligible hcls (by decide) (by decide) (by decide) hc hI h

/-! ## The best objective, in full -/

/-- A call of `expand_perimeter` at a cost that is not negative keeps
`best_full`. -/
theorem call_best_full {W : World} {vmap : Int → Char} {mi : move_info_t}
    {curp : perim_id} {type : Nat} {k iw il : Int} {waterp landp : Option perim_id}
    {s s2 : map_state} {loc beat : Int} (hk0 : 0 ≤ k) (hk : k + 2 ≠ W.INFINITY)
    (h : expand_perimeter W vmap mi curp type k iw il waterp landp s = some s2)
    (hs : best_full W vmap mi loc beat s) : best_full W vmap mi loc beat s2 := by
  obtain ⟨t1, t2, _, t4⟩ := expand_perimeter_track hk h
  have ci := expand_perimeter_call h
  obtain ⟨b1, b2⟩ := hs
  refine ⟨by omega, ?_⟩
  rcases t4 with ⟨e1, e2⟩ | ⟨e1, e2, e3, e4⟩
  · rcases b2 with b2 | ⟨c1, c2, c3, c4, c5⟩
    · left
      rw [e2]
      exact b2
    · right
      rw [e2, e1, t2 _ c2]
      exact ⟨c1, c2, c3, c4, c5⟩
  · right
    obtain ⟨f1, _, f3⟩ := ci.fresh _ e3 e4
    have hrec : (s2.pmap s2.best_loc).cost - (s2.pmap s2.best_loc).inc_cost = k := by
      rcases f3 with ⟨f, _⟩ | ⟨f, _⟩ | f | f <;> rw [f] <;> simp only <;> omega
    rw [hrec]
    exact ⟨f1, e4, hk0, e2, by omega⟩

theorem best_full_perim {W : World} {vmap : Int → Char} {mi : move_info_t} {loc beat : Int}
    {s : map_state} (hs : best_full W vmap mi loc beat s) (f : perim_id → List Int) :
    best_full W vmap mi loc beat { s with perim := f } := hs

theorem single_loop_full (W : World) (vmap : Int → Char) (mi : move_info_t) (expand : Nat)
    (loc beat : Int) (fuel : Nat) :
    ∀ (fp tp : perim_id) (k : Int) (s : map_state) (r : Int × map_state),
      single_loop W vmap mi expand fuel fp tp k s = some r →
      0 ≤ k → k + fuel + 1 < W.INFINITY → best_full W vmap mi loc beat s →
      best_full W vmap mi loc beat r.2 ∧ r.1 = r.2.best_loc := by
  induction fuel with
  | zero => intro fp tp k s r h; simp [single_loop] at h
  | succ fuel ih =>
    intro fp tp k s r h hk0 hk hs
    unfold single_loop at h
    cases he : expand_perimeter W vmap mi fp expand k 1 1 (some tp) (some tp)
        { s with perim := set_perim s.perim tp [] } with
    | none => simp [he] at h
    | some s1 =>
      simp only [he] at h
      have h1 : best_full W vmap mi loc beat s1 :=
        call_best_full hk0 (by push_cast at hk; omega) he (best_full_perim hs _)
      split at h
      · cases h; exact ⟨h1, rfl⟩
      · exact ih tp fp (k + 1) s1 r h (by omega) (by push_cast at hk ⊢; omega) h1

theorem lwobj_loop_full (W : World) (vmap : Int → Char) (mi : move_info_t)
    (loc beat : Int) (fuel : Nat) :
    ∀ (cl cw nl nw : perim_id) (k : Int) (s : map_state) (r : Int × map_state),
      lwobj_loop W vmap mi fuel cl cw nl nw k s = some r →
      0 ≤ k → k + 2 * fuel + 1 < W.INFINITY → best_full W vmap mi loc beat s →
      best_full W vmap mi loc beat r.2 ∧ r.1 = r.2.best_loc := by
  induction fuel with
  | zero => intro cl cw nl nw k s r h; simp [lwobj_loop] at h
  | succ fuel ih =>
    intro cl cw nl nw k s r h hk0 hk hs
    push_cast at hk
    unfold lwobj_loop at h
    cases he1 : expand_perimeter W vmap mi cw T_WATER k 1 1 (some nw) none
        { s with perim := set_perim (set_perim s.perim nw []) nl [] } with
    | none => simp [he1] at h
    | some s1 =>
      simp only [he1] at h
      have h1 : best_full W vmap mi loc beat s1 :=
        call_best_full hk0 (by omega) he1 (best_full_perim hs _)
      cases he2 : expand_perimeter W vmap mi cl T_AIR k 1 2 (some nw) (some nl) s1 with
      | none => simp [he2] at h
      | some s2 =>
        simp only [he2] at h
        have h2 : best_full W vmap mi loc beat s2 := call_best_full hk0 (by omega) he2 h1
        cases he3 : expand_perimeter W vmap mi nw T_WATER (k + 1) 1 1 (some cw) none
            { s2 with perim := set_perim s2.perim cw [] } with
        | none => simp [he3] at h
        | some s3 =>
          simp only [he3] at h
          have h3 : best_full W vmap mi loc beat s3 :=
            call_best_full (by omega) (by omega) he3 (best_full_perim h2 _)
          split at h
          · cases h; exact ⟨h3, rfl⟩
          · exact ih nl cw cl nw (k + 2) s3 r h (by omega) (by omega) h3

theorem wlobj_loop_full (W : World) (vmap : Int → Char) (mi : move_info_t)
    (loc beat : Int) (fuel : Nat) :
    ∀ (cl cw nl nw : perim_id) (k : Int) (s : map_state) (r : Int × map_state),
      wlobj_loop W vmap mi fuel cl cw nl nw k s = some r →
      0 ≤ k → k + 2 * fuel + 1 < W.INFINITY → best_full W vmap mi loc beat s →
      best_full W vmap mi loc beat r.2 ∧ r.1 = r.2.best_loc := by
  induction fuel with
  | zero => intro cl cw nl nw k s r h; simp [wlobj_loop] at h
  | succ fuel ih =>
    intro cl cw nl nw k s r h hk0 hk hs
    push_cast at hk
    unfold wlobj_loop at h
    cases he1 : expand_perimeter W vmap mi cw T_AIR k 1 2 (some nw) (some nl)
        { s with perim := set_perim (set_perim s.perim nw []) nl [] } with
    | none => simp [he1] at h
    | some s1 =>
      simp only [he1] at h
      have h1 : best_full W vmap mi loc beat s1 :=
        call_best_full hk0 (by omega) he1 (best_full_perim hs _)
      cases he2 : expand_perimeter W vmap mi cl T_LAND k 1 2 none (some nl) s1 with
      | none => simp [he2] at h
      | some s2 =>
        simp only [he2] at h
        have h2 : best_full W vmap mi loc beat s2 := call_best_full hk0 (by omega) he2 h1
        cases he3 : expand_perimeter W vmap mi nw T_WATER (k + 1) 1 1 (some cw) none
            { s2 with perim := set_perim s2.perim cw [] } with
        | none => simp [he3] at h
        | some s3 =>
          simp only [he3] at h
          have h3 : best_full W vmap mi loc beat s3 :=
            call_best_full (by omega) (by omega) he3 (best_full_perim h2 _)
          split at h
          · cases h; exact ⟨h3, rfl⟩
          · exact ih nl cw cl nw (k + 2) s3 r h (by omega) (by omega) h3

/-- What `best_full` says of the location returned when the search started
from a best cost of at most INFINITY. -/
theorem best_full_result {W : World} {vmap : Int → Char} {mi : move_info_t} {loc beat : Int}
    {r : Int × map_state} (hb : beat ≤ W.INFINITY)
    (h : best_full W vmap mi loc beat r.2 ∧ r.1 = r.2.best_loc) :
    r.1 = loc ∨ ((W.map r.1).on_board = true ∧ (r.2.pmap r.1).cost ≠ W.INFINITY ∧
      vmap r.1 ∈ mi.objectives) := by
  obtain ⟨⟨_, h2⟩, h3⟩ := h
  rw [h3]
  rcases h2 with e | ⟨c1, c2, _, c4, c5⟩
  · exact Or.inl e
  · exact Or.inr ⟨c1, c2, objective_cost_mem c4 (by omega)⟩

/-- C36 (as amended): for `vmap_find_xobj` and `vmap_find_wlobj`, and for
`vmap_find_lwobj` with a `beat_cost` of at most INFINITY, the location
returned is the origin or a cell on the board that was finalized during the
search (its cost is not INFINITY) and whose view glyph occurs in
`move_info->objectives` (INFINITY being above the costs of the rounds run). -/
theorem search_result (W : World) (vmap : Int → Char) (loc : Int) (mi : move_info_t)
    (fuel : Nat) (s : map_state) (hI : 2 * (fuel : Int) + 1 < W.INFINITY) :
    (∀ start expand r, vmap_find_xobj W vmap loc mi start expand fuel s = some r →
      r.1 = loc ∨ ((W.map r.1).on_board = true ∧ (r.2.pmap r.1).cost ≠ W.INFINITY ∧
        vmap r.1 ∈ mi.objectives)) ∧
    (∀ r, vmap_find_wlobj W vmap loc mi fuel s = some r →
      r.1 = loc ∨ ((W.map r.1).on_board = true ∧ (r.2.pmap r.1).cost ≠ W.INFINITY ∧
        vmap r.1 ∈ mi.objectives)) ∧
    (∀ beat_cost r, beat_cost ≤ W.INFINITY →
      vmap_find_lwobj W vmap loc mi beat_cost fuel s = some r →
      r.1 = loc ∨ ((W.map r.1).on_board = true ∧ (r.2.pmap r.1).cost ≠ W.INFINITY ∧
        vmap r.1 ∈ mi.objectives)) := by
  refine ⟨?_, ?_, ?_⟩
  · intro start expand r h
    unfold vmap_find_xobj at h
    exact best_full_result (le_refl _)
      (single_loop_full W vmap mi expand loc W.INFINITY fuel _ _ 0 _ r h (le_refl _)
        (by omega) ⟨le_refl _, Or.inl rfl⟩)
  · intro r h
    unfold vmap_find_wlobj at h
    exact best_full_result (le_refl _)
      (wlobj_loop_full W vmap mi loc W.INFINITY fuel _ _ _ _ 0 _ r h (le_refl _)
        (by omega) ⟨le_refl _, Or.inl rfl⟩)
  · intro beat_cost r hb h
    unfold vmap_find_lwobj at h
    exact best_full_result hb
      (lwobj_loop_full W vmap mi loc beat_cost fuel _ _ _ _ 0 _ r h (le_refl _)
        (by omega) ⟨le_refl _, Or.inl rfl⟩)

/-! ## The best cost to beat of `vmap_find_lwobj` -/

theorem objective_cost_nonneg {W : World} {vmap : Int → Char} {mi : move_info_t} {c k oc : Int}
    (h : objective_cost W vmap mi c k = some oc) (hk : 0 ≤ k) (hI : 0 ≤ W.INFINITY) :
    0 ≤ oc := by
  unfold objective_cost at h
  cases hs : strchr mi.objectives (vmap c) with
  | none =>
    rw [hs] at h
    simp only [Option.some.injEq] at h
    omega
  | some i =>
    rw [hs] at h
    simp only at h
    by_cases hw : 0 ≤ mi.weights.getD i 0
    · rw [if_pos hw] at h
      simp only [Option.some.injEq] at h
      omega
    · rw [if_neg hw] at h
      by_cases hb : mi.weights.getD i 0 = W_TT_BUILD
      · rw [if_pos hb] at h
        cases hcity : find_city W c with
        | none =>
          rw [hcity] at h
          simp only [Option.some.injEq] at h
          omega
        | some cityp =>
          rw [hcity] at h
          simp only at h
          split_ifs at h <;> simp only [Option.some.injEq] at h <;> omega
      · rw [if_neg hb] at h
        cases h

/-- C37: `vmap_find_lwobj` returns a cell other than the origin only if the
objective cost of that cell, computed at the cost of the perimeter it was
finalized from (its cost less its increment in the final path map), is the
best cost and is strictly less than `beat_cost`; so it returns the origin when
every finalized cell has an objective cost of at least `beat_cost`, and when
`beat_cost` is at most 0.  On a finite board with a well formed true map, from
an origin on the board, with no negative weight, the function does return
(INFINITY being above the costs of the rounds run). -/
theorem lwobj_beat_cost (W : World) (vmap : Int → Char) (loc : Int) (mi : move_info_t)
    (beat_cost : Int) (fuel : Nat) (s : map_state) (hI : 2 * (fuel : Int) + 1 < W.INFINITY) :
    (∀ r, vmap_find_lwobj W vmap loc mi beat_cost fuel s = some r → r.1 ≠ loc →
      objective_cost W vmap mi r.1 ((r.2.pmap r.1).cost - (r.2.pmap r.1).inc_cost) =
        some r.2.best_cost ∧ r.2.best_cost < beat_cost) ∧
    (∀ r, vmap_find_lwobj W vmap loc mi beat_cost fuel s = some r →
      (∀ c, c ≠ loc → (r.2.pmap c).cost ≠ W.INFINITY →
        ∀ oc, objective_cost W vmap mi c ((r.2.pmap c).cost - (r.2.pmap c).inc_cost) =
          some oc → beat_cost ≤ oc) → r.1 = loc) ∧
    (beat_cost ≤ 0 → ∀ r, vmap_find_lwobj W vmap loc mi beat_cost fuel s = some r →
      r.1 = loc) ∧
    (map_ok W → board_finite W → (W.map loc).on_board = true → (∀ w ∈ mi.weights, 0 ≤ w) →
      W.MAP_SIZE.toNat ≤ fuel → ∃ r, vmap_find_lwobj W vmap loc mi beat_cost fuel s = some r) := by
  have key : ∀ r, vmap_find_lwobj W vmap loc mi beat_cost fuel s = some r →
      best_full W vmap mi loc beat_cost r.2 ∧ r.1 = r.2.best_loc := by
    intro r h
    unfold vmap_find_lwobj at h
    exact lwobj_loop_full W vmap mi loc beat_cost fuel _ _ _ _ 0 _ r h (le_refl _)
      (by omega) ⟨le_refl _, Or.inl rfl⟩
  refine ⟨?_, ?_, ?_, ?_⟩
  · intro r h hne
    obtain ⟨⟨_, h2⟩, h3⟩ := key r h
    rw [h3] at hne ⊢
    rcases h2 with e | ⟨_, _, _, c4, c5⟩
    · exact absurd e hne
    · exact ⟨c4, c5⟩
  · intro r h hall
    obtain ⟨⟨_, h2⟩, h3⟩ := key r h
    rw [h3]
    rcases h2 with e | ⟨_, c2, _, c4, c5⟩
    · exact e
    · by_contra hne
      have := hall _ hne c2 _ c4
      omega
  · intro hb r h
    obtain ⟨⟨_, h2⟩, h3⟩ := key r h
    rw [h3]
    rcases h2 with e | ⟨_, _, c3, c4, c5⟩
    · exact e
    · have := objective_cost_nonneg c4 c3 (by omega)
      omega
  · intro hm hfin hon hw hf
    obtain ⟨hc0, hc1⟩ := hfin loc hon
    have hU := unfinalized_start hfin hon (by omega) s perim_id.p1 T_LAND
    have hU2 : ((unfinalized W (start_perimeter W s perim_id.p1 loc T_LAND).pmap : Nat) : Int) <
        (W.MAP_SIZE.toNat : Int) := by exact_mod_cast hU
    rw [Int.toNat_of_nonneg (by omega)] at hU2
    have hf2 : W.MAP_SIZE ≤ (fuel : Int) := by
      have : ((W.MAP_SIZE.toNat : Nat) : Int) ≤ (fuel : Int) := by exact_mod_cast hf
      rw [Int.toNat_of_nonneg (by omega)] at this
      exact this
    unfold vmap_find_lwobj
    exact lwobj_loop_terminates vmap hm hw hfin fuel _ _ _ _ 0 _ (by decide) (by decide)
      (by decide) (by decide) (by decide) (by decide) (lt_of_lt_of_le hU hf)
      (by simp only at hU2 ⊢; omega)

/-! ## Concrete runs: the objective returned -/

set_option maxRecDepth 100000 in
/-- Witness of C35: the land search for the sea glyph from the cell 6, on the
view with sea at the cell 7: the cell 7 shows an objective, its cost is still
INFINITY at the end and it is not returned. -/
theorem ineligible_never_final_witness :
    demo_coast 7 ∈ demo_sea_info.objectives ∧
    (demo_sea_search.2.pmap 7).cost = demo_world.INFINITY ∧ demo_sea_search.1 ≠ 7 :=
  ⟨by decide,
    ((ineligible_never_final demo_world demo_coast demo_sea_info 7).2.1
      ((ineligible_never_final demo_world demo_coast demo_sea_info 7).1
        ⟨by decide, Or.inl (by decide)⟩)).2 6 5 demo_state demo_sea_search (by decide)
      (by decide) (getD_of_isSome (by decide) _)⟩

set_option maxRecDepth 100000 in
/-- Counterexample to C36 as stated: on the view with sea at the cell 7, where
no cell shows the objective glyph, `vmap_find_lwobj` called from the cell 6
with a `beat_cost` above INFINITY returns the cell 7, which is not the origin
and whose glyph is no objective. -/
theorem search_result_counterexample :
    (vmap_find_lwobj demo_world demo_coast 6 demo_move_info 101 5 demo_state).map
      (fun r => r.1) = some 7 ∧
    (7 : Int) ≠ 6 ∧ demo_coast 7 ∉ demo_move_info.objectives := by
  decide

set_option maxRecDepth 100000 in
/-- Witness of C36 as amended: the land search from the cell 6 on the view
with the city glyph at the cell 18. -/
theorem search_result_witness :
    (18 : Int) = 6 ∨ ((demo_world.map 18).on_board = true ∧
      (demo_objective.2.pmap 18).cost ≠ demo_world.INFINITY ∧
      demo_city 18 ∈ demo_move_info.objectives) :=
  (search_result demo_world demo_city 6 demo_move_info 5 demo_state (by decide)).1
    T_LAND T_LAND (18, demo_objective.2) demo_objective_eq

set_option maxRecDepth 100000 in
/-- Witness of C37: `vmap_find_lwobj` from the cell 6 on the view with the
city glyph at the cell 18, with a best cost to beat of 50. -/
theorem lwobj_beat_cost_witness :
    objective_cost demo_world demo_city demo_move_info demo_lw_search.1
        ((demo_lw_search.2.pmap demo_lw_search.1).cost -
          (demo_lw_search.2.pmap demo_lw_search.1).inc_cost) =
      some demo_lw_search.2.best_cost ∧
    demo_lw_search.2.best_cost < 50 :=
  (lwobj_beat_cost demo_world demo_city 6 demo_move_info 50 5 demo_state (by decide)).1
    demo_lw_search (getD_of_isSome (by decide) _) (by decide)

/-! ## The layers of a single-terrain search -/

theorem tdiv_two_pos {x : Int} (h : 2 ≤ x) : 0 < Int.tdiv x 2 := by
  rw [Int.tdiv_eq_ediv (by omega) (by omega)]
  omega

/-- One round of the un-truncated expansion keeps `layer_inv`. -/
theorem layer_inv_round {W : World} {vmap : Int → Char} {mi : move_info_t} {expand : Nat}
    {cur : Int} {n : Int} {fp tp : perim_id} {t t1 : map_state} (hne : fp ≠ tp)
    (hn0 : 0 ≤ n) (hn : n + 1 < W.INFINITY)
    (he : expand_perimeter W vmap mi fp expand n 1 1 (some tp) (some tp)
      { t with perim := set_perim t.perim tp [] } = some t1)
    (h : layer_inv W cur n fp t) : layer_inv W cur (n + 1) tp t1 := by
  have ci := expand_perimeter_call he
  have st := expand_perimeter_stamped (by omega) (by omega) he
  have hfp : ({ t with perim := set_perim t.perim tp [] } : map_state).perim fp = t.perim fp :=
    set_perim_other _ _ _ hne
  refine ⟨?_, ?_, ?_⟩
  · intro c hc
    rcases st tp c hc with h1 | ⟨_, h2⟩
    · simp only [set_perim_same] at h1
      exact absurd h1 (List.not_mem_nil c)
    · rcases h2 with ⟨_, h3⟩ | ⟨_, h3⟩ <;> rw [h3]
  · have h0 : (t.pmap cur).cost ≠ W.INFINITY := by
      rw [h.origin]
      omega
    rw [ci.frozen cur h0]
    exact h.origin
  · intro c hc hcur
    by_cases hold : (t.pmap c).cost = W.INFINITY
    · obtain ⟨_, ⟨a, ha, hadj⟩, hrec⟩ := ci.fresh c hold hc
      rw [hfp] at ha
      have hac : (t.pmap a).cost = n := h.front a ha
      have hat : t1.pmap a = t.pmap a := ci.frozen a (by rw [hac]; omega)
      have hpar : (t1.pmap a).cost ≠ W.INFINITY ∧ (t1.pmap a).cost = n := by
        rw [hat, hac]
        exact ⟨by omega, rfl⟩
      have hdiv := tdiv_two_pos (x := W.INFINITY) (by omega)
      rcases hrec with ⟨f, _⟩ | ⟨f, _⟩ | f | f
      · rw [f]
        exact ⟨by simp only; omega, by simp only; omega, a, hadj, hpar.1, by rw [hpar.2]; simp⟩
      · rw [f]
        exact ⟨by simp only; omega, by simp only; omega, a, hadj, hpar.1, by rw [hpar.2]; simp⟩
      · rw [f]
        exact ⟨hdiv, by simp only; omega, a, hadj, hpar.1, by rw [hpar.2]; simp⟩
      · rw [f]
        exact ⟨by simp only; omega, by simp only; omega, a, hadj, hpar.1, by rw [hpar.2]; simp⟩
    · obtain ⟨p1, p2, p, p3, p4, p5⟩ := h.parents c hold hcur
      rw [ci.frozen c hold]
      refine ⟨p1, p2, p, p3, ?_, ?_⟩
      · rw [ci.frozen p p4]
        exact p4
      · rw [ci.frozen p p4]
        exact p5

/-- The state of the un-truncated expansion before each round is a layer. -/
theorem free_rounds_layer (W : World) (vmap : Int → Char) (mi : move_info_t) (expand : Nat)
    (cur : Int) (start : Nat) (s : map_state) (n : Nat) :
    ∀ (fp tp : perim_id) (t : map_state), (n : Int) < W.INFINITY →
      free_rounds W vmap mi expand (start_perimeter W s perim_id.p1 cur start) n =
        some (fp, tp, t) →
      layer_inv W cur n fp t := by
  induction n with
  | zero =>
    intro fp tp t _ h
    simp only [free_rounds, Option.some.injEq, Prod.mk.injEq] at h
    obtain ⟨rfl, rfl, rfl⟩ := h
    refine ⟨?_, ?_, ?_⟩
    · intro c hc
      simp only [start_perimeter, set_perim_same, List.mem_singleton] at hc
      subst hc
      simp [start_perimeter, upd_same]
    · simp [start_perimeter, upd_same]
    · intro c hc hcur
      exfalso
      apply hc
      simp only [start_perimeter]
      rw [upd_other _ _ _ hcur]
  | succ n ih =>
    intro fp tp t hn h
    obtain ⟨fp0, tp0, t0, t1, h0, he, hx⟩ := free_rounds_inv h
    simp only [Prod.mk.injEq] at hx
    obtain ⟨rfl, rfl, rfl⟩ := hx
    push_cast at hn ⊢
    exact layer_inv_round (free_rounds_ne n h0) (by omega) hn he (ih tp fp t0 (by omega) h0)

/-- The loop of `vmap_find_xobj` and `vmap_find_dest` from the start returns a
state of the un-truncated expansion. -/
theorem single_loop_free_start (W : World) (vmap : Int → Char) (mi : move_info_t)
    (expand : Nat) (s : map_state) (fuel : Nat) (r : Int × map_state)
    (h : single_loop W vmap mi expand fuel perim_id.p1 perim_id.p2 0 s = some r) :
    ∃ n fp tp, n ≤ fuel ∧ free_rounds W vmap mi expand s n = some (fp, tp, r.2) ∧
      r.1 = r.2.best_loc ∧ ((r.2.perim fp).length = 0 ∨ r.2.best_cost ≤ n) := by
  obtain ⟨n, fp, tp, _, h2, h3, h4, h5⟩ :=
    single_loop_free W vmap mi expand s fuel 0 perim_id.p1 perim_id.p2 s r rfl
      (by simpa using h)
  exact ⟨n, fp, tp, by omega, h3, h4, h5⟩

/-- C38: the frontier cost invariant.  In the rounds of `vmap_find_xobj` and
`vmap_find_dest` (those of `free_rounds`, the loop without its stop test, of
which the state returned is one), every cell of the list expanded in round `n`
has the cost `n`, the `cur_cost` of the call.  In every round of
`vmap_find_lwobj` and `vmap_find_wlobj` (those of `dual_rounds`), at the cost
`2 * n`, the cells of the current water list and of the current land list
have the cost `2 * n` at the calls that expand them, and the cells of the
intermediate new water list have the cost `2 * n + 1` at the third call
(INFINITY being above the costs of the rounds). -/
theorem frontier_cost (W : World) :
    (∀ vmap mi expand loc start s (n : Nat) fp tp t, (n : Int) < W.INFINITY →
      free_rounds W vmap mi expand (start_perimeter W s perim_id.p1 loc start) n =
        some (fp, tp, t) →
      ∀ c, c ∈ ({ t with perim := set_perim t.perim tp [] } : map_state).perim fp →
        (t.pmap c).cost = n) ∧
    (∀ vmap mi loc start expand fuel s r,
      vmap_find_xobj W vmap loc mi start expand fuel s = some r →
      ∃ n fp tp, n ≤ fuel ∧
        free_rounds W vmap mi expand (start_perimeter W s perim_id.p1 loc start) n =
          some (fp, tp, r.2)) ∧
    (∀ vmap cur dest owner terrain fuel s r,
      vmap_find_dest W vmap cur dest owner terrain fuel s = some r →
      ∃ n fp tp, n ≤ fuel ∧
        free_rounds W (upd vmap dest '%') (dest_move_info owner) terrain
          (start_perimeter W s perim_id.p1 cur (if terrain = T_AIR then T_LAND else terrain))
          n = some (fp, tp, r.2.1)) ∧
    (∀ vmap mi lw loc beat_cost s0 (n : Nat) l nl t s1 s2 s3,
      2 * (n : Int) + 2 < W.INFINITY →
      dual_rounds W vmap mi lw perim_id.p1 perim_id.p2 perim_id.p4 perim_id.p3
        (dual_start W lw loc beat_cost s0) n = some (l, nl, t) →
      dual_round W vmap mi lw l perim_id.p2 nl perim_id.p3 (2 * (n : Int)) t =
        some (s1, s2, s3) →
      (∀ c, c ∈ ({ t with perim := set_perim (set_perim t.perim perim_id.p3 []) nl [] } :
          map_state).perim perim_id.p2 → (t.pmap c).cost = 2 * (n : Int)) ∧
      (∀ c, c ∈ s1.perim l → (s1.pmap c).cost = 2 * (n : Int)) ∧
      (∀ c, c ∈ ({ s2 with perim := set_perim s2.perim perim_id.p2 [] } : map_state).perim
          perim_id.p3 → (s2.pmap c).cost = 2 * (n : Int) + 1)) ∧
    (∀ vmap mi loc beat_cost fuel s0 r,
      (vmap_find_lwobj W vmap loc mi beat_cost fuel s0 = some r →
        ∃ (m : Nat) (l nl : perim_id) (t s1 s2 : map_state), m < fuel ∧
          dual_rounds W vmap mi true perim_id.p1 perim_id.p2 perim_id.p4 perim_id.p3
            (dual_start W true loc beat_cost s0) m = some (l, nl, t) ∧
          dual_round W vmap mi true l perim_id.p2 nl perim_id.p3 (2 * (m : Int)) t =
            some (s1, s2, r.2)) ∧
      (vmap_find_wlobj W vmap loc mi fuel s0 = some r →
        ∃ (m : Nat) (l nl : perim_id) (t s1 s2 : map_state), m < fuel ∧
          dual_rounds W vmap mi false perim_id.p1 perim_id.p2 perim_id.p4 perim_id.p3
            (dual_start W false loc beat_cost s0) m = some (l, nl, t) ∧
          dual_round W vmap mi false l perim_id.p2 nl perim_id.p3 (2 * (m : Int)) t =
            some (s1, s2, r.2))) := by
  refine ⟨?_, ?_, ?_, ?_, ?_⟩
  · intro vmap mi expand loc start s n fp tp t hn h c hc
    have hl := free_rounds_layer W vmap mi expand loc start s n fp tp t hn h
    have hne := free_rounds_ne n h
    rw [show ({ t with perim := set_perim t.perim tp [] } : map_state).perim fp = t.perim fp
      from set_perim_other _ _ _ hne] at hc
    exact hl.front c hc
  · intro vmap mi loc start expand fuel s r h
    unfold vmap_find_xobj at h
    obtain ⟨n, fp, tp, h1, h2, _⟩ := single_loop_free_start W vmap mi expand _ fuel r h
    exact ⟨n, fp, tp, h1, h2⟩
  · intro vmap cur dest owner terrain fuel s r h
    unfold vmap_find_dest at h
    simp only at h
    cases hs : single_loop W (upd vmap dest '%') (dest_move_info owner) terrain fuel
        perim_id.p1 perim_id.p2 0
        (start_perimeter W s perim_id.p1 cur (if terrain = T_AIR then T_LAND else terrain)) with
    | none =>
      rw [hs] at h
      cases h
    | some x =>
      rw [hs] at h
      simp only [Option.some.injEq] at h
      obtain ⟨n, fp, tp, h1, h2, _⟩ :=
        single_loop_free_start W (upd vmap dest '%') (dest_move_info owner) terrain _ fuel x hs
      refine ⟨n, fp, tp, h1, ?_⟩
      rw [h2, ← h]
  · intro vmap mi lw loc beat_cost s0 n l nl t s1 s2 s3 hI hr hd
    obtain ⟨⟨d1, d2, d3, d4, d5, d6⟩, f1, f2, _, _, f5, f6⟩ := dual_round_frame hI hr hd
    refine ⟨?_, ?_, ?_⟩
    · intro c hc
      rw [show ({ t with perim := set_perim (set_perim t.perim perim_id.p3 []) nl [] } :
          map_state).perim perim_id.p2 = t.perim perim_id.p2 by
        show set_perim (set_perim t.perim perim_id.p3 []) nl [] perim_id.p2 = _
        rw [set_perim_other _ _ _ d3, set_perim_other _ _ _ d4]] at hc
      exact (f2 c hc).1
    · intro c hc
      exact (f5 c hc).1
    · intro c hc
      rw [show ({ s2 with perim := set_perim s2.perim perim_id.p2 [] } : map_state).perim
          perim_id.p3 = s2.perim perim_id.p3 from
        set_perim_other _ _ [] (Ne.symm d4)] at hc
      exact (f6 c hc).1
  · intro vmap mi loc beat_cost fuel s0 r
    exact dual_search_rounds W vmap mi loc beat_cost s0 fuel r

/-! ## The termination of `vmap_mark_path` -/

theorem unpathed_le (W : World) (pm : Int → path_map_t) : unpathed W pm ≤ W.MAP_SIZE.toNat := by
  unfold unpathed
  have := Finset.card_filter_le (Finset.Ico (0 : Int) W.MAP_SIZE)
    (fun c => (pm c).terrain ≠ T_PATH)
  rw [Int.card_Ico] at this
  simpa using this

theorem unpathed_mono {W : World} {pm pm1 : Int → path_map_t} (h : mark_rel pm pm1) :
    unpathed W pm1 ≤ unpathed W pm := by
  unfold unpathed
  apply Finset.card_le_card
  intro c hc
  simp only [Finset.mem_filter, Finset.mem_Ico] at hc ⊢
  exact ⟨hc.1, fun hp => hc.2 (mark_rel_mono h hp)⟩

theorem unpathed_upd {W : World} {pm : Int → path_map_t} {x : Int} (hx : in_map W x)
    (hp : (pm x).terrain ≠ T_PATH) :
    unpathed W (upd pm x
      { cost := (pm x).cost, inc_cost := (pm x).inc_cost, terrain := T_PATH }) <
      unpathed W pm := by
  unfold unpathed
  apply Finset.card_lt_card
  rw [Finset.ssubset_iff_of_subset]
  · refine ⟨x, ?_, ?_⟩
    · simp only [Finset.mem_filter, Finset.mem_Ico]
      exact ⟨hx, hp⟩
    · simp only [Finset.mem_filter, Finset.mem_Ico, upd_same, ne_eq, not_true_eq_false,
        and_false, not_false_eq_true]
  · intro c hc
    simp only [Finset.mem_filter, Finset.mem_Ico] at hc ⊢
    refine ⟨hc.1, fun hpc => hc.2 ?_⟩
    by_cases hcx : c = x
    · subst hcx
      rw [upd_same]
    · rw [upd_other _ _ _ hcx]
      exact hpc

theorem back_closed_congr {W : World} {pm pm1 : Int → path_map_t} {S : Int → Prop}
    (h : mark_rel pm pm1) (hc : back_closed W pm S) : back_closed W pm1 S := by
  intro y n hy hn hcost
  rw [(h _).1, (h y).1, (h y).2.1] at hcost
  exact hc y n hy hn hcost

/-- Each level of the recursion of `vmap_mark_path` marks a cell that was not
marked: a depth above the number of unmarked cells of the arrays is enough. -/
theorem vmap_mark_path_depth (W : World) (S : Int → Prop) (hS : ∀ y, S y → in_map W y)
    (fuel : Nat) :
    ∀ (pm : Int → path_map_t) (x : Int), back_closed W pm S → S x →
      unpathed W pm < fuel →
      ∃ pm1, vmap_mark_path W fuel pm x = some pm1 ∧ mark_rel pm pm1 := by
  induction fuel with
  | zero => intro pm x _ _ h; exact absurd h (Nat.not_lt_zero _)
  | succ fuel ih =>
    intro pm x hcl hx hf
    unfold vmap_mark_path
    by_cases h0 : (pm x).cost = 0
    · exact ⟨pm, by simp [h0], mark_rel_refl pm⟩
    · simp only [h0, if_false]
      by_cases hp : (pm x).terrain = T_PATH
      · exact ⟨pm, by simp [hp], mark_rel_refl pm⟩
      · simp only [hp, if_false]
        have hx0 := mark_rel_upd pm x h0
        have hlt := unpathed_upd (hS x hx) hp
        have hstep : ∀ (q : Int → path_map_t) (n : Nat), n ∈ adj_dirs →
            mark_rel (upd pm x
              { cost := (pm x).cost, inc_cost := (pm x).inc_cost, terrain := T_PATH }) q →
            ∃ q1, (if (q (x + dir_offset W n)).cost = (q x).cost - (q x).inc_cost then
                vmap_mark_path W fuel q (x + dir_offset W n) else some q) = some q1 ∧
              mark_rel (upd pm x
                { cost := (pm x).cost, inc_cost := (pm x).inc_cost, terrain := T_PATH })
                q1 := by
          intro q n hn hq
          have hpq := mark_rel_trans hx0 hq
          by_cases hcost : (q (x + dir_offset W n)).cost = (q x).cost - (q x).inc_cost
          · simp only [hcost, if_true]
            have hclq := back_closed_congr hpq hcl
            have hin := hclq x n hx (mem_adj_dirs.1 hn) hcost
            have hm := unpathed_mono (W := W) hq
            obtain ⟨q1, hq1, hr⟩ := ih q (x + dir_offset W n) hclq hin (by omega)
            exact ⟨q1, hq1, mark_rel_trans hq hr⟩
          · simp only [hcost, if_false]
            exact ⟨q, rfl, hq⟩
        obtain ⟨pm1, hpm1, hr⟩ := loopM_total _ _ adj_dirs hstep _ (mark_rel_refl _)
        exact ⟨pm1, hpm1, mark_rel_trans hx0 hr⟩

/-- C32: `vmap_mark_path` returns at once, with the path map as it is, on a
cell of cost 0 and on a cell that is already marked; otherwise it marks the
cell and recurses, so that every level of the recursion has marked a cell of
its own, and on a finite grid (the destination lies in a region `S` of cells
of the arrays that the backtracking steps do not leave) the function returns:
a depth above the number of unmarked cells, at most MAP_SIZE, is enough, and
the path map it returns differs only by marks. -/
theorem vmap_mark_path_terminates (W : World) (pm : Int → path_map_t) (dest : Int)
    (fuel : Nat) (S : Int → Prop) (hS : ∀ y, S y → in_map W y) (hdest : S dest)
    (hgrid : back_closed W pm S) (hf : unpathed W pm < fuel) :
    (∃ pm1, vmap_mark_path W fuel pm dest = some pm1 ∧
      ∀ c, (pm1 c).cost = (pm c).cost ∧ (pm1 c).inc_cost = (pm c).inc_cost ∧
        ((pm1 c).terrain = (pm c).terrain ∨ (pm1 c).terrain = T_PATH)) ∧
    ((pm dest).cost = 0 ∨ (pm dest).terrain = T_PATH →
      vmap_mark_path W fuel pm dest = some pm) ∧
    unpathed W pm ≤ W.MAP_SIZE.toNat := by
  refine ⟨?_, ?_, unpathed_le W pm⟩
  · obtain ⟨pm1, h1, h2⟩ := vmap_mark_path_depth W S hS fuel pm dest hgrid hdest hf
    refine ⟨pm1, h1, fun c => ?_⟩
    obtain ⟨a, b, c1⟩ := h2 c
    exact ⟨a, b, c1.imp id (fun h => h.1)⟩
  · intro h
    obtain ⟨k, rfl⟩ : ∃ k, fuel = k + 1 := ⟨fuel - 1, by omega⟩
    unfold vmap_mark_path
    rcases h with h | h
    · rw [if_pos h]
    · by_cases h0 : (pm dest).cost = 0
      · rw [if_pos h0]
      · rw [if_neg h0, if_pos h]

theorem demo_costs_closed : back_closed demo_world demo_costs (in_map demo_world) := by
  intro y n _ _ h
  have hsz : demo_world.MAP_SIZE = 25 := by decide
  unfold in_map
  rw [hsz]
  simp only [demo_costs] at h
  split_ifs at h <;> omega

/-- Witness of C32: the marking from the cell 12 of the path map
`demo_costs`, with a depth of 26. -/
theorem vmap_mark_path_terminates_witness :
    ∃ pm1, vmap_mark_path demo_world 26 demo_costs 12 = some pm1 ∧
      ∀ c, (pm1 c).cost = (demo_costs c).cost ∧ (pm1 c).inc_cost = (demo_costs c).inc_cost ∧
        ((pm1 c).terrain = (demo_costs c).terrain ∨ (pm1 c).terrain = T_PATH) :=
  (vmap_mark_path_terminates demo_world demo_costs 12 26 (in_map demo_world) (fun _ h => h)
    ⟨by decide, by decide⟩ demo_costs_closed
    (lt_of_le_of_lt (unpathed_le demo_world demo_costs) (by decide))).1

/-! ## The vote counts of the pruning -/

theorem countP_split {α : Type} (l : List α) (p q r : α → Bool)
    (h : ∀ x, x ∈ l → (p x = true ↔ (q x = true ∨ r x = true)))
    (hd : ∀ x, x ∈ l → ¬ (q x = true ∧ r x = true)) :
    l.countP p = l.countP q + l.countP r := by
  induction l with
  | nil => rfl
  | cons a l ih =>
    rw [List.countP_cons, List.countP_cons, List.countP_cons,
      ih (fun x hx => h x (List.mem_cons_of_mem a hx))
        (fun x hx => hd x (List.mem_cons_of_mem a hx))]
    have h1 := h a (List.mem_cons_self a l)
    have h2 := hd a (List.mem_cons_self a l)
    cases hp : p a <;> cases hq : q a <;> cases hr : r a <;> simp_all <;> omega

theorem countP_iff {α : Type} (l : List α) (p q : α → Bool)
    (h : ∀ x, x ∈ l → (p x = true ↔ q x = true)) : l.countP p = l.countP q := by
  induction l with
  | nil => rfl
  | cons a l ih =>
    rw [List.countP_cons, List.countP_cons, ih (fun x hx => h x (List.mem_cons_of_mem a hx))]
    have h1 := h a (List.mem_cons_self a l)
    cases hp : p a <;> cases hq : q a <;> simp_all

theorem dir_offset_flip (W : World) {i : Nat} (hi : i < 8) :
    dir_offset W ((i + 4) % 8) = - dir_offset W i := by
  interval_cases i <;> simp only [dir_offset] <;> ring

theorem adj_dirs_flip : (adj_dirs.map (fun i => (i + 4) % 8)).Perm adj_dirs := by
  decide

/-- As many directions lead from `a` to `c` as from `c` to `a`. -/
theorem countP_opposite (W : World) (a c : Int) :
    adj_dirs.countP (fun j => decide (c + dir_offset W j = a)) =
      adj_dirs.countP (fun i => decide (a + dir_offset W i = c)) := by
  rw [← List.Perm.countP_eq _ adj_dirs_flip, List.countP_map]
  apply countP_iff
  intro i hi
  have hf := dir_offset_flip W (mem_adj_dirs.1 hi)
  simp only [Function.comp, decide_eq_true_eq]
  rw [hf]
  omega

/-- When the cell `a` of the arrays goes from unexplored to explored, the
count of explored neighbours of `c` grows by the number of directions that
lead from `a` to `c`. -/
theorem explored_count_upd {W : World} {vm : Int → Char} {a : Int} {g : Char}
    (ha : in_map W a) (hb : vm a = ' ') (hg : g ≠ ' ') (c : Int) :
    explored_count W (upd vm a g) c =
      explored_count W vm c +
        ((adj_dirs.countP (fun i => decide (a + dir_offset W i = c)) : Nat) : Int) := by
  unfold explored_count
  rw [← countP_opposite W a c, ← Nat.cast_add]
  congr 1
  apply countP_split
  · intro j _
    simp only [decide_eq_true_eq]
    by_cases hj : c + dir_offset W j = a
    · rw [hj, upd_same]
      constructor
      · intro _
        exact Or.inr rfl
      · intro _
        exact ⟨ha, hg⟩
    · rw [upd_other _ _ _ hj]
      constructor
      · intro h
        exact Or.inl h
      · rintro (h | h)
        · exact h
        · exact absurd h hj
  · intro j _
    simp only [decide_eq_true_eq]
    rintro ⟨h1, h2⟩
    rw [h2] at h1
    exact h1.2 hb

theorem explored_count_le (W : World) (vm : Int → Char) (c : Int) :
    explored_count W vm c ≤ 8 := by
  unfold explored_count
  have := List.countP_le_length (fun i =>
    decide ((0 ≤ c + dir_offset W i ∧ c + dir_offset W i < W.MAP_SIZE) ∧
      vm (c + dir_offset W i) ≠ ' ')) (l := adj_dirs)
  have h8 : adj_dirs.length = 8 := by decide
  omega

/-- The counts that the first loop gives add up to the explored neighbours. -/
theorem votes_sum (W : World) (vm : Int → Char) (c : Int) :
    land_votes W vm c + water_votes W vm c = explored_count W vm c := by
  unfold land_votes water_votes explored_count
  rw [← List.countP_eq_length_filter, ← List.countP_eq_length_filter, ← Nat.cast_add]
  congr 1
  symm
  apply countP_split
  · intro j _
    simp only [decide_eq_true_eq]
    by_cases hs : (W.map (c + dir_offset W j)).contents = W.MAP_SEA
    · constructor
      · intro h
        exact Or.inr ⟨h.1, h.2, hs⟩
      · rintro (h | h)
        · exact ⟨h.1, h.2.1⟩
        · exact ⟨h.1, h.2.1⟩
    · constructor
      · intro h
        exact Or.inl ⟨h.1, h.2, hs⟩
      · rintro (h | h)
        · exact ⟨h.1, h.2.1⟩
        · exact ⟨h.1, h.2.1⟩
  · intro j _
    simp only [decide_eq_true_eq]
    rintro ⟨h1, h2⟩
    exact h1.2.2 h2.2.2

/-! ## The vote counts through a pass of the pruning -/

/-- The loop of `expand_prune` over the directions: after the directions
`pre`, an unexplored cell has one more count for each direction of `pre` that
leads to it from the cell `a`, and a cell with a count is listed. -/
theorem expand_prune_track (W : World) (a : Int) (ty : Nat) (vm0 vm1 : Int → Char)
    (rest : List Int) (s0 : prune_state) (hv0 : s0.vmap = vm1)
    (hsum0 : ∀ c, in_map W c → vm1 c = ' ' →
      (s0.pmap c).cost + (s0.pmap c).inc_cost = explored_count W vm0 c)
    (hlist0 : ∀ c, in_map W c → vm1 c = ' ' → voted (s0.pmap c) → c ∈ rest ∨ c ∈ s0.to_perim) :
    (adj_dirs.foldl (expand_prune_step W a ty) s0).vmap = vm1 ∧
    (∀ c, in_map W c → vm1 c = ' ' →
      ((adj_dirs.foldl (expand_prune_step W a ty) s0).pmap c).cost +
        ((adj_dirs.foldl (expand_prune_step W a ty) s0).pmap c).inc_cost =
        explored_count W vm0 c +
          ((adj_dirs.countP (fun i => decide (a + dir_offset W i = c)) : Nat) : Int)) ∧
    (∀ c, in_map W c → vm1 c = ' ' →
      voted ((adj_dirs.foldl (expand_prune_step W a ty) s0).pmap c) →
      c ∈ rest ∨ c ∈ (adj_dirs.foldl (expand_prune_step W a ty) s0).to_perim) := by
  have key := foldl_track (expand_prune_step W a ty)
    (fun (pre : List Nat) (u : prune_state) => u.vmap = vm1 ∧
      (∀ c, in_map W c → vm1 c = ' ' →
        (u.pmap c).cost + (u.pmap c).inc_cost =
          explored_count W vm0 c +
            ((pre.countP (fun i => decide (a + dir_offset W i = c)) : Nat) : Int)) ∧
      (∀ c, in_map W c → vm1 c = ' ' → voted (u.pmap c) → c ∈ rest ∨ c ∈ u.to_perim))
    adj_dirs [] s0
    ⟨hv0, fun c hc hb => by
      rw [hsum0 c hc hb]
      simp, hlist0⟩
    (by
      intro pre i u _ hP
      obtain ⟨hvm, hsum, hlist⟩ := hP
      unfold expand_prune_step
      by_cases hcond : 0 ≤ a + dir_offset W i ∧ a + dir_offset W i < W.MAP_SIZE ∧
          u.vmap (a + dir_offset W i) = ' '
      · rw [if_pos hcond]
        have hnb : in_map W (a + dir_offset W i) := ⟨hcond.1, hcond.2.1⟩
        have hnbb : vm1 (a + dir_offset W i) = ' ' := by
          rw [← hvm]
          exact hcond.2.2
        refine ⟨hvm, ?_, ?_⟩
        · intro c hc hb
          rw [List.countP_append, List.countP_singleton]
          by_cases hcn : a + dir_offset W i = c
          · have hs := hsum c hc hb
            subst hcn
            by_cases hty : ty = T_LAND
            · simp only [if_pos hty, upd_same, decide_True, if_true]
              push_cast
              omega
            · simp only [if_neg hty, upd_same, decide_True, if_true]
              push_cast
              omega
          · have hs := hsum c hc hb
            have hcn2 : c ≠ a + dir_offset W i := fun e => hcn e.symm
            by_cases hty : ty = T_LAND
            · simp only [if_pos hty, upd_other _ _ _ hcn2, decide_eq_true_eq, if_neg hcn]
              push_cast
              omega
            · simp only [if_neg hty, upd_other _ _ _ hcn2, decide_eq_true_eq, if_neg hcn]
              push_cast
              omega
        · intro c hc hb hvt
          by_cases hcn : c = a + dir_offset W i
          · by_cases hz : (u.pmap (a + dir_offset W i)).cost = 0 ∧
                (u.pmap (a + dir_offset W i)).inc_cost = 0
            · simp only [if_pos hz]
              right
              rw [List.mem_append, List.mem_singleton]
              exact Or.inr hcn
            · simp only [if_neg hz]
              have hvo : voted (u.pmap c) := by
                rw [hcn]
                unfold voted
                by_contra hno
                push_neg at hno
                exact hz hno
              exact hlist c hc hb hvo
          · have hvo : voted (u.pmap c) := by
              by_cases hty : ty = T_LAND
              · simp only [if_pos hty, upd_other _ _ _ hcn] at hvt
                exact hvt
              · simp only [if_neg hty, upd_other _ _ _ hcn] at hvt
                exact hvt
            rcases hlist c hc hb hvo with h1 | h1
            · exact Or.inl h1
            · right
              show c ∈ (if _ then _ else _)
              split_ifs
              · exact List.mem_append_left _ h1
              · exact h1
      · rw [if_neg hcond]
        refine ⟨hvm, ?_, hlist⟩
        intro c hc hb
        rw [List.countP_append, List.countP_singleton]
        have hcn : ¬ a + dir_offset W i = c := by
          intro e
          apply hcond
          rw [e, hvm]
          exact ⟨hc.1, hc.2, hb⟩
        simp only [decide_eq_true_eq, if_neg hcn]
        have hs := hsum c hc hb
        push_cast
        omega)
  simp only [List.nil_append] at key
  exact key

/-- Source `expand_prune` on the next cell of the list `from` keeps the vote
count invariant. -/
theorem expand_prune_vote {W : World} {a : Int} {rest : List Int} {s : prune_state} (ty : Nat)
    (hg : W.MAP_LAND ≠ ' ' ∧ W.MAP_SEA ≠ ' ') (h : vote_mid W (a :: rest) s) :
    vote_mid W rest (expand_prune W s a ty) := by
  obtain ⟨ha, hblank, _⟩ := h.base.cells a (Or.inl (List.mem_cons_self a rest))
  have hgl : (if ty = T_LAND then W.MAP_LAND else W.MAP_SEA) ≠ ' ' := by
    split_ifs
    · exact hg.1
    · exact hg.2
  have hv := (expand_prune_vmap W s a ty).1
  have hback : ∀ c, upd s.vmap a (if ty = T_LAND then W.MAP_LAND else W.MAP_SEA) c = ' ' →
      c ≠ a ∧ s.vmap c = ' ' := by
    intro c hc
    have hca : c ≠ a := by
      intro e
      rw [e, upd_same] at hc
      exact hgl hc
    rw [upd_other _ _ _ hca] at hc
    exact ⟨hca, hc⟩
  obtain ⟨_, k2, k3⟩ := expand_prune_track W a ty s.vmap
    (upd s.vmap a (if ty = T_LAND then W.MAP_LAND else W.MAP_SEA)) rest
    { s with
      explored := s.explored + 1
      vmap := upd s.vmap a (if ty = T_LAND then W.MAP_LAND else W.MAP_SEA) } rfl
    (fun c hc hb => h.sum c hc (hback c hb).2)
    (fun c hc hb hvt => by
      rcases h.listed c hc (hback c hb).2 hvt with h1 | h1
      · rcases List.mem_cons.mp h1 with h2 | h2
        · exact absurd h2 (hback c hb).1
        · exact Or.inl h2
      · exact Or.inr h1)
  refine ⟨(expand_prune_inv ty hg h.base).1, ?_, ?_⟩
  · intro c hc hb
    rw [hv] at hb
    rw [hv, explored_count_upd ha hblank hgl c]
    exact k2 c hc hb
  · intro c hc hb hvt
    rw [hv] at hb
    exact k3 c hc hb hvt

theorem vote_mid_copy {W : World} {a : Int} {rest : List Int} {s t : prune_state}
    (h : vote_mid W (a :: rest) s) (hv : t.vmap = s.vmap) (hp : t.pmap = s.pmap)
    (hto : t.to_perim = s.to_perim ++ [a]) (he : t.explored = s.explored) :
    vote_mid W rest t := by
  refine ⟨(prune_inv_copy h.base hv hp hto he).1, ?_, ?_⟩
  · rw [hv, hp]
    exact h.sum
  · intro c hc hb hvt
    rw [hv] at hb
    rw [hp] at hvt
    rw [hto, List.mem_append, List.mem_singleton]
    rcases h.listed c hc hb hvt with h1 | h1
    · rcases List.mem_cons.mp h1 with h2 | h2
      · exact Or.inr (Or.inr h2)
      · exact Or.inl h2
    · exact Or.inr (Or.inl h1)

theorem vote_mid_fields {W : World} {rest : List Int} {s t : prune_state}
    (h : vote_mid W rest s) (hv : t.vmap = s.vmap) (hp : t.pmap = s.pmap)
    (hto : t.to_perim = s.to_perim) (he : t.explored = s.explored) : vote_mid W rest t := by
  refine ⟨prune_inv_fields h.base hv hp hto he, ?_, ?_⟩
  · rw [hv, hp]
    exact h.sum
  · rw [hv, hp, hto]
    exact h.listed

/-- A pass of the pruning over the cells `l` of the list `from` keeps the vote
count invariant. -/
theorem pass_vote {W : World} {step : prune_state → Int → prune_state}
    (hrule : pass_rule W step) (hg : W.MAP_LAND ≠ ' ' ∧ W.MAP_SEA ≠ ' ') :
    ∀ (l rest : List Int) (s : prune_state), vote_mid W (l ++ rest) s →
      vote_mid W rest (l.foldl step s) := by
  intro l
  induction l with
  | nil =>
    intro rest s h
    exact h
  | cons a l ih =>
    intro rest s h
    apply ih rest (step s a)
    rcases hrule s a with h1 | h1 | h1
    · rw [h1]
      exact expand_prune_vote T_LAND hg h
    · rw [h1]
      exact expand_prune_vote T_WATER hg h
    · exact vote_mid_copy h h1.1 h1.2.1 h1.2.2.1 h1.2.2.2

/-- The list `to` of a pass is the list `from` of the next one. -/
theorem vote_mid_head {W : World} {t : prune_state} (h : vote_mid W [] t) :
    vote_inv W t.to_perim t :=
  ⟨prune_inv_head h.base, h.sum, fun c hc hb hvt =>
    (h.listed c hc hb hvt).elim (fun hm => absurd hm (List.not_mem_nil _)) Or.inl⟩

/-- A whole pass from the head of a loop: the vote count invariant holds for
the list `to` at the end, and for the list `from` if the pass expands
nothing. -/
theorem pass_vote_head {W : World} {step : prune_state → Int → prune_state}
    (hrule : pass_rule W step) (hg : W.MAP_LAND ≠ ' ' ∧ W.MAP_SEA ≠ ' ')
    {frm : List Int} {s : prune_state} (k : Int) (h : vote_inv W frm s) :
    vote_inv W (frm.foldl step { s with to_perim := [], copied := k }).to_perim
      (frm.foldl step { s with to_perim := [], copied := k }) ∧
    ((frm.foldl step { s with to_perim := [], copied := k }).explored = s.explored →
      vote_inv W frm (frm.foldl step { s with to_perim := [], copied := k })) := by
  have h1 : vote_mid W (frm ++ []) { s with to_perim := [], copied := k } := by
    rw [List.append_nil]
    exact vote_mid_fields h rfl rfl rfl rfl
  have h2 : prune_inv W (frm ++ []) { s with to_perim := [], copied := k } := h1.base
  refine ⟨vote_mid_head (pass_vote hrule hg frm [] _ h1), ?_⟩
  intro he
  obtain ⟨hv, hp⟩ := (pass_inv hrule hg frm [] _ h2).2.same he
  exact vote_mid_fields h hv hp rfl he

/-- The first loop of the pruning establishes the vote count invariant. -/
theorem prune_init_vote (W : World) (vm : Int → Char) :
    vote_inv W (prune_init W vm).from_perim (prune_start W vm) := by
  obtain ⟨hi, hp⟩ := prune_init_inv W vm
  refine ⟨hp, ?_, ?_⟩
  · intro c hc hb
    have hc2 : 0 ≤ c ∧ c < (W.MAP_SIZE.toNat : Int) := by
      unfold in_map at hc
      omega
    obtain ⟨x1, x2⟩ := hi.votes c hc2 hb
    show ((prune_init W vm).pmap c).cost + ((prune_init W vm).pmap c).inc_cost =
      explored_count W vm c
    rw [x1, x2]
    exact votes_sum W vm c
  · intro c hc hb hvt
    have hc2 : 0 ≤ c ∧ c < (W.MAP_SIZE.toNat : Int) := by
      unfold in_map at hc
      omega
    exact Or.inl ((hi.listed c).mpr ⟨hc2, hb, hvt⟩)

/-- What the vote count invariant says of a cell and of the length of the
list. -/
theorem vote_inv_facts {W : World} {frm : List Int} {s : prune_state} (h : vote_inv W frm s) :
    (∀ c, in_map W c → s.vmap c = ' ' →
      (s.pmap c).cost + (s.pmap c).inc_cost = explored_count W s.vmap c ∧
      (s.pmap c).cost + (s.pmap c).inc_cost ≤ 8 ∧
      ((s.pmap c).cost + (s.pmap c).inc_cost ≠ 0 → frm.count c = 1) ∧
      ((s.pmap c).cost + (s.pmap c).inc_cost = 0 → frm.count c = 0)) ∧
    (frm.length : Int) ≤ (W.MAP_SIZE.toNat : Int) ∧
    (frm.length : Int) + s.explored ≤ (W.MAP_SIZE.toNat : Int) := by
  have hlen : frm.length ≤ blanks W s.vmap :=
    length_le_blanks h.base.nodup_rest (fun c hc => by
      obtain ⟨x1, x2, _⟩ := h.base.cells c (Or.inl hc)
      exact ⟨x1, x2⟩)
  have hb := blanks_le W s.vmap
  have hcnt : s.explored + (blanks W s.vmap : Int) = (W.MAP_SIZE.toNat : Int) := h.base.count
  refine ⟨?_, by omega, by omega⟩
  intro c hc hbl
  have hs : (s.pmap c).cost + (s.pmap c).inc_cost = explored_count W s.vmap c := h.sum c hc hbl
  have hnn : 0 ≤ (s.pmap c).cost ∧ 0 ≤ (s.pmap c).inc_cost := h.base.nonneg c
  refine ⟨hs, ?_, ?_, ?_⟩
  · rw [hs]
    exact explored_count_le W s.vmap c
  · intro hne
    have hvt : voted (s.pmap c) := by
      unfold voted
      by_contra hno
      push_neg at hno
      apply hne
      rw [hno.1, hno.2]
      rfl
    rcases h.listed c hc hbl hvt with h1 | h1
    · exact List.count_eq_one_of_mem h.base.nodup_rest h1
    · exact absurd h1 (List.not_mem_nil _)
  · intro he
    apply List.count_eq_zero_of_not_mem
    intro hm
    obtain ⟨_, _, x3⟩ := h.base.cells c (Or.inl hm)
    have x4 : voted (s.pmap c) := x3
    unfold voted at x4
    omega

/-- C39: the vote count invariant of `vmap_prune_explore_locs`.  The invariant
`vote_inv` holds when the first pass starts; from the start of a pass of high
probability predictions it holds at the start of the next pass, with the list
`to` as the new list if the loop goes on and with the same list if the loop is
left by `break`; from the start of the pass of medium probability predictions
and of a pass of low probability predictions it holds for the list `to` at the
end.  Where it holds, for every unexplored cell of the arrays the land and
water counts add up to the number of its eight neighbours by index that lie in
`0 .. MAP_SIZE - 1` and are not unexplored, which is at most 8, the cell
occurs once in the list if the sum is not zero and not at all if it is zero,
and the length of the list, also with `explored` added, is at most
`MAP_SIZE`. -/
theorem prune_vote_count (W : World) (hg : W.MAP_LAND ≠ ' ' ∧ W.MAP_SEA ≠ ' ') :
    (∀ vm : Int → Char, vote_inv W (prune_init W vm).from_perim (prune_start W vm)) ∧
    (∀ (frm : List Int) (s : prune_state), vote_inv W frm s →
      ((frm.foldl (high_step W) { s with to_perim := [], copied := 0 }).copied ≠
          (frm.length : Int) →
        vote_inv W (frm.foldl (high_step W) { s with to_perim := [], copied := 0 }).to_perim
          (frm.foldl (high_step W) { s with to_perim := [], copied := 0 })) ∧
      ((frm.foldl (high_step W) { s with to_perim := [], copied := 0 }).copied =
          (frm.length : Int) →
        vote_inv W frm (frm.foldl (high_step W) { s with to_perim := [], copied := 0 })) ∧
      vote_inv W (frm.foldl (medium_step W) { s with to_perim := [] }).to_perim
        (frm.foldl (medium_step W) { s with to_perim := [] }) ∧
      vote_inv W (frm.foldl (low_step W) { s with to_perim := [], copied := 0 }).to_perim
        (frm.foldl (low_step W) { s with to_perim := [], copied := 0 })) ∧
    (∀ (frm : List Int) (s : prune_state), vote_inv W frm s →
      (∀ c, in_map W c → s.vmap c = ' ' →
        (s.pmap c).cost + (s.pmap c).inc_cost = explored_count W s.vmap c ∧
        (s.pmap c).cost + (s.pmap c).inc_cost ≤ 8 ∧
        ((s.pmap c).cost + (s.pmap c).inc_cost ≠ 0 → frm.count c = 1) ∧
        ((s.pmap c).cost + (s.pmap c).inc_cost = 0 → frm.count c = 0)) ∧
      (0 ≤ W.MAP_SIZE →
        (frm.length : Int) ≤ W.MAP_SIZE ∧ (frm.length : Int) + s.explored ≤ W.MAP_SIZE)) := by
  refine ⟨prune_init_vote W, ?_, ?_⟩
  · intro frm s h
    refine ⟨fun _ => (pass_vote_head (high_step_pass W).1 hg 0 h).1, ?_,
      (pass_vote_head (medium_step_pass W) hg s.copied h).1,
      (pass_vote_head (low_step_pass W).1 hg 0 h).1⟩
    intro hcop
    apply (pass_vote_head (high_step_pass W).1 hg 0 h).2
    have hcount := pass_counted (high_step_pass W).2 frm { s with to_perim := [], copied := 0 }
    simp only at hcount
    omega
  · intro frm s h
    obtain ⟨k1, k2, k3⟩ := vote_inv_facts h
    refine ⟨k1, ?_⟩
    intro hN
    have : ((W.MAP_SIZE.toNat : Nat) : Int) = W.MAP_SIZE := Int.toNat_of_nonneg hN
    omega

set_option maxRecDepth 100000 in
/-- On the small world with only the cell 6 explored, the first pass starts
with the cell 0, a neighbour of the cell 6, once in the list and with the
counts 1 and 0, and with the cell 24 not in the list. -/
theorem prune_vote_count_witness :
    ((prune_start demo_world prune_view).pmap 0).cost +
        ((prune_start demo_world prune_view).pmap 0).inc_cost =
      explored_count demo_world prune_view 0 ∧
    (prune_init demo_world prune_view).from_perim.count 0 = 1 ∧
    (prune_init demo_world prune_view).from_perim.count 24 = 0 ∧
    ((prune_init demo_world prune_view).from_perim.length : Int) +
      (prune_start demo_world prune_view).explored ≤ demo_world.MAP_SIZE :=
  ⟨((((prune_vote_count demo_world (by decide)).2.2 _ _
      ((prune_vote_count demo_world (by decide)).1 prune_view)).1 0
        ⟨by decide, by decide⟩ (by decide)).1),
   ((((prune_vote_count demo_world (by decide)).2.2 _ _
      ((prune_vote_count demo_world (by decide)).1 prune_view)).1 0
        ⟨by decide, by decide⟩ (by decide)).2.2.1 (by decide)),
   ((((prune_vote_count demo_world (by decide)).2.2 _ _
      ((prune_vote_count demo_world (by decide)).1 prune_view)).1 24
        ⟨by decide, by decide⟩ (by decide)).2.2.2 (by decide)),
   (((prune_vote_count demo_world (by decide)).2.2 _ _
      ((prune_vote_count demo_world (by decide)).1 prune_view)).2 (by decide)).2⟩

set_option maxRecDepth 100000 in
/-- On the small world, the cell 12 is in the list that the second round of
the land search from the cell 6 expands, and its cost is 1. -/
theorem frontier_cost_witness :
    12 ∈ demo_layer.2.2.perim demo_layer.1 ∧ (demo_layer.2.2.pmap 12).cost = ((1 : Nat) : Int) :=
  ⟨by decide,
    (frontier_cost demo_world).1 demo_land demo_move_info T_LAND 6 T_LAND demo_state 1
      demo_layer.1 demo_layer.2.1 demo_layer.2.2 (by decide) (getD_of_isSome (by decide) (perim_id.p1, perim_id.p2, demo_state))
      12 (by decide)⟩

/-! ## The search for a destination reaches every neighbour of a cell it
expands -/

/-- What each step of `expand_perimeter` establishes for its own cell and
direction, and later steps keep, holds for every cell of the perimeter and
every direction when the call ends. -/
theorem expand_perimeter_each {W : World} {vmap : Int → Char} {mi : move_info_t}
    {curp : perim_id} {type : Nat} {k iw il : Int} {waterp landp : Option perim_id}
    {s s2 : map_state} (P : map_state → Prop) (Q : Int → Nat → map_state → Prop)
    (hstep : ∀ a j t t1, a ∈ s.perim curp → j < 8 → P t →
      expand_step W vmap mi type k iw il waterp landp a t j = some t1 →
      P t1 ∧ Q a j t1 ∧ ∀ b i, Q b i t → Q b i t1)
    (h0 : P s)
    (h : expand_perimeter W vmap mi curp type k iw il waterp landp s = some s2) :
    P s2 ∧ ∀ a, a ∈ s.perim curp → ∀ j, j < 8 → Q a j s2 := by
  unfold expand_perimeter at h
  refine loopM_each _ P (fun a t => ∀ j, j < 8 → Q a j t) _ ?_ s s2 h0 h
  intro t a t1 ha hP hf
  unfold expand_cell at hf
  have hin := loopM_each (expand_step W vmap mi type k iw il waterp landp a) P
    (fun j u => Q a j u) adj_dirs
    (fun u j u1 hj hu hfu =>
      ⟨(hstep a j u u1 ha (mem_adj_dirs.1 hj) hu hfu).1,
        (hstep a j u u1 ha (mem_adj_dirs.1 hj) hu hfu).2.1,
        fun i hi => (hstep a j u u1 ha (mem_adj_dirs.1 hj) hu hfu).2.2 a i hi⟩) t t1 hP hf
  refine ⟨hin.1, fun j hj => hin.2 j (mem_adj_dirs.2 hj), ?_⟩
  intro b hb i hi
  exact (loopM_inv (expand_step W vmap mi type k iw il waterp landp a)
    (fun u => P u ∧ Q b i u) adj_dirs
    (fun u j u1 hj hu hfu =>
      ⟨(hstep a j u u1 ha (mem_adj_dirs.1 hj) hu.1 hfu).1,
        (hstep a j u u1 ha (mem_adj_dirs.1 hj) hu.1 hfu).2.2 b i hu.2⟩)
    t t1 ⟨hP, hb i hi⟩ hf).2

/-- A cell of eligible terrain is classified as its terrain, whatever cell it
is reached from. -/
theorem passable_type {W : World} {vmap : Int → Char} {mi : move_info_t} {type : Nat} {b : Int}
    (pm : Int → path_map_t) (a : Int) (h : passable W vmap mi type b) :
    ∃ t, terrain_type W pm vmap mi a b = some t ∧
      ((t = T_LAND ∧ type &&& T_LAND ≠ 0) ∨ (t = T_WATER ∧ type &&& T_WATER ≠ 0)) := by
  by_cases hb : vmap b = ' '
  · unfold passable static_type terrain_type at h
    unfold terrain_type
    by_cases h1 : vmap b = W.MAP_LAND
    · rw [if_pos h1] at h ⊢
      exact ⟨T_LAND, rfl,
        h.imp (fun x => ⟨Option.some.inj x.1, x.2⟩) (fun x => ⟨Option.some.inj x.1, x.2⟩)⟩
    · rw [if_neg h1] at h ⊢
      by_cases h2 : vmap b = W.MAP_SEA
      · rw [if_pos h2] at h ⊢
        exact ⟨T_WATER, rfl,
          h.imp (fun x => ⟨Option.some.inj x.1, x.2⟩) (fun x => ⟨Option.some.inj x.1, x.2⟩)⟩
      · rw [if_neg h2] at h
        have h3 : ¬ vmap b = '%' := by
          rw [hb]
          decide
        rw [if_neg h3, if_pos hb] at h
        exfalso
        rcases h with h | h
        · exact absurd h.1 (by decide)
        · exact absurd h.1 (by decide)
  · rw [terrain_type_static hb]
    rcases h with h | h
    · exact ⟨T_LAND, h.1, Or.inl ⟨rfl, h.2⟩⟩
    · exact ⟨T_WATER, h.1, Or.inr ⟨rfl, h.2⟩⟩

/-- The destination, marked by the magic glyph, is classified as unknown. -/
theorem terrain_type_dest (W : World) (vmap : Int → Char) (mi : move_info_t)
    (pm : Int → path_map_t) (a dest : Int) (hg : W.MAP_LAND ≠ '%' ∧ W.MAP_SEA ≠ '%') :
    terrain_type W pm (upd vmap dest '%') mi a dest = some T_UNKNOWN := by
  unfold terrain_type
  rw [upd_same, if_neg (fun e => hg.1 e.symm), if_neg (fun e => hg.2 e.symm), if_pos rfl]

/-- A step of a call of `expand_perimeter` of `vmap_find_dest`, from the
state `s0`: the cells inside the perimeter stay inside, a cell of eligible
terrain that comes inside is in the list `tp`, and the neighbour that the step
looks at is entered. -/
theorem dest_step {W : World} {vmap : Int → Char} {mi : move_info_t} {type : Nat} {k : Int}
    {tp : perim_id} {a dest : Int} {o t t1 : map_state} {j : Nat}
    (hg : W.MAP_LAND ≠ '%' ∧ W.MAP_SEA ≠ '%')
    (hk1 : k + 1 ≠ W.INFINITY) (hk2 : k + 2 ≠ W.INFINITY)
    (hk3 : k + Int.tdiv W.INFINITY 2 ≠ W.INFINITY)
    (he : expand_step W (upd vmap dest '%') mi type k 1 1 (some tp) (some tp) a t j = some t1)
    (hN : ∀ c, (t.pmap c).cost ≠ W.INFINITY → passable W (upd vmap dest '%') mi type c →
      (o.pmap c).cost ≠ W.INFINITY ∨ c ∈ t.perim tp) :
    (∀ c, (t1.pmap c).cost ≠ W.INFINITY → passable W (upd vmap dest '%') mi type c →
      (o.pmap c).cost ≠ W.INFINITY ∨ c ∈ t1.perim tp) ∧
    entered W (upd vmap dest '%') mi type dest t1 (a + dir_offset W j) ∧
    (∀ c, (t.pmap c).cost ≠ W.INFINITY → (t1.pmap c).cost ≠ W.INFINITY) := by
  rcases expand_step_cases he with ⟨hskip, rfl⟩ | ⟨hon, hc, ty, hty, heff⟩
  · refine ⟨hN, ?_, fun _ h => h⟩
    intro hon _
    rcases hskip with h | h
    · rw [h] at hon
      cases hon
    · exact h
  · have hpass : passable W (upd vmap dest '%') mi type (a + dir_offset W j) →
        (ty = T_LAND ∧ type &&& T_LAND ≠ 0) ∨ (ty = T_WATER ∧ type &&& T_WATER ≠ 0) := by
      intro hp
      obtain ⟨t2, e1, e2⟩ := passable_type t.pmap a hp
      rw [hty] at e1
      cases e1
      exact e2
    have hmono : ∀ (X : path_map_t), t1.pmap = upd t.pmap (a + dir_offset W j) X →
        ∀ c, (t.pmap c).cost ≠ W.INFINITY → (t1.pmap c).cost ≠ W.INFINITY := by
      intro X hX c hcf
      have hcb : c ≠ a + dir_offset W j := by
        intro e
        rw [e] at hcf
        exact hcf hc
      rw [hX, upd_other _ _ _ hcb]
      exact hcf
    have hlist : ∀ (X : path_map_t), t1.pmap = upd t.pmap (a + dir_offset W j) X →
        t1.perim = set_perim t.perim tp (t.perim tp ++ [a + dir_offset W j]) →
        ∀ c, (t1.pmap c).cost ≠ W.INFINITY → passable W (upd vmap dest '%') mi type c →
          (o.pmap c).cost ≠ W.INFINITY ∨ c ∈ t1.perim tp := by
      intro X hX hperim c hcf hcp
      rw [hperim, set_perim_same, List.mem_append, List.mem_singleton]
      by_cases hcb : c = a + dir_offset W j
      · exact Or.inr (Or.inr hcb)
      · rw [hX, upd_other _ _ _ hcb] at hcf
        rcases hN c hcf hcp with h | h
        · exact Or.inl h
        · exact Or.inr (Or.inl h)
    have hquiet : ∀ (X : path_map_t), ty = T_UNKNOWN →
        t1.pmap = upd t.pmap (a + dir_offset W j) X → t1.perim = t.perim →
        ∀ c, (t1.pmap c).cost ≠ W.INFINITY → passable W (upd vmap dest '%') mi type c →
          (o.pmap c).cost ≠ W.INFINITY ∨ c ∈ t1.perim tp := by
      intro X hu hX hperim c hcf hcp
      rw [hperim]
      by_cases hcb : c = a + dir_offset W j
      · exfalso
        rw [hcb] at hcp
        rcases hpass hcp with h | h
        · rw [hu] at h
          exact absurd h.1 (by decide)
        · rw [hu] at h
          exact absurd h.1 (by decide)
      · rw [hX, upd_other _ _ _ hcb] at hcf
        exact hN c hcf hcp
    rcases heff with ⟨_, _, p, hp, hpm, hperim⟩ | ⟨_, _, p, hp, hpm, hperim⟩ |
      ⟨hu, hperim, hpm | hpm⟩ | ⟨n1, n2, n3, hst⟩
    · cases hp
      refine ⟨hlist _ hpm hperim, ?_, hmono _ hpm⟩
      intro _ _
      rw [hpm, upd_same]
      exact hk1
    · cases hp
      refine ⟨hlist _ hpm hperim, ?_, hmono _ hpm⟩
      intro _ _
      rw [hpm, upd_same]
      exact hk1
    · refine ⟨hquiet _ hu hpm hperim, ?_, hmono _ hpm⟩
      intro _ _
      rw [hpm, upd_same]
      exact hk3
    · refine ⟨hquiet _ hu hpm hperim, ?_, hmono _ hpm⟩
      intro _ _
      rw [hpm, upd_same]
      exact hk2
    · rw [hst]
      refine ⟨hN, ?_, fun _ h => h⟩
      intro _ hpd
      exfalso
      rcases hpd with hpd | hpd
      · rcases hpass hpd with h | h
        · exact n1 h
        · exact n2 h
      · rw [hpd, terrain_type_dest W vmap mi t.pmap a dest hg] at hty
        cases hty
        exact n3 rfl

/-! ## The search for a destination: the rounds -/

/-- One round of `vmap_find_dest` while the destination is not found: at the
end the destination is the best location, at the cost of the round plus one,
or it is still outside the perimeter; and every cell inside the perimeter that
is the origin or of eligible terrain is in the new list, or has its
neighbours entered. -/
theorem dest_round {W : World} {vmap : Int → Char} {owner : Int} {type : Nat} {k : Int}
    {fp tp : perim_id} {cur dest : Int} {s s1 : map_state} (hne : fp ≠ tp)
    (hg : W.MAP_LAND ≠ '%' ∧ W.MAP_SEA ≠ '%')
    (hv : ∀ c, (W.map c).on_board = true → c ≠ dest → vmap c ≠ '%')
    (hk1 : k + 1 < W.INFINITY) (hk2 : k + 2 ≠ W.INFINITY)
    (hk3 : k + Int.tdiv W.INFINITY 2 ≠ W.INFINITY)
    (he : expand_perimeter W (upd vmap dest '%') (dest_move_info owner) fp type k 1 1
      (some tp) (some tp) { s with perim := set_perim s.perim tp [] } = some s1)
    (hb : s.best_cost = W.INFINITY ∧ s.best_loc = cur ∧ (s.pmap dest).cost = W.INFINITY)
    (hcur : (s.pmap cur).cost ≠ W.INFINITY)
    (hc : dest_closed W (upd vmap dest '%') (dest_move_info owner) type cur dest (s.perim fp) s) :
    dest_closed W (upd vmap dest '%') (dest_move_info owner) type cur dest (s1.perim tp) s1 ∧
    (s1.pmap cur).cost ≠ W.INFINITY ∧
    ((s1.best_cost = W.INFINITY ∧ s1.best_loc = cur ∧ (s1.pmap dest).cost = W.INFINITY) ∨
      (s1.best_loc = dest ∧ s1.best_cost = 1 + k)) := by
  have hfp : ({ s with perim := set_perim s.perim tp [] } : map_state).perim fp = s.perim fp :=
    set_perim_other _ _ _ hne
  obtain ⟨hN, hQ⟩ := expand_perimeter_each (s := { s with perim := set_perim s.perim tp [] })
    (fun t => ∀ c, (t.pmap c).cost ≠ W.INFINITY →
      passable W (upd vmap dest '%') (dest_move_info owner) type c →
      (s.pmap c).cost ≠ W.INFINITY ∨ c ∈ t.perim tp)
    (fun a j t => entered W (upd vmap dest '%') (dest_move_info owner) type dest t
      (a + dir_offset W j))
    (fun a j t t1 _ _ hP hst => by
      obtain ⟨x1, x2, x3⟩ := dest_step (o := s) hg (by omega) hk2 hk3 hst hP
      exact ⟨x1, x2, fun b i hbi hon hpd => x3 _ (hbi hon hpd)⟩)
    (fun c hcf _ => Or.inl hcf) he
  have ci := expand_perimeter_call he
  have tr := expand_perimeter_track hk2 he
  have hfro : ∀ c, (s.pmap c).cost ≠ W.INFINITY → (s1.pmap c).cost ≠ W.INFINITY := by
    intro c hcf
    rw [ci.frozen c hcf]
    exact hcf
  refine ⟨?_, hfro cur hcur, ?_⟩
  · intro c hcf hcp
    by_cases hcs : (s.pmap c).cost = W.INFINITY
    · rcases hcp with hcp | hcp
      · rw [hcp] at hcs
        exact absurd hcs hcur
      · rcases hN c hcf hcp with h | h
        · exact absurd hcs h
        · exact Or.inl h
    · right
      rcases hc c hcs hcp with h | h
      · intro j hj
        exact hQ c (by rw [hfp]; exact h) j hj
      · intro j hj hon hpd
        exact hfro _ (h j hj hon hpd)
  · obtain ⟨_, _, t3, t4⟩ := tr
    rcases t4 with ⟨e1, e2⟩ | ⟨e1, e2, e3, e4⟩
    · left
      have hbc : s1.best_cost = W.INFINITY := by
        rw [e1]
        exact hb.1
      refine ⟨hbc, ?_, ?_⟩
      · rw [e2]
        exact hb.2.1
      · by_contra hd
        obtain ⟨oc, o1, o2⟩ := t3 dest hb.2.2 hd
        rw [objective_cost_dest] at o1
        cases o1
        omega
    · right
      have hlt : s1.best_cost < W.INFINITY := by
        have : ({ s with perim := set_perim s.perim tp [] } : map_state).best_cost =
            W.INFINITY := hb.1
        omega
      have hon := (ci.fresh _ e3 e4).1
      have hmem := objective_cost_mem e2 (by omega)
      have hgl : upd vmap dest '%' s1.best_loc = '%' := by
        simpa [dest_move_info] using hmem
      have hbd : s1.best_loc = dest := by
        by_contra hx
        rw [upd_other _ _ _ hx] at hgl
        exact hv _ hon hx hgl
      refine ⟨hbd, ?_⟩
      rw [hbd, objective_cost_dest] at e2
      exact (Option.some.inj e2).symm

/-- When every cell inside the perimeter that is the origin or of eligible
terrain has its neighbours entered, a chain of eligible terrain from the
origin stays inside the perimeter, or the destination is inside. -/
theorem dest_closed_reach {W : World} {vmap : Int → Char} {mi : move_info_t} {type : Nat}
    {cur dest : Int} {s : map_state} (hcur : (s.pmap cur).cost ≠ W.INFINITY)
    (hcl : dest_closed W (upd vmap dest '%') mi type cur dest [] s) {a : Int}
    (h : open_reach W vmap mi type cur a) :
    (s.pmap dest).cost ≠ W.INFINITY ∨
      ((s.pmap a).cost ≠ W.INFINITY ∧ (a = cur ∨ passable W (upd vmap dest '%') mi type a)) := by
  induction h with
  | start => exact Or.inr ⟨hcur, Or.inl rfl⟩
  | @step a b _ hab hon hpass ih =>
    rcases ih with ih | ⟨fa, pa⟩
    · exact Or.inl ih
    · obtain ⟨d, hd, hbd⟩ := hab
      rcases hcl a fa pa with hx | hx
      · exact absurd hx (List.not_mem_nil _)
      · have hent := hx d hd
        rw [← hbd] at hent
        by_cases hdest : b = dest
        · left
          rw [← hdest]
          exact hent hon (Or.inr hdest)
        · have hp1 : passable W (upd vmap dest '%') mi type b := by
            unfold passable
            rw [static_type_congr (upd_other vmap dest '%' hdest)]
            exact hpass
          exact Or.inr ⟨hent hon (Or.inl hp1), Or.inr hp1⟩

/-- The loop of `vmap_find_dest`, when the destination is an on-board
neighbour of a cell that a chain of eligible terrain leads to, returns the
destination if it returns. -/
theorem single_loop_reach (W : World) (vmap : Int → Char) (cur dest owner : Int) (type : Nat)
    (hg : W.MAP_LAND ≠ '%' ∧ W.MAP_SEA ≠ '%')
    (hv : ∀ c, (W.map c).on_board = true → c ≠ dest → vmap c ≠ '%')
    (hond : (W.map dest).on_board = true) {a : Int}
    (hr : open_reach W vmap (dest_move_info owner) type cur a) (hadj : adj W a dest)
    (fuel : Nat) :
    ∀ (k : Int) (fp tp : perim_id) (s : map_state) (r : Int × map_state), fp ≠ tp → 0 ≤ k →
      2 * (k + fuel) + 2 < W.INFINITY →
      (s.best_cost = W.INFINITY ∧ s.best_loc = cur ∧ (s.pmap dest).cost = W.INFINITY) →
      (s.pmap cur).cost ≠ W.INFINITY →
      dest_closed W (upd vmap dest '%') (dest_move_info owner) type cur dest (s.perim fp) s →
      single_loop W (upd vmap dest '%') (dest_move_info owner) type fuel fp tp k s = some r →
      r.1 = dest := by
  induction fuel with
  | zero =>
    intro k fp tp s r _ _ _ _ _ _ h
    simp [single_loop] at h
  | succ fuel ih =>
    intro k fp tp s r hne hk0 hk hb hcur hc h
    unfold single_loop at h
    cases he : expand_perimeter W (upd vmap dest '%') (dest_move_info owner) fp type k 1 1
        (some tp) (some tp) { s with perim := set_perim s.perim tp [] } with
    | none =>
      rw [he] at h
      simp at h
    | some s1 =>
      rw [he] at h
      simp only at h
      have hI2 : 2 ≤ W.INFINITY := by
        push_cast at hk
        omega
      have hdiv := Int.tdiv_eq_ediv (a := W.INFINITY) (b := 2) (by omega) (by omega)
      obtain ⟨r1, r2, r3⟩ := dest_round hne hg hv
        (by push_cast at hk; omega) (by push_cast at hk; omega)
        (by
          rw [hdiv]
          push_cast at hk
          omega) he hb hcur hc
      by_cases hcond : (s1.perim tp).length = 0 ∨ s1.best_cost ≤ k + 1
      · rw [if_pos hcond] at h
        cases h
        rcases r3 with ⟨b1, _, b3⟩ | ⟨b1, _⟩
        · exfalso
          have hlen : s1.perim tp = [] := by
            rcases hcond with h1 | h1
            · exact List.length_eq_zero.mp h1
            · push_cast at hk
              omega
          rw [hlen] at r1
          rcases dest_closed_reach r2 r1 hr with h1 | ⟨fa, pa⟩
          · exact h1 b3
          · obtain ⟨d, hd, hbd⟩ := hadj
            rcases r1 a fa pa with hx | hx
            · exact absurd hx (List.not_mem_nil _)
            · have hent := hx d hd
              rw [← hbd] at hent
              exact hent hond (Or.inr rfl) b3
        · exact b1
      · rw [if_neg hcond] at h
        rcases r3 with r3 | ⟨_, b2⟩
        · exact ih (k + 1) tp fp s1 r (Ne.symm hne) (by omega)
            (by push_cast at hk ⊢; omega) r3 r2 r1 h
        · exfalso
          apply hcond
          right
          omega

/-- C34: `vmap_find_dest` does not look at the terrain of the destination.
Over a well-formed true map with a finite board, for every view map that shows
the magic glyph at no on-board cell other than the destination, every terrain
mask and every origin on the board: if `dest_loc` is an on-board neighbour of
a cell `a` that a chain of 8-adjacent on-board cells of eligible terrain leads
to from `cur_loc` (`a` may be `cur_loc` itself), then `vmap_find_dest` returns
`dest_loc`, whatever the terrain of `dest_loc` is, and leaves the view map as
it was.  A budget of `MAP_SIZE` rounds, well below INFINITY, is enough. -/
theorem vmap_find_dest_ineligible (W : World) (vmap : Int → Char) (cur_loc dest_loc : Int)
    (owner : Int) (terrain fuel : Nat) (s : map_state) (a : Int)
    (hm : map_ok W) (hfin : board_finite W)
    (hg : W.MAP_LAND ≠ '%' ∧ W.MAP_SEA ≠ '%')
    (hv : ∀ c, (W.map c).on_board = true → c ≠ dest_loc → vmap c ≠ '%')
    (hcur : (W.map cur_loc).on_board = true) (hond : (W.map dest_loc).on_board = true)
    (hr : open_reach W vmap (dest_move_info owner) terrain cur_loc a)
    (hadj : adj W a dest_loc)
    (hf : W.MAP_SIZE.toNat ≤ fuel) (hI : 2 * (fuel : Int) + 2 < W.INFINITY) :
    ∃ s1, vmap_find_dest W vmap cur_loc dest_loc owner terrain fuel s =
      some (dest_loc, s1, vmap) := by
  have hU := unfinalized_start hfin hcur (by omega) s perim_id.p1
    (if terrain = T_AIR then T_LAND else terrain)
  obtain ⟨r, hrun⟩ := @single_loop_terminates W (upd vmap dest_loc '%')
    (dest_move_info owner) terrain hm
    (fun w hw => by
      simp only [dest_move_info, List.mem_singleton] at hw
      omega) hfin fuel perim_id.p1 perim_id.p2 0
    (start_perimeter W s perim_id.p1 cur_loc (if terrain = T_AIR then T_LAND else terrain))
    (by omega) (by omega)
  have hres : r.1 = dest_loc := by
    by_cases hcd : cur_loc = dest_loc
    · have hfull := single_loop_full W (upd vmap dest_loc '%') (dest_move_info owner) terrain
        cur_loc W.INFINITY fuel perim_id.p1 perim_id.p2 0 _ r hrun (le_refl _) (by omega)
        ⟨le_refl _, Or.inl rfl⟩
      rcases best_full_result (le_refl _) hfull with h1 | ⟨h1, _, h3⟩
      · rw [h1, hcd]
      · by_contra hx
        have hgl : upd vmap dest_loc '%' r.1 = '%' := by
          simpa [dest_move_info] using h3
        rw [upd_other _ _ _ hx] at hgl
        exact hv _ h1 hx hgl
    · refine single_loop_reach W vmap cur_loc dest_loc owner terrain hg hv hond hr hadj fuel 0
        perim_id.p1 perim_id.p2 _ r (by decide) (le_refl _) (by omega) ⟨rfl, rfl, ?_⟩ ?_ ?_ hrun
      · simp only [start_perimeter]
        rw [upd_other _ _ _ (Ne.symm hcd)]
      · simp only [start_perimeter]
        rw [upd_same]
        show (0 : Int) ≠ W.INFINITY
        omega
      · intro c hc _
        left
        simp only [start_perimeter] at hc ⊢
        rw [set_perim_same, List.mem_singleton]
        by_contra hx
        apply hc
        rw [upd_other _ _ _ hx]
  refine ⟨r.2, ?_⟩
  unfold vmap_find_dest
  simp only [hrun]
  rw [upd_upd_self, ← hres]

set_option maxRecDepth 100000 in
/-- On the small world, with sea shown at the cell 7: the land search from
the cell 6 for the destination 7, its neighbour, returns 7. -/
theorem vmap_find_dest_ineligible_witness :
    ¬ passable demo_world demo_coast (dest_move_info 0) T_LAND 7 ∧
    ∃ s1, vmap_find_dest demo_world demo_coast 6 7 0 T_LAND 25 demo_state =
      some (7, s1, demo_coast) :=
  ⟨by decide,
    vmap_find_dest_ineligible demo_world demo_coast 6 7 0 T_LAND 25 demo_state 6
      demo_map_ok demo_board_finite (by decide)
      (fun c _ _ => by
        unfold demo_coast
        split <;> decide)
      (by decide) (by decide) open_reach.start (by decide) (by decide) (by decide)⟩

/-! ## From the destination back to a neighbour of the origin -/

/-- The costs inside the perimeter stay below INFINITY in the rounds of the
un-truncated expansion. -/
theorem free_rounds_below (W : World) (vmap : Int → Char) (mi : move_info_t) (expand : Nat)
    (cur : Int) (start : Nat) (s : map_state) (n : Nat) :
    ∀ (fp tp : perim_id) (t : map_state), 2 * (n : Int) < W.INFINITY →
      free_rounds W vmap mi expand (start_perimeter W s perim_id.p1 cur start) n =
        some (fp, tp, t) →
      ∀ c, (t.pmap c).cost ≠ W.INFINITY → (t.pmap c).cost < W.INFINITY := by
  induction n with
  | zero =>
    intro fp tp t hn h c hc
    simp only [free_rounds, Option.some.injEq, Prod.mk.injEq] at h
    obtain ⟨_, _, rfl⟩ := h
    by_cases hcc : c = cur
    · rw [hcc]
      simp only [start_perimeter, upd_same]
      omega
    · exfalso
      apply hc
      simp only [start_perimeter]
      rw [upd_other _ _ _ hcc]
  | succ n ih =>
    intro fp tp t hn h c hc
    obtain ⟨fp0, tp0, t0, t1, h0, he, hx⟩ := free_rounds_inv h
    simp only [Prod.mk.injEq] at hx
    obtain ⟨_, _, rfl⟩ := hx
    push_cast at hn
    have ci := expand_perimeter_call he
    have hdiv := Int.tdiv_eq_ediv (a := W.INFINITY) (b := 2) (by omega) (by omega)
    by_cases hc0 : (t0.pmap c).cost = W.INFINITY
    · obtain ⟨_, _, hrec⟩ := ci.fresh c hc0 hc
      rcases hrec with ⟨e, _⟩ | ⟨e, _⟩ | e | e
      · rw [e]
        show (n : Int) + 1 < W.INFINITY
        omega
      · rw [e]
        show (n : Int) + 1 < W.INFINITY
        omega
      · rw [e]
        show (n : Int) + Int.tdiv W.INFINITY 2 < W.INFINITY
        rw [hdiv]
        omega
      · rw [e]
        show (n : Int) + 2 < W.INFINITY
        omega
    · rw [ci.frozen c hc0]
      exact ih fp0 tp0 t0 (by omega) h0 c hc0

/-- In a layer, the backtracking steps go down in cost. -/
theorem layer_descending {W : World} {cur : Int} {n : Int} {fp : perim_id} {t : map_state}
    (h : layer_inv W cur n fp t) (B : Int) (hB : B < W.INFINITY) : descending W t.pmap B := by
  intro y z hy0 hyB hstep
  have hfin : (t.pmap y).cost ≠ W.INFINITY := by omega
  have hyc : y ≠ cur := by
    intro e
    rw [e, h.origin] at hy0
    omega
  obtain ⟨i1, i2, _⟩ := h.parents y hfin hyc
  have hz := hstep.2
  omega

/-- In a layer, a marked cell other than the origin leads back to a marked
neighbour of the origin, when every backtracking step from a cell newly marked
leads to a marked cell. -/
theorem layer_marked {W : World} {cur : Int} {n : Int} {fp : perim_id} {t : map_state}
    {pm1 : Int → path_map_t} (h : layer_inv W cur n fp t)
    (hnp : ∀ c, (t.pmap c).terrain ≠ T_PATH)
    (hmk : ∀ y, newly_marked t.pmap pm1 y → ∀ z, back_step W t.pmap y z →
      (t.pmap z).cost ≠ 0 → (pm1 z).terrain = T_PATH) :
    ∀ (m : Nat) (c : Int), (t.pmap c).cost ≠ W.INFINITY → c ≠ cur →
      (pm1 c).terrain = T_PATH → (t.pmap c).cost ≤ m →
      ∃ d, d < 8 ∧ (pm1 (cur + dir_offset W d)).terrain = T_PATH := by
  intro m
  induction m with
  | zero =>
    intro c hc hcc _ hm
    obtain ⟨i1, i2, _⟩ := h.parents c hc hcc
    push_cast at hm
    omega
  | succ m ih =>
    intro c hc hcc hmarked hm
    obtain ⟨i1, i2, p, hadj, hpf, hpc⟩ := h.parents c hc hcc
    by_cases hp : p = cur
    · rw [hp] at hadj
      obtain ⟨d, hd, hcd⟩ := hadj
      exact ⟨d, hd, by rw [← hcd]; exact hmarked⟩
    · obtain ⟨j1, j2, _⟩ := h.parents p hpf hp
      have hstep : back_step W t.pmap c p := ⟨adj_symm hadj, hpc⟩
      have hpm := hmk c ⟨hnp c, hmarked⟩ p hstep (by omega)
      push_cast at hm
      exact ih p hpf hp hpm (by omega)

/-- C33: the end-to-end step guarantee.  For every view map: if `vmap_find_dest`
from `cur_loc` returns a `dest_loc` other than `cur_loc`, then
`vmap_mark_path` from `dest_loc` on the path map that the search leaves
returns (a budget of INFINITY for the depth of the recursion is enough) and
marks at least one of the eight neighbours of `cur_loc`; and `vmap_find_dir`,
called with a terrain string that contains the glyphs of the neighbours of
`cur_loc`, returns a cell other than `cur_loc`.  The terrain mask is not the
path mark, the map is wider than one column, and the rounds of the search stay
well below INFINITY. -/
theorem step_guarantee (W : World) (vmap : Int → Char) (cur_loc dest_loc owner : Int)
    (terrain fuel mfuel : Nat) (s s1 : map_state) (v1 : Int → Char)
    (hfind : vmap_find_dest W vmap cur_loc dest_loc owner terrain fuel s =
      some (dest_loc, s1, v1))
    (hne : dest_loc ≠ cur_loc) (ht : terrain ≠ T_PATH) (hW : 1 < W.MAP_WIDTH)
    (hI : 2 * (fuel : Int) + 2 < W.INFINITY) (hmf : W.INFINITY ≤ (mfuel : Int)) :
    ∃ pm1, vmap_mark_path W mfuel s1.pmap dest_loc = some pm1 ∧
      (∃ d, d < 8 ∧ (pm1 (cur_loc + dir_offset W d)).terrain = T_PATH) ∧
      ∀ (tstr adj_char : List Char),
        (∀ d, d < 8 → vmap (cur_loc + dir_offset W d) ∈ tstr) →
        vmap_find_dir W pm1 vmap cur_loc tstr adj_char ≠ cur_loc := by
  have hnp : ∀ c, (s1.pmap c).terrain ≠ T_PATH := vmap_find_dest_no_path hfind ht
  unfold vmap_find_dest at hfind
  simp only at hfind
  cases hs : single_loop W (upd vmap dest_loc '%') (dest_move_info owner) terrain fuel
      perim_id.p1 perim_id.p2 0
      (start_perimeter W s perim_id.p1 cur_loc
        (if terrain = T_AIR then T_LAND else terrain)) with
  | none =>
    rw [hs] at hfind
    cases hfind
  | some x =>
    rw [hs] at hfind
    simp only [Option.some.injEq, Prod.mk.injEq] at hfind
    obtain ⟨hx1, hx2, _⟩ := hfind
    obtain ⟨n, fp, tp, hn, hfr, _, _⟩ :=
      single_loop_free_start W (upd vmap dest_loc '%') (dest_move_info owner) terrain _ fuel x hs
    rw [hx2] at hfr
    have hn2 : (n : Int) ≤ fuel := by exact_mod_cast hn
    have lay := free_rounds_layer W (upd vmap dest_loc '%') (dest_move_info owner) terrain
      cur_loc _ s n fp tp s1 (by omega) hfr
    have below := free_rounds_below W (upd vmap dest_loc '%') (dest_move_info owner) terrain
      cur_loc _ s n fp tp s1 (by omega) hfr
    have hfull := single_loop_full W (upd vmap dest_loc '%') (dest_move_info owner) terrain
      cur_loc W.INFINITY fuel perim_id.p1 perim_id.p2 0 _ x hs (le_refl _) (by omega)
      ⟨le_refl _, Or.inl rfl⟩
    have hdfin : (s1.pmap dest_loc).cost ≠ W.INFINITY := by
      rcases best_full_result (le_refl _) hfull with h1 | ⟨_, h2, _⟩
      · rw [hx1] at h1
        exact absurd h1 hne
      · rw [hx1, hx2] at h2
        exact h2
    obtain ⟨i1, i2, _⟩ := lay.parents dest_loc hdfin hne
    have hdlt := below dest_loc hdfin
    obtain ⟨pm1, hmark⟩ := vmap_mark_path_total W (W.INFINITY - 1) mfuel s1.pmap dest_loc
      (layer_descending lay _ (by omega)) (by omega) (by omega) (by omega)
    obtain ⟨c1, c2⟩ := vmap_mark_path_complete W mfuel s1.pmap dest_loc pm1 hmark
    obtain ⟨d, hd, hdm⟩ := layer_marked lay hnp c2 (s1.pmap dest_loc).cost.toNat dest_loc hdfin
      hne (c1 (by omega)) (by
        rw [Int.toNat_of_nonneg (by omega)])
    refine ⟨pm1, hmark, ⟨d, hd, hdm⟩, ?_⟩
    intro tstr adj_char hstr
    rcases vmap_find_dir_lex W pm1 vmap cur_loc tstr adj_char (by omega) with
      ⟨_, hnone⟩ | ⟨l1, e, l2, hord, _, hres, _⟩
    · exact absurd ⟨hdm, hstr d hd⟩ (hnone d (mem_order.2 hd))
    · have he : e < 8 := by
        apply mem_order.1
        rw [hord]
        exact List.mem_append_right _ (List.mem_cons_self _ _)
      rw [hres]
      have := dir_offset_ne_zero W hW he
      omega

set_option maxRecDepth 100000 in
/-- On the small all-land world, after the search from 6 to 18 the marking
from 18 returns and marks a neighbour of the cell 6, and `vmap_find_dir` with
the land glyph as terrain string moves off the cell 6. -/
theorem step_guarantee_witness :
    ∃ pm1, vmap_mark_path demo_world 100 demo_found.2.1.pmap 18 = some pm1 ∧
      (∃ d, d < 8 ∧ (pm1 (6 + dir_offset demo_world d)).terrain = T_PATH) ∧
      vmap_find_dir demo_world pm1 demo_land 6 ['+'] [] ≠ 6 := by
  obtain ⟨pm1, h1, h2, h3⟩ := step_guarantee demo_world demo_land 6 18 0 T_LAND 5 100
    demo_state demo_found.2.1 demo_found.2.2 demo_found_eq (by decide) (by decide) (by decide)
    (by decide) (by decide)
  exact ⟨pm1, h1, h2, h3 ['+'] [] (fun _ _ => List.mem_singleton.2 rfl)⟩

/-! ## Concrete runs: the low probability pass and an unexplored city -/

set_option maxRecDepth 100000 in
/-- Counterexample to C25 as stated: the run of `vmap_prune_explore_locs` on
the small world with only the cell 6 explored.  The loop of high probability
predictions is left by `break` after its first pass, the pass of medium
probability predictions leaves the list 4, 3, 8, 9, 13, 16, 15, 14, 17, 18,
and the loop of low probability predictions starts a pass.  When that pass
comes to the cell 15, which lies in the first column of the map, the cell has
3 land votes and no water vote, a strict majority for land; it is carried over
to the list `to`, still unexplored. -/
theorem low_step_rule_counterexample :
    prune_high_end.1 = false ∧
    (prune_high_end.2.1.length : Int) + prune_high_end.2.2.explored ≠ demo_world.MAP_SIZE ∧
    prune_low_entry.to_perim = [4, 3, 8, 9, 13, 16, 15, 14, 17, 18] ∧
    ¬ ((prune_low_entry.to_perim.length : Int) + prune_low_entry.explored ≥
      demo_world.MAP_SIZE - demo_world.MAP_HEIGHT) ∧
    (15 : Int) % demo_world.MAP_WIDTH = 0 ∧
    (prune_low_mid.pmap 15).cost = 3 ∧ (prune_low_mid.pmap 15).inc_cost = 0 ∧
    (low_step demo_world prune_low_mid 15).vmap 15 = ' ' ∧
    (low_step demo_world prune_low_mid 15).to_perim = prune_low_mid.to_perim ++ [15] := by
  refine ⟨by decide, by decide, by decide, by decide, by decide, by decide, by decide,
    by decide, by decide⟩

set_option maxRecDepth 100000 in
/-- Counterexample to C30 as stated: on `city_world` the cell 7 is a city of
the owner 2, the mover's owner is 0, and the view shows the cell as
unexplored.  In the land search from the cell 6, `terrain_type` gives the city
the class of the cell 6 it is reached from, land; the first round appends it
to the new perimeter, which is then the list [7]; and the second round, which
expands that list, finalizes the cell 8, outside the perimeter before, at the
cost 2. -/
theorem enemy_city_impassable_counterexample :
    (city_world.map 7).contents = city_world.MAP_CITY ∧
    (city_world.map 7).cityp = some { owner := 2, prod := 0, work := 0 } ∧
    (2 : Int) ≠ demo_move_info.city_owner ∧
    terrain_type city_world (start_perimeter city_world demo_state perim_id.p1 6 T_LAND).pmap
      city_view demo_move_info 6 7 = some T_LAND ∧
    (free_rounds city_world city_view demo_move_info T_LAND
      (start_perimeter city_world demo_state perim_id.p1 6 T_LAND) 1).isSome = true ∧
    (free_rounds city_world city_view demo_move_info T_LAND
      (start_perimeter city_world demo_state perim_id.p1 6 T_LAND) 2).isSome = true ∧
    city_rounds.1.2.2.perim city_rounds.1.1 = [7] ∧
    (city_rounds.1.2.2.pmap 8).cost = city_world.INFINITY ∧
    city_rounds.2.2.2.pmap 8 = { cost := 2, inc_cost := 1, terrain := T_LAND } ∧
    (vmap_find_lobj city_world city_view 6 demo_move_info 5 demo_state).map
      (fun r => ((r.2.pmap 7).cost, (r.2.pmap 8).cost)) = some (1, 2) := by
  refine ⟨by decide, by decide, by decide, by decide, by decide, by decide, by decide,
    by decide, by decide, by decide⟩

end Empire
